import Mathlib

/-!
# libirc connectivity: a shallow embedding

The definitions below follow `include/libirc/connectivity.h`: geometric
primitives (`distance`, `angle`), the bond-graph construction
(`adjacency_matrix`), graph distances (`distance_matrix`) and the
enumeration of bonds, angles and dihedrals.

Conventions.
* The scalar type `double` is an arbitrary linearly ordered field `α`; the
  functions of `<cmath>` that the header calls are the operations of the class
  `Cmath`, read over `ℝ` as the real functions. Every definition is computable;
  those that call no function of `<cmath>` can be run over `ℚ`.
* The geometric primitives ask of the scalars only the four operations and
  `Cmath`, so that they also run on `Ieee`, the doubles with NaN, infinities
  and signed zeros.
* The Boost Graph Library is not part of the repository: its graph type and
  the calls `dijkstra_shortest_paths` and `connected_components` are modelled
  after their documented behaviour.
* `size_t` indices are natural numbers.
* A C++ `for` loop that pushes onto a vector is a fold over `List.range`.
* A thrown `std::runtime_error` is `Except.error` carrying the message.
-/

namespace irc

/-! ## Scalars, vectors, matrices -/

/-- The functions of `<cmath>` used by the header, and the constant `pi` of `constants.h`. -/
class Cmath (α : Type) where
  /-- Square root, `std::sqrt`. -/
  sqrt : α → α
  /-- Arc cosine, `std::acos`. -/
  acos : α → α
  /-- Two-argument arc tangent, `std::atan2 y x`. -/
  atan2 : α → α → α
  /-- The constant `tools::constants::pi`. -/
  pi : α

/-- The real functions behind `<cmath>`: `atan2 y x` is the argument of the
complex number `x + y i`, and `acos` is the arc cosine, continued by `π` and
`0` outside `[-1, 1]`. The real numbers have neither `-0.0` nor NaN: the values
`std::atan2(-0.0, x) = -π` for negative `x` and `std::acos(r) = NaN` outside
`[-1, 1]` are those of the functions on `Ieee`, which are built on these. -/
noncomputable instance instCmathReal : Cmath ℝ where
  sqrt := Real.sqrt
  acos := Real.arccos
  atan2 := fun y x => Complex.arg ⟨x, y⟩
  pi := Real.pi

/-- A point or vector of three-dimensional space (template parameter `Vector3`). -/
structure Vec3 (α : Type) where
  x : α
  y : α
  z : α

/-- A dense matrix (template parameter `Matrix`): its shape and its entries. -/
structure Mat (α : Type) where
  n_rows : Nat
  n_cols : Nat
  get : Nat → Nat → α

namespace linalg

variable {α : Type}

/-- The call `linalg::size(m)`: the number of entries of a matrix. -/
def size (m : Mat α) : Nat := m.n_rows * m.n_cols

/-- The call `linalg::zeros<Matrix>(r, c)`. -/
def zeros [Zero α] (r c : Nat) : Mat α := ⟨r, c, fun _ _ => 0⟩

/-- Assignment `m(i, j) = v`. -/
def set (m : Mat α) (i j : Nat) (v : α) : Mat α :=
  ⟨m.n_rows, m.n_cols, fun a b => if a = i ∧ b = j then v else m.get a b⟩

/-- Vector difference `v1 - v2`. -/
def sub [Sub α] (v1 v2 : Vec3 α) : Vec3 α := ⟨v1.x - v2.x, v1.y - v2.y, v1.z - v2.z⟩

/-- The call `linalg::dot(a, b)`. -/
def dot [Add α] [Mul α] (a b : Vec3 α) : α := a.x * b.x + a.y * b.y + a.z * b.z

/-- The call `linalg::norm(a)`: the Euclidean norm. -/
def norm [Add α] [Mul α] [Cmath α] (a : Vec3 α) : α := Cmath.sqrt (dot a a)

/-- The call `linalg::cross(a, b)`. -/
def cross [Sub α] [Mul α] (a b : Vec3 α) : Vec3 α :=
  ⟨a.y * b.z - a.z * b.y, a.z * b.x - a.x * b.z, a.x * b.y - a.y * b.x⟩

/-- A square matrix given by its rows (entries outside the rows read as zero). -/
def ofRows [Zero α] (rows : List (List α)) : Mat α :=
  ⟨rows.length, rows.length, fun i j => (rows.getD i []).getD j 0⟩

end linalg

/-! ## Constants and periodic-table data -/

namespace tools

namespace constants

variable {α : Type} [LinearOrderedField α]

/-- Modelled from the spec: `constants.h` is not among the sources; the
covalent bond multiplier is 1.3. -/
def covalent_bond_multiplier : α := 13 / 10

/-- Modelled from the spec: `constants.h` is not among the sources; the
inter-fragment bond multiplier is 1.3. -/
def interfragment_bond_multiplier : α := 13 / 10

/-- Modelled from the spec: `constants.h` is not among the sources; the Van
der Waals bond multiplier is 0.9. -/
def vdw_bond_multiplier : α := 9 / 10

/-- Modelled from the spec: `constants.h` is not among the sources; the
quasi-linear angle is 175 degrees, in radians. -/
def quasi_linear_angle [Cmath α] : α := 175 * Cmath.pi / 180

end constants

namespace conversion

/-- Modelled from the spec: `conversion.h` is not among the sources; one
ångström is 1.8897261339 bohr. -/
def angstrom_to_bohr {α : Type} [LinearOrderedField α] : α := 18897261339 / 10000000000

end conversion

end tools

/-- The largest finite `double`, `std::numeric_limits<double>::max()`. -/
def max_double {α : Type} [LinearOrderedField α] : α := 2 ^ 1024 - 2 ^ 971

namespace atom

/-- Periodic-table data of `atom.h`, which is not among the sources: the
covalent and Van der Waals radii by atomic number are parameters. -/
structure Radii (α : Type) where
  covalent_radius : Nat → α
  vdw_radius : Nat → α

/-- Modelled from the spec: `atom.h` is not among the sources; hydrogen has
atomic number 1. -/
def is_H (atomic_number : Nat) : Bool := atomic_number == 1

/-- Modelled from the spec: `atom.h` is not among the sources; N, O, F, P, S
and Cl have atomic numbers 7, 8, 9, 15, 16 and 17. -/
def is_NOFPSCl (atomic_number : Nat) : Bool :=
  atomic_number == 7 || atomic_number == 8 || atomic_number == 9 ||
    atomic_number == 15 || atomic_number == 16 || atomic_number == 17

end atom

namespace molecule

/-- An atom: element symbol, atomic number and position. -/
structure Atom (α : Type) where
  symbol : String
  atomic_number : Nat
  position : Vec3 α

/-- A molecule is an ordered sequence of atoms. -/
abbrev Molecule (α : Type) := List (Atom α)

/-- Indexing `molecule[i]`. -/
def Molecule.at {α : Type} [Zero α] (m : Molecule α) (i : Nat) : Atom α :=
  m.getD i ⟨"", 0, ⟨0, 0, 0⟩⟩

end molecule

namespace connectivity

open molecule

/-! ## Internal coordinates -/

/-- Couple of atoms forming a bond. -/
structure Bond where
  i : Nat
  j : Nat
deriving DecidableEq, Repr

/-- Triplet of atoms forming an angle; `j` is the vertex. -/
structure Angle where
  i : Nat
  j : Nat
  k : Nat
deriving DecidableEq, Repr

/-- Quadruplet of atoms forming a dihedral angle, in chain order. -/
structure Dihedral where
  i : Nat
  j : Nat
  k : Nat
  l : Nat
deriving DecidableEq, Repr

section geometry

variable {α : Type} [Zero α] [Add α] [Sub α] [Mul α] [Div α] [Cmath α]

/-- Distance between two points, `distance(v1, v2)`. -/
def distance (v1 v2 : Vec3 α) : α := linalg.norm (linalg.sub v1 v2)

/-- Angle formed by three points, `angle(v1, v2, v3)`, with vertex `v2`. -/
def angle (v1 v2 v3 : Vec3 α) : α :=
  let r1 := linalg.sub v1 v2
  let r2 := linalg.sub v3 v2
  let N := linalg.norm r1 * linalg.norm r2
  Cmath.acos (linalg.dot r1 r2 / N)

/-- The overload `angle(a, molecule)` for an `Angle` and a molecule. -/
def angle_mol (a : Angle) (molecule : Molecule α) : α :=
  let a1 := (molecule.at a.i).position
  let a2 := (molecule.at a.j).position
  let a3 := (molecule.at a.k).position
  angle a1 a2 a3

end geometry

/-! ## Enumeration of bonds, angles and dihedrals -/

section enumeration

variable {α : Type} [LinearOrderedField α]

/-- The bonds of `molecule`: `bonds(distance_m, molecule)`. -/
def bonds (distance_m : Mat α) (molecule : Molecule α) : List Bond :=
  let n_atoms := molecule.length
  (List.range n_atoms).foldl (fun b j =>
    (List.range j).foldl (fun b i =>
      if distance_m.get i j = 1 then b ++ [Bond.mk i j] else b) b) []

/-- All possible angles between end atoms `i` and `j`: `angles(i, j, distance)`. -/
def angles_pair (i j : Nat) (distance : Mat α) : List Angle :=
  let n_atoms := Nat.sqrt (linalg.size distance)
  (List.range n_atoms).foldl (fun angles k =>
    if distance.get k i = 1 ∧ distance.get k j = 1 then angles ++ [Angle.mk i k j]
    else angles) []

/-- The body of the innermost loop of `angles`: a quasi-linear angle raises
the runtime error, any other angle is stored. -/
def angles_step [Cmath α] (molecule : Molecule α) (ang : List Angle) (aa : Angle) :
    Except String (List Angle) :=
  let a := angle_mol aa molecule
  if a > tools.constants.quasi_linear_angle then
    Except.error "Quasi-linear angle not treated properly yet."
  else Except.ok (ang ++ [aa])

/-- The angles of `molecule`: `angles(distance_m, predecessors_m, molecule)`. -/
def angles [Cmath α] (distance_m _predecessors_m : Mat α) (molecule : Molecule α) :
    Except String (List Angle) :=
  let n_atoms := molecule.length
  (List.range n_atoms).foldlM (fun ang j =>
    (List.range j).foldlM (fun ang i =>
      if distance_m.get i j ≤ 2 then
        (angles_pair i j distance_m).foldlM (angles_step molecule) ang
      else Except.ok ang) ang) []

/-- All possible dihedrals between end atoms `i` and `j`: `dihedrals(i, j, distance)`. -/
def dihedrals_pair (i j : Nat) (distance : Mat α) : List Dihedral :=
  let n_atoms := Nat.sqrt (linalg.size distance)
  (List.range n_atoms).foldl (fun dihedrals k =>
    if distance.get k i = 1 ∧ distance.get k j = 2 then
      (List.range n_atoms).foldl (fun dihedrals l =>
        if distance.get l i = 2 ∧ distance.get l j = 1 ∧ distance.get l k = 1 then
          dihedrals ++ [Dihedral.mk i k l j]
        else dihedrals) dihedrals
    else dihedrals) []

/-- One pass of the innermost loop body of `dihedrals`: the state is the list
`dih` and the flag `linear`, which is declared outside the loops. -/
def dihedrals_step [Cmath α] (molecule : Molecule α) (epsilon : α)
    (st : List Dihedral × Bool) (dd : Dihedral) : List Dihedral × Bool :=
  let a1 := angle_mol (Angle.mk dd.i dd.j dd.k) molecule
  let linear := if |a1 - 180| < epsilon then true else st.2
  let a2 := angle_mol (Angle.mk dd.j dd.k dd.l) molecule
  let linear := if |a2 - 180| < epsilon then true else linear
  if !linear then (st.1 ++ [dd], linear) else (st.1, linear)

/-- The dihedrals of `molecule`:
`dihedrals(distance_m, predecessors_m, molecule, epsilon)`. -/
def dihedrals [Cmath α] (distance_m _predecessors_m : Mat α) (molecule : Molecule α)
    (epsilon : α) : List Dihedral :=
  let n_atoms := molecule.length
  ((List.range n_atoms).foldl (fun st j =>
    (List.range j).foldl (fun st i =>
      if distance_m.get i j ≤ 3 then
        (dihedrals_pair i j distance_m).foldl (dihedrals_step molecule epsilon) st
      else st) st) ([], false)).1

/-- The candidate triples of `angles` in the order the loops visit them. -/
def angle_candidates (distance_m : Mat α) (n_atoms : Nat) : List Angle :=
  (List.range n_atoms).flatMap fun j =>
    (List.range j).flatMap fun i =>
      if distance_m.get i j ≤ 2 then angles_pair i j distance_m else []

/-- The candidate quadruples of `dihedrals` in the order the loops visit them. -/
def dihedral_candidates (distance_m : Mat α) (n_atoms : Nat) : List Dihedral :=
  (List.range n_atoms).flatMap fun j =>
    (List.range j).flatMap fun i =>
      if distance_m.get i j ≤ 3 then dihedrals_pair i j distance_m else []

/-- The number of entries of the matrix that are equal to 1. -/
def count_unit_entries (m : Mat α) : Nat :=
  ((List.range m.n_rows).map fun i =>
    ((List.range m.n_cols).filter fun j => decide (m.get i j = 1)).length).sum

end enumeration

end connectivity

end irc

/-! ## The bond graph -/

namespace irc

namespace connectivity

open molecule

/-- An edge of the graph with its `edge_weight_t` property. -/
structure Edge where
  source : Nat
  target : Nat
  weight : Nat
deriving DecidableEq, Repr

/-- The Boost `adjacency_list<vecS, vecS, undirectedS, no_property, EdgeProperty>`:
vertices are `0 .. num_vertices - 1`, edges are kept in insertion order (parallel
edges and self-loops allowed), and every edge joins two vertices of the graph. -/
structure UGraph where
  num_vertices : Nat
  edges : List Edge
  valid : ∀ e ∈ edges, e.source < num_vertices ∧ e.target < num_vertices

/-- The constructor `UGraph ug(n)`: `n` vertices and no edge. -/
def UGraph.init (n : Nat) : UGraph := ⟨n, [], fun _ h => absurd h (List.not_mem_nil _)⟩

/-- The call `boost::add_edge(u, v, w, ug)`. With `vecS` vertex storage the
vertex set grows when `u` or `v` is not yet a vertex. -/
def add_edge (u v w : Nat) (ug : UGraph) : UGraph :=
  ⟨max ug.num_vertices (max u v + 1), ug.edges ++ [⟨u, v, w⟩], by
    intro e he
    rcases List.mem_append.mp he with h | h
    · have := ug.valid e h
      omega
    · have : e = ⟨u, v, w⟩ := by simpa using h
      subst this
      simp only []
      omega⟩

/-- The out-edges of vertex `u`, as pairs (neighbour, weight), in insertion order. -/
def UGraph.out_edges (ug : UGraph) (u : Nat) : List (Nat × Nat) :=
  ug.edges.flatMap fun e =>
    (if e.source = u then [(e.target, e.weight)] else []) ++
      (if e.target = u then [(e.source, e.weight)] else [])

/-- Vertices `u` and `v` are joined by an edge. -/
def UGraph.Adj (ug : UGraph) (u v : Nat) : Prop :=
  ∃ e ∈ ug.edges, (e.source = u ∧ e.target = v) ∨ (e.source = v ∧ e.target = u)

/-- There is a walk of exactly `k` edges from `s` to `v`. -/
inductive UGraph.Walk (ug : UGraph) (s : Nat) : Nat → Nat → Prop
  | nil : UGraph.Walk ug s 0 s
  | snoc {k u v : Nat} : UGraph.Walk ug s k u → ug.Adj u v → UGraph.Walk ug s (k + 1) v

/-- Vertices `s` and `v` are joined by a path. -/
def UGraph.Joined (ug : UGraph) (s v : Nat) : Prop := ∃ k, ug.Walk s k v

/-- The graph is connected: every two vertices are joined by a path. -/
def UGraph.Connected (ug : UGraph) : Prop :=
  ∀ u v, u < ug.num_vertices → v < ug.num_vertices → ug.Joined u v

/-- The number `k` is the number of edges of a shortest path from `s` to `v`. -/
def UGraph.IsDistance (ug : UGraph) (s v k : Nat) : Prop :=
  ug.Walk s k v ∧ ∀ m, ug.Walk s m v → k ≤ m

/-! ### Shortest paths (Boost `dijkstra_shortest_paths`) -/

/-- The value `std::numeric_limits<int>::max()`, the distance Boost gives an
unreachable vertex. -/
def int_max : Nat := 2147483647

/-- The working state of Dijkstra's algorithm: the distance map (`none` is
infinity), the predecessor map and the vertices already finished. -/
structure DijkstraState where
  d_map : Nat → Option Nat
  p_map : Nat → Nat
  finished : List Nat

/-- Comparison `a < b` where `none` is infinity. -/
def lt_inf (a : Nat) : Option Nat → Bool
  | none => true
  | some b => decide (a < b)

/-- Relaxation of the edge from `u` to `e.1` of weight `e.2`. -/
def relax (u : Nat) (st : DijkstraState) (e : Nat × Nat) : DijkstraState :=
  match st.d_map u with
  | none => st
  | some du =>
    if lt_inf (du + e.2) (st.d_map e.1) then
      { st with
        d_map := fun x => if x = e.1 then some (du + e.2) else st.d_map x
        p_map := fun x => if x = e.1 then u else st.p_map x }
    else st

/-- The queue of Dijkstra's algorithm: discovered vertices not yet finished. -/
def queue (n : Nat) (st : DijkstraState) : List Nat :=
  (List.range n).filter fun v => decide (v ∉ st.finished) && (st.d_map v).isSome

/-- The main loop: take the queued vertex of least distance, finish it and
relax its out-edges; stop when the queue is empty. The fuel is the number of
vertices, and every round finishes one more vertex. -/
def dijkstra_loop (ug : UGraph) : Nat → DijkstraState → DijkstraState
  | 0, st => st
  | fuel + 1, st =>
    match List.argmin (fun v => (st.d_map v).getD 0) (queue ug.num_vertices st) with
    | none => st
    | some u =>
      dijkstra_loop ug fuel
        ((ug.out_edges u).foldl (relax u) { st with finished := u :: st.finished })

/-- The Boost call `dijkstra_shortest_paths(ug, s, distance_map(d).predecessor_map(p))`,
modelled by Dijkstra's algorithm: every vertex starts at infinity with itself
as predecessor, the source at zero. Returns the distance map and the
predecessor map. -/
def dijkstra_shortest_paths (ug : UGraph) (s : Nat) : (Nat → Option Nat) × (Nat → Nat) :=
  let st := dijkstra_loop ug ug.num_vertices
    ⟨fun v => if v = s then some 0 else none, fun v => v, []⟩
  (st.d_map, st.p_map)

/-- An entry of the `std::vector<int>` distance map: infinity is `int_max`. -/
def d_map_entry (d : Option Nat) : Nat := d.getD int_max

section graph_distance

variable {α : Type} [LinearOrderedField α]

/-- The distance and predecessors matrices of the graph: `distance_matrix(ug)`. -/
def distance_matrix (ug : UGraph) : Mat α × Mat α :=
  let n_vertices := ug.num_vertices
  let dist : Mat α :=
    ⟨n_vertices, n_vertices, fun i j =>
      if i < n_vertices ∧ j < n_vertices then
        (d_map_entry ((dijkstra_shortest_paths ug i).1 j) : α)
      else 0⟩
  let predecessors : Mat α :=
    ⟨n_vertices, n_vertices, fun i j =>
      if i < n_vertices ∧ j < n_vertices then
        if i ≠ j then (((dijkstra_shortest_paths ug i).2 j : Nat) : α) else -1
      else 0⟩
  (dist, predecessors)

end graph_distance

/-! ### Connected components (Boost `connected_components`) -/

/-- The vertex `w` is found by a traversal that starts at `v`. -/
def reachable (ug : UGraph) (v w : Nat) : Bool := ((dijkstra_shortest_paths ug v).1 w).isSome

/-- The first vertex of the component of `v`. -/
def component_root (ug : UGraph) (v : Nat) : Nat :=
  ((List.range ug.num_vertices).find? fun w => reachable ug v w).getD v

/-- The Boost call `connected_components(ug, &fragments[0])`: components are
numbered from zero in the order of their first vertex, as the traversal from
vertex 0, 1, ... discovers them. Returns the component of every vertex and
the number of components. -/
def connected_components (ug : UGraph) : List Nat × Nat :=
  let is_root := fun r => decide (component_root ug r = r)
  ((List.range ug.num_vertices).map fun v =>
      ((List.range (component_root ug v)).filter is_root).length,
    ((List.range ug.num_vertices).filter is_root).length)

end connectivity

end irc

/-! ## Construction of the bond graph -/

namespace irc

namespace connectivity

open molecule

section adjacency

variable {α : Type} [LinearOrderedField α]

/-- All distances between atoms of the molecule: `distances(molecule)`. -/
def distances [Cmath α] (molecule : Molecule α) : Mat α :=
  let n_atoms := molecule.length
  (List.range n_atoms).foldl (fun distances_m i =>
    (List.range n_atoms).foldl (fun distances_m j =>
      let r := distance (molecule.at i).position (molecule.at j).position
      linalg.set (linalg.set distances_m i j r) j i r) distances_m)
    (linalg.zeros n_atoms n_atoms)

/-- The closest pair of atoms between fragments `i` and `j`:
`min_interfragment_distance(i, j, fragments, distances)`. The state of the
loops is `(k_min, l_min, min_distance)`. -/
def min_interfragment_distance (i j : Nat) (fragments : List Nat) (distances : Mat α) :
    Nat × Nat × α :=
  let n_atoms := fragments.length
  (List.range n_atoms).foldl (fun st k =>
    (List.range n_atoms).foldl (fun (st : Nat × Nat × α) l =>
      if k ≠ l ∧ fragments.getD k 0 = i ∧ fragments.getD l 0 = j then
        let distance := distances.get l k
        if distance < st.2.2 then (k, l, distance) else st
      else st) st) (0, 0, max_double)

/-- The first loop of `adjacency_matrix`: the search for regular bonds. -/
def covalent_phase (radii : atom.Radii α) (distances : Mat α) (molecule : Molecule α)
    (ug : UGraph) : UGraph :=
  let n_atoms := molecule.length
  (List.range n_atoms).foldl (fun ug j =>
    (List.range' (j + 1) (n_atoms - (j + 1))).foldl (fun ug i =>
      let d := distances.get i j
      let sum_covalent_radii :=
        radii.covalent_radius (molecule.at i).atomic_number +
          radii.covalent_radius (molecule.at j).atomic_number
      if d < tools.constants.covalent_bond_multiplier * sum_covalent_radii then
        add_edge i j 1 ug
      else ug) ug) ug

/-- The body of the loop over pairs of fragments `i < j` in `adjacency_matrix`:
the shortest inter-fragment bond, then every pair of atoms that is close enough. -/
def stitch_pair (distances : Mat α) (n_atoms : Nat) (fragments : List Nat) (i j : Nat)
    (ug : UGraph) : UGraph :=
  let r := min_interfragment_distance i j fragments distances
  let i_min := r.1
  let j_min := r.2.1
  let min_d := r.2.2
  let ug := add_edge i_min j_min 1 ug
  (List.range n_atoms).foldl (fun ug k =>
    (List.range n_atoms).foldl (fun ug l =>
      if k ≠ l ∧ fragments.getD k 0 = i ∧ fragments.getD l 0 = j then
        let d := distances.get l k
        if d < min (min_d * tools.constants.interfragment_bond_multiplier)
            (2 * tools.conversion.angstrom_to_bohr) then
          add_edge l k 1 ug
        else ug
      else ug) ug) ug

/-- The second part of `adjacency_matrix`: when the system is made up of
several fragments, every pair of fragments is joined. -/
def stitching_phase (distances : Mat α) (n_atoms : Nat) (fragments : List Nat)
    (num_fragments : Nat) (ug : UGraph) : UGraph :=
  if num_fragments > 1 then
    (List.range num_fragments).foldl (fun ug i =>
      (List.range' (i + 1) (num_fragments - (i + 1))).foldl (fun ug j =>
        stitch_pair distances n_atoms fragments i j ug) ug) ug
  else ug

/-- The search for the acceptor `Y` of a hydrogen bond `XH...Y`, with `X` at
index `idx` and `H` at index `h_idx`. -/
def hydrogen_bonds_of [Cmath α] (radii : atom.Radii α) (distances : Mat α)
    (molecule : Molecule α) (idx h_idx : Nat) (ug : UGraph) : UGraph :=
  let n_atoms := molecule.length
  (List.range n_atoms).foldl (fun ug k =>
    if atom.is_NOFPSCl (molecule.at k).atomic_number ∧ k ≠ idx ∧ k ≠ h_idx then
      let d := distances.get h_idx k
      let sum_vdw_radii :=
        radii.vdw_radius (molecule.at h_idx).atomic_number +
          radii.vdw_radius (molecule.at k).atomic_number
      let sum_covalent_radii :=
        radii.covalent_radius (molecule.at h_idx).atomic_number +
          radii.covalent_radius (molecule.at k).atomic_number
      let a := angle (molecule.at idx).position (molecule.at h_idx).position
        (molecule.at k).position
      if d > sum_covalent_radii ∧
          d < sum_vdw_radii * tools.constants.vdw_bond_multiplier ∧
          a > Cmath.pi / 2 then
        add_edge h_idx k 1 ug
      else ug
    else ug) ug

/-- The last loop of `adjacency_matrix`: the search for hydrogen bonds. -/
def hydrogen_phase [Cmath α] (radii : atom.Radii α) (distances : Mat α)
    (molecule : Molecule α) (ug : UGraph) : UGraph :=
  let n_atoms := molecule.length
  (List.range n_atoms).foldl (fun ug j =>
    (List.range' (j + 1) (n_atoms - (j + 1))).foldl (fun ug i =>
      let d := distances.get i j
      let sum_covalent_radii :=
        radii.covalent_radius (molecule.at i).atomic_number +
          radii.covalent_radius (molecule.at j).atomic_number
      if d < tools.constants.covalent_bond_multiplier * sum_covalent_radii then
        if (atom.is_NOFPSCl (molecule.at i).atomic_number ∧
              atom.is_H (molecule.at j).atomic_number) ∨
            (atom.is_NOFPSCl (molecule.at j).atomic_number ∧
              atom.is_H (molecule.at i).atomic_number) then
          let idx := if atom.is_H (molecule.at j).atomic_number then i else j
          let h_idx := if atom.is_H (molecule.at j).atomic_number then j else i
          hydrogen_bonds_of radii distances molecule idx h_idx ug
        else ug
      else ug) ug) ug

/-- The bond graph of the molecule: `adjacency_matrix(distances, molecule)`. -/
def adjacency_matrix [Cmath α] (radii : atom.Radii α) (distances : Mat α)
    (molecule : Molecule α) : UGraph :=
  let n_atoms := molecule.length
  let ug := UGraph.init n_atoms
  let ug := covalent_phase radii distances molecule ug
  let fragments := (connected_components ug).1
  let num_fragments := (connected_components ug).2
  let ug := stitching_phase distances n_atoms fragments num_fragments ug
  hydrogen_phase radii distances molecule ug

end adjacency

end connectivity

end irc

/-! ## Invariant of the shortest-path loop -/

namespace irc

namespace connectivity

/-- What holds of the state of Dijkstra's algorithm, run from `s` on a graph
with unit weights, before and after every round of the main loop. -/
structure DijkstraInv (ug : UGraph) (s : Nat) (st : DijkstraState) : Prop where
  src : st.d_map s = some 0
  walk : ∀ v k, st.d_map v = some k → ug.Walk s k v
  dom : ∀ v k, st.d_map v = some k → v < ug.num_vertices
  fin_some : ∀ u ∈ st.finished, ∃ du, st.d_map u = some du
  nodup : st.finished.Nodup
  edge : ∀ u ∈ st.finished, ∀ v, ug.Adj u v → ∀ du, st.d_map u = some du →
    ∃ dv, st.d_map v = some dv ∧ dv ≤ du + 1
  le : ∀ u ∈ st.finished, ∀ v, v ∉ st.finished → ∀ du dv, st.d_map u = some du →
    st.d_map v = some dv → du ≤ dv

end connectivity

end irc

namespace irc

namespace connectivity

/-- Graph `g'` has the vertices of `g` and all its edges, and only unit
weights if `g` has only unit weights. -/
def UGraph.Extends (g g' : UGraph) : Prop :=
  g'.num_vertices = g.num_vertices ∧ (∀ e ∈ g.edges, e ∈ g'.edges) ∧
    ((∀ e ∈ g.edges, e.weight = 1) → ∀ e ∈ g'.edges, e.weight = 1)

/-- The pairs of atoms that `min_interfragment_distance` and the stitching
loop compare for fragments `i` and `j`, in the order of the loops. -/
def interfragment_pairs (i j : Nat) (fragments : List Nat) : List (Nat × Nat) :=
  (List.range fragments.length).flatMap fun k =>
    ((List.range fragments.length).filter fun l =>
      decide (k ≠ l ∧ fragments.getD k 0 = i ∧ fragments.getD l 0 = j)).map fun l => (k, l)

end connectivity

end irc

/-! ## Sample inputs -/

namespace irc

namespace samples

open molecule connectivity

/-- Sample periodic-table data, in bohr: hydrogen, carbon and oxygen, and a
common value for every other element. -/
def radii {α : Type} [LinearOrderedField α] : atom.Radii α where
  covalent_radius := fun z =>
    if z = 1 then 586 / 1000 else if z = 6 then 1436 / 1000
    else if z = 8 then 1247 / 1000 else 3 / 2
  vdw_radius := fun z =>
    if z = 1 then 2268 / 1000 else if z = 6 then 3213 / 1000
    else if z = 8 then 2872 / 1000 else 3

/-- The bond graph of hydrogen peroxide: the path 2 - 0 - 1 - 3. -/
def peroxide_graph : UGraph :=
  add_edge 1 3 1 (add_edge 0 2 1 (add_edge 0 1 1 (UGraph.init 4)))

/-- Four atoms with the elements of hydrogen peroxide, with the first three
on a line. -/
def peroxide {α : Type} [LinearOrderedField α] : Molecule α :=
  [⟨"O", 8, ⟨0, 0, 0⟩⟩, ⟨"O", 8, ⟨1, 0, 0⟩⟩, ⟨"H", 1, ⟨-1, 0, 0⟩⟩, ⟨"H", 1, ⟨1, 1, 0⟩⟩]

/-- The graph distances of a three-atom molecule whose atom 0 is bonded to
atoms 1 and 2. -/
def triatomic_distances {α : Type} [LinearOrderedField α] : Mat α :=
  linalg.ofRows [[0, 1, 1], [1, 0, 2], [1, 2, 0]]

/-- Water with a right angle at the oxygen atom. -/
def water {α : Type} [LinearOrderedField α] : Molecule α :=
  [⟨"O", 8, ⟨0, 0, 0⟩⟩, ⟨"H", 1, ⟨9 / 5, 0, 0⟩⟩, ⟨"H", 1, ⟨0, 9 / 5, 0⟩⟩]

/-- Linear carbon dioxide, the carbon atom first. -/
def carbon_dioxide {α : Type} [LinearOrderedField α] : Molecule α :=
  [⟨"C", 6, ⟨0, 0, 0⟩⟩, ⟨"O", 8, ⟨11 / 5, 0, 0⟩⟩, ⟨"O", 8, ⟨-(11 / 5), 0, 0⟩⟩]

/-- The graph distances of the chain 0 - 1 - 2 - 3. -/
def chain_distances {α : Type} [LinearOrderedField α] : Mat α :=
  linalg.ofRows [[0, 1, 2, 3], [1, 0, 1, 2], [2, 1, 0, 1], [3, 2, 1, 0]]

/-- A chain of four carbon atoms whose first three atoms are on a line. -/
def chain {α : Type} [LinearOrderedField α] : Molecule α :=
  [⟨"C", 6, ⟨-1, 0, 0⟩⟩, ⟨"C", 6, ⟨0, 0, 0⟩⟩, ⟨"C", 6, ⟨1, 0, 0⟩⟩, ⟨"C", 6, ⟨1, 1, 0⟩⟩]

/-- The matrix of `chain_distances` with the entry (1, 2) set to zero: it is
not symmetric. -/
def skewed_distances {α : Type} [LinearOrderedField α] : Mat α :=
  linalg.ofRows [[0, 1, 2, 3], [1, 0, 0, 2], [2, 1, 0, 1], [3, 2, 1, 0]]

/-- Three helium atoms ten bohr apart from one another. -/
def helium_trimer {α : Type} [LinearOrderedField α] : Molecule α :=
  [⟨"He", 2, ⟨0, 0, 0⟩⟩, ⟨"He", 2, ⟨10, 0, 0⟩⟩, ⟨"He", 2, ⟨0, 10, 0⟩⟩]

/-- The interatomic distances of three atoms ten bohr apart from one another. -/
def trimer_distances {α : Type} [LinearOrderedField α] : Mat α :=
  linalg.ofRows [[0, 10, 10], [10, 0, 10], [10, 10, 0]]

/-- Two hydrogen atoms 1.4 bohr apart. -/
def hydrogen {α : Type} [LinearOrderedField α] : Molecule α :=
  [⟨"H", 1, ⟨0, 0, 0⟩⟩, ⟨"H", 1, ⟨7 / 5, 0, 0⟩⟩]

/-- The interatomic distances of two atoms 1.4 bohr apart. -/
def hydrogen_distances {α : Type} [LinearOrderedField α] : Mat α :=
  linalg.ofRows [[0, 7 / 5], [7 / 5, 0]]

end samples

end irc

namespace irc

namespace samples

open molecule connectivity

/-- The interatomic distances of three atoms on a line, at 0, 1 and 4. -/
def line_distances {α : Type} [LinearOrderedField α] : Mat α :=
  linalg.ofRows [[0, 1, 4], [1, 0, 3], [4, 3, 0]]

end samples

end irc

namespace irc

namespace samples

open molecule connectivity

/-- An O-H group pointing at a second oxygen atom, all on a line:
O at 0, H at 1.8 and O at 5.4 bohr. -/
def hydroxyl_oxygen {α : Type} [LinearOrderedField α] : Molecule α :=
  [⟨"O", 8, ⟨0, 0, 0⟩⟩, ⟨"H", 1, ⟨9 / 5, 0, 0⟩⟩, ⟨"O", 8, ⟨27 / 5, 0, 0⟩⟩]

/-- The interatomic distances of `hydroxyl_oxygen`. -/
def hydroxyl_oxygen_distances {α : Type} [LinearOrderedField α] : Mat α :=
  linalg.ofRows [[0, 9 / 5, 27 / 5], [9 / 5, 0, 18 / 5], [27 / 5, 18 / 5, 0]]

end samples

end irc

/-! ## The stages of `adjacency_matrix` -/

namespace irc

namespace connectivity

open molecule

/-- Graph `g` is graph `g0` with more edges appended, each of unit weight and
between atoms of two different fragments. -/
def UGraph.AppendsAcross (fragments : List Nat) (g0 g : UGraph) : Prop :=
  ∃ added, g.edges = g0.edges ++ added ∧
    ∀ e ∈ added, e.weight = 1 ∧ fragments.getD e.source 0 ≠ fragments.getD e.target 0

section stages

variable {α : Type} [LinearOrderedField α]

/-- The graph of `adjacency_matrix` after the search for regular bonds. -/
def covalent_graph (radii : atom.Radii α) (distances : Mat α) (molecule : Molecule α) :
    UGraph :=
  covalent_phase radii distances molecule (UGraph.init molecule.length)

/-- The vector `fragments` of `adjacency_matrix`. -/
def covalent_fragments (radii : atom.Radii α) (distances : Mat α) (molecule : Molecule α) :
    List Nat :=
  (connected_components (covalent_graph radii distances molecule)).1

/-- The value `num_fragments` of `adjacency_matrix`. -/
def covalent_num_fragments (radii : atom.Radii α) (distances : Mat α)
    (molecule : Molecule α) : Nat :=
  (connected_components (covalent_graph radii distances molecule)).2

/-- The graph of `adjacency_matrix` after the fragments are joined, before
the search for hydrogen bonds. -/
def stitched_graph (radii : atom.Radii α) (distances : Mat α) (molecule : Molecule α) :
    UGraph :=
  stitching_phase distances molecule.length (covalent_fragments radii distances molecule)
    (covalent_num_fragments radii distances molecule)
    (covalent_graph radii distances molecule)

end stages

end connectivity

end irc

namespace irc

namespace connectivity

open molecule

section hydrogen_edges

variable {α : Type} [LinearOrderedField α] [Cmath α]

/-- The edges that the search for hydrogen bonds appends, in the order of the
loops of `adjacency_matrix`. -/
def hydrogen_bond_edges (radii : atom.Radii α) (distances : Mat α) (molecule : Molecule α) :
    List Edge :=
  let n_atoms := molecule.length
  (List.range n_atoms).flatMap fun j =>
    (List.range' (j + 1) (n_atoms - (j + 1))).flatMap fun i =>
      if distances.get i j < tools.constants.covalent_bond_multiplier *
          (radii.covalent_radius (molecule.at i).atomic_number +
            radii.covalent_radius (molecule.at j).atomic_number) then
        if (atom.is_NOFPSCl (molecule.at i).atomic_number ∧
              atom.is_H (molecule.at j).atomic_number) ∨
            (atom.is_NOFPSCl (molecule.at j).atomic_number ∧
              atom.is_H (molecule.at i).atomic_number) then
          ((List.range n_atoms).filter fun k => decide
            ((atom.is_NOFPSCl (molecule.at k).atomic_number ∧
                k ≠ (if atom.is_H (molecule.at j).atomic_number then i else j) ∧
                k ≠ (if atom.is_H (molecule.at j).atomic_number then j else i)) ∧
              distances.get (if atom.is_H (molecule.at j).atomic_number then j else i) k >
                radii.covalent_radius
                    (molecule.at
                      (if atom.is_H (molecule.at j).atomic_number then j else i)).atomic_number +
                  radii.covalent_radius (molecule.at k).atomic_number ∧
              distances.get (if atom.is_H (molecule.at j).atomic_number then j else i) k <
                (radii.vdw_radius
                    (molecule.at
                      (if atom.is_H (molecule.at j).atomic_number then j else i)).atomic_number +
                  radii.vdw_radius (molecule.at k).atomic_number) *
                  tools.constants.vdw_bond_multiplier ∧
              angle
                  (molecule.at
                    (if atom.is_H (molecule.at j).atomic_number then i else j)).position
                  (molecule.at
                    (if atom.is_H (molecule.at j).atomic_number then j else i)).position
                  (molecule.at k).position > Cmath.pi / 2)).map fun k =>
            Edge.mk (if atom.is_H (molecule.at j).atomic_number then j else i) k 1
        else []
      else []

end hydrogen_edges

end connectivity

end irc

/-! ## Internal coordinates from Cartesian coordinates -/

namespace irc

/-- A dense vector (template parameter `Vector`): its size and its entries. -/
structure Vec (α : Type) where
  size : Nat
  get : Nat → α

namespace linalg

variable {α : Type}

/-- The call `linalg::zeros<Vector>(n)`. -/
def zeros_vec [Zero α] (n : Nat) : Vec α := ⟨n, fun _ => 0⟩

/-- Assignment `v(i) = x`. -/
def set_vec (v : Vec α) (i : Nat) (x : α) : Vec α :=
  ⟨v.size, fun a => if a = i then x else v.get a⟩

/-- Division of a vector by a scalar, `v / s`. -/
def sdiv [Div α] (v : Vec3 α) (s : α) : Vec3 α := ⟨v.x / s, v.y / s, v.z / s⟩

end linalg

section rotations

variable {α : Type} [LinearOrderedField α]

/-- A three by three matrix, for rotations of space. -/
structure Mat3 (α : Type) where
  a11 : α
  a12 : α
  a13 : α
  a21 : α
  a22 : α
  a23 : α
  a31 : α
  a32 : α
  a33 : α

/-- The product of a matrix and a vector. -/
def Mat3.apply (R : Mat3 α) (v : Vec3 α) : Vec3 α :=
  ⟨R.a11 * v.x + R.a12 * v.y + R.a13 * v.z,
   R.a21 * v.x + R.a22 * v.y + R.a23 * v.z,
   R.a31 * v.x + R.a32 * v.y + R.a33 * v.z⟩

/-- The matrix is a proper rotation: its columns are orthonormal and its
determinant is 1. -/
structure Mat3.IsProperRotation (R : Mat3 α) : Prop where
  c11 : R.a11 * R.a11 + R.a21 * R.a21 + R.a31 * R.a31 = 1
  c12 : R.a11 * R.a12 + R.a21 * R.a22 + R.a31 * R.a32 = 0
  c13 : R.a11 * R.a13 + R.a21 * R.a23 + R.a31 * R.a33 = 0
  c22 : R.a12 * R.a12 + R.a22 * R.a22 + R.a32 * R.a32 = 1
  c23 : R.a12 * R.a13 + R.a22 * R.a23 + R.a32 * R.a33 = 0
  c33 : R.a13 * R.a13 + R.a23 * R.a23 + R.a33 * R.a33 = 1
  det : R.a11 * (R.a22 * R.a33 - R.a23 * R.a32) - R.a12 * (R.a21 * R.a33 - R.a23 * R.a31) +
    R.a13 * (R.a21 * R.a32 - R.a22 * R.a31) = 1

/-- Sum of two vectors. -/
def linalg.add (u v : Vec3 α) : Vec3 α := ⟨u.x + v.x, u.y + v.y, u.z + v.z⟩

/-- The component `c` (0, 1 or 2) of a vector. -/
def Vec3.component (v : Vec3 α) (c : Nat) : α :=
  if c = 0 then v.x else if c = 1 then v.y else v.z

end rotations

namespace connectivity

open molecule

section coordinates

variable {α : Type} [Zero α] [Add α] [Sub α] [Mul α] [Div α] [Cmath α]

/-- Bond length from Cartesian coordinates, `bond(b, x_cartesian)`. -/
def bond_x (b : Bond) (x_cartesian : Vec α) : α :=
  let b1 : Vec3 α :=
    ⟨x_cartesian.get (3 * b.i + 0), x_cartesian.get (3 * b.i + 1), x_cartesian.get (3 * b.i + 2)⟩
  let b2 : Vec3 α :=
    ⟨x_cartesian.get (3 * b.j + 0), x_cartesian.get (3 * b.j + 1), x_cartesian.get (3 * b.j + 2)⟩
  distance b1 b2

/-- Bond length in a molecule, `bond(b, molecule)`. -/
def bond_mol (b : Bond) (molecule : Molecule α) : α :=
  let b1 := (molecule.at b.i).position
  let b2 := (molecule.at b.j).position
  distance b1 b2

/-- Angle from Cartesian coordinates, `angle(a, x_cartesian)`. -/
def angle_x (a : Angle) (x_cartesian : Vec α) : α :=
  let a1 : Vec3 α :=
    ⟨x_cartesian.get (3 * a.i + 0), x_cartesian.get (3 * a.i + 1), x_cartesian.get (3 * a.i + 2)⟩
  let a2 : Vec3 α :=
    ⟨x_cartesian.get (3 * a.j + 0), x_cartesian.get (3 * a.j + 1), x_cartesian.get (3 * a.j + 2)⟩
  let a3 : Vec3 α :=
    ⟨x_cartesian.get (3 * a.k + 0), x_cartesian.get (3 * a.k + 1), x_cartesian.get (3 * a.k + 2)⟩
  angle a1 a2 a3

/-- Dihedral angle formed by four points, `dihedral(v1, v2, v3, v4)`. -/
def dihedral (v1 v2 v3 v4 : Vec3 α) : α :=
  let b1 := linalg.sub v1 v2
  let b2 := linalg.sub v2 v3
  let b3 := linalg.sub v3 v4
  let n1 := linalg.cross b1 b2
  let n2 := linalg.cross b2 b3
  let n1 := linalg.sdiv n1 (linalg.norm n1)
  let n2 := linalg.sdiv n2 (linalg.norm n2)
  let m := linalg.sdiv (linalg.cross n1 b2) (linalg.norm b2)
  let x := linalg.dot n1 n2
  let y := linalg.dot m n2
  Cmath.atan2 y x

/-- Dihedral angle from Cartesian coordinates, `dihedral(d, x_cartesian)`. -/
def dihedral_x (d : Dihedral) (x_cartesian : Vec α) : α :=
  let d1 : Vec3 α :=
    ⟨x_cartesian.get (3 * d.i + 0), x_cartesian.get (3 * d.i + 1), x_cartesian.get (3 * d.i + 2)⟩
  let d2 : Vec3 α :=
    ⟨x_cartesian.get (3 * d.j + 0), x_cartesian.get (3 * d.j + 1), x_cartesian.get (3 * d.j + 2)⟩
  let d3 : Vec3 α :=
    ⟨x_cartesian.get (3 * d.k + 0), x_cartesian.get (3 * d.k + 1), x_cartesian.get (3 * d.k + 2)⟩
  let d4 : Vec3 α :=
    ⟨x_cartesian.get (3 * d.l + 0), x_cartesian.get (3 * d.l + 1), x_cartesian.get (3 * d.l + 2)⟩
  dihedral d1 d2 d3 d4

/-- Dihedral angle in a molecule, `dihedral(d, molecule)`. -/
def dihedral_mol (d : Dihedral) (molecule : Molecule α) : α :=
  let d1 := (molecule.at d.i).position
  let d2 := (molecule.at d.j).position
  let d3 := (molecule.at d.k).position
  let d4 := (molecule.at d.l).position
  dihedral d1 d2 d3 d4

/-- Internal redundant coordinates from Cartesian coordinates:
`cartesian_to_irc(x_c, bonds, angles, dihedrals)`. -/
def cartesian_to_irc (x_c : Vec α) (bonds : List Bond) (angles : List Angle)
    (dihedrals : List Dihedral) : Vec α :=
  let n_bonds := bonds.length
  let n_angles := angles.length
  let n_dihedrals := dihedrals.length
  let n_irc := n_bonds + n_angles + n_dihedrals
  let q_irc : Vec α := linalg.zeros_vec n_irc
  let q_irc := (List.range n_bonds).foldl (fun q_irc i =>
    linalg.set_vec q_irc i (bond_x (bonds.getD i ⟨0, 0⟩) x_c)) q_irc
  let offset := n_bonds
  let q_irc := (List.range n_angles).foldl (fun q_irc i =>
    linalg.set_vec q_irc (i + offset) (angle_x (angles.getD i ⟨0, 0, 0⟩) x_c)) q_irc
  let offset := n_bonds + n_angles
  (List.range n_dihedrals).foldl (fun q_irc i =>
    linalg.set_vec q_irc (i + offset) (dihedral_x (dihedrals.getD i ⟨0, 0, 0, 0⟩) x_c)) q_irc

end coordinates

/-! ### Specification of the coordinates -/

section coordinates_spec

variable {α : Type} [LinearOrderedField α]

/-- The position of atom `a` in the flat Cartesian vector `x`:
`(x(3a), x(3a+1), x(3a+2))`. -/
def atom_position (x : Vec α) (a : Nat) : Vec3 α :=
  ⟨x.get (3 * a), x.get (3 * a + 1), x.get (3 * a + 2)⟩

/-- The angle formula of the specification: the ratio is clamped to
`[-1, 1]` before `acos`. -/
def angle_clamped [Cmath α] (v1 v2 v3 : Vec3 α) : α :=
  let r1 := linalg.sub v1 v2
  let r2 := linalg.sub v3 v2
  let ratio := linalg.dot r1 r2 / (linalg.norm r1 * linalg.norm r2)
  Cmath.acos (max (-1) (min 1 ratio))

/-- The dihedral formula of the specification:
`atan2((n̂1 × b̂2) · n̂2, n̂1 · n̂2)` with `b1 = r_i - r_k`, `b2 = r_k - r_l`,
`b3 = r_l - r_j`, `n1 = b1 × b2`, `n2 = b2 × b3`, hats for unit vectors. -/
def dihedral_formula [Cmath α] (v1 v2 v3 v4 : Vec3 α) : α :=
  let b1 := linalg.sub v1 v2
  let b2 := linalg.sub v2 v3
  let b3 := linalg.sub v3 v4
  let n1 := linalg.cross b1 b2
  let n2 := linalg.cross b2 b3
  let n1_hat := linalg.sdiv n1 (linalg.norm n1)
  let n2_hat := linalg.sdiv n2 (linalg.norm n2)
  let b2_hat := linalg.sdiv b2 (linalg.norm b2)
  Cmath.atan2 (linalg.dot (linalg.cross n1_hat b2_hat) n2_hat) (linalg.dot n1_hat n2_hat)

/-- The Cartesian vector of the geometry in which every atom position `r` is
replaced by `R r + t`. -/
def rigid_motion (R : Mat3 α) (t : Vec3 α) (x : Vec α) : Vec α :=
  ⟨x.size, fun k => (linalg.add (R.apply (atom_position x (k / 3))) t).component (k % 3)⟩

end coordinates_spec

end connectivity

end irc

namespace irc

namespace samples

open molecule connectivity

variable {α : Type} [LinearOrderedField α]

/-- The rotation by a quarter turn about the z axis. -/
def quarter_turn : Mat3 α := ⟨0, -1, 0, 1, 0, 0, 0, 0, 1⟩

/-- A translation vector. -/
def shift : Vec3 α := ⟨1, 2, 3⟩

/-- Hydrogen peroxide with right angles at both oxygen atoms and a dihedral
of a quarter turn: O, O, H, H. -/
def bent_peroxide : Molecule α :=
  [⟨"O", 8, ⟨0, 0, 0⟩⟩, ⟨"O", 8, ⟨1, 0, 0⟩⟩, ⟨"H", 1, ⟨0, 1, 0⟩⟩, ⟨"H", 1, ⟨1, 0, 1⟩⟩]

/-- The flat Cartesian vector of `bent_peroxide`. -/
def bent_cartesian : Vec α :=
  ⟨12, fun k => ([0, 0, 0, 1, 0, 0, 0, 1, 0, 1, 0, 1] : List α).getD k 0⟩

end samples

end irc

namespace irc

namespace samples

open molecule connectivity

/-- The graph distances of the path 2 - 0 - 1 - 3. -/
def peroxide_distances : Nat → Nat → Nat := fun i j =>
  (([[0, 1, 1, 2], [1, 0, 2, 1], [1, 2, 0, 3], [2, 1, 3, 0]] : List (List Nat)).getD i []).getD j 0

end samples

end irc

namespace irc

namespace samples

open molecule connectivity

/-- Two hydrogen atoms at the same position. -/
def coincident {α : Type} [LinearOrderedField α] : Molecule α :=
  [⟨"H", 1, ⟨0, 0, 0⟩⟩, ⟨"H", 1, ⟨0, 0, 0⟩⟩]

end samples

end irc

/-! ## Angles in the interval (-π, π] -/

namespace irc

namespace tools

namespace math

/-- Modelled from the spec: the body of `pirange_rad`, declared in
`mathtools.h`, is not among the sources. The header says that it returns the
angle in the range (-π, π], and the spec that a wrapped component re-enters
(-π, π]: the angle is moved by the multiple of 2π that brings it there. -/
def pirange_rad {α : Type} [LinearOrderedField α] [FloorRing α] [Cmath α] (angle : α) : α :=
  angle - 2 * Cmath.pi * (Int.ceil ((angle - Cmath.pi) / (2 * Cmath.pi)) : ℤ)

end math

end tools

end irc

/-! ## Loading a molecule in XYZ format -/

namespace irc

namespace molecule

/-- Modelled from the spec: `molecule.h` is not among the sources; the
whole-molecule unit conversion `multiply_positions(molecule, multiplier)`
multiplies every position by the multiplier. -/
def multiply_positions {α : Type} [Mul α] (molecule : Molecule α) (multiplier : α) :
    Molecule α :=
  molecule.map fun a =>
    ⟨a.symbol, a.atomic_number,
      ⟨a.position.x * multiplier, a.position.y * multiplier, a.position.z * multiplier⟩⟩

end molecule

namespace io

open molecule

/-- The state of a `std::istream`: the characters not yet read and the
`failbit`. The end of the input is the empty list of characters: every
extraction from it fails. -/
structure IStream where
  chars : List Char
  fail : Bool
deriving DecidableEq, Repr

/-- A stream on a text. -/
def IStream.ofString (s : String) : IStream := ⟨s.toList, false⟩

/-- The white space of the C locale, `std::isspace`. -/
def isspace (c : Char) : Bool :=
  c = ' ' || c = '\t' || c = '\n' || c = '\x0b' || c = '\x0c' || c = '\r'

/-- The characters left after the leading white space is skipped. -/
def skipws (cs : List Char) : List Char := cs.dropWhile isspace

/-- The decimal digits `0` to `9`. -/
def isdigit (c : Char) : Bool := decide ('0'.toNat ≤ c.toNat) && decide (c.toNat ≤ '9'.toNat)

/-- The number written by a sequence of decimal digits. -/
def digits_value (ds : List Char) : Nat :=
  ds.foldl (fun n c => 10 * n + (c.toNat - '0'.toNat)) 0

/-- An optional sign `+` or `-`: whether it is `-`, and the characters after it. -/
def read_sign (cs : List Char) : Bool × List Char :=
  match cs with
  | c :: t => if c = '+' then (false, t) else if c = '-' then (true, t) else (false, cs)
  | [] => (false, cs)

/-- The call `std::getline(in, dummy)`: the characters up to the next line
feed, which is read and dropped. -/
def getline (st : IStream) : String × IStream :=
  if st.fail then ("", st)
  else
    match st.chars with
    | [] => ("", ⟨[], true⟩)
    | _ :: _ =>
      (String.mk (st.chars.takeWhile fun c => c != '\n'),
        ⟨(st.chars.dropWhile fun c => c != '\n').drop 1, false⟩)

/-- The extraction `in >> atom` of a `std::string`: white space is skipped and
the characters up to the next white space are read. -/
def extract_string (st : IStream) : String × IStream :=
  if st.fail then ("", st)
  else
    match skipws st.chars with
    | [] => ("", ⟨[], true⟩)
    | c :: cs =>
      (String.mk ((c :: cs).takeWhile fun c => !isspace c),
        ⟨(c :: cs).dropWhile fun c => !isspace c, false⟩)

/-- The extraction `in >> n_atoms` of a `std::size_t` (64 bits): white space
is skipped, then an optional sign and decimal digits are read. The extraction
fails when there is no digit or the number does not fit. -/
def extract_size_t (st : IStream) : Nat × IStream :=
  if st.fail then (0, st)
  else
    let r := read_sign (skipws st.chars)
    let ds := r.2.takeWhile isdigit
    let rest := r.2.dropWhile isdigit
    if ds = [] then (0, ⟨rest, true⟩)
    else if 2 ^ 64 ≤ digits_value ds then (2 ^ 64 - 1, ⟨rest, true⟩)
    else ((if r.1 then (2 ^ 64 - digits_value ds) % 2 ^ 64 else digits_value ds), ⟨rest, false⟩)

/-- The exponent part of a number, after the mantissa: the letter `e` or `E`,
an optional sign and digits. The result is whether an exponent letter was
read, whether the exponent is negative, its digits and the characters left. -/
def read_exponent (cs : List Char) : Bool × Bool × List Char × List Char :=
  match cs with
  | c :: t =>
    if c = 'e' || c = 'E' then
      let r := read_sign t
      (true, r.1, r.2.takeWhile isdigit, r.2.dropWhile isdigit)
    else (false, false, [], cs)
  | [] => (false, false, [], cs)

/-- The digits of a number before the decimal point. -/
def mantissa_int (cs : List Char) : List Char := cs.takeWhile isdigit

/-- The digits of a number after the decimal point, if there is one. -/
def mantissa_frac (cs : List Char) : List Char :=
  if (cs.dropWhile isdigit).head? = some '.' then
    ((cs.dropWhile isdigit).drop 1).takeWhile isdigit
  else []

/-- The characters after the digits and the decimal point of a number. -/
def after_mantissa (cs : List Char) : List Char :=
  if (cs.dropWhile isdigit).head? = some '.' then
    ((cs.dropWhile isdigit).drop 1).dropWhile isdigit
  else cs.dropWhile isdigit

section numbers

variable {α : Type} [LinearOrderedField α]

/-- The value of a decimal number with the given sign, integer digits,
fraction digits and exponent. -/
def decimal_value (neg : Bool) (int_ds frac_ds : List Char) (exp_neg : Bool)
    (exp_ds : List Char) : α :=
  let m : α := (digits_value (int_ds ++ frac_ds) : α) / 10 ^ frac_ds.length
  let v : α := if exp_neg then m / 10 ^ digits_value exp_ds else m * 10 ^ digits_value exp_ds
  if neg then -v else v

/-- The least magnitude that rounds to an infinity and not to the largest
`double`: `2^1024 - 2^970`, half a unit in the last place above `max_double`. -/
def overflow_bound : α := 2 ^ 1024 - 2 ^ 970

/-- The extraction `in >> x` of a `double`: white space is skipped, then an
optional sign, digits with at most one decimal point and, after a digit, an
optional exponent are read. The extraction fails when the characters read are
not a complete number, and when the number is too large for a `double`: the
largest `double`, with the sign of the number, is then stored. -/
def extract_double (st : IStream) : α × IStream :=
  if st.fail then (0, st)
  else
    let r := read_sign (skipws st.chars)
    let e := read_exponent (after_mantissa r.2)
    if mantissa_int r.2 = [] ∧ mantissa_frac r.2 = [] then (0, ⟨after_mantissa r.2, true⟩)
    else if e.1 = true ∧ e.2.2.1 = [] then (0, ⟨e.2.2.2, true⟩)
    else if (overflow_bound : α) ≤
        decimal_value false (mantissa_int r.2) (mantissa_frac r.2) e.2.1 e.2.2.1 then
      ((if r.1 then -max_double else max_double), ⟨e.2.2.2, true⟩)
    else
      (decimal_value r.1 (mantissa_int r.2) (mantissa_frac r.2) e.2.1 e.2.2.1,
        ⟨e.2.2.2, false⟩)

/-- The loop `while (in >> atom >> x >> y >> z) molecule.push_back(...)` of
`load_xyz`, with the number of passes bounded by `fuel` (`none` when the bound
is reached). The atomic number of a symbol is the parameter `symbols`; an
unknown symbol raises its error. -/
def read_atoms (symbols : String → Except String Nat) :
    Nat → IStream → Molecule α → Option (Except String (Molecule α))
  | 0, _, _ => none
  | fuel + 1, st, molecule =>
    let a := extract_string st
    let x : α × IStream := extract_double a.2
    let y : α × IStream := extract_double x.2
    let z : α × IStream := extract_double y.2
    if z.2.fail then some (Except.ok molecule)
    else
      match symbols a.1 with
      | Except.error err => some (Except.error err)
      | Except.ok atomic_number =>
        read_atoms symbols fuel z.2 (molecule ++ [⟨a.1, atomic_number, ⟨x.1, y.1, z.1⟩⟩])

/-- The molecule in XYZ format on the input stream, `load_xyz(in)`: positions
are read in ångström and returned in bohr. Every pass of the loop reads a
character, so the loop ends within the bound. -/
def load_xyz (symbols : String → Except String Nat) (input : IStream) :
    Option (Except String (Molecule α)) :=
  let n_atoms := extract_size_t input
  let dummy := getline n_atoms.2
  (read_atoms symbols (dummy.2.chars.length + 1) dummy.2 []).map fun r =>
    r.map fun molecule => multiply_positions molecule tools.conversion.angstrom_to_bohr

end numbers

end io

namespace samples

/-- Sample periodic-table data: the atomic numbers of hydrogen, carbon and
oxygen; any other symbol is unknown. -/
def symbols (s : String) : Except String Nat :=
  if s = "H" then Except.ok 1 else if s = "C" then Except.ok 6
  else if s = "O" then Except.ok 8 else Except.error "unknown element"

/-- The components of the atoms of a loaded molecule. -/
def atom_rows {α : Type} (r : Option (Except String (molecule.Molecule α))) :
    Option (Except String (List (String × Nat × α × α × α))) :=
  r.map fun e => e.map fun m =>
    m.map fun a => (a.symbol, a.atomic_number, a.position.x, a.position.y, a.position.z)

end samples

end irc

namespace irc

deriving instance DecidableEq for Except
deriving instance DecidableEq for Vec3
deriving instance DecidableEq for molecule.Atom

end irc

/-! ## Back-transformation from internal to Cartesian coordinates -/

namespace irc

namespace linalg

section dense

variable {α : Type} [LinearOrderedField α]

/-- The transpose of a matrix. -/
def transpose (m : Mat α) : Mat α := ⟨m.n_cols, m.n_rows, fun i j => m.get j i⟩

/-- The product of two matrices. -/
def matmul (a b : Mat α) : Mat α :=
  ⟨a.n_rows, b.n_cols, fun i j => Finset.sum (Finset.range a.n_cols) fun k => a.get i k * b.get k j⟩

/-- The product of a matrix and a vector. -/
def matvec (a : Mat α) (v : Vec α) : Vec α :=
  ⟨a.n_rows, fun i => Finset.sum (Finset.range a.n_cols) fun k => a.get i k * v.get k⟩

/-- The sum of two vectors. -/
def vec_add (u v : Vec α) : Vec α := ⟨u.size, fun i => u.get i + v.get i⟩

/-- The difference of two vectors. -/
def vec_sub (u v : Vec α) : Vec α := ⟨u.size, fun i => u.get i - v.get i⟩

/-- Half of a vector. -/
def vec_half (u : Vec α) : Vec α := ⟨u.size, fun i => u.get i / 2⟩

end dense

end linalg

namespace transformation

open connectivity

section back_transformation

variable {α : Type} [LinearOrderedField α]

/-- Modelled from the spec: `transformation.h` is not among the sources; the
tolerance `tol_x` on the root mean square of a Cartesian step. -/
def tol_x : α := 1 / 1000000

/-- Modelled from the spec: `transformation.h` is not among the sources; the
tolerance `tol_q` on the root mean square of the remaining internal step. -/
def tol_q : α := 1 / 1000000

/-- Modelled from the spec: the bound `MAX_ITERS` on the Newton iterations. -/
def max_iters : Nat := 25

/-- Modelled from the spec: the bound `MAX_HALVINGS` on the bisections. -/
def max_halvings : Nat := 8

/-- Modelled from the spec: the singular-value cutoff of the pseudoinverse. -/
def singular_value_cutoff : α := 1 / 1000000

/-- Modelled from the spec: `transformation.h` is not among the sources;
`rms(v)` is the square root of the mean of the squares of the entries. -/
def rms [Cmath α] (v : Vec α) : α :=
  Cmath.sqrt ((Finset.sum (Finset.range v.size) fun i => v.get i * v.get i) / (v.size : α))

/-- Modelled from the spec: the parts of the back-transformation that the spec
names without writing them out. `wilson.h` and the linear-algebra backend are
not among the sources: the rows of the Wilson matrix of an angle and of a
dihedral (the standard closed-form derivatives) and the pseudoinverse computed
from a singular-value decomposition are parameters. -/
structure Backend (α : Type) where
  angle_row : Angle → Vec α → Nat → α
  dihedral_row : Dihedral → Vec α → Nat → α
  pseudoinverse : Mat α → Mat α

/-- Modelled from the spec: `wilson.h` is not among the sources; the row of
the Wilson matrix of a bond is non-zero only on the two end atoms, where it is
the unit vector along the bond, with opposite signs: entry `3 a + c` is the
derivative of the bond length in component `c` of atom `a`. -/
def wilson_bond_row [Cmath α] (b : Bond) (x : Vec α) (k : Nat) : α :=
  let r := linalg.sub (atom_position x b.i) (atom_position x b.j)
  let d := linalg.norm r
  if k / 3 = b.i then r.component (k % 3) / d
  else if k / 3 = b.j then -(r.component (k % 3) / d)
  else 0

/-- Modelled from the spec: `wilson.h` is not among the sources; the Wilson
matrix has one row per internal coordinate, in the order bonds, angles,
dihedrals, and one column per Cartesian component. -/
def wilson [Cmath α] (backend : Backend α) (x : Vec α) (bonds : List Bond)
    (angles : List Angle) (dihedrals : List Dihedral) : Mat α :=
  ⟨bonds.length + angles.length + dihedrals.length, x.size, fun r k =>
    if r < bonds.length then wilson_bond_row (bonds.getD r ⟨0, 0⟩) x k
    else if r < bonds.length + angles.length then
      backend.angle_row (angles.getD (r - bonds.length) ⟨0, 0, 0⟩) x k
    else if r < bonds.length + angles.length + dihedrals.length then
      backend.dihedral_row
        (dihedrals.getD (r - (bonds.length + angles.length)) ⟨0, 0, 0, 0⟩) x k
    else 0⟩

/-- Modelled from the spec: the angle wrap of a vector of internal
coordinates: only the dihedral components, those after the bonds and the
angles, re-enter (-π, π]. -/
def wrap [FloorRing α] [Cmath α] (n_bonds n_angles : Nat) (q : Vec α) : Vec α :=
  ⟨q.size, fun r => if n_bonds + n_angles ≤ r then tools.math.pirange_rad (q.get r) else q.get r⟩

/-- Modelled from the spec: the subtraction with angle wrap, `target ⊖ q_x`. -/
def wrapped_sub [FloorRing α] [Cmath α] (n_bonds n_angles : Nat) (target q_x : Vec α) : Vec α :=
  wrap n_bonds n_angles (linalg.vec_sub target q_x)

/-- Modelled from the spec: the result record `IrcToCartesianResult`. -/
structure IrcToCartesianResult (α : Type) where
  x_c : Vec α
  converged : Bool
  n_iterations : Nat

/-- The state of the Newton loop: the geometry, the remaining internal step,
the best geometry so far with its remaining step, the size of the last
Cartesian step, and whether that step was larger than the one before. -/
structure NewtonState (α : Type) where
  x : Vec α
  dq_curr : Vec α
  x_best : Vec α
  best_error : α
  last_step : Option α
  grew : Bool

/-- Modelled from the spec: `transformation.h` is not among the sources; the
Cartesian step of one pass of the Newton loop: with the Wilson matrix `B` of
the geometry, `G = B Bᵀ` and its pseudoinverse `G⁺`, the step is
`Δx = Bᵀ G⁺ Δq_curr`. -/
def newton_step [Cmath α] (backend : Backend α) (x dq_curr : Vec α) (bonds : List Bond)
    (angles : List Angle) (dihedrals : List Dihedral) : Vec α :=
  let B := wilson backend x bonds angles dihedrals
  let G := linalg.matmul B (linalg.transpose B)
  let G_plus := backend.pseudoinverse G
  linalg.matvec (linalg.transpose B) (linalg.matvec G_plus dq_curr)

/-- Modelled from the spec: `transformation.h` is not among the sources; the
damped iterative Newton loop of the back-transformation, with `fuel` passes
left out of `MAX_ITERS` and `iter` passes done. A pass returns with
`converged = true` when the Cartesian step or the remaining internal step is
below its tolerance; the loop gives up, with the best geometry so far, when
the passes are used up or the Cartesian step has grown twice in a row. -/
def newton_loop [FloorRing α] [Cmath α] (backend : Backend α) (target : Vec α)
    (bonds : List Bond) (angles : List Angle) (dihedrals : List Dihedral) :
    Nat → Nat → NewtonState α → IrcToCartesianResult α
  | 0, iter, st => ⟨st.x_best, false, iter⟩
  | fuel + 1, iter, st =>
    let dx := newton_step backend st.x st.dq_curr bonds angles dihedrals
    let x := linalg.vec_add st.x dx
    let q_x := cartesian_to_irc x bonds angles dihedrals
    let dq_curr := wrapped_sub bonds.length angles.length target q_x
    if rms dx < tol_x ∨ rms dq_curr < tol_q then ⟨x, true, iter + 1⟩
    else
      let grows : Bool :=
        match st.last_step with
        | some s => decide (s < rms dx)
        | none => false
      let x_best := if rms dq_curr < st.best_error then x else st.x_best
      let best_error := if rms dq_curr < st.best_error then rms dq_curr else st.best_error
      if grows ∧ st.grew then ⟨x_best, false, iter + 1⟩
      else
        newton_loop backend target bonds angles dihedrals fuel (iter + 1)
          ⟨x, dq_curr, x_best, best_error, some (rms dx), grows⟩

/-- Modelled from the spec: `transformation.h` is not among the sources; the
single-shot back-transformation `internal_to_cartesian_single` (the test calls
it `irc_to_cartesian_single`): the Newton loop from `x_old` towards
`q_old + Δq`, without the step-halving fallback. -/
def internal_to_cartesian_single [FloorRing α] [Cmath α] (backend : Backend α)
    (q_old dq x_old : Vec α) (bonds : List Bond) (angles : List Angle)
    (dihedrals : List Dihedral) : IrcToCartesianResult α :=
  let target := wrap bonds.length angles.length (linalg.vec_add q_old dq)
  newton_loop backend target bonds angles dihedrals max_iters 0
    ⟨x_old, dq, x_old, rms dq, none, false⟩

/-- Modelled from the spec: the step-halving fallback with `halvings`
bisections left. When the single-shot loop does not converge, half the step is
tried from `x_old`; if that converges, a second step goes from there towards
the original target. -/
def halving [FloorRing α] [Cmath α] (backend : Backend α) (bonds : List Bond)
    (angles : List Angle) (dihedrals : List Dihedral) :
    Nat → Vec α → Vec α → Vec α → IrcToCartesianResult α
  | 0, q_old, dq, x_old =>
    internal_to_cartesian_single backend q_old dq x_old bonds angles dihedrals
  | halvings + 1, q_old, dq, x_old =>
    let single := internal_to_cartesian_single backend q_old dq x_old bonds angles dihedrals
    if single.converged then single
    else
      let target := wrap bonds.length angles.length (linalg.vec_add q_old dq)
      let first := halving backend bonds angles dihedrals halvings q_old (linalg.vec_half dq) x_old
      if first.converged then
        let q_first := cartesian_to_irc first.x_c bonds angles dihedrals
        let second := halving backend bonds angles dihedrals halvings q_first
          (wrapped_sub bonds.length angles.length target q_first) first.x_c
        ⟨second.x_c, second.converged,
          single.n_iterations + first.n_iterations + second.n_iterations⟩
      else ⟨first.x_c, false, single.n_iterations + first.n_iterations⟩

/-- Modelled from the spec: `transformation.h` is not among the sources; the
back-transformation `internal_to_cartesian(q_old, dq, x_old, coords)` (the
tests call it `irc_to_cartesian`): the Newton loop with the step-halving
fallback. -/
def internal_to_cartesian [FloorRing α] [Cmath α] (backend : Backend α)
    (q_old dq x_old : Vec α) (bonds : List Bond) (angles : List Angle)
    (dihedrals : List Dihedral) : IrcToCartesianResult α :=
  halving backend bonds angles dihedrals max_halvings q_old dq x_old

end back_transformation

end transformation

namespace samples

open connectivity transformation

/-- A backend for geometries without angles and dihedrals: their rows are
zero, and the pseudoinverse of a one by one matrix with a positive entry is
its inverse. -/
def bond_backend {α : Type} [LinearOrderedField α] : Backend α where
  angle_row := fun _ _ _ => 0
  dihedral_row := fun _ _ _ => 0
  pseudoinverse := fun G => ⟨G.n_cols, G.n_rows, fun i j =>
    if i = 0 ∧ j = 0 then 1 / G.get 0 0 else 0⟩

/-- The flat Cartesian vector of two hydrogen atoms 1.4 bohr apart. -/
def hydrogen_cartesian {α : Type} [LinearOrderedField α] : Vec α :=
  ⟨6, fun k => ([0, 0, 0, 7 / 5, 0, 0] : List α).getD k 0⟩

end samples

end irc

/-! ## The linearity test of `dihedrals` -/

namespace irc

namespace connectivity

open molecule

/-- The test that sets the flag `linear` in the loop of `dihedrals`: one of the
two sub-angles `a` of the candidate satisfies `std::abs(a - 180) < epsilon`. -/
def judged_linear {α : Type} [LinearOrderedField α] [Cmath α] (molecule : Molecule α)
    (epsilon : α) (dd : Dihedral) : Bool :=
  decide (|angle_mol (Angle.mk dd.i dd.j dd.k) molecule - 180| < epsilon ∨
    |angle_mol (Angle.mk dd.j dd.k dd.l) molecule - 180| < epsilon)

end connectivity

end irc

/-! ## Doubles with their special values -/

namespace irc

/-- A `double` with the special values that an ordered field lacks: NaN, the
two infinities and the sign of zero. A finite value is its sign bit and its
magnitude, so `fin true 0` is `-0.0`. The operations follow IEEE 754 on the
special values and are exact otherwise: rounding and overflow are left out. -/
inductive Ieee (α : Type) where
  | nan : Ieee α
  | inf (negative : Bool) : Ieee α
  | fin (negative : Bool) (magnitude : α) : Ieee α

namespace Ieee

variable {α : Type} [LinearOrderedField α]

/-- The number with sign bit `s` and magnitude `m`. -/
def signed (s : Bool) (m : α) : α := if s then -m else m

/-- The test `std::isnan`. -/
def isNaN : Ieee α → Bool
  | nan => true
  | _ => false

/-- Unary minus: the sign bit is flipped. -/
def neg : Ieee α → Ieee α
  | nan => nan
  | inf s => inf (!s)
  | fin s m => fin (!s) m

/-- Addition: a sum of two zeros is `-0.0` only when both are, and a sum of
two opposite numbers is `+0.0`. -/
def add : Ieee α → Ieee α → Ieee α
  | nan, _ => nan
  | inf _, nan => nan
  | inf s, inf t => if s = t then inf s else nan
  | inf s, fin _ _ => inf s
  | fin _ _, nan => nan
  | fin _ _, inf t => inf t
  | fin s m, fin t n =>
    if s = t then fin s (m + n)
    else if n < m then fin s (m - n)
    else if m < n then fin t (n - m)
    else fin false 0

/-- Multiplication: the sign of the product is the exclusive or of the signs,
and zero times infinity is NaN. -/
def mul : Ieee α → Ieee α → Ieee α
  | nan, _ => nan
  | inf _, nan => nan
  | inf s, inf t => inf (xor s t)
  | inf s, fin t n => if n = 0 then nan else inf (xor s t)
  | fin _ _, nan => nan
  | fin s m, inf t => if m = 0 then nan else inf (xor s t)
  | fin s m, fin t n => fin (xor s t) (m * n)

/-- Division: zero by zero and infinity by infinity are NaN, another number
by zero is an infinity. -/
def div : Ieee α → Ieee α → Ieee α
  | nan, _ => nan
  | inf _, nan => nan
  | inf _, inf _ => nan
  | inf s, fin t _ => inf (xor s t)
  | fin _ _, nan => nan
  | fin s _, inf t => fin (xor s t) 0
  | fin s m, fin t n =>
    if n = 0 then (if m = 0 then nan else inf (xor s t)) else fin (xor s t) (m / n)

/-- The comparison `a <= b` of doubles: false when either side is NaN, and
`-0.0` compares as zero. -/
def le : Ieee α → Ieee α → Prop
  | nan, _ => False
  | inf _, nan => False
  | inf s, inf t => s = true ∨ t = false
  | inf s, fin _ _ => s = true
  | fin _ _, nan => False
  | fin _ _, inf t => t = false
  | fin s m, fin t n => signed s m ≤ signed t n

instance instZero : Zero (Ieee α) := ⟨fin false 0⟩

instance instNeg : Neg (Ieee α) := ⟨neg⟩

instance instAdd : Add (Ieee α) := ⟨add⟩

instance instSub : Sub (Ieee α) := ⟨fun a b => add a (neg b)⟩

instance instMul : Mul (Ieee α) := ⟨mul⟩

instance instDiv : Div (Ieee α) := ⟨div⟩

instance instLE : LE (Ieee α) := ⟨le⟩

/-- The functions `std::sqrt`, `std::acos` and `std::atan2` on doubles, built
on the functions of the field: `sqrt(-0.0)` is `-0.0`, `acos` is NaN outside
`[-1, 1]`, and `atan2(y, x)` carries the sign of `y`, so that it is `-π` for
`y = -0.0` and a negative `x`. -/
instance instCmath [Cmath α] : Cmath (Ieee α) where
  sqrt := fun a =>
    match a with
    | nan => nan
    | inf s => if s then nan else inf false
    | fin s m => if s then (if m = 0 then fin true 0 else nan) else fin false (Cmath.sqrt m)
  acos := fun a =>
    match a with
    | nan => nan
    | inf _ => nan
    | fin s m => if m ≤ 1 then fin false (Cmath.acos (signed s m)) else nan
  atan2 := fun y x =>
    match y, x with
    | nan, _ => nan
    | inf _, nan => nan
    | inf sy, inf sx => fin sy (if sx then 3 * Cmath.pi / 4 else Cmath.pi / 4)
    | inf sy, fin _ _ => fin sy (Cmath.pi / 2)
    | fin _ _, nan => nan
    | fin sy _, inf sx => fin sy (if sx then Cmath.pi else 0)
    | fin sy my, fin sx mx =>
      if mx = 0 then
        (if my = 0 then fin sy (if sx then Cmath.pi else 0) else fin sy (Cmath.pi / 2))
      else fin sy (Cmath.atan2 my (signed sx mx))
  pi := fin false Cmath.pi

end Ieee

namespace samples

/-- Four atoms at (0, 1, 0), (0, 0, 0), (1, 0, 0) and (1, -1, 0), as a flat
vector of doubles: a planar chain in the trans arrangement. -/
def trans_chain_x {α : Type} [LinearOrderedField α] : Vec (Ieee α) :=
  ⟨12, fun t => ([Ieee.fin false 0, Ieee.fin false 1, Ieee.fin false 0,
    Ieee.fin false 0, Ieee.fin false 0, Ieee.fin false 0,
    Ieee.fin false 1, Ieee.fin false 0, Ieee.fin false 0,
    Ieee.fin false 1, Ieee.fin true 1, Ieee.fin false 0] : List (Ieee α)).getD t 0⟩

/-- Three atoms at (0, 0, 0), (0, 0, 0) and (1, 0, 0), as a flat vector of
doubles: the first two coincide. -/
def coincident_x {α : Type} [LinearOrderedField α] : Vec (Ieee α) :=
  ⟨9, fun t => ([Ieee.fin false 0, Ieee.fin false 0, Ieee.fin false 0,
    Ieee.fin false 0, Ieee.fin false 0, Ieee.fin false 0,
    Ieee.fin false 1, Ieee.fin false 0, Ieee.fin false 0] : List (Ieee α)).getD t 0⟩

end samples

end irc

/-! # Theorems -/

namespace irc
namespace connectivity
open molecule

/-! ## Loops that push onto a vector -/

section loops

variable {β γ ε : Type}

theorem foldl_append_flatMap (F : List β → γ → List β) (L : γ → List β) (xs : List γ)
    (h : ∀ x ∈ xs, ∀ acc, F acc x = acc ++ L x) (acc : List β) :
    xs.foldl F acc = acc ++ xs.flatMap L := by
  induction xs generalizing acc with
  | nil => simp
  | cons x xs ih =>
    have hx := h x (List.mem_cons_self x xs) acc
    have hxs : ∀ y ∈ xs, ∀ acc, F acc y = acc ++ L y :=
      fun y hy => h y (List.mem_cons_of_mem x hy)
    simp [List.foldl_cons, hx, ih hxs, List.flatMap_cons, List.append_assoc]

theorem foldl_push_filter (p : γ → Prop) [DecidablePred p] (f : γ → β) (xs : List γ)
    (acc : List β) :
    xs.foldl (fun b x => if p x then b ++ [f x] else b) acc
      = acc ++ (xs.filter (fun x => decide (p x))).map f := by
  induction xs generalizing acc with
  | nil => simp
  | cons x xs ih =>
    by_cases hp : p x <;> simp [List.foldl_cons, hp, ih, List.filter_cons]

theorem foldlM_ok_flatMap (F : List β → γ → Except ε (List β)) (L : γ → List β)
    (xs : List γ) (h : ∀ x ∈ xs, ∀ acc, F acc x = Except.ok (acc ++ L x)) (acc : List β) :
    xs.foldlM F acc = Except.ok (acc ++ xs.flatMap L) := by
  induction xs generalizing acc with
  | nil => simp [pure, Except.pure]
  | cons x xs ih =>
    have hx := h x (List.mem_cons_self x xs) acc
    have hxs : ∀ y ∈ xs, ∀ acc, F acc y = Except.ok (acc ++ L y) :=
      fun y hy => h y (List.mem_cons_of_mem x hy)
    simp [List.foldlM_cons, hx, bind, Except.bind, ih hxs, List.flatMap_cons,
      List.append_assoc]

theorem foldlM_error_of_mem (F : List β → γ → Except ε (List β)) (e : ε)
    (xs : List γ)
    (h : ∀ x ∈ xs, ∀ acc, (∃ l, F acc x = Except.ok l) ∨ F acc x = Except.error e)
    (hx : ∃ x ∈ xs, ∀ acc, F acc x = Except.error e) (acc : List β) :
    xs.foldlM F acc = Except.error e := by
  induction xs generalizing acc with
  | nil => obtain ⟨x, hx, _⟩ := hx; simp at hx
  | cons y ys ih =>
    rw [List.foldlM_cons]
    rcases h y (List.mem_cons_self y ys) acc with ⟨l, hl⟩ | he
    · obtain ⟨x, hxm, hxe⟩ := hx
      rcases List.mem_cons.mp hxm with rfl | hxm
      · rw [hxe acc] at hl; cases hl
      · rw [hl]
        exact ih (fun z hz => h z (List.mem_cons_of_mem y hz)) ⟨x, hxm, hxe⟩ l
    · rw [he]; rfl

end loops

end connectivity
end irc

namespace irc
namespace connectivity
open molecule

section enumeration_lemmas

variable {α : Type} [LinearOrderedField α]

/-- A `flatMap` over distinct keys is duplicate-free when each block is and
blocks with different keys share no element. -/
theorem nodup_flatMap_of_key {γ β : Type} (xs : List γ) (L : γ → List β)
    (hxs : xs.Nodup) (hL : ∀ x ∈ xs, (L x).Nodup)
    (hkey : ∀ x ∈ xs, ∀ y ∈ xs, ∀ b, b ∈ L x → b ∈ L y → x = y) :
    (xs.flatMap L).Nodup := by
  rw [List.nodup_flatMap]
  refine ⟨hL, ?_⟩
  have hpw : xs.Pairwise (fun a b => a ≠ b) := hxs
  refine (List.Pairwise.and_mem.mp hpw).imp ?_
  rintro a b ⟨ha, hb, hab⟩
  intro l hla hlb
  exact hab (hkey a ha b hb l hla hlb)

theorem bonds_eq (distance_m : Mat α) (molecule : Molecule α) :
    bonds distance_m molecule =
      (List.range molecule.length).flatMap fun j =>
        ((List.range j).filter fun i => decide (distance_m.get i j = 1)).map
          fun i => Bond.mk i j := by
  unfold bonds
  simp only []
  rw [foldl_append_flatMap _ (fun j =>
    ((List.range j).filter fun i => decide (distance_m.get i j = 1)).map
      fun i => Bond.mk i j)]
  · simp
  · intro j _ acc
    exact foldl_push_filter (fun i => distance_m.get i j = 1) (fun i => Bond.mk i j) _ acc

theorem mem_bonds (distance_m : Mat α) (molecule : Molecule α) (b : Bond) :
    b ∈ bonds distance_m molecule ↔
      b.i < b.j ∧ b.j < molecule.length ∧ distance_m.get b.i b.j = 1 := by
  rw [bonds_eq]
  simp only [List.mem_flatMap, List.mem_map, List.mem_filter, List.mem_range,
    decide_eq_true_eq]
  constructor
  · rintro ⟨j, hj, i, ⟨hi, hd⟩, rfl⟩
    exact ⟨hi, hj, hd⟩
  · rintro ⟨hi, hj, hd⟩
    exact ⟨b.j, hj, b.i, ⟨hi, hd⟩, rfl⟩

theorem nodup_bonds (distance_m : Mat α) (molecule : Molecule α) :
    (bonds distance_m molecule).Nodup := by
  rw [bonds_eq]
  apply nodup_flatMap_of_key _ _ (List.nodup_range _)
  · intro j _
    refine ((List.nodup_range j).filter _).map ?_
    intro a b hab
    exact congrArg Bond.i hab
  · intro x _ y _ b hbx hby
    simp only [List.mem_map, List.mem_filter] at hbx hby
    obtain ⟨_, _, rfl⟩ := hbx
    obtain ⟨_, _, h⟩ := hby
    exact (congrArg Bond.j h).symm

end enumeration_lemmas

end connectivity
end irc

namespace irc
namespace connectivity
open molecule

section enumeration_lemmas2

variable {α : Type} [LinearOrderedField α]

theorem foldl_flatMap_eq {β γ δ : Type} (g : δ → β → δ) (f : γ → List β) (xs : List γ)
    (a : δ) :
    (xs.flatMap f).foldl g a = xs.foldl (fun a x => (f x).foldl g a) a := by
  induction xs generalizing a with
  | nil => simp
  | cons x xs ih => simp [List.flatMap_cons, List.foldl_append, ih]

theorem angles_pair_eq (i j : Nat) (distance : Mat α) :
    angles_pair i j distance =
      ((List.range (Nat.sqrt (linalg.size distance))).filter fun k =>
        decide (distance.get k i = 1 ∧ distance.get k j = 1)).map
          fun k => Angle.mk i k j := by
  unfold angles_pair
  simp only []
  rw [foldl_push_filter (fun k => distance.get k i = 1 ∧ distance.get k j = 1)
    (fun k => Angle.mk i k j)]
  simp

theorem mem_angles_pair (i j : Nat) (distance : Mat α) (a : Angle) :
    a ∈ angles_pair i j distance ↔
      a.i = i ∧ a.k = j ∧ a.j < Nat.sqrt (linalg.size distance) ∧
        distance.get a.j i = 1 ∧ distance.get a.j j = 1 := by
  rw [angles_pair_eq]
  simp only [List.mem_map, List.mem_filter, List.mem_range, decide_eq_true_eq]
  constructor
  · rintro ⟨k, ⟨hk, h1, h2⟩, rfl⟩
    exact ⟨rfl, rfl, hk, h1, h2⟩
  · rintro ⟨rfl, rfl, hk, h1, h2⟩
    exact ⟨a.j, ⟨hk, h1, h2⟩, rfl⟩

theorem nodup_angles_pair (i j : Nat) (distance : Mat α) :
    (angles_pair i j distance).Nodup := by
  rw [angles_pair_eq]
  refine ((List.nodup_range _).filter _).map ?_
  intro a b hab
  exact congrArg Angle.j hab

theorem mem_angle_candidates (distance_m : Mat α) (n_atoms : Nat) (a : Angle) :
    a ∈ angle_candidates distance_m n_atoms ↔
      a.i < a.k ∧ a.k < n_atoms ∧ a.j < Nat.sqrt (linalg.size distance_m) ∧
        distance_m.get a.i a.k ≤ 2 ∧
        distance_m.get a.j a.i = 1 ∧ distance_m.get a.j a.k = 1 := by
  unfold angle_candidates
  simp only [List.mem_flatMap, List.mem_range]
  constructor
  · rintro ⟨j, hj, i, hi, h⟩
    split at h
    · rename_i hd
      obtain ⟨rfl, rfl, hk, h1, h2⟩ := (mem_angles_pair _ _ _ _).mp h
      exact ⟨hi, hj, hk, hd, h1, h2⟩
    · simp at h
  · rintro ⟨hi, hj, hk, hd, h1, h2⟩
    refine ⟨a.k, hj, a.i, hi, ?_⟩
    rw [if_pos hd]
    exact (mem_angles_pair _ _ _ _).mpr ⟨rfl, rfl, hk, h1, h2⟩

theorem nodup_angle_candidates (distance_m : Mat α) (n_atoms : Nat) :
    (angle_candidates distance_m n_atoms).Nodup := by
  unfold angle_candidates
  apply nodup_flatMap_of_key _ _ (List.nodup_range _)
  · intro j _
    apply nodup_flatMap_of_key _ _ (List.nodup_range _)
    · intro i _
      split
      · exact nodup_angles_pair _ _ _
      · exact List.nodup_nil
    · intro x _ y _ b hbx hby
      split at hbx
      · split at hby
        · rw [← ((mem_angles_pair _ _ _ _).mp hbx).1, ← ((mem_angles_pair _ _ _ _).mp hby).1]
        · simp at hby
      · simp at hbx
  · intro x _ y _ b hbx hby
    simp only [List.mem_flatMap] at hbx hby
    obtain ⟨i, _, hbx⟩ := hbx
    obtain ⟨i', _, hby⟩ := hby
    split at hbx
    · split at hby
      · rw [← ((mem_angles_pair _ _ _ _).mp hbx).2.1,
          ← ((mem_angles_pair _ _ _ _).mp hby).2.1]
      · simp at hby
    · simp at hbx

end enumeration_lemmas2

section angles_lemmas

variable {α : Type} [LinearOrderedField α] [Cmath α]

theorem foldlM_flatMap_eq {β γ δ ε : Type} (g : δ → β → Except ε δ) (f : γ → List β)
    (xs : List γ) (a : δ) :
    (xs.flatMap f).foldlM g a = xs.foldlM (fun a x => (f x).foldlM g a) a := by
  induction xs generalizing a with
  | nil => simp
  | cons x xs ih =>
    simp only [List.flatMap_cons, List.foldlM_append, List.foldlM_cons]
    congr 1
    funext b
    exact ih b

/-- The three nested loops of `angles` are one loop over the candidate list. -/
theorem angles_eq_foldlM (distance_m predecessors_m : Mat α) (molecule : Molecule α) :
    angles distance_m predecessors_m molecule =
      (angle_candidates distance_m molecule.length).foldlM (angles_step molecule) [] := by
  unfold angles angle_candidates
  simp only [foldlM_flatMap_eq]
  congr 1
  funext ang j
  congr 1
  funext ang i
  split <;> simp [pure, Except.pure]

theorem angles_eq_ok (distance_m predecessors_m : Mat α) (molecule : Molecule α)
    (h : ∀ aa ∈ angle_candidates distance_m molecule.length,
      ¬ angle_mol aa molecule > tools.constants.quasi_linear_angle) :
    angles distance_m predecessors_m molecule =
      Except.ok (angle_candidates distance_m molecule.length) := by
  rw [angles_eq_foldlM, foldlM_ok_flatMap _ (fun aa => [aa])]
  · simp
  · intro aa haa acc
    unfold angles_step
    simp only []
    rw [if_neg (h aa haa)]

theorem angles_eq_error (distance_m predecessors_m : Mat α) (molecule : Molecule α)
    (h : ∃ aa ∈ angle_candidates distance_m molecule.length,
      angle_mol aa molecule > tools.constants.quasi_linear_angle) :
    angles distance_m predecessors_m molecule =
      Except.error "Quasi-linear angle not treated properly yet." := by
  rw [angles_eq_foldlM]
  apply foldlM_error_of_mem
  · intro x _ acc
    unfold angles_step
    by_cases hx : angle_mol x molecule > tools.constants.quasi_linear_angle
    · right; simp only []; rw [if_pos hx]
    · left; exact ⟨_, by simp only []; rw [if_neg hx]⟩
  · obtain ⟨aa, hc, ha⟩ := h
    refine ⟨aa, hc, fun acc => ?_⟩
    unfold angles_step
    simp only []
    rw [if_pos ha]

end angles_lemmas

end connectivity
end irc

namespace irc
namespace connectivity
open molecule

section dihedral_lemmas

variable {α : Type} [LinearOrderedField α]

theorem dihedrals_pair_eq (i j : Nat) (distance : Mat α) :
    dihedrals_pair i j distance =
      (List.range (Nat.sqrt (linalg.size distance))).flatMap fun k =>
        if distance.get k i = 1 ∧ distance.get k j = 2 then
          ((List.range (Nat.sqrt (linalg.size distance))).filter fun l =>
            decide (distance.get l i = 2 ∧ distance.get l j = 1 ∧ distance.get l k = 1)).map
              fun l => Dihedral.mk i k l j
        else [] := by
  unfold dihedrals_pair
  simp only []
  rw [foldl_append_flatMap _ (fun k =>
    if distance.get k i = 1 ∧ distance.get k j = 2 then
      ((List.range (Nat.sqrt (linalg.size distance))).filter fun l =>
        decide (distance.get l i = 2 ∧ distance.get l j = 1 ∧ distance.get l k = 1)).map
          fun l => Dihedral.mk i k l j
    else [])]
  · simp
  · intro k _ acc
    by_cases hk : distance.get k i = 1 ∧ distance.get k j = 2
    · rw [if_pos hk, if_pos hk]
      exact foldl_push_filter
        (fun l => distance.get l i = 2 ∧ distance.get l j = 1 ∧ distance.get l k = 1)
        (fun l => Dihedral.mk i k l j) _ acc
    · rw [if_neg hk, if_neg hk]; simp

theorem mem_dihedrals_pair (i j : Nat) (distance : Mat α) (d : Dihedral) :
    d ∈ dihedrals_pair i j distance ↔
      d.i = i ∧ d.l = j ∧
        d.j < Nat.sqrt (linalg.size distance) ∧ d.k < Nat.sqrt (linalg.size distance) ∧
        distance.get d.j i = 1 ∧ distance.get d.j j = 2 ∧
        distance.get d.k i = 2 ∧ distance.get d.k j = 1 ∧ distance.get d.k d.j = 1 := by
  rw [dihedrals_pair_eq]
  simp only [List.mem_flatMap, List.mem_range]
  constructor
  · rintro ⟨k, hk, h⟩
    split at h
    · rename_i hc
      simp only [List.mem_map, List.mem_filter, List.mem_range, decide_eq_true_eq] at h
      obtain ⟨l, ⟨hl, h1, h2, h3⟩, rfl⟩ := h
      exact ⟨rfl, rfl, hk, hl, hc.1, hc.2, h1, h2, h3⟩
    · simp at h
  · rintro ⟨rfl, rfl, hk, hl, h1, h2, h3, h4, h5⟩
    refine ⟨d.j, hk, ?_⟩
    rw [if_pos ⟨h1, h2⟩]
    simp only [List.mem_map, List.mem_filter, List.mem_range, decide_eq_true_eq]
    exact ⟨d.k, ⟨hl, h3, h4, h5⟩, rfl⟩

theorem nodup_dihedrals_pair (i j : Nat) (distance : Mat α) :
    (dihedrals_pair i j distance).Nodup := by
  rw [dihedrals_pair_eq]
  apply nodup_flatMap_of_key _ _ (List.nodup_range _)
  · intro k _
    split
    · refine ((List.nodup_range _).filter _).map ?_
      intro a b hab
      exact congrArg Dihedral.k hab
    · exact List.nodup_nil
  · intro x _ y _ b hbx hby
    split at hbx
    · split at hby
      · simp only [List.mem_map] at hbx hby
        obtain ⟨_, _, rfl⟩ := hbx
        obtain ⟨_, _, h⟩ := hby
        exact (congrArg Dihedral.j h).symm
      · simp at hby
    · simp at hbx

theorem mem_dihedral_candidates (distance_m : Mat α) (n_atoms : Nat) (d : Dihedral) :
    d ∈ dihedral_candidates distance_m n_atoms ↔
      d.i < d.l ∧ d.l < n_atoms ∧ distance_m.get d.i d.l ≤ 3 ∧
        d.j < Nat.sqrt (linalg.size distance_m) ∧
        d.k < Nat.sqrt (linalg.size distance_m) ∧
        distance_m.get d.j d.i = 1 ∧ distance_m.get d.j d.l = 2 ∧
        distance_m.get d.k d.i = 2 ∧ distance_m.get d.k d.l = 1 ∧
        distance_m.get d.k d.j = 1 := by
  unfold dihedral_candidates
  simp only [List.mem_flatMap, List.mem_range]
  constructor
  · rintro ⟨j, hj, i, hi, h⟩
    split at h
    · rename_i hd
      obtain ⟨rfl, rfl, h'⟩ := (mem_dihedrals_pair _ _ _ _).mp h
      exact ⟨hi, hj, hd, h'⟩
    · simp at h
  · rintro ⟨hi, hj, hd, h'⟩
    refine ⟨d.l, hj, d.i, hi, ?_⟩
    rw [if_pos hd]
    exact (mem_dihedrals_pair _ _ _ _).mpr ⟨rfl, rfl, h'⟩

theorem nodup_dihedral_candidates (distance_m : Mat α) (n_atoms : Nat) :
    (dihedral_candidates distance_m n_atoms).Nodup := by
  unfold dihedral_candidates
  apply nodup_flatMap_of_key _ _ (List.nodup_range _)
  · intro j _
    apply nodup_flatMap_of_key _ _ (List.nodup_range _)
    · intro i _
      split
      · exact nodup_dihedrals_pair _ _ _
      · exact List.nodup_nil
    · intro x _ y _ b hbx hby
      split at hbx
      · split at hby
        · rw [← ((mem_dihedrals_pair _ _ _ _).mp hbx).1,
            ← ((mem_dihedrals_pair _ _ _ _).mp hby).1]
        · simp at hby
      · simp at hbx
  · intro x _ y _ b hbx hby
    simp only [List.mem_flatMap] at hbx hby
    obtain ⟨i, _, hbx⟩ := hbx
    obtain ⟨i', _, hby⟩ := hby
    split at hbx
    · split at hby
      · rw [← ((mem_dihedrals_pair _ _ _ _).mp hbx).2.1,
          ← ((mem_dihedrals_pair _ _ _ _).mp hby).2.1]
      · simp at hby
    · simp at hbx

variable [Cmath α]

/-- The three nested loops of `dihedrals` are one loop over the candidate list. -/
theorem dihedrals_eq_foldl (distance_m predecessors_m : Mat α) (molecule : Molecule α)
    (epsilon : α) :
    dihedrals distance_m predecessors_m molecule epsilon =
      ((dihedral_candidates distance_m molecule.length).foldl
        (dihedrals_step molecule epsilon) ([], false)).1 := by
  unfold dihedrals dihedral_candidates
  simp only [foldl_flatMap_eq]
  congr 2
  funext st j
  congr 1
  funext st i
  split <;> simp

/-- The loop of `dihedrals` stores a sublist of what it visits. -/
theorem dihedrals_fold_sublist (molecule : Molecule α) (epsilon : α) (xs : List Dihedral)
    (st : List Dihedral × Bool) :
    ∃ ys, ys.Sublist xs ∧ (xs.foldl (dihedrals_step molecule epsilon) st).1 = st.1 ++ ys := by
  induction xs generalizing st with
  | nil => exact ⟨[], List.Sublist.refl _, by simp⟩
  | cons x xs ih =>
    obtain ⟨ys, hys, h⟩ := ih (dihedrals_step molecule epsilon st x)
    have hstep : (dihedrals_step molecule epsilon st x).1 = st.1 ++ [x] ∨
        (dihedrals_step molecule epsilon st x).1 = st.1 := by
      unfold dihedrals_step
      simp only []
      split_ifs <;> simp
    rw [List.foldl_cons, h]
    rcases hstep with hs | hs
    · exact ⟨x :: ys, hys.cons₂ x, by rw [hs]; simp⟩
    · exact ⟨ys, hys.cons x, by rw [hs]⟩

/-- While no sub-angle is judged linear, the loop of `dihedrals` stores every
candidate and leaves the flag down. -/
theorem dihedrals_fold_all (molecule : Molecule α) (epsilon : α) (xs : List Dihedral)
    (h : ∀ dd ∈ xs, ¬ |angle_mol (Angle.mk dd.i dd.j dd.k) molecule - 180| < epsilon ∧
      ¬ |angle_mol (Angle.mk dd.j dd.k dd.l) molecule - 180| < epsilon)
    (acc : List Dihedral) :
    xs.foldl (dihedrals_step molecule epsilon) (acc, false) = (acc ++ xs, false) := by
  induction xs generalizing acc with
  | nil => simp
  | cons x xs ih =>
    have hx := h x (List.mem_cons_self x xs)
    have hstep : dihedrals_step molecule epsilon (acc, false) x = (acc ++ [x], false) := by
      unfold dihedrals_step
      simp [hx.1, hx.2]
    rw [List.foldl_cons, hstep, ih (fun y hy => h y (List.mem_cons_of_mem x hy))]
    simp

theorem mem_dihedrals_candidate (distance_m predecessors_m : Mat α)
    (molecule : Molecule α) (epsilon : α) (d : Dihedral)
    (h : d ∈ dihedrals distance_m predecessors_m molecule epsilon) :
    d ∈ dihedral_candidates distance_m molecule.length := by
  rw [dihedrals_eq_foldl] at h
  obtain ⟨ys, hys, heq⟩ := dihedrals_fold_sublist molecule epsilon
    (dihedral_candidates distance_m molecule.length) ([], false)
  rw [heq] at h
  exact hys.subset (by simpa using h)

end dihedral_lemmas

section real_lemmas

theorem angle_real_le_pi (v1 v2 v3 : Vec3 ℝ) : angle v1 v2 v3 ≤ Real.pi :=
  Real.arccos_le_pi _

theorem angle_real_nonneg (v1 v2 v3 : Vec3 ℝ) : 0 ≤ angle v1 v2 v3 :=
  Real.arccos_nonneg _

/-- An angle in radians is never within 176 of the number 180. -/
theorem angle_real_not_near_180 (v1 v2 v3 : Vec3 ℝ) (epsilon : ℝ) (h : epsilon ≤ 176) :
    ¬ |angle v1 v2 v3 - 180| < epsilon := by
  have h1 := angle_real_le_pi v1 v2 v3
  have h2 := Real.pi_le_four
  intro hlt
  rw [abs_lt] at hlt
  linarith [hlt.1]

theorem dihedrals_real_eq_candidates (distance_m predecessors_m : Mat ℝ)
    (molecule : Molecule ℝ) (epsilon : ℝ) (h : epsilon ≤ 176) :
    dihedrals distance_m predecessors_m molecule epsilon =
      dihedral_candidates distance_m molecule.length := by
  rw [dihedrals_eq_foldl, dihedrals_fold_all]
  · simp
  · intro dd _
    exact ⟨angle_real_not_near_180 _ _ _ _ h, angle_real_not_near_180 _ _ _ _ h⟩

end real_lemmas

end connectivity
end irc

namespace irc
namespace connectivity

/-! ## Shortest paths -/

section dijkstra

theorem mem_out_edges (ug : UGraph) (u v w : Nat) :
    (v, w) ∈ ug.out_edges u ↔
      ∃ e ∈ ug.edges, e.weight = w ∧
        ((e.source = u ∧ e.target = v) ∨ (e.target = u ∧ e.source = v)) := by
  unfold UGraph.out_edges
  simp only [List.mem_flatMap, List.mem_append]
  constructor
  · rintro ⟨e, he, h | h⟩
    · split at h
      · rename_i hs
        simp only [List.mem_singleton, Prod.mk.injEq] at h
        exact ⟨e, he, h.2.symm, Or.inl ⟨hs, h.1.symm⟩⟩
      · simp at h
    · split at h
      · rename_i hs
        simp only [List.mem_singleton, Prod.mk.injEq] at h
        exact ⟨e, he, h.2.symm, Or.inr ⟨hs, h.1.symm⟩⟩
      · simp at h
  · rintro ⟨e, he, hw, h | h⟩
    · exact ⟨e, he, Or.inl (by rw [if_pos h.1]; simp [h.2, hw])⟩
    · exact ⟨e, he, Or.inr (by rw [if_pos h.1]; simp [h.2, hw])⟩

theorem adj_of_mem_out_edges (ug : UGraph) (u v w : Nat) (h : (v, w) ∈ ug.out_edges u) :
    ug.Adj u v := by
  obtain ⟨e, he, _, h | h⟩ := (mem_out_edges ug u v w).mp h
  · exact ⟨e, he, Or.inl h⟩
  · exact ⟨e, he, Or.inr ⟨h.2, h.1⟩⟩

theorem mem_out_edges_of_adj (ug : UGraph) (hw : ∀ e ∈ ug.edges, e.weight = 1) (u v : Nat)
    (h : ug.Adj u v) : (v, 1) ∈ ug.out_edges u := by
  obtain ⟨e, he, h | h⟩ := h
  · exact (mem_out_edges ug u v 1).mpr ⟨e, he, hw e he, Or.inl h⟩
  · exact (mem_out_edges ug u v 1).mpr ⟨e, he, hw e he, Or.inr ⟨h.2, h.1⟩⟩

theorem adj_lt (ug : UGraph) (u v : Nat) (h : ug.Adj u v) :
    u < ug.num_vertices ∧ v < ug.num_vertices := by
  obtain ⟨e, he, h | h⟩ := h
  · have := ug.valid e he; rw [h.1, h.2] at this; exact this
  · have := ug.valid e he; rw [h.1, h.2] at this; exact ⟨this.2, this.1⟩

theorem adj_symm (ug : UGraph) (u v : Nat) (h : ug.Adj u v) : ug.Adj v u := by
  obtain ⟨e, he, h⟩ := h
  exact ⟨e, he, h.symm⟩

theorem relax_finished (u : Nat) (st : DijkstraState) (e : Nat × Nat) :
    (relax u st e).finished = st.finished := by
  unfold relax
  split
  · rfl
  · split <;> rfl

theorem relax_d_map (u du : Nat) (st : DijkstraState) (e : Nat × Nat)
    (hu : st.d_map u = some du) (x : Nat) :
    (relax u st e).d_map x =
      if x = e.1 ∧ lt_inf (du + e.2) (st.d_map x) = true then some (du + e.2)
      else st.d_map x := by
  unfold relax
  rw [hu]
  simp only []
  by_cases hx : x = e.1
  · subst hx
    by_cases hl : lt_inf (du + e.2) (st.d_map e.1) = true
    · simp [hl]
    · simp [hl]
  · by_cases hl : lt_inf (du + e.2) (st.d_map e.1) = true
    · simp [hl, hx]
    · simp [hl, hx]

theorem lt_inf_self_succ (du w : Nat) : lt_inf (du + w) (some du) = false := by
  simp [lt_inf]

/-- Relaxing all the unit-weight out-edges `es` of `u`, in closed form. -/
theorem relax_fold (u du : Nat) (es : List (Nat × Nat)) (hes : ∀ e ∈ es, e.2 = 1)
    (st : DijkstraState) (hu : st.d_map u = some du) :
    (es.foldl (relax u) st).finished = st.finished ∧
      ∀ x, (es.foldl (relax u) st).d_map x =
        if (∃ e ∈ es, e.1 = x) ∧ lt_inf (du + 1) (st.d_map x) = true then some (du + 1)
        else st.d_map x := by
  induction es generalizing st with
  | nil => simp
  | cons e es ih =>
    have he : e.2 = 1 := hes e (List.mem_cons_self e es)
    have h1 : ∀ x, (relax u st e).d_map x =
        if x = e.1 ∧ lt_inf (du + 1) (st.d_map x) = true then some (du + 1)
        else st.d_map x := by
      intro x
      have := relax_d_map u du st e hu x
      rw [he] at this
      exact this
    have hu1 : (relax u st e).d_map u = some du := by
      rw [h1 u, hu, lt_inf_self_succ]
      simp
    obtain ⟨hf, hd⟩ := ih (fun e' he' => hes e' (List.mem_cons_of_mem e he'))
      (relax u st e) hu1
    refine ⟨by rw [List.foldl_cons, hf, relax_finished], fun x => ?_⟩
    rw [List.foldl_cons, hd x]
    by_cases hl : lt_inf (du + 1) (st.d_map x) = true
    · by_cases hx : x = e.1
      · have this : lt_inf (du + 1) (some (du + 1)) = false := by simp [lt_inf]
        have e1 : (relax u st e).d_map x = some (du + 1) := by
          rw [h1 x]; exact if_pos ⟨hx, hl⟩
        rw [e1, this, if_neg (fun h => Bool.false_ne_true h.2)]
        exact (if_pos ⟨⟨e, List.mem_cons_self e es, hx.symm⟩, hl⟩).symm
      · have hiff : (∃ e' ∈ e :: es, e'.1 = x) ↔ (∃ e' ∈ es, e'.1 = x) := by
          constructor
          · rintro ⟨e', he', hx'⟩
            rcases List.mem_cons.mp he' with rfl | he'
            · exact absurd hx'.symm hx
            · exact ⟨e', he', hx'⟩
          · rintro ⟨e', he', hx'⟩
            exact ⟨e', List.mem_cons_of_mem e he', hx'⟩
        have e1 : (relax u st e).d_map x = st.d_map x := by
          rw [h1 x]; exact if_neg (fun h => hx h.1)
        rw [e1]
        simp only [hiff]
    · have e1 : (relax u st e).d_map x = st.d_map x := by
        rw [h1 x]; exact if_neg (fun h => hl h.2)
      rw [e1]
      simp [hl]

end dijkstra

end connectivity
end irc

namespace irc
namespace connectivity

section dijkstra_invariant

theorem mem_queue (n : Nat) (st : DijkstraState) (v : Nat) :
    v ∈ queue n st ↔ v < n ∧ v ∉ st.finished ∧ ∃ dv, st.d_map v = some dv := by
  unfold queue
  simp only [List.mem_filter, List.mem_range, Bool.and_eq_true, decide_eq_true_eq,
    Option.isSome_iff_exists]

theorem lt_inf_eq_true (a : Nat) (b : Option Nat) :
    lt_inf a b = true ↔ (b = none ∨ ∃ k, b = some k ∧ a < k) := by
  cases b with
  | none => simp [lt_inf]
  | some k => simp [lt_inf]

theorem dijkstra_inv_init (ug : UGraph) (s : Nat) (hs : s < ug.num_vertices) :
    DijkstraInv ug s ⟨fun v => if v = s then some 0 else none, fun v => v, []⟩ where
  src := by simp
  walk := by
    intro v k h
    simp only [] at h
    split at h
    · rename_i hv
      cases h
      rw [hv]
      exact UGraph.Walk.nil
    · cases h
  dom := by
    intro v k h
    simp only [] at h
    split at h
    · rename_i hv; rw [hv]; exact hs
    · cases h
  fin_some := fun u hu => absurd hu (List.not_mem_nil u)
  nodup := List.nodup_nil
  edge := fun u hu => absurd hu (List.not_mem_nil u)
  le := fun u hu => absurd hu (List.not_mem_nil u)

/-- One round of the main loop keeps the invariant. -/
theorem dijkstra_inv_step (ug : UGraph) (hw : ∀ e ∈ ug.edges, e.weight = 1) (s : Nat)
    (st : DijkstraState) (inv : DijkstraInv ug s st) (u : Nat)
    (hu : u ∈ List.argmin (fun v => (st.d_map v).getD 0) (queue ug.num_vertices st)) :
    DijkstraInv ug s
      ((ug.out_edges u).foldl (relax u) { st with finished := u :: st.finished }) := by
  have huq : u ∈ queue ug.num_vertices st := List.argmin_mem hu
  obtain ⟨_, hufin, du, hdu⟩ := (mem_queue _ _ _).mp huq
  have hmin : ∀ v dv, v ∉ st.finished → st.d_map v = some dv → du ≤ dv := by
    intro v dv hv hdv
    have hvq : v ∈ queue ug.num_vertices st :=
      (mem_queue _ _ _).mpr ⟨inv.dom v dv hdv, hv, dv, hdv⟩
    have := List.le_of_mem_argmin hvq hu
    simpa [hdu, hdv] using this
  have hes : ∀ e ∈ ug.out_edges u, e.2 = 1 := by
    intro e he
    obtain ⟨e', he', hw', _⟩ := (mem_out_edges ug u e.1 e.2).mp he
    rw [← hw', hw e' he']
  obtain ⟨hfin, hd⟩ := relax_fold u du (ug.out_edges u) hes
    { st with finished := u :: st.finished } hdu
  simp only [] at hfin hd
  -- an entry either keeps its value or becomes `du + 1` at a neighbour of `u`
  have hcase : ∀ x, ((ug.out_edges u).foldl (relax u)
        { st with finished := u :: st.finished }).d_map x = st.d_map x ∨
      (((ug.out_edges u).foldl (relax u)
        { st with finished := u :: st.finished }).d_map x = some (du + 1) ∧
        ug.Adj u x ∧ (st.d_map x = none ∨ ∃ k, st.d_map x = some k ∧ du + 1 < k)) := by
    intro x
    rw [hd x]
    split
    · rename_i h
      obtain ⟨⟨e, he, hex⟩, hl⟩ := h
      right
      refine ⟨rfl, ?_, (lt_inf_eq_true _ _).mp hl⟩
      rw [← hex]
      exact adj_of_mem_out_edges ug u e.1 e.2 he
    · left; rfl
  -- entries that are at most `du` keep their value
  have hkeep : ∀ x dx, st.d_map x = some dx → dx ≤ du →
      ((ug.out_edges u).foldl (relax u)
        { st with finished := u :: st.finished }).d_map x = some dx := by
    intro x dx hx hle
    rcases hcase x with h | ⟨_, _, h | ⟨k, hk, hlt⟩⟩
    · rw [h, hx]
    · rw [hx] at h; cases h
    · rw [hx] at hk; cases hk; omega
  have hkeep_fin : ∀ x ∈ st.finished, ((ug.out_edges u).foldl (relax u)
        { st with finished := u :: st.finished }).d_map x = st.d_map x := by
    intro x hx
    obtain ⟨dx, hdx⟩ := inv.fin_some x hx
    rw [hkeep x dx hdx (inv.le x hx u hufin dx du hdx hdu), hdx]
  have hkeep_u : ((ug.out_edges u).foldl (relax u)
        { st with finished := u :: st.finished }).d_map u = some du :=
    hkeep u du hdu (le_refl _)
  -- entries only decrease
  have hdec : ∀ x dx, st.d_map x = some dx →
      ∃ dx', ((ug.out_edges u).foldl (relax u)
        { st with finished := u :: st.finished }).d_map x = some dx' ∧ dx' ≤ dx := by
    intro x dx hx
    rcases hcase x with h | ⟨h, _, h' | ⟨k, hk, hlt⟩⟩
    · exact ⟨dx, by rw [h, hx], le_refl _⟩
    · rw [hx] at h'; cases h'
    · rw [hx] at hk; cases hk; exact ⟨du + 1, h, by omega⟩
  constructor
  · exact hkeep s 0 inv.src (Nat.zero_le _)
  · intro v k hv
    rcases hcase v with h | ⟨h, hadj, _⟩
    · rw [h] at hv; exact inv.walk v k hv
    · rw [h] at hv; cases hv
      exact UGraph.Walk.snoc (inv.walk u du hdu) hadj
  · intro v k hv
    rcases hcase v with h | ⟨_, hadj, _⟩
    · rw [h] at hv; exact inv.dom v k hv
    · exact (adj_lt ug u v hadj).2
  · intro x hx
    rw [hfin] at hx
    rcases List.mem_cons.mp hx with rfl | hx
    · exact ⟨du, hkeep_u⟩
    · obtain ⟨dx, hdx⟩ := inv.fin_some x hx
      exact ⟨dx, by rw [hkeep_fin x hx, hdx]⟩
  · rw [hfin]
    exact List.nodup_cons.mpr ⟨hufin, inv.nodup⟩
  · intro x hx v hadj dx hdx
    rw [hfin] at hx
    rcases List.mem_cons.mp hx with rfl | hx
    · rw [hkeep_u] at hdx
      cases hdx
      have hmem := mem_out_edges_of_adj ug hw x v hadj
      rw [hd v]
      split
      · exact ⟨du + 1, rfl, le_refl _⟩
      · rename_i hn
        have hl : ¬ lt_inf (du + 1) (st.d_map v) = true :=
          fun hl => hn ⟨⟨(v, 1), hmem, rfl⟩, hl⟩
        cases hv : st.d_map v with
        | none => rw [hv] at hl; simp [lt_inf] at hl
        | some dv =>
          rw [hv] at hl
          simp only [lt_inf, decide_eq_true_eq] at hl
          exact ⟨dv, rfl, by omega⟩
    · rw [hkeep_fin x hx] at hdx
      obtain ⟨dv, hdv, hle⟩ := inv.edge x hx v hadj dx hdx
      obtain ⟨dv', hdv', hle'⟩ := hdec v dv hdv
      exact ⟨dv', hdv', by omega⟩
  · intro x hx v hv dx dv hdx hdv
    rw [hfin] at hx hv
    have hvu : v ≠ u := fun h => hv (h ▸ List.mem_cons_self _ _)
    have hvf : v ∉ st.finished := fun h => hv (List.mem_cons_of_mem _ h)
    have hxdu : dx ≤ du := by
      rcases List.mem_cons.mp hx with rfl | hx
      · rw [hkeep_u] at hdx; cases hdx; exact le_refl _
      · rw [hkeep_fin x hx] at hdx
        exact inv.le x hx u hufin dx du hdx hdu
    rcases hcase v with h | ⟨h, _, _⟩
    · rw [h] at hdv
      have := hmin v dv hvf hdv
      omega
    · rw [h] at hdv; cases hdv; omega

end dijkstra_invariant

end connectivity
end irc

namespace irc
namespace connectivity

section dijkstra_correct

theorem dijkstra_loop_inv (ug : UGraph) (hw : ∀ e ∈ ug.edges, e.weight = 1) (s : Nat)
    (fuel : Nat) (st : DijkstraState) (inv : DijkstraInv ug s st) :
    DijkstraInv ug s (dijkstra_loop ug fuel st) := by
  induction fuel generalizing st with
  | zero => exact inv
  | succ fuel ih =>
    unfold dijkstra_loop
    cases h : List.argmin (fun v => (st.d_map v).getD 0) (queue ug.num_vertices st) with
    | none => exact inv
    | some u => exact ih _ (dijkstra_inv_step ug hw s st inv u (by rw [h]; rfl))

/-- A duplicate-free list of `n` numbers below `n` holds every number below `n`. -/
theorem mem_of_nodup_of_length (l : List Nat) (n : Nat) (hl : l.Nodup)
    (hlt : ∀ u ∈ l, u < n) (hlen : n ≤ l.length) (v : Nat) (hv : v < n) : v ∈ l := by
  have hsub : l ⊆ List.range n := fun u hu => List.mem_range.mpr (hlt u hu)
  have hperm := (List.subperm_of_subset hl hsub).perm_of_length_le
    (by rw [List.length_range]; exact hlen)
  exact hperm.symm.subset (List.mem_range.mpr hv)

/-- With fuel for every unfinished vertex the loop ends with an empty queue. -/
theorem dijkstra_loop_queue (ug : UGraph) (hw : ∀ e ∈ ug.edges, e.weight = 1) (s : Nat)
    (fuel : Nat) (st : DijkstraState) (inv : DijkstraInv ug s st)
    (hfuel : ug.num_vertices ≤ fuel + st.finished.length) :
    queue ug.num_vertices (dijkstra_loop ug fuel st) = [] := by
  induction fuel generalizing st with
  | zero =>
    unfold dijkstra_loop
    rw [List.eq_nil_iff_forall_not_mem]
    intro v hv
    obtain ⟨hvn, hvf, _⟩ := (mem_queue _ _ _).mp hv
    apply hvf
    refine mem_of_nodup_of_length st.finished ug.num_vertices inv.nodup ?_ (by omega) v hvn
    intro u hu
    obtain ⟨du, hdu⟩ := inv.fin_some u hu
    exact inv.dom u du hdu
  | succ fuel ih =>
    unfold dijkstra_loop
    cases h : List.argmin (fun v => (st.d_map v).getD 0) (queue ug.num_vertices st) with
    | none => exact List.argmin_eq_none.mp h
    | some u =>
      have hstep := dijkstra_inv_step ug hw s st inv u (by rw [h]; rfl)
      refine ih _ hstep ?_
      have hes : ∀ e ∈ ug.out_edges u, e.2 = 1 := by
        intro e he
        obtain ⟨e', he', hw', _⟩ := (mem_out_edges ug u e.1 e.2).mp he
        rw [← hw', hw e' he']
      have huq : u ∈ queue ug.num_vertices st := List.argmin_mem (by rw [h]; rfl)
      obtain ⟨_, _, du, hdu⟩ := (mem_queue _ _ _).mp huq
      have hfin := (relax_fold u du (ug.out_edges u) hes
        { st with finished := u :: st.finished } hdu).1
      rw [hfin]
      simp only [List.length_cons]
      omega

/-- Along a walk from the source: a finished vertex has a distance no longer
than the walk, and an unfinished one is preceded by a queued vertex. -/
theorem dijkstra_walk_bound (ug : UGraph) (s : Nat) (st : DijkstraState)
    (inv : DijkstraInv ug s st) (m v : Nat) (hwalk : ug.Walk s m v) :
    (v ∈ st.finished → ∃ dv, st.d_map v = some dv ∧ dv ≤ m) ∧
      (v ∉ st.finished → ∃ w, w ∉ st.finished ∧ ∃ dw, st.d_map w = some dw ∧ dw ≤ m) := by
  induction hwalk with
  | nil =>
    exact ⟨fun _ => ⟨0, inv.src, le_refl _⟩, fun h => ⟨s, h, 0, inv.src, le_refl _⟩⟩
  | snoc hwalk hadj ih =>
    rename_i k u v
    by_cases hu : u ∈ st.finished
    · obtain ⟨du, hdu, hle⟩ := ih.1 hu
      obtain ⟨dv, hdv, hle'⟩ := inv.edge u hu v hadj du hdu
      exact ⟨fun _ => ⟨dv, hdv, by omega⟩, fun h => ⟨v, h, dv, hdv, by omega⟩⟩
    · obtain ⟨w, hw, dw, hdw, hle⟩ := ih.2 hu
      refine ⟨fun hv => ?_, fun _ => ⟨w, hw, dw, hdw, by omega⟩⟩
      obtain ⟨dv, hdv⟩ := inv.fin_some v hv
      exact ⟨dv, hdv, by have := inv.le v hv w hw dv dw hdv hdw; omega⟩

/-- Correctness of the shortest-path model on a graph with unit weights: the
distance map holds, for every vertex joined to the source, the number of edges
of a shortest path. -/
theorem dijkstra_some_iff (ug : UGraph) (hw : ∀ e ∈ ug.edges, e.weight = 1) (s : Nat)
    (hs : s < ug.num_vertices) (v k : Nat) :
    (dijkstra_shortest_paths ug s).1 v = some k ↔ ug.IsDistance s v k := by
  unfold dijkstra_shortest_paths
  simp only []
  have inv := dijkstra_loop_inv ug hw s ug.num_vertices _ (dijkstra_inv_init ug s hs)
  have hq := dijkstra_loop_queue ug hw s ug.num_vertices _ (dijkstra_inv_init ug s hs)
    (by simp)
  have key : ∀ m, ug.Walk s m v → ∃ dv,
      (dijkstra_loop ug ug.num_vertices
        ⟨fun v => if v = s then some 0 else none, fun v => v, []⟩).d_map v = some dv ∧
        dv ≤ m := by
    intro m hwalk
    obtain ⟨h1, h2⟩ := dijkstra_walk_bound ug s _ inv m v hwalk
    by_cases hv : v ∈ (dijkstra_loop ug ug.num_vertices
        ⟨fun v => if v = s then some 0 else none, fun v => v, []⟩).finished
    · exact h1 hv
    · obtain ⟨w, hwf, dw, hdw, _⟩ := h2 hv
      have : w ∈ queue ug.num_vertices (dijkstra_loop ug ug.num_vertices
          ⟨fun v => if v = s then some 0 else none, fun v => v, []⟩) :=
        (mem_queue _ _ _).mpr ⟨inv.dom w dw hdw, hwf, dw, hdw⟩
      rw [hq] at this
      exact absurd this (List.not_mem_nil w)
  constructor
  · intro h
    refine ⟨inv.walk v k h, fun m hwalk => ?_⟩
    obtain ⟨dv, hdv, hle⟩ := key m hwalk
    rw [h] at hdv
    cases hdv
    exact hle
  · rintro ⟨hwalk, hmin⟩
    obtain ⟨dv, hdv, hle⟩ := key k hwalk
    have := hmin dv (inv.walk v dv hdv)
    have : dv = k := by omega
    rw [hdv, this]

theorem dijkstra_none_iff (ug : UGraph) (hw : ∀ e ∈ ug.edges, e.weight = 1) (s : Nat)
    (hs : s < ug.num_vertices) (v : Nat) :
    (dijkstra_shortest_paths ug s).1 v = none ↔ ¬ ug.Joined s v := by
  constructor
  · rintro h ⟨m, hwalk⟩
    -- a shortest walk exists among the walks
    have hex : ∃ k, ug.Walk s k v := ⟨m, hwalk⟩
    classical
    have hmin := Nat.find_spec hex
    have hleast : ∀ j, ug.Walk s j v → Nat.find hex ≤ j := fun j hj => Nat.find_min' hex hj
    have := (dijkstra_some_iff ug hw s hs v (Nat.find hex)).mpr ⟨hmin, hleast⟩
    rw [h] at this
    cases this
  · intro h
    cases hd : (dijkstra_shortest_paths ug s).1 v with
    | none => rfl
    | some k =>
      exact absurd ⟨k, ((dijkstra_some_iff ug hw s hs v k).mp hd).1⟩ h

theorem joined_iff_isSome (ug : UGraph) (hw : ∀ e ∈ ug.edges, e.weight = 1) (s : Nat)
    (hs : s < ug.num_vertices) (v : Nat) :
    ug.Joined s v ↔ ∃ k, (dijkstra_shortest_paths ug s).1 v = some k := by
  constructor
  · intro h
    cases hd : (dijkstra_shortest_paths ug s).1 v with
    | none => exact absurd h ((dijkstra_none_iff ug hw s hs v).mp hd)
    | some k => exact ⟨k, rfl⟩
  · rintro ⟨k, hk⟩
    exact ⟨k, ((dijkstra_some_iff ug hw s hs v k).mp hk).1⟩

end dijkstra_correct

end connectivity
end irc

namespace irc
namespace connectivity

/-! ## Walks and the distance matrix -/

section walks

theorem walk_append (ug : UGraph) {s u v k m : Nat} (h1 : ug.Walk s k u)
    (h2 : ug.Walk u m v) : ug.Walk s (k + m) v := by
  induction h2 with
  | nil => exact h1
  | snoc _ hadj ih => exact UGraph.Walk.snoc ih hadj

theorem walk_single (ug : UGraph) {u v : Nat} (h : ug.Adj u v) : ug.Walk u 1 v :=
  UGraph.Walk.snoc UGraph.Walk.nil h

theorem walk_reverse (ug : UGraph) {s v k : Nat} (h : ug.Walk s k v) : ug.Walk v k s := by
  induction h with
  | nil => exact UGraph.Walk.nil
  | snoc _ hadj ih =>
    have := walk_append ug (walk_single ug (adj_symm ug _ _ hadj)) ih
    rwa [Nat.add_comm] at this

theorem walk_zero (ug : UGraph) {s v : Nat} (h : ug.Walk s 0 v) : v = s := by
  cases h
  rfl

theorem walk_one (ug : UGraph) {s v : Nat} (h : ug.Walk s 1 v) : ug.Adj s v := by
  cases h with
  | snoc h0 hadj =>
    have := walk_zero ug h0
    subst this
    exact hadj

theorem walk_lt (ug : UGraph) {s v k : Nat} (h : ug.Walk s k v) (hs : s < ug.num_vertices) :
    v < ug.num_vertices := by
  cases h with
  | nil => exact hs
  | snoc _ hadj => exact (adj_lt ug _ _ hadj).2

theorem joined_refl (ug : UGraph) (v : Nat) : ug.Joined v v := ⟨0, UGraph.Walk.nil⟩

theorem joined_symm (ug : UGraph) {u v : Nat} (h : ug.Joined u v) : ug.Joined v u := by
  obtain ⟨k, hk⟩ := h
  exact ⟨k, walk_reverse ug hk⟩

theorem joined_trans (ug : UGraph) {u v w : Nat} (h1 : ug.Joined u v) (h2 : ug.Joined v w) :
    ug.Joined u w := by
  obtain ⟨k, hk⟩ := h1
  obtain ⟨m, hm⟩ := h2
  exact ⟨k + m, walk_append ug hk hm⟩

theorem joined_of_adj (ug : UGraph) {u v : Nat} (h : ug.Adj u v) : ug.Joined u v :=
  ⟨1, walk_single ug h⟩

theorem isDistance_unique (ug : UGraph) {s v k m : Nat} (hk : ug.IsDistance s v k)
    (hm : ug.IsDistance s v m) : k = m :=
  Nat.le_antisymm (hk.2 m hm.1) (hm.2 k hk.1)

theorem isDistance_symm (ug : UGraph) {s v k : Nat} (h : ug.IsDistance s v k) :
    ug.IsDistance v s k :=
  ⟨walk_reverse ug h.1, fun m hm => h.2 m (walk_reverse ug hm)⟩

theorem isDistance_self (ug : UGraph) (v : Nat) : ug.IsDistance v v 0 :=
  ⟨UGraph.Walk.nil, fun _ _ => Nat.zero_le _⟩

theorem isDistance_one_iff (ug : UGraph) (u v : Nat) :
    ug.IsDistance u v 1 ↔ u ≠ v ∧ ug.Adj u v := by
  constructor
  · rintro ⟨hwalk, hmin⟩
    refine ⟨fun h => ?_, walk_one ug hwalk⟩
    subst h
    have := hmin 0 UGraph.Walk.nil
    omega
  · rintro ⟨hne, hadj⟩
    refine ⟨walk_single ug hadj, fun m hm => ?_⟩
    cases m with
    | zero => exact absurd (walk_zero ug hm).symm hne
    | succ m => omega

theorem exists_isDistance (ug : UGraph) {s v : Nat} (h : ug.Joined s v) :
    ∃ k, ug.IsDistance s v k := by
  classical
  exact ⟨Nat.find h, Nat.find_spec h, fun m hm => Nat.find_min' h hm⟩

end walks

section distance_matrix_lemmas

variable {α : Type} [LinearOrderedField α]

theorem distance_matrix_get (ug : UGraph) (i j : Nat) (hi : i < ug.num_vertices)
    (hj : j < ug.num_vertices) :
    ((distance_matrix ug).1 : Mat α).get i j =
      (d_map_entry ((dijkstra_shortest_paths ug i).1 j) : α) := by
  unfold distance_matrix
  simp only []
  rw [if_pos ⟨hi, hj⟩]

theorem distance_matrix_shape (ug : UGraph) :
    ((distance_matrix ug).1 : Mat α).n_rows = ug.num_vertices ∧
      ((distance_matrix ug).1 : Mat α).n_cols = ug.num_vertices := ⟨rfl, rfl⟩

theorem distance_matrix_of_isDistance (ug : UGraph) (hw : ∀ e ∈ ug.edges, e.weight = 1)
    (i j k : Nat) (hi : i < ug.num_vertices) (hj : j < ug.num_vertices)
    (h : ug.IsDistance i j k) :
    ((distance_matrix ug).1 : Mat α).get i j = (k : α) := by
  rw [distance_matrix_get ug i j hi hj, (dijkstra_some_iff ug hw i hi j k).mpr h]
  rfl

theorem distance_matrix_of_not_joined (ug : UGraph) (hw : ∀ e ∈ ug.edges, e.weight = 1)
    (i j : Nat) (hi : i < ug.num_vertices) (hj : j < ug.num_vertices)
    (h : ¬ ug.Joined i j) :
    ((distance_matrix ug).1 : Mat α).get i j = (int_max : α) := by
  rw [distance_matrix_get ug i j hi hj, (dijkstra_none_iff ug hw i hi j).mpr h]
  rfl

theorem distance_matrix_symm (ug : UGraph) (hw : ∀ e ∈ ug.edges, e.weight = 1)
    (i j : Nat) :
    ((distance_matrix ug).1 : Mat α).get i j = ((distance_matrix ug).1 : Mat α).get j i := by
  by_cases hi : i < ug.num_vertices
  · by_cases hj : j < ug.num_vertices
    · by_cases h : ug.Joined i j
      · obtain ⟨k, hk⟩ := exists_isDistance ug h
        rw [distance_matrix_of_isDistance ug hw i j k hi hj hk,
          distance_matrix_of_isDistance ug hw j i k hj hi (isDistance_symm ug hk)]
      · rw [distance_matrix_of_not_joined ug hw i j hi hj h,
          distance_matrix_of_not_joined ug hw j i hj hi (fun h' => h (joined_symm ug h'))]
    · unfold distance_matrix
      simp only []
      rw [if_neg (fun h => hj h.2), if_neg (fun h => hj h.1)]
  · unfold distance_matrix
    simp only []
    rw [if_neg (fun h => hi h.1), if_neg (fun h => hi h.2)]

theorem distance_matrix_diag (ug : UGraph) (hw : ∀ e ∈ ug.edges, e.weight = 1) (i : Nat) :
    ((distance_matrix ug).1 : Mat α).get i i = 0 := by
  by_cases hi : i < ug.num_vertices
  · rw [distance_matrix_of_isDistance ug hw i i 0 hi hi (isDistance_self ug i)]
    simp
  · unfold distance_matrix
    simp only []
    rw [if_neg (fun h => hi h.1)]

theorem distance_matrix_eq_one_iff (ug : UGraph) (hw : ∀ e ∈ ug.edges, e.weight = 1)
    (i j : Nat) (hi : i < ug.num_vertices) (hj : j < ug.num_vertices) :
    ((distance_matrix ug).1 : Mat α).get i j = 1 ↔ i ≠ j ∧ ug.Adj i j := by
  rw [← isDistance_one_iff]
  constructor
  · intro h
    by_cases hjoin : ug.Joined i j
    · obtain ⟨k, hk⟩ := exists_isDistance ug hjoin
      rw [distance_matrix_of_isDistance ug hw i j k hi hj hk] at h
      have : k = 1 := by exact_mod_cast h
      rw [← this]
      exact hk
    · rw [distance_matrix_of_not_joined ug hw i j hi hj hjoin] at h
      have : int_max = 1 := by exact_mod_cast h
      simp [int_max] at this
  · intro h
    rw [distance_matrix_of_isDistance ug hw i j 1 hi hj h]
    simp

end distance_matrix_lemmas

end connectivity
end irc

namespace irc
namespace connectivity

/-! ## Connected components -/

section components

theorem find_range_some (p : Nat → Bool) (n r : Nat) (h : (List.range n).find? p = some r) :
    p r = true ∧ r < n ∧ ∀ w, w < r → p w = false := by
  induction n with
  | zero => simp at h
  | succ n ih =>
    rw [List.range_succ, List.find?_append] at h
    cases hf : (List.range n).find? p with
    | some r' =>
      rw [hf] at h
      have h : r' = r := by simpa using h
      subst h
      obtain ⟨h1, h2, h3⟩ := ih hf
      exact ⟨h1, by omega, h3⟩
    | none =>
      rw [hf] at h
      have h : List.find? p [n] = some r := by simpa using h
      have hn : ∀ w, w < n → p w = false := by
        intro w hw
        have := List.find?_eq_none.mp hf w (List.mem_range.mpr hw)
        simpa using this
      by_cases hp : p n = true
      · simp only [List.find?_cons, hp] at h
        cases h
        exact ⟨hp, by omega, hn⟩
      · simp [List.find?_cons, hp] at h

theorem find_range_of_mem (p : Nat → Bool) (n v : Nat) (hv : v < n) (hp : p v = true) :
    ∃ r, (List.range n).find? p = some r := by
  cases hf : (List.range n).find? p with
  | some r => exact ⟨r, rfl⟩
  | none =>
    have := List.find?_eq_none.mp hf v (List.mem_range.mpr hv)
    simp [hp] at this

variable (ug : UGraph) (hw : ∀ e ∈ ug.edges, e.weight = 1)

include hw

theorem reachable_iff (v w : Nat) (hv : v < ug.num_vertices) :
    reachable ug v w = true ↔ ug.Joined v w := by
  unfold reachable
  rw [joined_iff_isSome ug hw v hv w, Option.isSome_iff_exists]

theorem component_root_spec (v : Nat) (hv : v < ug.num_vertices) :
    ug.Joined v (component_root ug v) ∧ component_root ug v ≤ v ∧
      ∀ w, w < component_root ug v → ¬ ug.Joined v w := by
  unfold component_root
  have hvv : reachable ug v v = true := (reachable_iff ug hw v v hv).mpr (joined_refl ug v)
  obtain ⟨r, hr⟩ := find_range_of_mem (fun w => reachable ug v w) ug.num_vertices v hv hvv
  obtain ⟨h1, h2, h3⟩ := find_range_some _ _ _ hr
  rw [hr]
  simp only [Option.getD_some]
  refine ⟨(reachable_iff ug hw v r hv).mp h1, ?_, fun w hwr hj => ?_⟩
  · by_contra hlt
    have := h3 v (by omega)
    simp only [] at this
    rw [hvv] at this
    cases this
  · have := h3 w hwr
    simp only [] at this
    rw [(reachable_iff ug hw v w hv).mpr hj] at this
    cases this

theorem component_root_eq_of_joined (u v : Nat) (hu : u < ug.num_vertices)
    (hv : v < ug.num_vertices) (h : ug.Joined u v) :
    component_root ug u = component_root ug v := by
  obtain ⟨hu1, _, hu3⟩ := component_root_spec ug hw u hu
  obtain ⟨hv1, _, hv3⟩ := component_root_spec ug hw v hv
  by_contra hne
  rcases Nat.lt_or_gt_of_ne hne with hlt | hlt
  · exact hv3 _ hlt (joined_trans ug (joined_symm ug h) hu1)
  · exact hu3 _ hlt (joined_trans ug h hv1)

theorem component_root_idem (v : Nat) (hv : v < ug.num_vertices) :
    component_root ug (component_root ug v) = component_root ug v := by
  obtain ⟨h1, h2, h3⟩ := component_root_spec ug hw v hv
  have hr : component_root ug v < ug.num_vertices := by omega
  obtain ⟨_, k2, k3⟩ := component_root_spec ug hw (component_root ug v) hr
  by_contra hne
  have hlt : component_root ug (component_root ug v) < component_root ug v := by omega
  apply h3 _ hlt
  rw [← component_root_eq_of_joined ug hw v (component_root ug v) hv hr h1]
  exact h1

omit hw

theorem countP_range_lt (p : Nat → Bool) (a b : Nat) (hab : a < b) (hp : p a = true) :
    ((List.range a).filter p).length < ((List.range b).filter p).length := by
  induction b with
  | zero => omega
  | succ b ih =>
    rw [List.range_succ, List.filter_append, List.length_append]
    by_cases hb : a = b
    · subst hb
      simp [List.filter_cons, hp]
    · have := ih (by omega)
      omega

include hw

/-- Every component number is below the number of components. -/
theorem connected_components_lt (v : Nat) (hv : v < ug.num_vertices) :
    (connected_components ug).1.getD v 0 < (connected_components ug).2 := by
  unfold connected_components
  simp only []
  rw [List.getD_eq_getElem?_getD, List.getElem?_map, List.getElem?_range hv]
  simp only [Option.map_some', Option.getD_some]
  obtain ⟨_, h2, _⟩ := component_root_spec ug hw v hv
  apply countP_range_lt _ _ _ (by omega)
  simpa using component_root_idem ug hw v hv

/-- Two vertices with the same component number are joined by a path. -/
theorem joined_of_component_eq (u v : Nat) (hu : u < ug.num_vertices)
    (hv : v < ug.num_vertices)
    (h : (connected_components ug).1.getD u 0 = (connected_components ug).1.getD v 0) :
    ug.Joined u v := by
  unfold connected_components at h
  simp only [] at h
  rw [List.getD_eq_getElem?_getD, List.getElem?_map, List.getElem?_range hu,
    List.getD_eq_getElem?_getD, List.getElem?_map, List.getElem?_range hv] at h
  simp only [Option.map_some', Option.getD_some] at h
  obtain ⟨hu1, _, _⟩ := component_root_spec ug hw u hu
  obtain ⟨hv1, _, _⟩ := component_root_spec ug hw v hv
  have hroot : component_root ug u = component_root ug v := by
    by_contra hne
    rcases Nat.lt_or_gt_of_ne hne with hlt | hlt
    · have := countP_range_lt (fun r => decide (component_root ug r = r)) _ _ hlt
        (by simpa using component_root_idem ug hw u hu)
      omega
    · have := countP_range_lt (fun r => decide (component_root ug r = r)) _ _ hlt
        (by simpa using component_root_idem ug hw v hv)
      omega
  have := joined_symm ug hv1
  rw [← hroot] at this
  exact joined_trans ug hu1 this

/-- Two vertices joined by a path have the same component number. -/
theorem component_eq_of_joined (u v : Nat) (hu : u < ug.num_vertices)
    (hv : v < ug.num_vertices) (h : ug.Joined u v) :
    (connected_components ug).1.getD u 0 = (connected_components ug).1.getD v 0 := by
  unfold connected_components
  simp only []
  rw [List.getD_eq_getElem?_getD, List.getElem?_map, List.getElem?_range hu,
    List.getD_eq_getElem?_getD, List.getElem?_map, List.getElem?_range hv]
  simp only [Option.map_some', Option.getD_some]
  rw [component_root_eq_of_joined ug hw u v hu hv h]

omit hw

theorem connected_components_length :
    (connected_components ug).1.length = ug.num_vertices := by
  unfold connected_components
  simp

end components

end connectivity
end irc

namespace irc
namespace connectivity
open molecule

/-! ## The closest pair of two fragments -/

section interfragment

variable {α : Type} [LinearOrderedField α]

theorem foldl_filter_map {β γ δ : Type} (g : δ → β → δ) (p : γ → Prop) [DecidablePred p]
    (f : γ → β) (xs : List γ) (a : δ) :
    (((xs.filter fun x => decide (p x)).map f).foldl g a) =
      xs.foldl (fun a x => if p x then g a (f x) else a) a := by
  induction xs generalizing a with
  | nil => rfl
  | cons x xs ih =>
    by_cases hp : p x
    · simp [List.filter_cons, hp, ih]
    · simp [List.filter_cons, hp, ih]

theorem mem_interfragment_pairs (i j : Nat) (fragments : List Nat) (c : Nat × Nat) :
    c ∈ interfragment_pairs i j fragments ↔
      c.1 < fragments.length ∧ c.2 < fragments.length ∧ c.1 ≠ c.2 ∧
        fragments.getD c.1 0 = i ∧ fragments.getD c.2 0 = j := by
  unfold interfragment_pairs
  simp only [List.mem_flatMap, List.mem_map, List.mem_filter, List.mem_range,
    decide_eq_true_eq]
  constructor
  · rintro ⟨k, hk, l, ⟨hl, h1, h2, h3⟩, rfl⟩
    exact ⟨hk, hl, h1, h2, h3⟩
  · rintro ⟨hk, hl, h1, h2, h3⟩
    exact ⟨c.1, hk, c.2, ⟨hl, h1, h2, h3⟩, rfl⟩

/-- The two loops of `min_interfragment_distance` are one loop over the pairs. -/
theorem min_interfragment_distance_eq (i j : Nat) (fragments : List Nat)
    (distances : Mat α) :
    min_interfragment_distance i j fragments distances =
      (interfragment_pairs i j fragments).foldl (fun (st : Nat × Nat × α) c =>
        if distances.get c.2 c.1 < st.2.2 then (c.1, c.2, distances.get c.2 c.1) else st)
        (0, 0, max_double) := by
  unfold min_interfragment_distance interfragment_pairs
  simp only [foldl_flatMap_eq]
  congr 1
  funext st k
  rw [foldl_filter_map (fun (st : Nat × Nat × α) (c : Nat × Nat) =>
    if distances.get c.2 c.1 < st.2.2 then (c.1, c.2, distances.get c.2 c.1) else st)
    (fun l => k ≠ l ∧ fragments.getD k 0 = i ∧ fragments.getD l 0 = j) (fun l => (k, l))]

/-- A running minimum over a list of pairs. -/
theorem min_fold_spec (distances : Mat α) (cs : List (Nat × Nat)) (st0 : Nat × Nat × α) :
    let r := cs.foldl (fun (st : Nat × Nat × α) c =>
      if distances.get c.2 c.1 < st.2.2 then (c.1, c.2, distances.get c.2 c.1) else st) st0
    r.2.2 ≤ st0.2.2 ∧ (∀ c ∈ cs, r.2.2 ≤ distances.get c.2 c.1) ∧
      ((r = st0 ∧ ∀ c ∈ cs, ¬ distances.get c.2 c.1 < st0.2.2) ∨
        ((r.1, r.2.1) ∈ cs ∧ r.2.2 = distances.get r.2.1 r.1 ∧ r.2.2 < st0.2.2)) := by
  induction cs generalizing st0 with
  | nil => simp
  | cons c cs ih =>
    simp only [List.foldl_cons]
    by_cases hc : distances.get c.2 c.1 < st0.2.2
    · rw [if_pos hc]
      obtain ⟨h1, h2, h3⟩ := ih (c.1, c.2, distances.get c.2 c.1)
      simp only [] at h1 h2 h3
      refine ⟨le_trans h1 (le_of_lt hc), ?_, Or.inr ?_⟩
      · intro c' hc'
        rcases List.mem_cons.mp hc' with rfl | hc'
        · exact h1
        · exact h2 c' hc'
      · rcases h3 with ⟨heq, _⟩ | ⟨hm, he, hl⟩
        · rw [heq]
          exact ⟨List.mem_cons_self _ _, rfl, hc⟩
        · exact ⟨List.mem_cons_of_mem _ hm, he, lt_trans hl hc⟩
    · rw [if_neg hc]
      obtain ⟨h1, h2, h3⟩ := ih st0
      refine ⟨h1, ?_, ?_⟩
      · intro c' hc'
        rcases List.mem_cons.mp hc' with rfl | hc'
        · rcases h3 with ⟨heq, _⟩ | ⟨_, _, hl⟩
          · rw [heq]; exact not_lt.mp hc
          · exact le_trans (le_of_lt hl) (not_lt.mp hc)
        · exact h2 c' hc'
      · rcases h3 with ⟨heq, hall⟩ | ⟨hm, he, hl⟩
        · left
          refine ⟨heq, fun c' hc' => ?_⟩
          rcases List.mem_cons.mp hc' with rfl | hc'
          · exact hc
          · exact hall c' hc'
        · exact Or.inr ⟨List.mem_cons_of_mem _ hm, he, hl⟩

/-- When some pair of the two fragments is closer than the largest finite
double, `min_interfragment_distance` returns a closest pair and its distance. -/
theorem min_interfragment_distance_spec (i j : Nat) (fragments : List Nat)
    (distances : Mat α)
    (hex : ∃ c ∈ interfragment_pairs i j fragments, distances.get c.2 c.1 < max_double) :
    let r := min_interfragment_distance i j fragments distances
    (r.1, r.2.1) ∈ interfragment_pairs i j fragments ∧
      r.2.2 = distances.get r.2.1 r.1 ∧
      ∀ c ∈ interfragment_pairs i j fragments, r.2.2 ≤ distances.get c.2 c.1 := by
  simp only []
  rw [min_interfragment_distance_eq]
  obtain ⟨_, h2, h3⟩ := min_fold_spec distances (interfragment_pairs i j fragments)
    (0, 0, max_double)
  simp only [] at h2 h3
  rcases h3 with ⟨_, hall⟩ | ⟨hm, he, _⟩
  · obtain ⟨c, hc, hlt⟩ := hex
    exact absurd hlt (hall c hc)
  · exact ⟨hm, he, h2⟩

/-- The pair returned by `min_interfragment_distance` is the default `(0, 0)`
or a pair of the two fragments. -/
theorem min_interfragment_distance_cases (i j : Nat) (fragments : List Nat)
    (distances : Mat α) :
    let r := min_interfragment_distance i j fragments distances
    (r.1 = 0 ∧ r.2.1 = 0) ∨ (r.1, r.2.1) ∈ interfragment_pairs i j fragments := by
  simp only []
  rw [min_interfragment_distance_eq]
  obtain ⟨_, _, h3⟩ := min_fold_spec distances (interfragment_pairs i j fragments)
    (0, 0, max_double)
  simp only [] at h3
  rcases h3 with ⟨heq, _⟩ | ⟨hm, _, _⟩
  · left; rw [heq]; exact ⟨rfl, rfl⟩
  · right; exact hm

end interfragment

end connectivity
end irc

namespace irc
namespace connectivity
open molecule

/-! ## Growth of the bond graph -/

section graph_growth

theorem extends_refl (g : UGraph) : g.Extends g := ⟨rfl, fun _ h => h, fun h => h⟩

theorem extends_trans {g1 g2 g3 : UGraph} (h12 : g1.Extends g2) (h23 : g2.Extends g3) :
    g1.Extends g3 :=
  ⟨h23.1.trans h12.1, fun e he => h23.2.1 e (h12.2.1 e he), fun h => h23.2.2 (h12.2.2 h)⟩

theorem add_edge_extends (u v : Nat) (g : UGraph) (hu : u < g.num_vertices)
    (hv : v < g.num_vertices) : g.Extends (add_edge u v 1 g) := by
  refine ⟨?_, ?_, ?_⟩
  · show max g.num_vertices (max u v + 1) = g.num_vertices
    omega
  · intro e he
    show e ∈ g.edges ++ [⟨u, v, 1⟩]
    exact List.mem_append_left _ he
  · intro h e he
    have he' : e ∈ g.edges ++ [⟨u, v, 1⟩] := he
    rcases List.mem_append.mp he' with h' | h'
    · exact h e h'
    · have : e = ⟨u, v, 1⟩ := by simpa using h'
      rw [this]

theorem adj_add_edge (u v w : Nat) (g : UGraph) : (add_edge u v w g).Adj u v :=
  ⟨⟨u, v, w⟩, List.mem_append_right _ (List.mem_singleton_self _), Or.inl ⟨rfl, rfl⟩⟩

theorem adj_of_extends {g g' : UGraph} (h : g.Extends g') {u v : Nat} (hadj : g.Adj u v) :
    g'.Adj u v := by
  obtain ⟨e, he, huv⟩ := hadj
  exact ⟨e, h.2.1 e he, huv⟩

theorem walk_of_extends {g g' : UGraph} (h : g.Extends g') {s v k : Nat}
    (hwalk : g.Walk s k v) : g'.Walk s k v := by
  induction hwalk with
  | nil => exact UGraph.Walk.nil
  | snoc _ hadj ih => exact UGraph.Walk.snoc ih (adj_of_extends h hadj)

theorem joined_of_extends {g g' : UGraph} (h : g.Extends g') {s v : Nat}
    (hj : g.Joined s v) : g'.Joined s v := by
  obtain ⟨k, hk⟩ := hj
  exact ⟨k, walk_of_extends h hk⟩

/-- A loop whose every pass grows the graph, on graphs with at least `n`
vertices, grows the graph. -/
theorem foldl_extends {γ : Type} (n : Nat) (F : UGraph → γ → UGraph) (xs : List γ)
    (h : ∀ (g : UGraph) (x : γ), x ∈ xs → n ≤ g.num_vertices → g.Extends (F g x))
    (g : UGraph) (hg : n ≤ g.num_vertices) : g.Extends (xs.foldl F g) := by
  induction xs generalizing g with
  | nil => exact extends_refl g
  | cons x xs ih =>
    rw [List.foldl_cons]
    have hx := h g x (List.mem_cons_self x xs) hg
    exact extends_trans hx
      (ih (fun g y hy => h g y (List.mem_cons_of_mem x hy)) (F g x) (by rw [hx.1]; exact hg))

/-- What one pass of a growing loop establishes still holds when the loop ends. -/
theorem foldl_extends_of_mem {γ : Type} (n : Nat) (F : UGraph → γ → UGraph) (xs : List γ)
    (h : ∀ (g : UGraph) (x : γ), x ∈ xs → n ≤ g.num_vertices → g.Extends (F g x))
    (Q : UGraph → Prop)
    (hQ : ∀ g g' : UGraph, g.Extends g' → Q g → Q g') (x : γ) (hx : x ∈ xs)
    (hstep : ∀ g : UGraph, n ≤ g.num_vertices → Q (F g x)) (g : UGraph)
    (hg : n ≤ g.num_vertices) : Q (xs.foldl F g) := by
  induction xs generalizing g with
  | nil => exact absurd hx (List.not_mem_nil x)
  | cons y ys ih =>
    rw [List.foldl_cons]
    have hy := h g y (List.mem_cons_self y ys) hg
    have hg' : n ≤ (F g y).num_vertices := by rw [hy.1]; exact hg
    rcases List.mem_cons.mp hx with rfl | hx'
    · exact hQ _ _
        (foldl_extends n F ys (fun g z hz => h g z (List.mem_cons_of_mem _ hz)) _ hg')
        (hstep g hg)
    · exact ih (fun g z hz => h g z (List.mem_cons_of_mem _ hz)) hx' (F g y) hg'

variable {α : Type} [LinearOrderedField α]

theorem covalent_phase_extends (radii : atom.Radii α) (distances : Mat α)
    (molecule : Molecule α) (ug : UGraph) (hn : molecule.length ≤ ug.num_vertices) :
    ug.Extends (covalent_phase radii distances molecule ug) := by
  unfold covalent_phase
  simp only []
  apply foldl_extends molecule.length _ _ _ ug hn
  intro g j hj hg
  apply foldl_extends molecule.length _ _ _ g hg
  intro g i hi hg
  have hj' := List.mem_range.mp hj
  have hi' := List.mem_range'_1.mp hi
  split
  · exact add_edge_extends i j g (by omega) (by omega)
  · exact extends_refl g

theorem stitch_pair_extends (distances : Mat α) (n_atoms : Nat) (fragments : List Nat)
    (i j : Nat) (ug : UGraph) (hn : n_atoms ≤ ug.num_vertices)
    (hf : fragments.length ≤ ug.num_vertices) (hpos : 0 < ug.num_vertices) :
    ug.Extends (stitch_pair distances n_atoms fragments i j ug) := by
  unfold stitch_pair
  simp only []
  have hmin : (min_interfragment_distance i j fragments distances).1 < ug.num_vertices ∧
      (min_interfragment_distance i j fragments distances).2.1 < ug.num_vertices := by
    rcases min_interfragment_distance_cases i j fragments distances with ⟨h1, h2⟩ | h
    · rw [h1, h2]; exact ⟨hpos, hpos⟩
    · obtain ⟨h1, h2, _⟩ := (mem_interfragment_pairs i j fragments _).mp h
      simp only [] at h1 h2
      exact ⟨by omega, by omega⟩
  have h0 := add_edge_extends _ _ ug hmin.1 hmin.2
  refine extends_trans h0 ?_
  apply foldl_extends n_atoms _ _ _ _ (by rw [h0.1]; exact hn)
  intro g k hk hg
  apply foldl_extends n_atoms _ _ _ g hg
  intro g l hl hg
  have hk' := List.mem_range.mp hk
  have hl' := List.mem_range.mp hl
  split
  · split
    · exact add_edge_extends l k g (by omega) (by omega)
    · exact extends_refl g
  · exact extends_refl g

theorem stitching_phase_extends (distances : Mat α) (n_atoms : Nat) (fragments : List Nat)
    (num_fragments : Nat) (ug : UGraph) (hn : n_atoms = ug.num_vertices)
    (hf : fragments.length = ug.num_vertices)
    (hnum : num_fragments ≤ ug.num_vertices) :
    ug.Extends (stitching_phase distances n_atoms fragments num_fragments ug) := by
  unfold stitching_phase
  split
  · apply foldl_extends ug.num_vertices _ _ _ ug (le_refl _)
    intro g i _ hg
    apply foldl_extends ug.num_vertices _ _ _ g hg
    intro g j _ hg
    exact stitch_pair_extends distances n_atoms fragments i j g (by omega) (by omega)
      (by omega)
  · exact extends_refl ug

theorem hydrogen_bonds_of_extends [Cmath α] (radii : atom.Radii α) (distances : Mat α)
    (molecule : Molecule α) (idx h_idx : Nat) (ug : UGraph)
    (hn : molecule.length ≤ ug.num_vertices) (hh : h_idx < molecule.length) :
    ug.Extends (hydrogen_bonds_of radii distances molecule idx h_idx ug) := by
  unfold hydrogen_bonds_of
  simp only []
  apply foldl_extends molecule.length _ _ _ ug hn
  intro g k hk hg
  have hk' := List.mem_range.mp hk
  split
  · split
    · exact add_edge_extends h_idx k g (by omega) (by omega)
    · exact extends_refl g
  · exact extends_refl g

theorem hydrogen_phase_extends [Cmath α] (radii : atom.Radii α) (distances : Mat α)
    (molecule : Molecule α) (ug : UGraph) (hn : molecule.length ≤ ug.num_vertices) :
    ug.Extends (hydrogen_phase radii distances molecule ug) := by
  unfold hydrogen_phase
  simp only []
  apply foldl_extends molecule.length _ _ _ ug hn
  intro g j hj hg
  apply foldl_extends molecule.length _ _ _ g hg
  intro g i hi hg
  have hj' := List.mem_range.mp hj
  have hi' := List.mem_range'_1.mp hi
  split
  · split
    · apply hydrogen_bonds_of_extends radii distances molecule _ _ g hg
      split <;> omega
    · exact extends_refl g
  · exact extends_refl g

theorem connected_components_le (ug : UGraph) :
    (connected_components ug).2 ≤ ug.num_vertices := by
  unfold connected_components
  simp only []
  calc ((List.range ug.num_vertices).filter _).length
      ≤ (List.range ug.num_vertices).length := List.length_filter_le _ _
    _ = ug.num_vertices := List.length_range _

/-- The graph after the covalent phase: `n` vertices and unit weights. -/
theorem covalent_phase_init (radii : atom.Radii α) (distances : Mat α)
    (molecule : Molecule α) :
    (covalent_phase radii distances molecule (UGraph.init molecule.length)).num_vertices =
        molecule.length ∧
      ∀ e ∈ (covalent_phase radii distances molecule (UGraph.init molecule.length)).edges,
        e.weight = 1 := by
  have h := covalent_phase_extends radii distances molecule (UGraph.init molecule.length)
    (le_refl _)
  exact ⟨h.1, h.2.2 (fun e he => absurd he (List.not_mem_nil e))⟩

/-- The bond graph grows from the graph of the covalent phase. -/
theorem adjacency_matrix_extends [Cmath α] (radii : atom.Radii α) (distances : Mat α)
    (molecule : Molecule α) :
    (covalent_phase radii distances molecule (UGraph.init molecule.length)).Extends
        (stitching_phase distances molecule.length
          (connected_components
            (covalent_phase radii distances molecule (UGraph.init molecule.length))).1
          (connected_components
            (covalent_phase radii distances molecule (UGraph.init molecule.length))).2
          (covalent_phase radii distances molecule (UGraph.init molecule.length))) ∧
      (stitching_phase distances molecule.length
          (connected_components
            (covalent_phase radii distances molecule (UGraph.init molecule.length))).1
          (connected_components
            (covalent_phase radii distances molecule (UGraph.init molecule.length))).2
          (covalent_phase radii distances molecule (UGraph.init molecule.length))).Extends
        (adjacency_matrix radii distances molecule) := by
  have h0 := covalent_phase_init radii distances molecule
  have h1 := stitching_phase_extends distances molecule.length
    (connected_components
      (covalent_phase radii distances molecule (UGraph.init molecule.length))).1
    (connected_components
      (covalent_phase radii distances molecule (UGraph.init molecule.length))).2
    (covalent_phase radii distances molecule (UGraph.init molecule.length))
    h0.1.symm (connected_components_length _) (connected_components_le _)
  refine ⟨h1, ?_⟩
  unfold adjacency_matrix
  simp only []
  exact hydrogen_phase_extends radii distances molecule _ (by rw [h1.1, h0.1])

theorem adjacency_matrix_num_vertices [Cmath α] (radii : atom.Radii α) (distances : Mat α)
    (molecule : Molecule α) :
    (adjacency_matrix radii distances molecule).num_vertices = molecule.length := by
  obtain ⟨h1, h2⟩ := adjacency_matrix_extends radii distances molecule
  rw [h2.1, h1.1, (covalent_phase_init radii distances molecule).1]

theorem adjacency_matrix_weights [Cmath α] (radii : atom.Radii α) (distances : Mat α)
    (molecule : Molecule α) :
    ∀ e ∈ (adjacency_matrix radii distances molecule).edges, e.weight = 1 := by
  obtain ⟨h1, h2⟩ := adjacency_matrix_extends radii distances molecule
  exact h2.2.2 (h1.2.2 (covalent_phase_init radii distances molecule).2)

end graph_growth

end connectivity
end irc

namespace irc
namespace connectivity
open molecule

/-! ## Fragment stitching joins the fragments -/

section stitching

variable {α : Type} [LinearOrderedField α]

theorem stitch_pair_adj (distances : Mat α) (n_atoms : Nat) (fragments : List Nat)
    (i j : Nat) (ug : UGraph) (hn : n_atoms ≤ ug.num_vertices) :
    (stitch_pair distances n_atoms fragments i j ug).Adj
      (min_interfragment_distance i j fragments distances).1
      (min_interfragment_distance i j fragments distances).2.1 := by
  unfold stitch_pair
  simp only []
  refine adj_of_extends ?_ (adj_add_edge _ _ 1 ug)
  apply foldl_extends n_atoms _ _ _ _
    (by show n_atoms ≤ max ug.num_vertices _; omega)
  intro g k hk hg
  apply foldl_extends n_atoms _ _ _ g hg
  intro g l hl hg
  have hk' := List.mem_range.mp hk
  have hl' := List.mem_range.mp hl
  split
  · split
    · exact add_edge_extends l k g (by omega) (by omega)
    · exact extends_refl g
  · exact extends_refl g

/-- After the stitching phase the closest pair of fragments `i < j` is joined
by an edge. -/
theorem stitching_phase_adj (distances : Mat α) (fragments : List Nat)
    (num_fragments : Nat) (ug : UGraph) (hf : fragments.length = ug.num_vertices)
    (hnum : num_fragments ≤ ug.num_vertices) (i j : Nat) (hij : i < j)
    (hj : j < num_fragments) :
    (stitching_phase distances ug.num_vertices fragments num_fragments ug).Adj
      (min_interfragment_distance i j fragments distances).1
      (min_interfragment_distance i j fragments distances).2.1 := by
  unfold stitching_phase
  rw [if_pos (by omega)]
  have hext : ∀ (g : UGraph) (a b : Nat), ug.num_vertices ≤ g.num_vertices →
      g.Extends (stitch_pair distances ug.num_vertices fragments a b g) :=
    fun g a b hg => stitch_pair_extends distances ug.num_vertices fragments a b g hg
      (by omega) (by omega)
  apply foldl_extends_of_mem ug.num_vertices _ _ _
    (fun g => g.Adj (min_interfragment_distance i j fragments distances).1
      (min_interfragment_distance i j fragments distances).2.1)
    (fun g g' h hq => adj_of_extends h hq) i (List.mem_range.mpr (by omega)) _ ug (le_refl _)
  · intro g a _ hg
    apply foldl_extends ug.num_vertices _ _ _ g hg
    intro g b _ hg
    exact hext g a b hg
  · intro g hg
    apply foldl_extends_of_mem ug.num_vertices _ _ _
      (fun g => g.Adj (min_interfragment_distance i j fragments distances).1
        (min_interfragment_distance i j fragments distances).2.1)
      (fun g g' h hq => adj_of_extends h hq) j
      (List.mem_range'_1.mpr (by omega)) _ g hg
    · intro g b _ hg
      exact hext g i b hg
    · intro g hg
      exact stitch_pair_adj distances ug.num_vertices fragments i j g hg

/-- Every component number below the number of components is the number of
some vertex. -/
theorem connected_components_surj (ug : UGraph) (c : Nat) (hc : c < (connected_components ug).2) :
    ∃ v, v < ug.num_vertices ∧ (connected_components ug).1.getD v 0 = c := by
  have key : ∀ n, c < ((List.range n).filter
      fun r => decide (component_root ug r = r)).length →
      ∃ r, r < n ∧ component_root ug r = r ∧
        ((List.range r).filter fun r => decide (component_root ug r = r)).length = c := by
    intro n
    induction n with
    | zero => intro h; simp at h
    | succ n ih =>
      intro h
      rw [List.range_succ, List.filter_append, List.length_append] at h
      by_cases hlt : c < ((List.range n).filter
          fun r => decide (component_root ug r = r)).length
      · obtain ⟨r, hr, h1, h2⟩ := ih hlt
        exact ⟨r, by omega, h1, h2⟩
      · by_cases hroot : component_root ug n = n
        · have h1 : ([n].filter fun r => decide (component_root ug r = r)).length = 1 := by
            simp [List.filter_cons, hroot]
          exact ⟨n, by omega, hroot, by omega⟩
        · have h1 : ([n].filter fun r => decide (component_root ug r = r)).length = 0 := by
            simp [List.filter_cons, hroot]
          omega
  obtain ⟨r, hr, h1, h2⟩ := key ug.num_vertices hc
  refine ⟨r, hr, ?_⟩
  unfold connected_components
  simp only []
  rw [List.getD_eq_getElem?_getD, List.getElem?_map, List.getElem?_range hr]
  simp only [Option.map_some', Option.getD_some]
  rw [h1]
  exact h2

end stitching

end connectivity
end irc

namespace irc
namespace connectivity
open molecule

/-! ## Counting the unit entries of a symmetric matrix -/

section counting

theorem sum_indicator_eq_length_filter (p : Nat → Bool) (l : List Nat) :
    (l.map fun i => if p i = true then 1 else 0).sum = (l.filter p).length := by
  induction l with
  | nil => rfl
  | cons x xs ih =>
    by_cases hp : p x = true
    · simp [List.filter_cons, hp, ih, Nat.add_comm]
    · simp [List.filter_cons, hp, ih]

theorem sum_map_add_nat (f g : Nat → Nat) (l : List Nat) :
    (l.map fun i => f i + g i).sum = (l.map f).sum + (l.map g).sum := by
  induction l with
  | nil => rfl
  | cons x xs ih => simp only [List.map_cons, List.sum_cons, ih]; omega

/-- In a symmetric relation without diagonal, the pairs are twice the pairs
`i < j`. -/
theorem count_symmetric (p : Nat → Nat → Bool) (hsymm : ∀ i j, p i j = p j i)
    (hdiag : ∀ i, p i i = false) (n : Nat) :
    ((List.range n).map fun i => ((List.range n).filter fun j => p i j).length).sum =
      2 * ((List.range n).map fun j => ((List.range j).filter fun i => p i j).length).sum := by
  induction n with
  | zero => rfl
  | succ n ih =>
    have hrow : ∀ i, ((List.range (n + 1)).filter fun j => p i j).length =
        ((List.range n).filter fun j => p i j).length + (if p i n = true then 1 else 0) := by
      intro i
      rw [List.range_succ, List.filter_append, List.length_append]
      by_cases h : p i n = true
      · simp [List.filter_cons, h]
      · simp [List.filter_cons, h]
    have hcol : ((List.range n).filter fun j => p n j) =
        ((List.range n).filter fun i => p i n) :=
      List.filter_congr (fun x _ => hsymm n x)
    simp only [hrow]
    rw [List.range_succ, List.map_append, List.map_append, List.sum_append, List.sum_append,
      sum_map_add_nat, sum_indicator_eq_length_filter (fun i => p i n), ih]
    simp only [List.map_cons, List.map_nil, List.sum_cons, List.sum_nil, hdiag n, hcol]
    simp
    omega

variable {α : Type} [LinearOrderedField α]

theorem length_bonds (distance_m : Mat α) (molecule : Molecule α) :
    (bonds distance_m molecule).length =
      ((List.range molecule.length).map fun j =>
        ((List.range j).filter fun i => decide (distance_m.get i j = 1)).length).sum := by
  rw [bonds_eq]
  generalize molecule.length = n
  induction n with
  | zero => rfl
  | succ n ih =>
    rw [List.range_succ, List.flatMap_append, List.length_append, ih, List.map_append,
      List.sum_append]
    simp

/-- For a symmetric matrix with zero diagonal whose shape is the number of
atoms, the unit entries are twice the bonds. -/
theorem count_unit_entries_eq (distance_m : Mat α) (molecule : Molecule α)
    (hrows : distance_m.n_rows = molecule.length) (hcols : distance_m.n_cols = molecule.length)
    (hsymm : ∀ i j, distance_m.get i j = distance_m.get j i)
    (hdiag : ∀ i, distance_m.get i i = 0) :
    count_unit_entries distance_m = 2 * (bonds distance_m molecule).length := by
  unfold count_unit_entries
  rw [length_bonds, hrows, hcols]
  apply count_symmetric (fun i j => decide (distance_m.get i j = 1))
  · intro i j
    rw [hsymm i j]
  · intro i
    rw [hdiag i]
    simp

end counting

end connectivity
end irc

namespace irc
namespace connectivity
open molecule

/-! ## The edges of the covalent phase -/

section covalent

variable {α : Type} [LinearOrderedField α]

theorem foldl_edges {γ : Type} (F : UGraph → γ → UGraph) (F' : List Edge → γ → List Edge)
    (h : ∀ (g : UGraph) (x : γ), (F g x).edges = F' g.edges x) (xs : List γ) (g : UGraph) :
    (xs.foldl F g).edges = xs.foldl F' g.edges := by
  induction xs generalizing g with
  | nil => rfl
  | cons x xs ih => rw [List.foldl_cons, List.foldl_cons, ih, h]

theorem covalent_phase_edges (radii : atom.Radii α) (distances : Mat α)
    (molecule : Molecule α) (ug : UGraph) :
    (covalent_phase radii distances molecule ug).edges =
      ug.edges ++ (List.range molecule.length).flatMap fun j =>
        ((List.range' (j + 1) (molecule.length - (j + 1))).filter fun i =>
          decide (distances.get i j < tools.constants.covalent_bond_multiplier *
            (radii.covalent_radius (molecule.at i).atomic_number +
              radii.covalent_radius (molecule.at j).atomic_number))).map
          fun i => Edge.mk i j 1 := by
  unfold covalent_phase
  simp only []
  rw [foldl_edges _ (fun es j =>
    (List.range' (j + 1) (molecule.length - (j + 1))).foldl (fun es i =>
      if distances.get i j < tools.constants.covalent_bond_multiplier *
          (radii.covalent_radius (molecule.at i).atomic_number +
            radii.covalent_radius (molecule.at j).atomic_number) then
        es ++ [Edge.mk i j 1]
      else es) es)]
  · apply foldl_append_flatMap
    intro j _ acc
    exact foldl_push_filter (fun i => distances.get i j <
      tools.constants.covalent_bond_multiplier *
        (radii.covalent_radius (molecule.at i).atomic_number +
          radii.covalent_radius (molecule.at j).atomic_number)) (fun i => Edge.mk i j 1) _ acc
  · intro g j
    apply foldl_edges
    intro g i
    split <;> rfl

theorem mem_covalent_phase_edges (radii : atom.Radii α) (distances : Mat α)
    (molecule : Molecule α) (e : Edge) :
    e ∈ (covalent_phase radii distances molecule (UGraph.init molecule.length)).edges ↔
      e.target < e.source ∧ e.source < molecule.length ∧ e.weight = 1 ∧
        distances.get e.source e.target < tools.constants.covalent_bond_multiplier *
          (radii.covalent_radius (molecule.at e.source).atomic_number +
            radii.covalent_radius (molecule.at e.target).atomic_number) := by
  rw [covalent_phase_edges]
  simp only [UGraph.init, List.nil_append, List.mem_flatMap, List.mem_map, List.mem_filter,
    List.mem_range, List.mem_range'_1, decide_eq_true_eq]
  constructor
  · rintro ⟨j, hj, i, ⟨⟨hi1, hi2⟩, hc⟩, rfl⟩
    exact ⟨by simp only []; omega, by simp only []; omega, rfl, hc⟩
  · rintro ⟨h1, h2, h3, h4⟩
    refine ⟨e.target, by omega, e.source, ⟨⟨by omega, by omega⟩, h4⟩, ?_⟩
    cases e
    simp only [] at h3
    rw [h3]

/-- In the graph of the covalent phase, atoms `j < i` are joined by an edge
exactly when the loop's test on `distances(i, j)` succeeds. -/
theorem covalent_phase_adj_iff (radii : atom.Radii α) (distances : Mat α)
    (molecule : Molecule α) (i j : Nat) (hj : j < i) (hi : i < molecule.length) :
    (covalent_phase radii distances molecule (UGraph.init molecule.length)).Adj i j ↔
      distances.get i j < tools.constants.covalent_bond_multiplier *
        (radii.covalent_radius (molecule.at i).atomic_number +
          radii.covalent_radius (molecule.at j).atomic_number) := by
  constructor
  · rintro ⟨e, he, h | h⟩
    · obtain ⟨_, _, _, h4⟩ := (mem_covalent_phase_edges radii distances molecule e).mp he
      rw [h.1, h.2] at h4
      exact h4
    · obtain ⟨h1, _, _, _⟩ := (mem_covalent_phase_edges radii distances molecule e).mp he
      rw [h.1, h.2] at h1
      omega
  · intro h
    exact ⟨⟨i, j, 1⟩,
      (mem_covalent_phase_edges radii distances molecule ⟨i, j, 1⟩).mpr ⟨hj, hi, rfl, h⟩,
      Or.inl ⟨rfl, rfl⟩⟩

end covalent

end connectivity
end irc

namespace irc
namespace connectivity
open molecule

/-! ## The bond graph is connected -/

section connected

variable {α : Type} [LinearOrderedField α]

/-- After the stitching phase, two atoms of different covalent fragments
whose fragments are `I < J` are joined through the closest pair of `I` and `J`. -/
theorem stitching_phase_joined (radii : atom.Radii α) (distances : Mat α)
    (molecule : Molecule α)
    (hfin : ∀ k l, k < molecule.length → l < molecule.length →
      distances.get l k < max_double)
    (u v : Nat) (hu : u < molecule.length) (hv : v < molecule.length)
    (hlt : (connected_components
        (covalent_phase radii distances molecule (UGraph.init molecule.length))).1.getD u 0 <
      (connected_components
        (covalent_phase radii distances molecule (UGraph.init molecule.length))).1.getD v 0) :
    ∃ k l, k < molecule.length ∧ l < molecule.length ∧
      (connected_components
        (covalent_phase radii distances molecule (UGraph.init molecule.length))).1.getD k 0 =
      (connected_components
        (covalent_phase radii distances molecule (UGraph.init molecule.length))).1.getD u 0 ∧
      (connected_components
        (covalent_phase radii distances molecule (UGraph.init molecule.length))).1.getD l 0 =
      (connected_components
        (covalent_phase radii distances molecule (UGraph.init molecule.length))).1.getD v 0 ∧
      (stitching_phase distances molecule.length
        (connected_components
          (covalent_phase radii distances molecule (UGraph.init molecule.length))).1
        (connected_components
          (covalent_phase radii distances molecule (UGraph.init molecule.length))).2
        (covalent_phase radii distances molecule (UGraph.init molecule.length))).Adj k l := by
  obtain ⟨hnv, hw⟩ := covalent_phase_init radii distances molecule
  generalize hg0 : covalent_phase radii distances molecule (UGraph.init molecule.length) = g0
    at hnv hw hlt ⊢
  have hlen : (connected_components g0).1.length = molecule.length := by
    rw [connected_components_length, hnv]
  have hJ : (connected_components g0).1.getD v 0 < (connected_components g0).2 :=
    connected_components_lt g0 hw v (by rw [hnv]; exact hv)
  have hex : ∃ c ∈ interfragment_pairs ((connected_components g0).1.getD u 0)
      ((connected_components g0).1.getD v 0) (connected_components g0).1,
      distances.get c.2 c.1 < max_double := by
    refine ⟨(u, v), (mem_interfragment_pairs _ _ _ _).mpr
      ⟨by rw [hlen]; exact hu, by rw [hlen]; exact hv, ?_, rfl, rfl⟩, hfin u v hu hv⟩
    intro huv
    simp only [] at huv
    rw [huv] at hlt
    exact lt_irrefl _ hlt
  obtain ⟨hm, _, _⟩ := min_interfragment_distance_spec _ _ _ distances hex
  obtain ⟨h1, h2, _, h4, h5⟩ := (mem_interfragment_pairs _ _ _ _).mp hm
  simp only [] at h1 h2 h4 h5
  refine ⟨_, _, by rw [← hlen]; exact h1, by rw [← hlen]; exact h2, h4, h5, ?_⟩
  have := stitching_phase_adj distances (connected_components g0).1
    (connected_components g0).2 g0 (connected_components_length g0)
    (connected_components_le g0) _ _ hlt hJ
  rw [hnv] at this
  exact this

end connected

end connectivity
end irc

namespace irc
namespace connectivity
open molecule

/-! ## Real geometry of the sample molecules -/

section real_samples

theorem sqrt_size_square {α : Type} (m : Mat α) (n : Nat) (hrows : m.n_rows = n)
    (hcols : m.n_cols = n) : Nat.sqrt (linalg.size m) = n := by
  unfold linalg.size
  rw [hrows, hcols]
  exact Nat.sqrt_eq n

theorem quasi_linear_angle_real :
    (tools.constants.quasi_linear_angle : ℝ) = 175 * Real.pi / 180 := rfl

/-- Three points with perpendicular arms make the angle `π / 2`. -/
theorem angle_real_of_dot_eq_zero (v1 v2 v3 : Vec3 ℝ)
    (h : linalg.dot (linalg.sub v1 v2) (linalg.sub v3 v2) = 0) :
    angle v1 v2 v3 = Real.pi / 2 := by
  unfold angle
  simp only []
  rw [h, zero_div]
  exact Real.arccos_zero

/-- In water with a right angle the angle at the oxygen atom is `π / 2`. -/
theorem angle_water : angle_mol (Angle.mk 1 0 2) (samples.water : Molecule ℝ) = Real.pi / 2 := by
  unfold angle_mol
  apply angle_real_of_dot_eq_zero
  norm_num [samples.water, Molecule.at, linalg.dot, linalg.sub]

/-- In linear carbon dioxide the angle at the carbon atom is `π`. -/
theorem angle_carbon_dioxide :
    angle_mol (Angle.mk 1 0 2) (samples.carbon_dioxide : Molecule ℝ) = Real.pi := by
  unfold angle_mol angle
  have hs : Real.sqrt ((11 / 5 : ℝ) * (11 / 5)) = 11 / 5 :=
    Real.sqrt_mul_self (by norm_num)
  have hnorm1 : linalg.norm (linalg.sub (⟨11 / 5, 0, 0⟩ : Vec3 ℝ) ⟨0, 0, 0⟩) = 11 / 5 := by
    have hd : linalg.dot (linalg.sub (⟨11 / 5, 0, 0⟩ : Vec3 ℝ) ⟨0, 0, 0⟩)
        (linalg.sub (⟨11 / 5, 0, 0⟩ : Vec3 ℝ) ⟨0, 0, 0⟩) = 11 / 5 * (11 / 5) := by
      norm_num [linalg.dot, linalg.sub]
    show Real.sqrt _ = _
    rw [hd, hs]
  have hnorm2 : linalg.norm (linalg.sub (⟨-(11 / 5), 0, 0⟩ : Vec3 ℝ) ⟨0, 0, 0⟩) = 11 / 5 := by
    have hd : linalg.dot (linalg.sub (⟨-(11 / 5), 0, 0⟩ : Vec3 ℝ) ⟨0, 0, 0⟩)
        (linalg.sub (⟨-(11 / 5), 0, 0⟩ : Vec3 ℝ) ⟨0, 0, 0⟩) = 11 / 5 * (11 / 5) := by
      norm_num [linalg.dot, linalg.sub]
    show Real.sqrt _ = _
    rw [hd, hs]
  have hdot : linalg.dot (linalg.sub (⟨11 / 5, 0, 0⟩ : Vec3 ℝ) ⟨0, 0, 0⟩)
      (linalg.sub (⟨-(11 / 5), 0, 0⟩ : Vec3 ℝ) ⟨0, 0, 0⟩) = -(121 / 25) := by
    norm_num [linalg.dot, linalg.sub]
  show Real.arccos _ = _
  simp only [samples.carbon_dioxide, Molecule.at, List.getD_cons_succ, List.getD_cons_zero]
  rw [hnorm1, hnorm2, hdot]
  have : (-(121 / 25) : ℝ) / (11 / 5 * (11 / 5)) = -1 := by norm_num
  rw [this]
  exact Real.arccos_neg_one

end real_samples

end connectivity
end irc

/-! # The claims -/

namespace irc
namespace connectivity
open molecule

section claims

variable {α : Type} [LinearOrderedField α]

/-- C1: `bonds(D, molecule)` returns exactly the pairs `Bond{i, j}` with
`i < j < n` and `D(i, j) = 1`, where `n` is the number of atoms: each such
pair once, and no other pair. -/
theorem bonds_exact (distance_m : Mat α) (molecule : Molecule α) :
    (bonds distance_m molecule).Nodup ∧
      ∀ i j, Bond.mk i j ∈ bonds distance_m molecule ↔
        i < j ∧ j < molecule.length ∧ distance_m.get i j = 1 :=
  ⟨nodup_bonds distance_m molecule, fun i j => mem_bonds distance_m molecule ⟨i, j⟩⟩

/-- C2: for the graph-distance matrix `D_g` that `distance_matrix` computes
from a bond graph (unit weights) on the atoms of the molecule, the number of
bonds is half the number of entries of `D_g` equal to 1, and every returned
bond has `D_g(i, j) = 1`. -/
theorem bonds_count_half_unit_entries (ug : UGraph) (hw : ∀ e ∈ ug.edges, e.weight = 1)
    (molecule : Molecule α) (hlen : molecule.length = ug.num_vertices) :
    (bonds ((distance_matrix ug).1 : Mat α) molecule).length =
        count_unit_entries ((distance_matrix ug).1 : Mat α) / 2 ∧
      count_unit_entries ((distance_matrix ug).1 : Mat α) =
        2 * (bonds ((distance_matrix ug).1 : Mat α) molecule).length ∧
      ∀ b ∈ bonds ((distance_matrix ug).1 : Mat α) molecule,
        ((distance_matrix ug).1 : Mat α).get b.i b.j = 1 := by
  have h := count_unit_entries_eq ((distance_matrix ug).1 : Mat α) molecule hlen.symm
    hlen.symm (distance_matrix_symm ug hw) (distance_matrix_diag ug hw)
  refine ⟨by omega, h, fun b hb => ?_⟩
  exact ((mem_bonds _ molecule b).mp hb).2.2

/-- C2, at the bond graph of hydrogen peroxide. -/
theorem bonds_count_half_unit_entries_witness :
    (∀ e ∈ samples.peroxide_graph.edges, e.weight = 1) ∧
      (samples.peroxide : Molecule ℚ).length = samples.peroxide_graph.num_vertices ∧
      (bonds ((distance_matrix samples.peroxide_graph).1 : Mat ℚ) samples.peroxide).length =
        count_unit_entries ((distance_matrix samples.peroxide_graph).1 : Mat ℚ) / 2 :=
  ⟨by decide, by decide,
    (bonds_count_half_unit_entries samples.peroxide_graph (by decide) samples.peroxide
      (by decide)).1⟩

/-- C4: on a graph with all edge weights 1, the first matrix returned by
`distance_matrix` has at `(i, j)` the number of edges of a shortest path from
`i` to `j`, for every pair of vertices joined by a path; it is symmetric, has
zero diagonal, and has entry 1 exactly for the pairs `i ≠ j` joined by an edge. -/
theorem distance_matrix_shortest_path (ug : UGraph) (hw : ∀ e ∈ ug.edges, e.weight = 1) :
    (∀ i j, i < ug.num_vertices → j < ug.num_vertices → ug.Joined i j →
        ∃ k, ug.IsDistance i j k ∧ ((distance_matrix ug).1 : Mat α).get i j = (k : α)) ∧
      (∀ i j, ((distance_matrix ug).1 : Mat α).get i j =
        ((distance_matrix ug).1 : Mat α).get j i) ∧
      (∀ i, ((distance_matrix ug).1 : Mat α).get i i = 0) ∧
      (∀ i j, i < ug.num_vertices → j < ug.num_vertices →
        (((distance_matrix ug).1 : Mat α).get i j = 1 ↔ i ≠ j ∧ ug.Adj i j)) := by
  refine ⟨fun i j hi hj hjoin => ?_, distance_matrix_symm ug hw, distance_matrix_diag ug hw,
    fun i j hi hj => distance_matrix_eq_one_iff ug hw i j hi hj⟩
  obtain ⟨k, hk⟩ := exists_isDistance ug hjoin
  exact ⟨k, hk, distance_matrix_of_isDistance ug hw i j k hi hj hk⟩

/-- C4, at the bond graph of hydrogen peroxide. -/
theorem distance_matrix_shortest_path_witness :
    (∀ e ∈ samples.peroxide_graph.edges, e.weight = 1) ∧
      (∀ i j, ((distance_matrix samples.peroxide_graph).1 : Mat ℚ).get i j =
        ((distance_matrix samples.peroxide_graph).1 : Mat ℚ).get j i) ∧
      ((distance_matrix samples.peroxide_graph).1 : Mat ℚ).get 2 3 = 3 :=
  ⟨by decide, (distance_matrix_shortest_path samples.peroxide_graph (by decide)).2.1,
    by decide!⟩

/-- C5: for a bond graph `G` (unit weights) on the atoms of the molecule,
`bonds(distance_matrix(G), molecule)` contains `Bond{i, j}` if and only if
`i < j` and `{i, j}` is an edge of `G`; no bond is listed twice, so parallel
edges yield a single bond. This holds with or without self-loops. -/
theorem bonds_of_distance_matrix (ug : UGraph) (hw : ∀ e ∈ ug.edges, e.weight = 1)
    (molecule : Molecule α) (hlen : molecule.length = ug.num_vertices) :
    (bonds ((distance_matrix ug).1 : Mat α) molecule).Nodup ∧
      ∀ i j, Bond.mk i j ∈ bonds ((distance_matrix ug).1 : Mat α) molecule ↔
        i < j ∧ ug.Adj i j := by
  refine ⟨nodup_bonds _ molecule, fun i j => ?_⟩
  rw [mem_bonds]
  simp only []
  constructor
  · rintro ⟨hij, hj, hd⟩
    rw [hlen] at hj
    exact ⟨hij, ((distance_matrix_eq_one_iff ug hw i j (by omega) hj).mp hd).2⟩
  · rintro ⟨hij, hadj⟩
    have hlt := adj_lt ug i j hadj
    exact ⟨hij, by rw [hlen]; exact hlt.2,
      (distance_matrix_eq_one_iff ug hw i j hlt.1 hlt.2).mpr ⟨by omega, hadj⟩⟩

/-- C5, at the bond graph of hydrogen peroxide. -/
theorem bonds_of_distance_matrix_witness :
    (∀ e ∈ samples.peroxide_graph.edges, e.weight = 1) ∧
      (samples.peroxide : Molecule ℚ).length = samples.peroxide_graph.num_vertices ∧
      (Bond.mk 1 3 ∈
        bonds ((distance_matrix samples.peroxide_graph).1 : Mat ℚ) samples.peroxide ↔
          1 < 3 ∧ samples.peroxide_graph.Adj 1 3) :=
  ⟨by decide, by decide,
    (bonds_of_distance_matrix samples.peroxide_graph (by decide) samples.peroxide
      (by decide)).2 1 3⟩

end claims

end connectivity
end irc

namespace irc
namespace connectivity
open molecule

section claims_adjacency

variable {α : Type} [LinearOrderedField α] [Cmath α]

/-- C3: for a molecule whose interatomic distances are finite, that is below
`std::numeric_limits<double>::max()`, the graph returned by `adjacency_matrix`
is connected, whatever the number of fragments the covalent phase leaves: any
two covalent fragments `I < J` are joined by an edge between an atom of `I`
and an atom of `J`. -/
theorem adjacency_matrix_connected (radii : atom.Radii α) (distances : Mat α)
    (molecule : Molecule α)
    (hfin : ∀ k l, k < molecule.length → l < molecule.length →
      distances.get l k < max_double) :
    (adjacency_matrix radii distances molecule).Connected ∧
      ∀ I J, I < J →
        J < (connected_components
          (covalent_phase radii distances molecule (UGraph.init molecule.length))).2 →
        ∃ k l, k < molecule.length ∧ l < molecule.length ∧
          (connected_components
            (covalent_phase radii distances molecule
              (UGraph.init molecule.length))).1.getD k 0 = I ∧
          (connected_components
            (covalent_phase radii distances molecule
              (UGraph.init molecule.length))).1.getD l 0 = J ∧
          (adjacency_matrix radii distances molecule).Adj k l := by
  obtain ⟨hnv, hw⟩ := covalent_phase_init radii distances molecule
  obtain ⟨hext1, hext2⟩ := adjacency_matrix_extends radii distances molecule
  have hnv' := adjacency_matrix_num_vertices radii distances molecule
  have hjoin := stitching_phase_joined radii distances molecule hfin
  constructor
  · intro u v hu hv
    rw [hnv'] at hu hv
    have same : ∀ a b, a < molecule.length → b < molecule.length →
        (connected_components
          (covalent_phase radii distances molecule
            (UGraph.init molecule.length))).1.getD a 0 =
        (connected_components
          (covalent_phase radii distances molecule
            (UGraph.init molecule.length))).1.getD b 0 →
        (adjacency_matrix radii distances molecule).Joined a b := by
      intro a b ha hb hab
      exact joined_of_extends (extends_trans hext1 hext2)
        (joined_of_component_eq _ hw a b (by rw [hnv]; exact ha) (by rw [hnv]; exact hb) hab)
    have across : ∀ a b, a < molecule.length → b < molecule.length →
        (connected_components
          (covalent_phase radii distances molecule
            (UGraph.init molecule.length))).1.getD a 0 <
        (connected_components
          (covalent_phase radii distances molecule
            (UGraph.init molecule.length))).1.getD b 0 →
        (adjacency_matrix radii distances molecule).Joined a b := by
      intro a b ha hb hab
      obtain ⟨k, l, hk, hl, hka, hlb, hadj⟩ := hjoin a b ha hb hab
      exact joined_trans _ (same a k ha hk hka.symm)
        (joined_trans _ (joined_of_adj _ (adj_of_extends hext2 hadj)) (same l b hl hb hlb))
    rcases Nat.lt_trichotomy
      ((connected_components
        (covalent_phase radii distances molecule (UGraph.init molecule.length))).1.getD u 0)
      ((connected_components
        (covalent_phase radii distances molecule (UGraph.init molecule.length))).1.getD v 0)
      with h | h | h
    · exact across u v hu hv h
    · exact same u v hu hv h
    · exact joined_symm _ (across v u hv hu h)
  · intro I J hIJ hJ
    obtain ⟨u, hu, hIu⟩ := connected_components_surj _ I (lt_trans hIJ hJ)
    obtain ⟨v, hv, hJv⟩ := connected_components_surj _ J hJ
    rw [hnv] at hu hv
    obtain ⟨k, l, hk, hl, hka, hlb, hadj⟩ := hjoin u v hu hv (by rw [hIu, hJv]; exact hIJ)
    exact ⟨k, l, hk, hl, hka.trans hIu, hlb.trans hJv, adj_of_extends hext2 hadj⟩

/-- C6: in `adjacency_matrix`, the covalent-bond phase joins the atoms
`i ≠ j` by an edge if and only if
`distances(i, j) < 1.3 * (covalent_radius(Z_i) + covalent_radius(Z_j))`, where
the loop reads the entry with `j < i` (any of the two entries of a symmetric
matrix); every such pair is joined by an edge in the returned graph, and a
pair at distance exactly 1.3 times the sum of the radii is not covalently
bonded. -/
theorem covalent_bond_iff (radii : atom.Radii α) (distances : Mat α)
    (molecule : Molecule α) (i j : Nat) (hi : i < molecule.length)
    (hj : j < molecule.length) (hne : i ≠ j)
    (hread : j < i ∨ distances.get i j = distances.get j i) :
    ((covalent_phase radii distances molecule (UGraph.init molecule.length)).Adj i j ↔
        distances.get i j < 13 / 10 *
          (radii.covalent_radius (molecule.at i).atomic_number +
            radii.covalent_radius (molecule.at j).atomic_number)) ∧
      (distances.get i j < 13 / 10 *
          (radii.covalent_radius (molecule.at i).atomic_number +
            radii.covalent_radius (molecule.at j).atomic_number) →
        (adjacency_matrix radii distances molecule).Adj i j) ∧
      (distances.get i j = 13 / 10 *
          (radii.covalent_radius (molecule.at i).atomic_number +
            radii.covalent_radius (molecule.at j).atomic_number) →
        ¬ (covalent_phase radii distances molecule (UGraph.init molecule.length)).Adj i j) := by
  have hiff : (covalent_phase radii distances molecule (UGraph.init molecule.length)).Adj i j ↔
      distances.get i j < 13 / 10 *
        (radii.covalent_radius (molecule.at i).atomic_number +
          radii.covalent_radius (molecule.at j).atomic_number) := by
    by_cases hji : j < i
    · exact covalent_phase_adj_iff radii distances molecule i j hji hi
    · have hij : i < j := by omega
      have hsym : distances.get i j = distances.get j i := by
        rcases hread with h | h
        · exact absurd h hji
        · exact h
      have := covalent_phase_adj_iff radii distances molecule j i hij hj
      rw [hsym, add_comm (radii.covalent_radius (molecule.at i).atomic_number)]
      exact ⟨fun h => this.mp (adj_symm _ _ _ h), fun h => adj_symm _ _ _ (this.mpr h)⟩
  obtain ⟨hext1, hext2⟩ := adjacency_matrix_extends radii distances molecule
  refine ⟨hiff, fun h => adj_of_extends (extends_trans hext1 hext2) (hiff.mpr h), fun h hadj => ?_⟩
  have := hiff.mp hadj
  rw [h] at this
  exact lt_irrefl _ this

end claims_adjacency

end connectivity
end irc

namespace irc
namespace connectivity
open molecule

section claims_adjacency_witnesses

/-- C3, at three helium atoms ten bohr apart: the covalent phase leaves three
fragments. -/
theorem adjacency_matrix_connected_witness :
    (∀ k l, k < (samples.helium_trimer : Molecule ℝ).length →
        l < (samples.helium_trimer : Molecule ℝ).length →
        (samples.trimer_distances : Mat ℝ).get l k < max_double) ∧
      (adjacency_matrix samples.radii samples.trimer_distances
        (samples.helium_trimer : Molecule ℝ)).Connected := by
  have hfin : ∀ k l, k < (samples.helium_trimer : Molecule ℝ).length →
      l < (samples.helium_trimer : Molecule ℝ).length →
      (samples.trimer_distances : Mat ℝ).get l k < max_double := by
    intro k l hk hl
    have h3 : (samples.helium_trimer : Molecule ℝ).length = 3 := rfl
    rw [h3] at hk hl
    interval_cases k <;> interval_cases l <;>
      norm_num [samples.trimer_distances, linalg.ofRows, max_double]
  exact ⟨hfin, (adjacency_matrix_connected samples.radii samples.trimer_distances
    samples.helium_trimer hfin).1⟩

/-- C6, at two hydrogen atoms 1.4 bohr apart. -/
theorem covalent_bond_iff_witness :
    (1 < (samples.hydrogen : Molecule ℝ).length ∧ 0 < (samples.hydrogen : Molecule ℝ).length ∧
        (1 : Nat) ≠ 0) ∧
      (adjacency_matrix samples.radii samples.hydrogen_distances
        (samples.hydrogen : Molecule ℝ)).Adj 1 0 := by
  have hlt : (samples.hydrogen_distances : Mat ℝ).get 1 0 < 13 / 10 *
      ((samples.radii : atom.Radii ℝ).covalent_radius
          ((samples.hydrogen : Molecule ℝ).at 1).atomic_number +
        (samples.radii : atom.Radii ℝ).covalent_radius
          ((samples.hydrogen : Molecule ℝ).at 0).atomic_number) := by
    norm_num [samples.hydrogen_distances, linalg.ofRows, samples.radii, samples.hydrogen,
      Molecule.at]
  exact ⟨⟨by decide, by decide, by decide⟩,
    (covalent_bond_iff samples.radii samples.hydrogen_distances samples.hydrogen 1 0
      (by decide) (by decide) (by decide) (Or.inl (by decide))).2.1 hlt⟩

end claims_adjacency_witnesses

end connectivity
end irc

namespace irc
namespace connectivity
open molecule

section claims_angles

variable {α : Type} [LinearOrderedField α] [Cmath α]

/-- C7: when no candidate triple has an angle above `quasi_linear_angle`,
`angles(D, predecessors, molecule)` returns a list that holds the `Angle` with
end atoms `i`, `j` and vertex `k` (the middle field) exactly once for every
triple with `i < j`, `D(i, j) ≤ 2`, `D(k, i) = 1` and `D(k, j) = 1`, and nothing
else. The indices `i`, `j` run over the atoms and `k` over the rows of `D`,
`sqrt(size(D))` of them: the number of atoms when `D` is square of that size. -/
theorem angles_exact (distance_m predecessors_m : Mat α) (molecule : Molecule α)
    (hlin : ∀ i j k, i < j → j < molecule.length →
      k < Nat.sqrt (linalg.size distance_m) → distance_m.get i j ≤ 2 →
      distance_m.get k i = 1 → distance_m.get k j = 1 →
      ¬ angle_mol (Angle.mk i k j) molecule > tools.constants.quasi_linear_angle) :
    (∃ L, angles distance_m predecessors_m molecule = Except.ok L ∧ L.Nodup ∧
      ∀ i k j, Angle.mk i k j ∈ L ↔
        i < j ∧ j < molecule.length ∧ k < Nat.sqrt (linalg.size distance_m) ∧
          distance_m.get i j ≤ 2 ∧ distance_m.get k i = 1 ∧ distance_m.get k j = 1) ∧
      (distance_m.n_rows = molecule.length → distance_m.n_cols = molecule.length →
        Nat.sqrt (linalg.size distance_m) = molecule.length) := by
  refine ⟨⟨angle_candidates distance_m molecule.length, ?_,
    nodup_angle_candidates distance_m molecule.length,
    fun i k j => mem_angle_candidates distance_m molecule.length ⟨i, k, j⟩⟩,
    sqrt_size_square distance_m molecule.length⟩
  apply angles_eq_ok
  intro aa haa
  obtain ⟨h1, h2, h3, h4, h5, h6⟩ := (mem_angle_candidates _ _ _).mp haa
  exact hlin aa.i aa.k aa.j h1 h2 h3 h4 h5 h6

end claims_angles

section claims_angles_real

/-- C7, at water with a right angle: the one candidate, with the oxygen atom
as vertex, has the angle `π / 2`. -/
theorem angles_exact_witness :
    (∀ i j k, i < j → j < (samples.water : Molecule ℝ).length →
        k < Nat.sqrt (linalg.size (samples.triatomic_distances : Mat ℝ)) →
        (samples.triatomic_distances : Mat ℝ).get i j ≤ 2 →
        (samples.triatomic_distances : Mat ℝ).get k i = 1 →
        (samples.triatomic_distances : Mat ℝ).get k j = 1 →
        ¬ angle_mol (Angle.mk i k j) (samples.water : Molecule ℝ) >
          tools.constants.quasi_linear_angle) ∧
      ∃ L, angles samples.triatomic_distances samples.triatomic_distances
          (samples.water : Molecule ℝ) = Except.ok L ∧ L.Nodup ∧
        ∀ i k j, Angle.mk i k j ∈ L ↔
          i < j ∧ j < (samples.water : Molecule ℝ).length ∧
            k < Nat.sqrt (linalg.size (samples.triatomic_distances : Mat ℝ)) ∧
            (samples.triatomic_distances : Mat ℝ).get i j ≤ 2 ∧
            (samples.triatomic_distances : Mat ℝ).get k i = 1 ∧
            (samples.triatomic_distances : Mat ℝ).get k j = 1 := by
  have hlin : ∀ i j k, i < j → j < (samples.water : Molecule ℝ).length →
      k < Nat.sqrt (linalg.size (samples.triatomic_distances : Mat ℝ)) →
      (samples.triatomic_distances : Mat ℝ).get i j ≤ 2 →
      (samples.triatomic_distances : Mat ℝ).get k i = 1 →
      (samples.triatomic_distances : Mat ℝ).get k j = 1 →
      ¬ angle_mol (Angle.mk i k j) (samples.water : Molecule ℝ) >
        tools.constants.quasi_linear_angle := by
    intro i j k hij hj hk _ h1 h2
    have h3 : (samples.water : Molecule ℝ).length = 3 := rfl
    have hs : Nat.sqrt (linalg.size (samples.triatomic_distances : Mat ℝ)) = 3 :=
      sqrt_size_square _ 3 rfl rfl
    rw [h3] at hj
    rw [hs] at hk
    interval_cases j <;> interval_cases i <;> interval_cases k <;>
      first
      | (exfalso; norm_num [samples.triatomic_distances, linalg.ofRows] at h1 h2; done)
      | (rw [angle_water, quasi_linear_angle_real]; intro h; linarith [Real.pi_pos])
  exact ⟨hlin, (angles_exact samples.triatomic_distances samples.triatomic_distances
    samples.water hlin).1⟩

/-- C8, the failing input: for linear carbon dioxide `angles` raises the
runtime error instead of returning an empty list. -/
theorem angles_carbon_dioxide_throws :
    angles samples.triatomic_distances samples.triatomic_distances
        (samples.carbon_dioxide : Molecule ℝ) =
      Except.error "Quasi-linear angle not treated properly yet." := by
  apply angles_eq_error
  refine ⟨Angle.mk 1 0 2, ?_, ?_⟩
  · rw [mem_angle_candidates]
    have hs : Nat.sqrt (linalg.size (samples.triatomic_distances : Mat ℝ)) = 3 :=
      sqrt_size_square _ 3 rfl rfl
    rw [hs]
    refine ⟨by decide, by decide, by decide, ?_, ?_, ?_⟩ <;>
      norm_num [samples.triatomic_distances, linalg.ofRows]
  · rw [angle_carbon_dioxide, quasi_linear_angle_real]
    have := Real.pi_pos
    show 175 * Real.pi / 180 < Real.pi
    linarith

end claims_angles_real

end connectivity
end irc

namespace irc
namespace connectivity
open molecule

section claims_dihedrals

variable {α : Type} [LinearOrderedField α] [Cmath α]

/-- C9, as amended: `dihedrals(i, j, D)` returns `Dihedral (i, k, l, j)` exactly
once for every pair of rows `(k, l)` of `D` with `D(k, i) = 1`, `D(k, j) = 2`,
`D(l, i) = 2`, `D(l, j) = 1` and `D(l, k) = 1`, and nothing else; hence every
`Dihedral (i, k, l, j)` enumerated by `dihedrals(D, predecessors, molecule)` has
`i < j`, `D(i, j) ≤ 3` and `D(k, i) = D(l, k) = D(l, j) = 1`, and `D(k, l) = 1` as
well when `D(k, l) = D(l, k)`, as in every symmetric matrix. -/
theorem dihedrals_exact (distance_m : Mat α) (i j : Nat) :
    (dihedrals_pair i j distance_m).Nodup ∧
      (∀ k l, Dihedral.mk i k l j ∈ dihedrals_pair i j distance_m ↔
        k < Nat.sqrt (linalg.size distance_m) ∧ l < Nat.sqrt (linalg.size distance_m) ∧
          distance_m.get k i = 1 ∧ distance_m.get k j = 2 ∧ distance_m.get l i = 2 ∧
          distance_m.get l j = 1 ∧ distance_m.get l k = 1) ∧
      (∀ d ∈ dihedrals_pair i j distance_m, d.i = i ∧ d.l = j) ∧
      ∀ (predecessors_m : Mat α) (molecule : Molecule α) (epsilon : α),
        ∀ d ∈ dihedrals distance_m predecessors_m molecule epsilon,
          d.i < d.l ∧ d.l < molecule.length ∧ distance_m.get d.i d.l ≤ 3 ∧
            distance_m.get d.j d.i = 1 ∧ distance_m.get d.k d.j = 1 ∧
            distance_m.get d.k d.l = 1 ∧
            (distance_m.get d.j d.k = distance_m.get d.k d.j → distance_m.get d.j d.k = 1) := by
  refine ⟨nodup_dihedrals_pair i j distance_m, fun k l => ?_, fun d hd => ?_,
    fun predecessors_m molecule epsilon d hd => ?_⟩
  · rw [mem_dihedrals_pair]
    simp
  · obtain ⟨h1, h2, _⟩ := (mem_dihedrals_pair i j distance_m d).mp hd
    exact ⟨h1, h2⟩
  · have hc := mem_dihedrals_candidate distance_m predecessors_m molecule epsilon d hd
    obtain ⟨h1, h2, h3, _, _, h6, _, _, h9, h10⟩ := (mem_dihedral_candidates _ _ _).mp hc
    exact ⟨h1, h2, h3, h6, h10, h9, fun hs => by rw [hs]; exact h10⟩

end claims_dihedrals

section claims_dihedrals_real

theorem angle_chain :
    angle_mol (Angle.mk 0 1 2) (samples.chain : Molecule ℝ) = Real.pi := by
  unfold angle_mol angle
  have hnorm1 : linalg.norm (linalg.sub (⟨-1, 0, 0⟩ : Vec3 ℝ) ⟨0, 0, 0⟩) = 1 := by
    have hd : linalg.dot (linalg.sub (⟨-1, 0, 0⟩ : Vec3 ℝ) ⟨0, 0, 0⟩)
        (linalg.sub (⟨-1, 0, 0⟩ : Vec3 ℝ) ⟨0, 0, 0⟩) = 1 := by
      norm_num [linalg.dot, linalg.sub]
    show Real.sqrt _ = _
    rw [hd, Real.sqrt_one]
  have hnorm2 : linalg.norm (linalg.sub (⟨1, 0, 0⟩ : Vec3 ℝ) ⟨0, 0, 0⟩) = 1 := by
    have hd : linalg.dot (linalg.sub (⟨1, 0, 0⟩ : Vec3 ℝ) ⟨0, 0, 0⟩)
        (linalg.sub (⟨1, 0, 0⟩ : Vec3 ℝ) ⟨0, 0, 0⟩) = 1 := by
      norm_num [linalg.dot, linalg.sub]
    show Real.sqrt _ = _
    rw [hd, Real.sqrt_one]
  have hdot : linalg.dot (linalg.sub (⟨-1, 0, 0⟩ : Vec3 ℝ) ⟨0, 0, 0⟩)
      (linalg.sub (⟨1, 0, 0⟩ : Vec3 ℝ) ⟨0, 0, 0⟩) = -1 := by
    norm_num [linalg.dot, linalg.sub]
  show Real.arccos _ = _
  simp only [samples.chain, Molecule.at, List.getD_cons_succ, List.getD_cons_zero]
  rw [hnorm1, hnorm2, hdot]
  have : (-1 : ℝ) / (1 * 1) = -1 := by norm_num
  rw [this]
  exact Real.arccos_neg_one

/-- C9, the counterexample: for a matrix that is not symmetric, `dihedrals`
enumerates `Dihedral (0, 1, 2, 3)` although `D(1, 2)` is not 1. -/
theorem dihedrals_skewed_counterexample :
    Dihedral.mk 0 1 2 3 ∈
        dihedrals samples.skewed_distances samples.skewed_distances
          (samples.chain : Molecule ℝ) (1 / 1000000) ∧
      (samples.skewed_distances : Mat ℝ).get 1 2 ≠ 1 := by
  constructor
  · rw [dihedrals_real_eq_candidates _ _ _ _ (by norm_num), mem_dihedral_candidates]
    have hs : Nat.sqrt (linalg.size (samples.skewed_distances : Mat ℝ)) = 4 :=
      sqrt_size_square _ 4 rfl rfl
    rw [hs]
    refine ⟨by decide, by decide, ?_, by decide, by decide, ?_, ?_, ?_, ?_, ?_⟩ <;>
      norm_num [samples.skewed_distances, linalg.ofRows]
  · norm_num [samples.skewed_distances, linalg.ofRows]

/-- C10, the failing input: in a chain whose first three atoms are on a line
the sub-angle at atom 1 is `π`, and `dihedrals` with `epsilon = 1e-6` still
emits `Dihedral (0, 1, 2, 3)`. -/
theorem dihedrals_linear_chain_emitted :
    angle_mol (Angle.mk 0 1 2) (samples.chain : Molecule ℝ) = Real.pi ∧
      Dihedral.mk 0 1 2 3 ∈
        dihedrals samples.chain_distances samples.chain_distances
          (samples.chain : Molecule ℝ) (1 / 1000000) := by
  refine ⟨angle_chain, ?_⟩
  rw [dihedrals_real_eq_candidates _ _ _ _ (by norm_num), mem_dihedral_candidates]
  have hs : Nat.sqrt (linalg.size (samples.chain_distances : Mat ℝ)) = 4 :=
    sqrt_size_square _ 4 rfl rfl
  rw [hs]
  refine ⟨by decide, by decide, ?_, by decide, by decide, ?_, ?_, ?_, ?_, ?_⟩ <;>
    norm_num [samples.chain_distances, linalg.ofRows]

end claims_dihedrals_real

end connectivity
end irc

namespace irc
namespace connectivity
open molecule

section claim_interfragment

variable {α : Type} [LinearOrderedField α]

/-- C11: when fragments `I ≠ J` are both non-empty and every distance is
finite, that is below `std::numeric_limits<double>::max()`,
`min_interfragment_distance(I, J, fragments, distances)` returns
`(k*, l*, d*)` with `fragments[k*] = I`, `fragments[l*] = J`,
`d* = distances(l*, k*)`, and `d* ≤ distances(l, k)` for every `k` in `I` and
`l` in `J`. -/
theorem min_interfragment_distance_closest (I J : Nat) (fragments : List Nat)
    (distances : Mat α) (hIJ : I ≠ J)
    (hI : ∃ k, k < fragments.length ∧ fragments.getD k 0 = I)
    (hJ : ∃ l, l < fragments.length ∧ fragments.getD l 0 = J)
    (hfin : ∀ k l, k < fragments.length → l < fragments.length →
      distances.get l k < max_double) :
    (min_interfragment_distance I J fragments distances).1 < fragments.length ∧
      (min_interfragment_distance I J fragments distances).2.1 < fragments.length ∧
      fragments.getD (min_interfragment_distance I J fragments distances).1 0 = I ∧
      fragments.getD (min_interfragment_distance I J fragments distances).2.1 0 = J ∧
      (min_interfragment_distance I J fragments distances).2.2 =
        distances.get (min_interfragment_distance I J fragments distances).2.1
          (min_interfragment_distance I J fragments distances).1 ∧
      ∀ k l, k < fragments.length → l < fragments.length →
        fragments.getD k 0 = I → fragments.getD l 0 = J →
        (min_interfragment_distance I J fragments distances).2.2 ≤ distances.get l k := by
  have hne : ∀ k l, fragments.getD k 0 = I → fragments.getD l 0 = J → k ≠ l := by
    intro k l hk hl hkl
    rw [hkl, hl] at hk
    exact hIJ hk.symm
  obtain ⟨k0, hk0, hk0I⟩ := hI
  obtain ⟨l0, hl0, hl0J⟩ := hJ
  have hex : ∃ c ∈ interfragment_pairs I J fragments, distances.get c.2 c.1 < max_double :=
    ⟨(k0, l0), (mem_interfragment_pairs I J fragments _).mpr
      ⟨hk0, hl0, hne k0 l0 hk0I hl0J, hk0I, hl0J⟩, hfin k0 l0 hk0 hl0⟩
  obtain ⟨hm, he, hle⟩ := min_interfragment_distance_spec I J fragments distances hex
  obtain ⟨h1, h2, _, h4, h5⟩ := (mem_interfragment_pairs I J fragments _).mp hm
  refine ⟨h1, h2, h4, h5, he, fun k l hk hl hkI hlJ => ?_⟩
  exact hle (k, l) ((mem_interfragment_pairs I J fragments _).mpr
    ⟨hk, hl, hne k l hkI hlJ, hkI, hlJ⟩)

/-- C11, at three atoms on a line, the first two in fragment 0 and the third
in fragment 1: the closest pair is (1, 2), at distance 3. -/
theorem min_interfragment_distance_closest_witness :
    ((0 : Nat) ≠ 1 ∧ (∃ k, k < [0, 0, 1].length ∧ [0, 0, 1].getD k 0 = 0) ∧
        (∃ l, l < [0, 0, 1].length ∧ [0, 0, 1].getD l 0 = 1) ∧
        ∀ k l, k < [0, 0, 1].length → l < [0, 0, 1].length →
          (samples.line_distances : Mat ℚ).get l k < max_double) ∧
      min_interfragment_distance 0 1 [0, 0, 1] (samples.line_distances : Mat ℚ) = (1, 2, 3) ∧
      (min_interfragment_distance 0 1 [0, 0, 1] (samples.line_distances : Mat ℚ)).2.2 =
        (samples.line_distances : Mat ℚ).get
          (min_interfragment_distance 0 1 [0, 0, 1] (samples.line_distances : Mat ℚ)).2.1
          (min_interfragment_distance 0 1 [0, 0, 1] (samples.line_distances : Mat ℚ)).1 := by
  have hfin : ∀ k l, k < [0, 0, 1].length → l < [0, 0, 1].length →
      (samples.line_distances : Mat ℚ).get l k < max_double := by
    intro k l hk hl
    have h3 : [0, 0, 1].length = 3 := rfl
    rw [h3] at hk hl
    interval_cases k <;> interval_cases l <;>
      norm_num [samples.line_distances, linalg.ofRows, max_double]
  exact ⟨⟨by decide, ⟨0, by decide, by decide⟩, ⟨2, by decide, by decide⟩, hfin⟩, by decide!,
    (min_interfragment_distance_closest 0 1 [0, 0, 1] samples.line_distances (by decide)
      ⟨0, by decide, by decide⟩ ⟨2, by decide, by decide⟩ hfin).2.2.2.2.1⟩

end claim_interfragment

end connectivity
end irc

namespace irc
namespace connectivity
open molecule

/-! ## The edges of the stitching phase -/

section stitching_edges

theorem foldl_invariant {β γ : Type} (P : β → Prop) (F : β → γ → β) (xs : List γ)
    (h : ∀ (b : β) (x : γ), x ∈ xs → P b → P (F b x)) (b : β) (hb : P b) :
    P (xs.foldl F b) := by
  induction xs generalizing b with
  | nil => exact hb
  | cons x xs ih =>
    rw [List.foldl_cons]
    exact ih (fun b y hy => h b y (List.mem_cons_of_mem x hy)) _
      (h b x (List.mem_cons_self x xs) hb)

variable {α : Type} [LinearOrderedField α]

theorem adjacency_matrix_eq [Cmath α] (radii : atom.Radii α) (distances : Mat α)
    (molecule : Molecule α) :
    adjacency_matrix radii distances molecule =
      hydrogen_phase radii distances molecule (stitched_graph radii distances molecule) := rfl

theorem covalent_graph_spec (radii : atom.Radii α) (distances : Mat α)
    (molecule : Molecule α) :
    (covalent_graph radii distances molecule).num_vertices = molecule.length ∧
      ∀ e ∈ (covalent_graph radii distances molecule).edges, e.weight = 1 :=
  covalent_phase_init radii distances molecule

theorem covalent_fragments_length (radii : atom.Radii α) (distances : Mat α)
    (molecule : Molecule α) :
    (covalent_fragments radii distances molecule).length = molecule.length := by
  unfold covalent_fragments
  rw [connected_components_length, (covalent_graph_spec radii distances molecule).1]

theorem stitched_graph_extends (radii : atom.Radii α) (distances : Mat α)
    (molecule : Molecule α) :
    (covalent_graph radii distances molecule).Extends
      (stitched_graph radii distances molecule) := by
  have h0 := covalent_graph_spec radii distances molecule
  exact stitching_phase_extends distances molecule.length _ _ _ h0.1.symm
    (connected_components_length _) (connected_components_le _)

theorem adjacency_matrix_extends_stitched [Cmath α] (radii : atom.Radii α)
    (distances : Mat α) (molecule : Molecule α) :
    (stitched_graph radii distances molecule).Extends
      (adjacency_matrix radii distances molecule) :=
  (adjacency_matrix_extends radii distances molecule).2

/-- In `stitch_pair`, a pair of atoms of the two fragments that passes the
distance test is joined by an edge. -/
theorem stitch_pair_adj_close (distances : Mat α) (n_atoms : Nat) (fragments : List Nat)
    (i j : Nat) (ug : UGraph) (hn : n_atoms ≤ ug.num_vertices)
    (hf : fragments.length ≤ ug.num_vertices) (hpos : 0 < ug.num_vertices)
    (k l : Nat) (hk : k < n_atoms) (hl : l < n_atoms) (hkl : k ≠ l)
    (hki : fragments.getD k 0 = i) (hlj : fragments.getD l 0 = j)
    (hd : distances.get l k <
      min ((min_interfragment_distance i j fragments distances).2.2 *
        tools.constants.interfragment_bond_multiplier)
        (2 * tools.conversion.angstrom_to_bohr)) :
    (stitch_pair distances n_atoms fragments i j ug).Adj l k := by
  unfold stitch_pair
  simp only []
  have hmin : (min_interfragment_distance i j fragments distances).1 < ug.num_vertices ∧
      (min_interfragment_distance i j fragments distances).2.1 < ug.num_vertices := by
    rcases min_interfragment_distance_cases i j fragments distances with ⟨h1, h2⟩ | h
    · rw [h1, h2]; exact ⟨hpos, hpos⟩
    · obtain ⟨h1, h2, _⟩ := (mem_interfragment_pairs i j fragments _).mp h
      simp only [] at h1 h2
      exact ⟨by omega, by omega⟩
  have h0 := add_edge_extends _ _ ug hmin.1 hmin.2
  have inner_ext : ∀ (k' : Nat), k' ∈ List.range n_atoms → ∀ (g : UGraph) (l' : Nat),
      l' ∈ List.range n_atoms → n_atoms ≤ g.num_vertices →
      g.Extends (if k' ≠ l' ∧ fragments.getD k' 0 = i ∧ fragments.getD l' 0 = j then
        if distances.get l' k' <
            min ((min_interfragment_distance i j fragments distances).2.2 *
              tools.constants.interfragment_bond_multiplier)
              (2 * tools.conversion.angstrom_to_bohr) then
          add_edge l' k' 1 g
        else g
      else g) := by
    intro k' hk' g l' hl' hg
    have hk'' := List.mem_range.mp hk'
    have hl'' := List.mem_range.mp hl'
    split
    · split
      · exact add_edge_extends l' k' g (by omega) (by omega)
      · exact extends_refl g
    · exact extends_refl g
  apply foldl_extends_of_mem n_atoms _ _ _ (fun g => g.Adj l k)
    (fun g g' h hq => adj_of_extends h hq) k (List.mem_range.mpr hk) _ _
    (by rw [h0.1]; exact hn)
  · intro g k' hk' hg
    apply foldl_extends n_atoms _ _ _ g hg
    intro g l' hl' hg
    exact inner_ext k' hk' g l' hl' hg
  · intro g hg
    apply foldl_extends_of_mem n_atoms _ _ _ (fun g => g.Adj l k)
      (fun g g' h hq => adj_of_extends h hq) l (List.mem_range.mpr hl) _ g hg
    · intro g l' hl' hg
      exact inner_ext k (List.mem_range.mpr hk) g l' hl' hg
    · intro g _
      rw [if_pos ⟨hkl, hki, hlj⟩, if_pos hd]
      exact adj_add_edge l k 1 g

/-- What `stitch_pair` establishes for a pair of fragments `i < j` holds
after the stitching phase. -/
theorem stitching_phase_of_pair (distances : Mat α) (fragments : List Nat)
    (num_fragments : Nat) (ug : UGraph) (hf : fragments.length = ug.num_vertices)
    (hnum : num_fragments ≤ ug.num_vertices) (i j : Nat) (hij : i < j)
    (hj : j < num_fragments) (Q : UGraph → Prop)
    (hQ : ∀ g g' : UGraph, g.Extends g' → Q g → Q g')
    (hstep : ∀ g : UGraph, ug.num_vertices ≤ g.num_vertices →
      Q (stitch_pair distances ug.num_vertices fragments i j g)) :
    Q (stitching_phase distances ug.num_vertices fragments num_fragments ug) := by
  unfold stitching_phase
  rw [if_pos (by omega)]
  have hext : ∀ (g : UGraph) (a b : Nat), ug.num_vertices ≤ g.num_vertices →
      g.Extends (stitch_pair distances ug.num_vertices fragments a b g) :=
    fun g a b hg => stitch_pair_extends distances ug.num_vertices fragments a b g hg
      (by omega) (by omega)
  apply foldl_extends_of_mem ug.num_vertices _ _ _ Q hQ i
    (List.mem_range.mpr (by omega)) _ ug (le_refl _)
  · intro g a _ hg
    apply foldl_extends ug.num_vertices _ _ _ g hg
    intro g b _ hg
    exact hext g a b hg
  · intro g hg
    apply foldl_extends_of_mem ug.num_vertices _ _ _ Q hQ j
      (List.mem_range'_1.mpr (by omega)) _ g hg
    · intro g b _ hg
      exact hext g i b hg
    · intro g hg
      exact hstep g hg

end stitching_edges

end connectivity
end irc

namespace irc
namespace connectivity
open molecule

section stitching_new_edges

variable {α : Type} [LinearOrderedField α]

theorem edges_add_edge (u v w : Nat) (g : UGraph) :
    (add_edge u v w g).edges = g.edges ++ [Edge.mk u v w] := rfl

/-- Two different covalent fragments below the number of fragments have a
pair of atoms, and with finite distances a pair closer than the largest
finite double. -/
theorem exists_interfragment_pair (radii : atom.Radii α) (distances : Mat α)
    (molecule : Molecule α)
    (hfin : ∀ k l, k < molecule.length → l < molecule.length →
      distances.get l k < max_double)
    (i j : Nat) (hij : i < j) (hj : j < covalent_num_fragments radii distances molecule) :
    ∃ c ∈ interfragment_pairs i j (covalent_fragments radii distances molecule),
      distances.get c.2 c.1 < max_double := by
  have hnv := (covalent_graph_spec radii distances molecule).1
  have hlen := covalent_fragments_length radii distances molecule
  obtain ⟨u, hu, hIu⟩ := connected_components_surj (covalent_graph radii distances molecule)
    i (lt_trans hij hj)
  obtain ⟨v, hv, hJv⟩ := connected_components_surj (covalent_graph radii distances molecule)
    j hj
  rw [hnv] at hu hv
  refine ⟨(u, v), (mem_interfragment_pairs _ _ _ _).mpr
    ⟨by rw [hlen]; exact hu, by rw [hlen]; exact hv, ?_, hIu, hJv⟩, hfin u v hu hv⟩
  intro huv
  simp only [] at huv
  have h1 : (covalent_fragments radii distances molecule).getD u 0 = i := hIu
  have h2 : (covalent_fragments radii distances molecule).getD v 0 = j := hJv
  rw [huv, h2] at h1
  omega

theorem appendsAcross_refl (fragments : List Nat) (g : UGraph) :
    UGraph.AppendsAcross fragments g g :=
  ⟨[], by simp, fun e he => absurd he (List.not_mem_nil e)⟩

theorem appendsAcross_add_edge (fragments : List Nat) (g0 g : UGraph) (u v : Nat)
    (huv : fragments.getD u 0 ≠ fragments.getD v 0)
    (hg : UGraph.AppendsAcross fragments g0 g) :
    UGraph.AppendsAcross fragments g0 (add_edge u v 1 g) := by
  obtain ⟨added, h1, h2⟩ := hg
  refine ⟨added ++ [Edge.mk u v 1], by rw [edges_add_edge, h1, List.append_assoc], ?_⟩
  intro e he
  rcases List.mem_append.mp he with h | h
  · exact h2 e h
  · have : e = Edge.mk u v 1 := by simpa using h
    rw [this]
    exact ⟨rfl, huv⟩

/-- With finite distances, every edge that the stitching phase appends joins
atoms of two different covalent fragments. -/
theorem stitched_graph_new_edges (radii : atom.Radii α) (distances : Mat α)
    (molecule : Molecule α)
    (hfin : ∀ k l, k < molecule.length → l < molecule.length →
      distances.get l k < max_double) :
    UGraph.AppendsAcross (covalent_fragments radii distances molecule)
      (covalent_graph radii distances molecule) (stitched_graph radii distances molecule) := by
  unfold stitched_graph stitching_phase
  split
  · refine foldl_invariant (UGraph.AppendsAcross (covalent_fragments radii distances molecule)
      (covalent_graph radii distances molecule)) _ _ ?_ _ (appendsAcross_refl _ _)
    intro g i hi hg
    refine foldl_invariant (UGraph.AppendsAcross
      (covalent_fragments radii distances molecule)
      (covalent_graph radii distances molecule)) _ _ ?_ g hg
    intro g j hj hg
    have hi' := List.mem_range.mp hi
    have hj' := List.mem_range'_1.mp hj
    have hij : i < j := by omega
    have hjn : j < covalent_num_fragments radii distances molecule := by omega
    obtain ⟨hm, _, _⟩ := min_interfragment_distance_spec i j
      (covalent_fragments radii distances molecule) distances
      (exists_interfragment_pair radii distances molecule hfin i j hij hjn)
    obtain ⟨_, _, _, h4, h5⟩ := (mem_interfragment_pairs _ _ _ _).mp hm
    simp only [] at h4 h5
    unfold stitch_pair
    simp only []
    refine foldl_invariant (UGraph.AppendsAcross
      (covalent_fragments radii distances molecule)
      (covalent_graph radii distances molecule)) _ _ ?_ _
      (appendsAcross_add_edge _ _ g _ _ (by rw [h4, h5]; omega) hg)
    intro g k _ hg
    refine foldl_invariant (UGraph.AppendsAcross
      (covalent_fragments radii distances molecule)
      (covalent_graph radii distances molecule)) _ _ ?_ g hg
    intro g l _ hg
    split
    · rename_i hc
      split
      · exact appendsAcross_add_edge _ _ g l k (by rw [hc.2.1, hc.2.2]; omega) hg
      · exact hg
    · exact hg
  · exact appendsAcross_refl _ _

end stitching_new_edges

end connectivity
end irc

namespace irc
namespace connectivity
open molecule

section claim_stitching

variable {α : Type} [LinearOrderedField α] [Cmath α]

/-- C12: with finite distances (below `std::numeric_limits<double>::max()`),
for every pair of covalent fragments `I < J` the returned graph contains the
edge of the closest pair `(k*, l*)`, at the minimal distance `d*` between `I`
and `J`, and an edge `(k, l)` for every `k` in `I` and `l` in `J` with
`distances(l, k) < min(1.3 * d*, 2 * angstrom_to_bohr)`; and every edge that
the stitching phase appends to the covalent graph joins atoms of two
different covalent fragments. -/
theorem stitching_phase_edges (radii : atom.Radii α) (distances : Mat α)
    (molecule : Molecule α)
    (hfin : ∀ k l, k < molecule.length → l < molecule.length →
      distances.get l k < max_double) :
    (∀ I J, I < J → J < covalent_num_fragments radii distances molecule →
      ((covalent_fragments radii distances molecule).getD
          (min_interfragment_distance I J
            (covalent_fragments radii distances molecule) distances).1 0 = I ∧
        (covalent_fragments radii distances molecule).getD
          (min_interfragment_distance I J
            (covalent_fragments radii distances molecule) distances).2.1 0 = J ∧
        (min_interfragment_distance I J
            (covalent_fragments radii distances molecule) distances).2.2 =
          distances.get
            (min_interfragment_distance I J
              (covalent_fragments radii distances molecule) distances).2.1
            (min_interfragment_distance I J
              (covalent_fragments radii distances molecule) distances).1 ∧
        ∀ k l, k < molecule.length → l < molecule.length →
          (covalent_fragments radii distances molecule).getD k 0 = I →
          (covalent_fragments radii distances molecule).getD l 0 = J →
          (min_interfragment_distance I J
            (covalent_fragments radii distances molecule) distances).2.2 ≤
            distances.get l k) ∧
      (adjacency_matrix radii distances molecule).Adj
        (min_interfragment_distance I J
          (covalent_fragments radii distances molecule) distances).1
        (min_interfragment_distance I J
          (covalent_fragments radii distances molecule) distances).2.1 ∧
      ∀ k l, k < molecule.length → l < molecule.length →
        (covalent_fragments radii distances molecule).getD k 0 = I →
        (covalent_fragments radii distances molecule).getD l 0 = J →
        distances.get l k <
          min (13 / 10 * (min_interfragment_distance I J
              (covalent_fragments radii distances molecule) distances).2.2)
            (2 * tools.conversion.angstrom_to_bohr) →
        (adjacency_matrix radii distances molecule).Adj k l) ∧
      ∃ added, (stitched_graph radii distances molecule).edges =
          (covalent_graph radii distances molecule).edges ++ added ∧
        ∀ e ∈ added, e.weight = 1 ∧
          (covalent_fragments radii distances molecule).getD e.source 0 ≠
            (covalent_fragments radii distances molecule).getD e.target 0 := by
  refine ⟨fun I J hIJ hJ => ?_, stitched_graph_new_edges radii distances molecule hfin⟩
  have hnv := (covalent_graph_spec radii distances molecule).1
  have hlen := covalent_fragments_length radii distances molecule
  have hext := adjacency_matrix_extends_stitched radii distances molecule
  have hflen : (covalent_fragments radii distances molecule).length =
      (covalent_graph radii distances molecule).num_vertices := by rw [hlen, hnv]
  have hnum : covalent_num_fragments radii distances molecule ≤
      (covalent_graph radii distances molecule).num_vertices := connected_components_le _
  obtain ⟨hm, heq, hle⟩ := min_interfragment_distance_spec I J
    (covalent_fragments radii distances molecule) distances
    (exists_interfragment_pair radii distances molecule hfin I J hIJ hJ)
  obtain ⟨_, _, _, h4, h5⟩ := (mem_interfragment_pairs _ _ _ _).mp hm
  simp only [] at h4 h5
  have hne : ∀ k l, (covalent_fragments radii distances molecule).getD k 0 = I →
      (covalent_fragments radii distances molecule).getD l 0 = J → k ≠ l := by
    intro k l hk hl hkl
    rw [hkl, hl] at hk
    omega
  refine ⟨⟨h4, h5, heq, fun k l hk hl hkI hlJ => ?_⟩, ?_, fun k l hk hl hkI hlJ hd => ?_⟩
  · exact hle (k, l) ((mem_interfragment_pairs _ _ _ _).mpr
      ⟨by rw [hlen]; exact hk, by rw [hlen]; exact hl, hne k l hkI hlJ, hkI, hlJ⟩)
  · apply adj_of_extends hext
    have := stitching_phase_adj distances (covalent_fragments radii distances molecule)
      (covalent_num_fragments radii distances molecule)
      (covalent_graph radii distances molecule) hflen hnum I J hIJ hJ
    rw [hnv] at this
    exact this
  · apply adj_of_extends hext
    apply adj_symm
    have := stitching_phase_of_pair distances (covalent_fragments radii distances molecule)
      (covalent_num_fragments radii distances molecule)
      (covalent_graph radii distances molecule) hflen hnum I J hIJ hJ
      (fun g => g.Adj l k) (fun g g' h hq => adj_of_extends h hq)
      (fun g hg => stitch_pair_adj_close distances _ _ I J g hg (by omega) (by omega)
        k l (by rw [hnv]; exact hk) (by rw [hnv]; exact hl) (hne k l hkI hlJ) hkI hlJ
        (by
          have hmul : (min_interfragment_distance I J
              (covalent_fragments radii distances molecule) distances).2.2 *
              tools.constants.interfragment_bond_multiplier =
            13 / 10 * (min_interfragment_distance I J
              (covalent_fragments radii distances molecule) distances).2.2 := by
            unfold tools.constants.interfragment_bond_multiplier
            ring
          rw [hmul]
          exact hd))
    rw [hnv] at this
    exact this

end claim_stitching

section claim_stitching_witness

/-- C12, at three helium atoms ten bohr apart: the covalent phase leaves three
fragments. -/
theorem stitching_phase_edges_witness :
    (∀ k l, k < (samples.helium_trimer : Molecule ℝ).length →
        l < (samples.helium_trimer : Molecule ℝ).length →
        (samples.trimer_distances : Mat ℝ).get l k < max_double) ∧
      ∃ added, (stitched_graph samples.radii samples.trimer_distances
          (samples.helium_trimer : Molecule ℝ)).edges =
          (covalent_graph samples.radii samples.trimer_distances
            (samples.helium_trimer : Molecule ℝ)).edges ++ added ∧
        ∀ e ∈ added, e.weight = 1 ∧
          (covalent_fragments samples.radii samples.trimer_distances
              (samples.helium_trimer : Molecule ℝ)).getD e.source 0 ≠
            (covalent_fragments samples.radii samples.trimer_distances
              (samples.helium_trimer : Molecule ℝ)).getD e.target 0 := by
  have hfin : ∀ k l, k < (samples.helium_trimer : Molecule ℝ).length →
      l < (samples.helium_trimer : Molecule ℝ).length →
      (samples.trimer_distances : Mat ℝ).get l k < max_double := by
    intro k l hk hl
    have h3 : (samples.helium_trimer : Molecule ℝ).length = 3 := rfl
    rw [h3] at hk hl
    interval_cases k <;> interval_cases l <;>
      norm_num [samples.trimer_distances, linalg.ofRows, max_double]
  exact ⟨hfin, (stitching_phase_edges samples.radii samples.trimer_distances
    samples.helium_trimer hfin).2⟩

end claim_stitching_witness

end connectivity
end irc

namespace irc
namespace connectivity
open molecule

/-! ## The edges of the hydrogen-bond phase -/

section hydrogen

variable {α : Type} [LinearOrderedField α] [Cmath α]

theorem foldl_push_filter_and (p q : Nat → Prop) [DecidablePred p] [DecidablePred q]
    (f : Nat → Edge) (xs : List Nat) (acc : List Edge) :
    xs.foldl (fun b x => if p x then (if q x then b ++ [f x] else b) else b) acc
      = acc ++ (xs.filter (fun x => decide (p x ∧ q x))).map f := by
  rw [← foldl_push_filter (fun x => p x ∧ q x) f xs acc]
  congr 1
  funext b x
  by_cases hp : p x
  · by_cases hq : q x
    · simp [hp, hq]
    · simp [hp, hq]
  · simp [hp]

theorem hydrogen_bonds_of_edges (radii : atom.Radii α) (distances : Mat α)
    (molecule : Molecule α) (idx h_idx : Nat) (ug : UGraph) :
    (hydrogen_bonds_of radii distances molecule idx h_idx ug).edges =
      ug.edges ++ ((List.range molecule.length).filter fun k => decide
        ((atom.is_NOFPSCl (molecule.at k).atomic_number ∧ k ≠ idx ∧ k ≠ h_idx) ∧
          distances.get h_idx k >
            radii.covalent_radius (molecule.at h_idx).atomic_number +
              radii.covalent_radius (molecule.at k).atomic_number ∧
          distances.get h_idx k <
            (radii.vdw_radius (molecule.at h_idx).atomic_number +
              radii.vdw_radius (molecule.at k).atomic_number) *
              tools.constants.vdw_bond_multiplier ∧
          angle (molecule.at idx).position (molecule.at h_idx).position
            (molecule.at k).position > Cmath.pi / 2)).map fun k => Edge.mk h_idx k 1 := by
  unfold hydrogen_bonds_of
  simp only []
  rw [foldl_edges _ (fun es k =>
    if atom.is_NOFPSCl (molecule.at k).atomic_number ∧ k ≠ idx ∧ k ≠ h_idx then
      if distances.get h_idx k >
            radii.covalent_radius (molecule.at h_idx).atomic_number +
              radii.covalent_radius (molecule.at k).atomic_number ∧
          distances.get h_idx k <
            (radii.vdw_radius (molecule.at h_idx).atomic_number +
              radii.vdw_radius (molecule.at k).atomic_number) *
              tools.constants.vdw_bond_multiplier ∧
          angle (molecule.at idx).position (molecule.at h_idx).position
            (molecule.at k).position > Cmath.pi / 2 then
        es ++ [Edge.mk h_idx k 1]
      else es
    else es)]
  · exact foldl_push_filter_and _ _ _ _ _
  · intro g k
    split
    · split <;> rfl
    · rfl

theorem hydrogen_phase_edges (radii : atom.Radii α) (distances : Mat α)
    (molecule : Molecule α) (ug : UGraph) :
    (hydrogen_phase radii distances molecule ug).edges =
      ug.edges ++ hydrogen_bond_edges radii distances molecule := by
  unfold hydrogen_phase hydrogen_bond_edges
  simp only []
  rw [foldl_edges _ (fun es j =>
    es ++ (List.range' (j + 1) (molecule.length - (j + 1))).flatMap fun i =>
      if distances.get i j < tools.constants.covalent_bond_multiplier *
          (radii.covalent_radius (molecule.at i).atomic_number +
            radii.covalent_radius (molecule.at j).atomic_number) then
        if (atom.is_NOFPSCl (molecule.at i).atomic_number ∧
              atom.is_H (molecule.at j).atomic_number) ∨
            (atom.is_NOFPSCl (molecule.at j).atomic_number ∧
              atom.is_H (molecule.at i).atomic_number) then
          ((List.range molecule.length).filter fun k => decide
            ((atom.is_NOFPSCl (molecule.at k).atomic_number ∧
                k ≠ (if atom.is_H (molecule.at j).atomic_number then i else j) ∧
                k ≠ (if atom.is_H (molecule.at j).atomic_number then j else i)) ∧
              distances.get (if atom.is_H (molecule.at j).atomic_number then j else i) k >
                radii.covalent_radius
                    (molecule.at
                      (if atom.is_H (molecule.at j).atomic_number then j else i)).atomic_number +
                  radii.covalent_radius (molecule.at k).atomic_number ∧
              distances.get (if atom.is_H (molecule.at j).atomic_number then j else i) k <
                (radii.vdw_radius
                    (molecule.at
                      (if atom.is_H (molecule.at j).atomic_number then j else i)).atomic_number +
                  radii.vdw_radius (molecule.at k).atomic_number) *
                  tools.constants.vdw_bond_multiplier ∧
              angle
                  (molecule.at
                    (if atom.is_H (molecule.at j).atomic_number then i else j)).position
                  (molecule.at
                    (if atom.is_H (molecule.at j).atomic_number then j else i)).position
                  (molecule.at k).position > Cmath.pi / 2)).map fun k =>
            Edge.mk (if atom.is_H (molecule.at j).atomic_number then j else i) k 1
        else []
      else [])]
  · exact foldl_append_flatMap _ _ _ (fun j _ acc => rfl) _
  · intro g j
    rw [foldl_edges _ (fun es i =>
      es ++ (if distances.get i j < tools.constants.covalent_bond_multiplier *
          (radii.covalent_radius (molecule.at i).atomic_number +
            radii.covalent_radius (molecule.at j).atomic_number) then
        if (atom.is_NOFPSCl (molecule.at i).atomic_number ∧
              atom.is_H (molecule.at j).atomic_number) ∨
            (atom.is_NOFPSCl (molecule.at j).atomic_number ∧
              atom.is_H (molecule.at i).atomic_number) then
          ((List.range molecule.length).filter fun k => decide
            ((atom.is_NOFPSCl (molecule.at k).atomic_number ∧
                k ≠ (if atom.is_H (molecule.at j).atomic_number then i else j) ∧
                k ≠ (if atom.is_H (molecule.at j).atomic_number then j else i)) ∧
              distances.get (if atom.is_H (molecule.at j).atomic_number then j else i) k >
                radii.covalent_radius
                    (molecule.at
                      (if atom.is_H (molecule.at j).atomic_number then j else i)).atomic_number +
                  radii.covalent_radius (molecule.at k).atomic_number ∧
              distances.get (if atom.is_H (molecule.at j).atomic_number then j else i) k <
                (radii.vdw_radius
                    (molecule.at
                      (if atom.is_H (molecule.at j).atomic_number then j else i)).atomic_number +
                  radii.vdw_radius (molecule.at k).atomic_number) *
                  tools.constants.vdw_bond_multiplier ∧
              angle
                  (molecule.at
                    (if atom.is_H (molecule.at j).atomic_number then i else j)).position
                  (molecule.at
                    (if atom.is_H (molecule.at j).atomic_number then j else i)).position
                  (molecule.at k).position > Cmath.pi / 2)).map fun k =>
            Edge.mk (if atom.is_H (molecule.at j).atomic_number then j else i) k 1
        else []
      else []))]
    · exact foldl_append_flatMap _ _ _ (fun i _ acc => rfl) _
    · intro g i
      split
      · split
        · exact hydrogen_bonds_of_edges radii distances molecule _ _ g
        · simp
      · simp

end hydrogen

end connectivity
end irc

namespace irc
namespace connectivity
open molecule

section hydrogen_membership

variable {α : Type} [LinearOrderedField α] [Cmath α]

theorem not_is_NOFPSCl_of_is_H (z : Nat) (h : atom.is_H z = true) :
    ¬ atom.is_NOFPSCl z = true := by
  unfold atom.is_H at h
  have hz : z = 1 := by simpa using h
  subst hz
  decide

/-- The condition under which the search for hydrogen bonds appends the edge
from `h` to `k`, with `X` the atom covalently bonded to the hydrogen `h`. -/
theorem mem_hydrogen_bond_edges (radii : atom.Radii α) (distances : Mat α)
    (molecule : Molecule α) (e : Edge) :
    e ∈ hydrogen_bond_edges radii distances molecule ↔
      e.weight = 1 ∧ ∃ X, X < molecule.length ∧ e.source < molecule.length ∧
        e.target < molecule.length ∧ X ≠ e.source ∧
        atom.is_H (molecule.at e.source).atomic_number = true ∧
        atom.is_NOFPSCl (molecule.at X).atomic_number = true ∧
        distances.get (max X e.source) (min X e.source) < 13 / 10 *
          (radii.covalent_radius (molecule.at X).atomic_number +
            radii.covalent_radius (molecule.at e.source).atomic_number) ∧
        atom.is_NOFPSCl (molecule.at e.target).atomic_number = true ∧
        e.target ≠ X ∧ e.target ≠ e.source ∧
        distances.get e.source e.target >
          radii.covalent_radius (molecule.at e.source).atomic_number +
            radii.covalent_radius (molecule.at e.target).atomic_number ∧
        distances.get e.source e.target < 9 / 10 *
          (radii.vdw_radius (molecule.at e.source).atomic_number +
            radii.vdw_radius (molecule.at e.target).atomic_number) ∧
        angle (molecule.at X).position (molecule.at e.source).position
          (molecule.at e.target).position > Cmath.pi / 2 := by
  unfold hydrogen_bond_edges
  simp only [List.mem_flatMap, List.mem_range, List.mem_range'_1]
  have hvdw : ∀ x : α, x * tools.constants.vdw_bond_multiplier = 9 / 10 * x := by
    intro x
    unfold tools.constants.vdw_bond_multiplier
    ring
  constructor
  · rintro ⟨j, hj, i, ⟨hi1, hi2⟩, he⟩
    have hin : i < molecule.length := by omega
    split at he
    · rename_i hcov
      split at he
      · rename_i hor
        simp only [List.mem_map, List.mem_filter, List.mem_range, decide_eq_true_eq] at he
        obtain ⟨k, ⟨hk, ⟨hkN, hk1, hk2⟩, hd1, hd2, ha⟩, rfl⟩ := he
        rw [hvdw] at hd2
        by_cases hH : atom.is_H (molecule.at j).atomic_number = true
        · simp only [hH, if_true] at hk1 hk2 hd1 hd2 ha ⊢
          have hXN : atom.is_NOFPSCl (molecule.at i).atomic_number = true := by
            rcases hor with h | h
            · exact h.1
            · exact absurd h.1 (not_is_NOFPSCl_of_is_H _ hH)
          refine ⟨trivial, i, hin, hj, hk, by omega, trivial, hXN, ?_, hkN, hk1, hk2, hd1, hd2,
            ha⟩
          rw [max_eq_left (by omega), min_eq_right (by omega)]
          exact hcov
        · simp only [hH] at hk1 hk2 hd1 hd2 ha ⊢
          simp only [Bool.false_eq_true, if_false] at hk1 hk2 hd1 hd2 ha ⊢
          have hor' : atom.is_NOFPSCl (molecule.at j).atomic_number = true ∧
              atom.is_H (molecule.at i).atomic_number = true := by
            rcases hor with h | h
            · exact absurd h.2 hH
            · exact h
          refine ⟨trivial, j, hj, hin, hk, by omega, hor'.2, hor'.1, ?_, hkN, hk1, hk2, hd1,
            hd2, ha⟩
          rw [max_eq_right (by omega), min_eq_left (by omega),
            add_comm (radii.covalent_radius (molecule.at j).atomic_number)]
          exact hcov
      · simp at he
    · simp at he
  · rintro ⟨hw, X, hX, hh, hk, hXh, hH, hXN, hcov, hkN, hkX, hkh, hd1, hd2, ha⟩
    have hXnotH : ¬ atom.is_H (molecule.at X).atomic_number = true :=
      fun h => not_is_NOFPSCl_of_is_H _ h hXN
    rcases Nat.lt_or_gt_of_ne hXh with hlt | hlt
    · -- the hydrogen has the larger index: `i = h`, `j = X`
      refine ⟨X, hX, e.source, ⟨by omega, by omega⟩, ?_⟩
      rw [max_eq_right (by omega), min_eq_left (by omega),
        add_comm (radii.covalent_radius (molecule.at X).atomic_number)] at hcov
      have hcov' : distances.get e.source X < tools.constants.covalent_bond_multiplier *
          (radii.covalent_radius (molecule.at e.source).atomic_number +
            radii.covalent_radius (molecule.at X).atomic_number) := hcov
      rw [if_pos hcov', if_pos (Or.inr ⟨hXN, hH⟩)]
      simp only [List.mem_map, List.mem_filter, List.mem_range, decide_eq_true_eq]
      refine ⟨e.target, ⟨hk, ?_⟩, ?_⟩
      · simp only [hXnotH]
        simp only [Bool.false_eq_true, if_false]
        rw [hvdw]
        exact ⟨⟨hkN, hkX, hkh⟩, hd1, hd2, ha⟩
      · simp only [hXnotH]
        simp only [Bool.false_eq_true, if_false]
        cases e
        simp only [] at hw
        rw [hw]
    · -- the hydrogen has the smaller index: `i = X`, `j = h`
      refine ⟨e.source, hh, X, ⟨by omega, by omega⟩, ?_⟩
      rw [max_eq_left (by omega), min_eq_right (by omega)] at hcov
      have hcov' : distances.get X e.source < tools.constants.covalent_bond_multiplier *
          (radii.covalent_radius (molecule.at X).atomic_number +
            radii.covalent_radius (molecule.at e.source).atomic_number) := hcov
      rw [if_pos hcov', if_pos (Or.inl ⟨hXN, hH⟩)]
      simp only [List.mem_map, List.mem_filter, List.mem_range, decide_eq_true_eq]
      refine ⟨e.target, ⟨hk, ?_⟩, ?_⟩
      · simp only [hH, if_true]
        rw [hvdw]
        exact ⟨⟨hkN, hkX, hkh⟩, hd1, hd2, ha⟩
      · simp only [hH, if_true]
        cases e
        simp only [] at hw
        rw [hw]

end hydrogen_membership

end connectivity
end irc

namespace irc
namespace connectivity
open molecule

section claim_hydrogen

variable {α : Type} [LinearOrderedField α] [Cmath α]

/-- C13: the hydrogen-bond phase of `adjacency_matrix` appends the edge
`(h, k)` if and only if `h` is a hydrogen, `k` is in {N, O, F, P, S, Cl}, and
there is an atom `X` in {N, O, F, P, S, Cl} with `X ≠ k`, `k ≠ h`,
`d(X, h) < 1.3 * (cov(X) + cov(h))`, such that `d(h, k) > cov(h) + cov(k)`,
`d(h, k) < 0.9 * (vdw(h) + vdw(k))` and the angle `∠(X, h, k) > π / 2`. The
distance `d(X, h)` is read at the entry with the larger index first, as the
loop does; for a symmetric matrix it is any of the two entries. -/
theorem hydrogen_phase_adds_iff (radii : atom.Radii α) (distances : Mat α)
    (molecule : Molecule α) :
    (adjacency_matrix radii distances molecule).edges =
        (stitched_graph radii distances molecule).edges ++
          hydrogen_bond_edges radii distances molecule ∧
      (∀ e ∈ hydrogen_bond_edges radii distances molecule, e.weight = 1) ∧
      (∀ h k, Edge.mk h k 1 ∈ hydrogen_bond_edges radii distances molecule ↔
        ∃ X, X < molecule.length ∧ h < molecule.length ∧ k < molecule.length ∧ X ≠ h ∧
          atom.is_H (molecule.at h).atomic_number = true ∧
          atom.is_NOFPSCl (molecule.at X).atomic_number = true ∧
          distances.get (max X h) (min X h) < 13 / 10 *
            (radii.covalent_radius (molecule.at X).atomic_number +
              radii.covalent_radius (molecule.at h).atomic_number) ∧
          atom.is_NOFPSCl (molecule.at k).atomic_number = true ∧ k ≠ X ∧ k ≠ h ∧
          distances.get h k >
            radii.covalent_radius (molecule.at h).atomic_number +
              radii.covalent_radius (molecule.at k).atomic_number ∧
          distances.get h k < 9 / 10 *
            (radii.vdw_radius (molecule.at h).atomic_number +
              radii.vdw_radius (molecule.at k).atomic_number) ∧
          angle (molecule.at X).position (molecule.at h).position
            (molecule.at k).position > Cmath.pi / 2) ∧
      ((∀ a b, distances.get a b = distances.get b a) →
        ∀ h k, Edge.mk h k 1 ∈ hydrogen_bond_edges radii distances molecule ↔
          ∃ X, X < molecule.length ∧ h < molecule.length ∧ k < molecule.length ∧ X ≠ h ∧
            atom.is_H (molecule.at h).atomic_number = true ∧
            atom.is_NOFPSCl (molecule.at X).atomic_number = true ∧
            distances.get X h < 13 / 10 *
              (radii.covalent_radius (molecule.at X).atomic_number +
                radii.covalent_radius (molecule.at h).atomic_number) ∧
            atom.is_NOFPSCl (molecule.at k).atomic_number = true ∧ k ≠ X ∧ k ≠ h ∧
            distances.get h k >
              radii.covalent_radius (molecule.at h).atomic_number +
                radii.covalent_radius (molecule.at k).atomic_number ∧
            distances.get h k < 9 / 10 *
              (radii.vdw_radius (molecule.at h).atomic_number +
                radii.vdw_radius (molecule.at k).atomic_number) ∧
            angle (molecule.at X).position (molecule.at h).position
              (molecule.at k).position > Cmath.pi / 2) := by
  have hiff : ∀ h k, Edge.mk h k 1 ∈ hydrogen_bond_edges radii distances molecule ↔
      ∃ X, X < molecule.length ∧ h < molecule.length ∧ k < molecule.length ∧ X ≠ h ∧
        atom.is_H (molecule.at h).atomic_number = true ∧
        atom.is_NOFPSCl (molecule.at X).atomic_number = true ∧
        distances.get (max X h) (min X h) < 13 / 10 *
          (radii.covalent_radius (molecule.at X).atomic_number +
            radii.covalent_radius (molecule.at h).atomic_number) ∧
        atom.is_NOFPSCl (molecule.at k).atomic_number = true ∧ k ≠ X ∧ k ≠ h ∧
        distances.get h k >
          radii.covalent_radius (molecule.at h).atomic_number +
            radii.covalent_radius (molecule.at k).atomic_number ∧
        distances.get h k < 9 / 10 *
          (radii.vdw_radius (molecule.at h).atomic_number +
            radii.vdw_radius (molecule.at k).atomic_number) ∧
        angle (molecule.at X).position (molecule.at h).position
          (molecule.at k).position > Cmath.pi / 2 := by
    intro h k
    rw [mem_hydrogen_bond_edges]
    simp
  refine ⟨?_, fun e he => ((mem_hydrogen_bond_edges radii distances molecule e).mp he).1,
    hiff, fun hsymm h k => ?_⟩
  · rw [adjacency_matrix_eq]
    exact hydrogen_phase_edges radii distances molecule _
  · rw [hiff]
    have hread : ∀ X, distances.get (max X h) (min X h) = distances.get X h := by
      intro X
      rcases Nat.le_total X h with hle | hle
      · rw [max_eq_right hle, min_eq_left hle]
        exact hsymm h X
      · rw [max_eq_left hle, min_eq_right hle]
    simp only [hread]

end claim_hydrogen

section claim_hydrogen_witness

theorem norm_real_axis (x : ℝ) : linalg.norm (⟨x, 0, 0⟩ : Vec3 ℝ) = |x| := by
  show Real.sqrt _ = _
  have : linalg.dot (⟨x, 0, 0⟩ : Vec3 ℝ) ⟨x, 0, 0⟩ = x * x := by
    simp [linalg.dot]
  rw [this]
  exact Real.sqrt_mul_self_eq_abs x

/-- C13, at an O-H group pointing at a second oxygen atom: the search for
hydrogen bonds appends the edge from the hydrogen, atom 1, to the oxygen,
atom 2. -/
theorem hydrogen_phase_adds_iff_witness :
    Edge.mk 1 2 1 ∈ hydrogen_bond_edges samples.radii
        (samples.hydroxyl_oxygen_distances : Mat ℝ)
        (samples.hydroxyl_oxygen : Molecule ℝ) := by
  apply (hydrogen_phase_adds_iff samples.radii (samples.hydroxyl_oxygen_distances : Mat ℝ)
    (samples.hydroxyl_oxygen : Molecule ℝ)).2.2.1 1 2 |>.mpr
  refine ⟨0, by decide, by decide, by decide, by decide, by decide, by decide, ?_, by decide,
    by decide, by decide, ?_, ?_, ?_⟩
  · norm_num [samples.hydroxyl_oxygen_distances, linalg.ofRows, samples.radii,
      samples.hydroxyl_oxygen, Molecule.at]
  · norm_num [samples.hydroxyl_oxygen_distances, linalg.ofRows, samples.radii,
      samples.hydroxyl_oxygen, Molecule.at]
  · norm_num [samples.hydroxyl_oxygen_distances, linalg.ofRows, samples.radii,
      samples.hydroxyl_oxygen, Molecule.at]
  · have hangle : angle (⟨0, 0, 0⟩ : Vec3 ℝ) ⟨9 / 5, 0, 0⟩ ⟨27 / 5, 0, 0⟩ = Real.pi := by
      unfold angle
      have h1 : linalg.sub (⟨0, 0, 0⟩ : Vec3 ℝ) ⟨9 / 5, 0, 0⟩ = ⟨-(9 / 5), 0, 0⟩ := by
        simp [linalg.sub]
      have h2 : linalg.sub (⟨27 / 5, 0, 0⟩ : Vec3 ℝ) ⟨9 / 5, 0, 0⟩ = ⟨18 / 5, 0, 0⟩ := by
        simp only [linalg.sub, sub_zero]
        norm_num
      simp only []
      rw [h1, h2, norm_real_axis, norm_real_axis]
      show Real.arccos _ = _
      have : linalg.dot (⟨-(9 / 5), 0, 0⟩ : Vec3 ℝ) ⟨18 / 5, 0, 0⟩ / (|-(9 / 5)| * |18 / 5|)
          = -1 := by
        rw [abs_neg, abs_of_pos (by norm_num : (0 : ℝ) < 9 / 5),
          abs_of_pos (by norm_num : (0 : ℝ) < 18 / 5)]
        norm_num [linalg.dot]
      rw [this]
      exact Real.arccos_neg_one
    have hpos : ((samples.hydroxyl_oxygen : Molecule ℝ).at 0).position = ⟨0, 0, 0⟩ ∧
        ((samples.hydroxyl_oxygen : Molecule ℝ).at 1).position = ⟨9 / 5, 0, 0⟩ ∧
        ((samples.hydroxyl_oxygen : Molecule ℝ).at 2).position = ⟨27 / 5, 0, 0⟩ :=
      ⟨rfl, rfl, rfl⟩
    rw [hpos.1, hpos.2.1, hpos.2.2, hangle]
    show Real.pi / 2 < Real.pi
    linarith [Real.pi_pos]

end claim_hydrogen_witness

end connectivity
end irc

namespace irc
namespace connectivity
open molecule

/-! ## Vectors under a rigid motion -/

theorem vec3_ext {α : Type} (u v : Vec3 α) (hx : u.x = v.x) (hy : u.y = v.y)
    (hz : u.z = v.z) : u = v := by
  cases u
  cases v
  simp only [] at hx hy hz
  rw [hx, hy, hz]

section rotation_lemmas

variable {α : Type} [LinearOrderedField α]

theorem sub_rigid (R : Mat3 α) (t p q : Vec3 α) :
    linalg.sub (linalg.add (R.apply p) t) (linalg.add (R.apply q) t) =
      R.apply (linalg.sub p q) := by
  apply vec3_ext <;> simp only [linalg.sub, linalg.add, Mat3.apply] <;> ring

theorem dot_apply (R : Mat3 α) (hR : R.IsProperRotation) (u v : Vec3 α) :
    linalg.dot (R.apply u) (R.apply v) = linalg.dot u v := by
  simp only [linalg.dot, Mat3.apply]
  linear_combination (u.x * v.x) * hR.c11 + (u.x * v.y + u.y * v.x) * hR.c12 +
    (u.x * v.z + u.z * v.x) * hR.c13 + (u.y * v.y) * hR.c22 +
    (u.y * v.z + u.z * v.y) * hR.c23 + (u.z * v.z) * hR.c33

theorem norm_apply [Cmath α] (R : Mat3 α) (hR : R.IsProperRotation) (u : Vec3 α) :
    linalg.norm (R.apply u) = linalg.norm u := by
  unfold linalg.norm
  rw [dot_apply R hR]

theorem sdiv_apply (R : Mat3 α) (u : Vec3 α) (s : α) :
    linalg.sdiv (R.apply u) s = R.apply (linalg.sdiv u s) := by
  apply vec3_ext <;> simp only [linalg.sdiv, Mat3.apply, div_eq_mul_inv] <;> ring

/-- The cofactors of a proper rotation are its entries. -/
theorem cofactor_eq (R : Mat3 α) (hR : R.IsProperRotation) :
    (R.a22 * R.a33 - R.a23 * R.a32 = R.a11 ∧ R.a23 * R.a31 - R.a21 * R.a33 = R.a12 ∧
      R.a21 * R.a32 - R.a22 * R.a31 = R.a13) ∧
    (R.a13 * R.a32 - R.a12 * R.a33 = R.a21 ∧ R.a11 * R.a33 - R.a13 * R.a31 = R.a22 ∧
      R.a12 * R.a31 - R.a11 * R.a32 = R.a23) ∧
    (R.a12 * R.a23 - R.a13 * R.a22 = R.a31 ∧ R.a13 * R.a21 - R.a11 * R.a23 = R.a32 ∧
      R.a11 * R.a22 - R.a12 * R.a21 = R.a33) := by
  refine ⟨⟨?_, ?_, ?_⟩, ⟨?_, ?_, ?_⟩, ⟨?_, ?_, ?_⟩⟩
  · linear_combination (-(R.a22 * R.a33 - R.a23 * R.a32)) * hR.c11 +
      (-(R.a23 * R.a31 - R.a21 * R.a33)) * hR.c12 +
      (-(R.a21 * R.a32 - R.a22 * R.a31)) * hR.c13 + R.a11 * hR.det
  · linear_combination (-(R.a22 * R.a33 - R.a23 * R.a32)) * hR.c12 +
      (-(R.a23 * R.a31 - R.a21 * R.a33)) * hR.c22 +
      (-(R.a21 * R.a32 - R.a22 * R.a31)) * hR.c23 + R.a12 * hR.det
  · linear_combination (-(R.a22 * R.a33 - R.a23 * R.a32)) * hR.c13 +
      (-(R.a23 * R.a31 - R.a21 * R.a33)) * hR.c23 +
      (-(R.a21 * R.a32 - R.a22 * R.a31)) * hR.c33 + R.a13 * hR.det
  · linear_combination (-(R.a13 * R.a32 - R.a12 * R.a33)) * hR.c11 +
      (-(R.a11 * R.a33 - R.a13 * R.a31)) * hR.c12 +
      (-(R.a12 * R.a31 - R.a11 * R.a32)) * hR.c13 + R.a21 * hR.det
  · linear_combination (-(R.a13 * R.a32 - R.a12 * R.a33)) * hR.c12 +
      (-(R.a11 * R.a33 - R.a13 * R.a31)) * hR.c22 +
      (-(R.a12 * R.a31 - R.a11 * R.a32)) * hR.c23 + R.a22 * hR.det
  · linear_combination (-(R.a13 * R.a32 - R.a12 * R.a33)) * hR.c13 +
      (-(R.a11 * R.a33 - R.a13 * R.a31)) * hR.c23 +
      (-(R.a12 * R.a31 - R.a11 * R.a32)) * hR.c33 + R.a23 * hR.det
  · linear_combination (-(R.a12 * R.a23 - R.a13 * R.a22)) * hR.c11 +
      (-(R.a13 * R.a21 - R.a11 * R.a23)) * hR.c12 +
      (-(R.a11 * R.a22 - R.a12 * R.a21)) * hR.c13 + R.a31 * hR.det
  · linear_combination (-(R.a12 * R.a23 - R.a13 * R.a22)) * hR.c12 +
      (-(R.a13 * R.a21 - R.a11 * R.a23)) * hR.c22 +
      (-(R.a11 * R.a22 - R.a12 * R.a21)) * hR.c23 + R.a32 * hR.det
  · linear_combination (-(R.a12 * R.a23 - R.a13 * R.a22)) * hR.c13 +
      (-(R.a13 * R.a21 - R.a11 * R.a23)) * hR.c23 +
      (-(R.a11 * R.a22 - R.a12 * R.a21)) * hR.c33 + R.a33 * hR.det

end rotation_lemmas

end connectivity
end irc

namespace irc
namespace connectivity
open molecule

section rigid_invariance

variable {α : Type} [LinearOrderedField α]

theorem cross_apply (R : Mat3 α) (hR : R.IsProperRotation) (u v : Vec3 α) :
    linalg.cross (R.apply u) (R.apply v) = R.apply (linalg.cross u v) := by
  obtain ⟨⟨h11, h12, h13⟩, ⟨h21, h22, h23⟩, ⟨h31, h32, h33⟩⟩ := cofactor_eq R hR
  apply vec3_ext <;> simp only [linalg.cross, Mat3.apply]
  · linear_combination (u.y * v.z - u.z * v.y) * h11 + (u.z * v.x - u.x * v.z) * h12 +
      (u.x * v.y - u.y * v.x) * h13
  · linear_combination (u.y * v.z - u.z * v.y) * h21 + (u.z * v.x - u.x * v.z) * h22 +
      (u.x * v.y - u.y * v.x) * h23
  · linear_combination (u.y * v.z - u.z * v.y) * h31 + (u.z * v.x - u.x * v.z) * h32 +
      (u.x * v.y - u.y * v.x) * h33

theorem atom_position_rigid_motion (R : Mat3 α) (t : Vec3 α) (x : Vec α) (a : Nat) :
    atom_position (rigid_motion R t x) a = linalg.add (R.apply (atom_position x a)) t := by
  have h0 : (3 * a) / 3 = a := by omega
  have h1 : (3 * a + 1) / 3 = a := by omega
  have h2 : (3 * a + 2) / 3 = a := by omega
  have m0 : (3 * a) % 3 = 0 := by omega
  have m1 : (3 * a + 1) % 3 = 1 := by omega
  have m2 : (3 * a + 2) % 3 = 2 := by omega
  apply vec3_ext <;>
    simp [atom_position, rigid_motion, Vec3.component, h0, h1, h2, m0, m1, m2]

variable [Cmath α]

theorem bond_x_eq (b : Bond) (x : Vec α) :
    bond_x b x = distance (atom_position x b.i) (atom_position x b.j) := rfl

theorem angle_x_eq (a : Angle) (x : Vec α) :
    angle_x a x = angle (atom_position x a.i) (atom_position x a.j) (atom_position x a.k) := rfl

theorem dihedral_x_eq (d : Dihedral) (x : Vec α) :
    dihedral_x d x = dihedral (atom_position x d.i) (atom_position x d.j)
      (atom_position x d.k) (atom_position x d.l) := rfl

theorem distance_rigid (R : Mat3 α) (hR : R.IsProperRotation) (t p q : Vec3 α) :
    distance (linalg.add (R.apply p) t) (linalg.add (R.apply q) t) = distance p q := by
  unfold distance
  rw [sub_rigid, norm_apply R hR]

theorem angle_rigid (R : Mat3 α) (hR : R.IsProperRotation) (t p q r : Vec3 α) :
    angle (linalg.add (R.apply p) t) (linalg.add (R.apply q) t) (linalg.add (R.apply r) t) =
      angle p q r := by
  unfold angle
  simp only [sub_rigid, norm_apply R hR, dot_apply R hR]

theorem dihedral_rigid (R : Mat3 α) (hR : R.IsProperRotation) (t p q r s : Vec3 α) :
    dihedral (linalg.add (R.apply p) t) (linalg.add (R.apply q) t) (linalg.add (R.apply r) t)
      (linalg.add (R.apply s) t) = dihedral p q r s := by
  unfold dihedral
  simp only [sub_rigid, cross_apply R hR, norm_apply R hR, sdiv_apply, dot_apply R hR]

theorem bond_x_rigid (R : Mat3 α) (hR : R.IsProperRotation) (t : Vec3 α) (x : Vec α) (b : Bond) :
    bond_x b (rigid_motion R t x) = bond_x b x := by
  simp only [bond_x_eq, atom_position_rigid_motion, distance_rigid R hR]

theorem angle_x_rigid (R : Mat3 α) (hR : R.IsProperRotation) (t : Vec3 α) (x : Vec α)
    (a : Angle) : angle_x a (rigid_motion R t x) = angle_x a x := by
  simp only [angle_x_eq, atom_position_rigid_motion, angle_rigid R hR]

theorem dihedral_x_rigid (R : Mat3 α) (hR : R.IsProperRotation) (t : Vec3 α) (x : Vec α)
    (d : Dihedral) : dihedral_x d (rigid_motion R t x) = dihedral_x d x := by
  simp only [dihedral_x_eq, atom_position_rigid_motion, dihedral_rigid R hR]

end rigid_invariance

end connectivity
end irc

namespace irc
namespace connectivity
open molecule

/-! ## Closed form of `cartesian_to_irc` -/

section irc_closed_form

variable {α : Type}

theorem foldl_set_vec (f : Nat → α) (off n : Nat) (q0 : Vec α) :
    (List.range n).foldl (fun q i => linalg.set_vec q (i + off) (f i)) q0 =
      ⟨q0.size, fun t => if off ≤ t ∧ t < off + n then f (t - off) else q0.get t⟩ := by
  induction n with
  | zero =>
    simp only [List.range_zero, List.foldl_nil]
    cases q0 with
    | mk s g =>
      congr 1
      funext t
      have : ¬ (off ≤ t ∧ t < off + 0) := by omega
      simp only [this, if_false]
  | succ n ih =>
    rw [List.range_succ, List.foldl_append, ih]
    simp only [List.foldl_cons, List.foldl_nil, linalg.set_vec]
    congr 1
    funext t
    by_cases h1 : t = n + off
    · have h2 : off ≤ t ∧ t < off + (n + 1) := by omega
      have h3 : t - off = n := by omega
      simp only [h1, if_true] at h2 ⊢
      simp only [h2, and_self, if_true]
      congr 1
      omega
    · simp only [h1, if_false]
      by_cases h2 : off ≤ t ∧ t < off + n
      · have h3 : off ≤ t ∧ t < off + (n + 1) := by omega
        simp only [h2, h3, and_self, if_true]
      · have h3 : ¬ (off ≤ t ∧ t < off + (n + 1)) := by omega
        simp only [h2, h3, if_false]

variable [Zero α] [Add α] [Sub α] [Mul α] [Div α] [Cmath α]

/-- The result of `cartesian_to_irc`, component by component. -/
theorem cartesian_to_irc_eq (x : Vec α) (bonds : List Bond) (angles : List Angle)
    (dihedrals : List Dihedral) :
    cartesian_to_irc x bonds angles dihedrals =
      ⟨bonds.length + angles.length + dihedrals.length, fun t =>
        if bonds.length + angles.length ≤ t ∧
            t < bonds.length + angles.length + dihedrals.length then
          dihedral_x (dihedrals.getD (t - (bonds.length + angles.length)) ⟨0, 0, 0, 0⟩) x
        else if bonds.length ≤ t ∧ t < bonds.length + angles.length then
          angle_x (angles.getD (t - bonds.length) ⟨0, 0, 0⟩) x
        else if 0 ≤ t ∧ t < 0 + bonds.length then
          bond_x (bonds.getD (t - 0) ⟨0, 0⟩) x
        else 0⟩ := by
  unfold cartesian_to_irc
  simp only []
  have hb := foldl_set_vec (fun i => bond_x (bonds.getD i ⟨0, 0⟩) x) 0 bonds.length
    (linalg.zeros_vec (bonds.length + angles.length + dihedrals.length))
  simp only [Nat.add_zero] at hb
  rw [hb, foldl_set_vec (fun i => angle_x (angles.getD i ⟨0, 0, 0⟩) x),
    foldl_set_vec (fun i => dihedral_x (dihedrals.getD i ⟨0, 0, 0, 0⟩) x)]
  simp only [linalg.zeros_vec, Nat.sub_zero, Nat.zero_add]

theorem cartesian_to_irc_size (x : Vec α) (bonds : List Bond) (angles : List Angle)
    (dihedrals : List Dihedral) :
    (cartesian_to_irc x bonds angles dihedrals).size =
      bonds.length + angles.length + dihedrals.length := by
  rw [cartesian_to_irc_eq]

theorem cartesian_to_irc_bond (x : Vec α) (bonds : List Bond) (angles : List Angle)
    (dihedrals : List Dihedral) (t : Nat) (ht : t < bonds.length) :
    (cartesian_to_irc x bonds angles dihedrals).get t = bond_x (bonds.getD t ⟨0, 0⟩) x := by
  rw [cartesian_to_irc_eq]
  have h1 : ¬ (bonds.length + angles.length ≤ t ∧
      t < bonds.length + angles.length + dihedrals.length) := by omega
  have h2 : ¬ (bonds.length ≤ t ∧ t < bonds.length + angles.length) := by omega
  have h3 : 0 ≤ t ∧ t < 0 + bonds.length := by omega
  simp only [h1, h2, h3, if_false, and_self, if_true, Nat.sub_zero]

theorem cartesian_to_irc_angle (x : Vec α) (bonds : List Bond) (angles : List Angle)
    (dihedrals : List Dihedral) (t : Nat) (ht : t < angles.length) :
    (cartesian_to_irc x bonds angles dihedrals).get (bonds.length + t) =
      angle_x (angles.getD t ⟨0, 0, 0⟩) x := by
  rw [cartesian_to_irc_eq]
  have h1 : ¬ (bonds.length + angles.length ≤ bonds.length + t ∧
      bonds.length + t < bonds.length + angles.length + dihedrals.length) := by omega
  have h2 : bonds.length ≤ bonds.length + t ∧
      bonds.length + t < bonds.length + angles.length := by omega
  simp only [h1, h2, if_false, and_self, if_true, Nat.add_sub_cancel_left]

theorem cartesian_to_irc_dihedral (x : Vec α) (bonds : List Bond) (angles : List Angle)
    (dihedrals : List Dihedral) (t : Nat) (ht : t < dihedrals.length) :
    (cartesian_to_irc x bonds angles dihedrals).get (bonds.length + angles.length + t) =
      dihedral_x (dihedrals.getD t ⟨0, 0, 0, 0⟩) x := by
  rw [cartesian_to_irc_eq]
  have h1 : bonds.length + angles.length ≤ bonds.length + angles.length + t ∧
      bonds.length + angles.length + t <
        bonds.length + angles.length + dihedrals.length := by omega
  simp only [h1, and_self, if_true, Nat.add_sub_cancel_left]

end irc_closed_form

end connectivity
end irc

namespace irc
namespace connectivity
open molecule

/-! ## Invariance, symmetry and values of the internal coordinates -/

section irc_values

variable {α : Type} [LinearOrderedField α]

theorem dot_comm (a b : Vec3 α) : linalg.dot a b = linalg.dot b a := by
  simp only [linalg.dot]
  ring

theorem cross_sdiv (a b : Vec3 α) (s : α) :
    linalg.cross a (linalg.sdiv b s) = linalg.sdiv (linalg.cross a b) s := by
  apply vec3_ext <;> simp only [linalg.cross, linalg.sdiv, div_eq_mul_inv] <;> ring

variable [Cmath α]

theorem dihedral_eq_formula (v1 v2 v3 v4 : Vec3 α) :
    dihedral v1 v2 v3 v4 = dihedral_formula v1 v2 v3 v4 := by
  unfold dihedral dihedral_formula
  simp only [cross_sdiv]

theorem getD_of_getElem? {β : Type} (l : List β) (t : Nat) (b d : β) (h : l[t]? = some b) :
    l.getD t d = b := by
  rw [List.getD_eq_getElem?_getD, h]
  rfl

theorem lt_length_of_getElem? {β : Type} (l : List β) (t : Nat) (b : β) (h : l[t]? = some b) :
    t < l.length := by
  by_contra hlt
  rw [List.getElem?_eq_none (Nat.le_of_not_lt hlt)] at h
  exact Option.noConfusion h

end irc_values

end connectivity
end irc

namespace irc
namespace connectivity
open molecule

/-- Claim C14. Rigid-motion invariance of `cartesian_to_irc`: for every
Cartesian vector, every list of bonds, angles and dihedrals, every proper
rotation `R` (orthonormal columns, determinant one) and every translation `t`,
the internal coordinates of the geometry in which every atom position `r` is
replaced by `R r + t` are exactly those of the original geometry. -/
theorem cartesian_to_irc_rigid_motion {α : Type} [LinearOrderedField α] [Cmath α]
    (x : Vec α) (bonds : List Bond) (angles : List Angle) (dihedrals : List Dihedral)
    (R : Mat3 α) (t : Vec3 α) (hR : R.IsProperRotation) :
    cartesian_to_irc (rigid_motion R t x) bonds angles dihedrals =
      cartesian_to_irc x bonds angles dihedrals := by
  unfold cartesian_to_irc
  simp only [bond_x_rigid R hR, angle_x_rigid R hR, dihedral_x_rigid R hR]

/-- Claim C14, at bent hydrogen peroxide turned by a quarter turn about the z axis
and shifted by (1, 2, 3). -/
theorem cartesian_to_irc_rigid_motion_witness :
    (samples.quarter_turn : Mat3 ℝ).IsProperRotation ∧
      cartesian_to_irc (rigid_motion samples.quarter_turn samples.shift
          (samples.bent_cartesian : Vec ℝ)) [⟨0, 1⟩, ⟨0, 2⟩, ⟨1, 3⟩] [⟨1, 0, 2⟩, ⟨0, 1, 3⟩]
          [⟨2, 0, 1, 3⟩] =
        cartesian_to_irc (samples.bent_cartesian : Vec ℝ) [⟨0, 1⟩, ⟨0, 2⟩, ⟨1, 3⟩]
          [⟨1, 0, 2⟩, ⟨0, 1, 3⟩] [⟨2, 0, 1, 3⟩] :=
  have hR : (samples.quarter_turn : Mat3 ℝ).IsProperRotation := by
    constructor <;> norm_num [samples.quarter_turn]
  ⟨hR, cartesian_to_irc_rigid_motion _ _ _ _ _ _ hR⟩

/-- Claim C16. An angle is unchanged by reversing its end atoms: for all
points, `angle(v1, v2, v3) = angle(v3, v2, v1)`, and for every Cartesian
vector the angle of `Angle{i, k, j}` equals the angle of `Angle{j, k, i}`. -/
theorem angle_reverse {α : Type} [LinearOrderedField α] [Cmath α] :
    (∀ v1 v2 v3 : Vec3 α, angle v1 v2 v3 = angle v3 v2 v1) ∧
    (∀ (i k j : Nat) (x : Vec α), angle_x ⟨i, k, j⟩ x = angle_x ⟨j, k, i⟩ x) := by
  have h : ∀ v1 v2 v3 : Vec3 α, angle v1 v2 v3 = angle v3 v2 v1 := by
    intro v1 v2 v3
    unfold angle
    simp only []
    rw [dot_comm (linalg.sub v1 v2), mul_comm (linalg.norm (linalg.sub v1 v2))]
  refine ⟨h, ?_⟩
  intro i k j x
  rw [angle_x_eq, angle_x_eq]
  exact h _ _ _

/-- Claim C18. The vector returned by `cartesian_to_irc` has length
`nb + na + nd`; its component `t` is the length of `bonds[t]` for `t < nb`,
the angle at the middle atom of `angles[t]` at index `nb + t`, and the
dihedral `atan2((n̂1 × b̂2) · n̂2, n̂1 · n̂2)` of `dihedrals[t]` at index
`nb + na + t`, where the position of atom `a` is `(x(3a), x(3a+1), x(3a+2))`. -/
theorem cartesian_to_irc_components {α : Type} [LinearOrderedField α] [Cmath α]
    (x : Vec α) (bonds : List Bond) (angles : List Angle) (dihedrals : List Dihedral) :
    (cartesian_to_irc x bonds angles dihedrals).size =
      bonds.length + angles.length + dihedrals.length ∧
    (∀ t b, bonds[t]? = some b →
      (cartesian_to_irc x bonds angles dihedrals).get t =
        linalg.norm (linalg.sub (atom_position x b.i) (atom_position x b.j))) ∧
    (∀ t a, angles[t]? = some a →
      (cartesian_to_irc x bonds angles dihedrals).get (bonds.length + t) =
        angle (atom_position x a.i) (atom_position x a.j) (atom_position x a.k)) ∧
    (∀ t d, dihedrals[t]? = some d →
      (cartesian_to_irc x bonds angles dihedrals).get (bonds.length + angles.length + t) =
        dihedral_formula (atom_position x d.i) (atom_position x d.j) (atom_position x d.k)
          (atom_position x d.l)) := by
  refine ⟨cartesian_to_irc_size x bonds angles dihedrals, ?_, ?_, ?_⟩
  · intro t b hb
    rw [cartesian_to_irc_bond x bonds angles dihedrals t (lt_length_of_getElem? _ _ _ hb),
      getD_of_getElem? _ _ _ _ hb, bond_x_eq]
    rfl
  · intro t a ha
    rw [cartesian_to_irc_angle x bonds angles dihedrals t (lt_length_of_getElem? _ _ _ ha),
      getD_of_getElem? _ _ _ _ ha, angle_x_eq]
  · intro t d hd
    rw [cartesian_to_irc_dihedral x bonds angles dihedrals t (lt_length_of_getElem? _ _ _ hd),
      getD_of_getElem? _ _ _ _ hd, dihedral_x_eq, dihedral_eq_formula]

end connectivity
end irc

namespace irc
namespace connectivity
open molecule

/-! ## Distances and angle ratios over the real numbers -/

theorem distance_real_nonneg (v1 v2 : Vec3 ℝ) : 0 ≤ distance v1 v2 :=
  Real.sqrt_nonneg _

theorem dot_self_nonneg (a : Vec3 ℝ) : 0 ≤ linalg.dot a a := by
  simp only [linalg.dot]
  nlinarith [sq_nonneg a.x, sq_nonneg a.y, sq_nonneg a.z]

theorem dot_self_sub_pos (v1 v2 : Vec3 ℝ) (h : v1 ≠ v2) :
    0 < linalg.dot (linalg.sub v1 v2) (linalg.sub v1 v2) := by
  by_contra hle
  apply h
  have hle : linalg.dot (linalg.sub v1 v2) (linalg.sub v1 v2) ≤ 0 := le_of_not_lt hle
  simp only [linalg.dot, linalg.sub] at hle
  have hx : (v1.x - v2.x) * (v1.x - v2.x) = 0 := by
    nlinarith [mul_self_nonneg (v1.x - v2.x), mul_self_nonneg (v1.y - v2.y),
      mul_self_nonneg (v1.z - v2.z)]
  have hy : (v1.y - v2.y) * (v1.y - v2.y) = 0 := by
    nlinarith [mul_self_nonneg (v1.x - v2.x), mul_self_nonneg (v1.y - v2.y),
      mul_self_nonneg (v1.z - v2.z)]
  have hz : (v1.z - v2.z) * (v1.z - v2.z) = 0 := by
    nlinarith [mul_self_nonneg (v1.x - v2.x), mul_self_nonneg (v1.y - v2.y),
      mul_self_nonneg (v1.z - v2.z)]
  apply vec3_ext
  · exact sub_eq_zero.mp (mul_self_eq_zero.mp hx)
  · exact sub_eq_zero.mp (mul_self_eq_zero.mp hy)
  · exact sub_eq_zero.mp (mul_self_eq_zero.mp hz)

theorem norm_real_pos (v1 v2 : Vec3 ℝ) (h : v1 ≠ v2) : 0 < linalg.norm (linalg.sub v1 v2) :=
  Real.sqrt_pos.mpr (dot_self_sub_pos v1 v2 h)

/-- The inequality of Cauchy and Schwarz for the model of `linalg::norm`. -/
theorem abs_dot_le (a b : Vec3 ℝ) : |linalg.dot a b| ≤ linalg.norm a * linalg.norm b := by
  have h : linalg.dot a b ^ 2 ≤ linalg.dot a a * linalg.dot b b := by
    simp only [linalg.dot]
    nlinarith [sq_nonneg (a.x * b.y - a.y * b.x), sq_nonneg (a.x * b.z - a.z * b.x),
      sq_nonneg (a.y * b.z - a.z * b.y)]
  have h2 := Real.abs_le_sqrt h
  rw [Real.sqrt_mul (dot_self_nonneg a)] at h2
  exact h2

theorem ratio_real_bounds (v1 v2 v3 : Vec3 ℝ) (h1 : v1 ≠ v2) (h3 : v3 ≠ v2) :
    -1 ≤ linalg.dot (linalg.sub v1 v2) (linalg.sub v3 v2) /
        (linalg.norm (linalg.sub v1 v2) * linalg.norm (linalg.sub v3 v2)) ∧
      linalg.dot (linalg.sub v1 v2) (linalg.sub v3 v2) /
        (linalg.norm (linalg.sub v1 v2) * linalg.norm (linalg.sub v3 v2)) ≤ 1 := by
  have hN : 0 < linalg.norm (linalg.sub v1 v2) * linalg.norm (linalg.sub v3 v2) :=
    mul_pos (norm_real_pos v1 v2 h1) (norm_real_pos v3 v2 h3)
  have hcs := abs_le.mp (abs_dot_le (linalg.sub v1 v2) (linalg.sub v3 v2))
  constructor
  · rw [le_div_iff₀ hN]
    linarith [hcs.1]
  · rw [div_le_one hN]
    exact hcs.2

end connectivity
end irc

namespace irc
namespace connectivity
open molecule

/-- Claim C17. For points with `v1 ≠ v2` and `v3 ≠ v2`, over the real numbers
the ratio `(r1 · r2) / (|r1| |r2|)` to which `angle` applies `acos` lies in
`[-1, 1]`, so clamping it to `[-1, 1]` leaves it unchanged and `angle` returns
the value of the formula that clamps the ratio first. -/
theorem angle_eq_angle_clamped (v1 v2 v3 : Vec3 ℝ) (h1 : v1 ≠ v2) (h3 : v3 ≠ v2) :
    (-1 ≤ linalg.dot (linalg.sub v1 v2) (linalg.sub v3 v2) /
        (linalg.norm (linalg.sub v1 v2) * linalg.norm (linalg.sub v3 v2)) ∧
      linalg.dot (linalg.sub v1 v2) (linalg.sub v3 v2) /
        (linalg.norm (linalg.sub v1 v2) * linalg.norm (linalg.sub v3 v2)) ≤ 1) ∧
    max (-1) (min 1 (linalg.dot (linalg.sub v1 v2) (linalg.sub v3 v2) /
        (linalg.norm (linalg.sub v1 v2) * linalg.norm (linalg.sub v3 v2)))) =
      linalg.dot (linalg.sub v1 v2) (linalg.sub v3 v2) /
        (linalg.norm (linalg.sub v1 v2) * linalg.norm (linalg.sub v3 v2)) ∧
    angle v1 v2 v3 = angle_clamped v1 v2 v3 := by
  have hb := ratio_real_bounds v1 v2 v3 h1 h3
  have hclamp : max (-1) (min 1 (linalg.dot (linalg.sub v1 v2) (linalg.sub v3 v2) /
        (linalg.norm (linalg.sub v1 v2) * linalg.norm (linalg.sub v3 v2)))) =
      linalg.dot (linalg.sub v1 v2) (linalg.sub v3 v2) /
        (linalg.norm (linalg.sub v1 v2) * linalg.norm (linalg.sub v3 v2)) := by
    rw [min_eq_right hb.2, max_eq_right hb.1]
  refine ⟨hb, hclamp, ?_⟩
  unfold angle angle_clamped
  simp only []
  rw [hclamp]

/-- Claim C17, at a right angle with arms of length 9/5. -/
theorem angle_eq_angle_clamped_witness :
    ((⟨9 / 5, 0, 0⟩ : Vec3 ℝ) ≠ ⟨0, 0, 0⟩ ∧ (⟨0, 9 / 5, 0⟩ : Vec3 ℝ) ≠ ⟨0, 0, 0⟩) ∧
      angle (⟨9 / 5, 0, 0⟩ : Vec3 ℝ) ⟨0, 0, 0⟩ ⟨0, 9 / 5, 0⟩ =
        angle_clamped (⟨9 / 5, 0, 0⟩ : Vec3 ℝ) ⟨0, 0, 0⟩ ⟨0, 9 / 5, 0⟩ :=
  have h1 : (⟨9 / 5, 0, 0⟩ : Vec3 ℝ) ≠ ⟨0, 0, 0⟩ := by
    intro h
    have hx := congrArg Vec3.x h
    norm_num at hx
  have h3 : (⟨0, 9 / 5, 0⟩ : Vec3 ℝ) ≠ ⟨0, 0, 0⟩ := by
    intro h
    have hy := congrArg Vec3.y h
    norm_num at hy
  ⟨⟨h1, h3⟩, (angle_eq_angle_clamped _ _ _ h1 h3).2.2⟩

end connectivity
end irc

namespace irc
namespace connectivity
open molecule

/-! ## Molecules of two atoms -/

section two_atoms

variable {α : Type} [LinearOrderedField α]

/-- With finite distances, any two atoms are joined in the graph that the
stitching of fragments leaves. -/
theorem stitched_graph_joined (radii : atom.Radii α) (distances : Mat α)
    (molecule : Molecule α)
    (hfin : ∀ k l, k < molecule.length → l < molecule.length →
      distances.get l k < max_double)
    (u v : Nat) (hu : u < molecule.length) (hv : v < molecule.length) :
    (stitched_graph radii distances molecule).Joined u v := by
  obtain ⟨hnv, hw⟩ := covalent_graph_spec radii distances molecule
  have hext := stitched_graph_extends radii distances molecule
  have hjoin := stitching_phase_joined radii distances molecule hfin
  have same : ∀ a b, a < molecule.length → b < molecule.length →
      (covalent_fragments radii distances molecule).getD a 0 =
        (covalent_fragments radii distances molecule).getD b 0 →
      (stitched_graph radii distances molecule).Joined a b := by
    intro a b ha hb hab
    exact joined_of_extends hext
      (joined_of_component_eq _ hw a b (by rw [hnv]; exact ha) (by rw [hnv]; exact hb) hab)
  have across : ∀ a b, a < molecule.length → b < molecule.length →
      (covalent_fragments radii distances molecule).getD a 0 <
        (covalent_fragments radii distances molecule).getD b 0 →
      (stitched_graph radii distances molecule).Joined a b := by
    intro a b ha hb hab
    obtain ⟨k, l, hk, hl, hka, hlb, hadj⟩ := hjoin a b ha hb hab
    exact joined_trans _ (same a k ha hk hka.symm)
      (joined_trans _ (joined_of_adj _ hadj) (same l b hl hb hlb))
  rcases Nat.lt_trichotomy ((covalent_fragments radii distances molecule).getD u 0)
    ((covalent_fragments radii distances molecule).getD v 0) with h | h | h
  · exact across u v hu hv h
  · exact same u v hu hv h
  · exact joined_symm _ (across v u hv hu h)

/-- In a graph of two vertices a walk from vertex 0 stays at vertex 0 unless
the two vertices are adjacent. -/
theorem walk_two (ug : UGraph) (hn : ug.num_vertices = 2) {k v : Nat} (h : ug.Walk 0 k v) :
    v = 0 ∨ ug.Adj 0 1 := by
  induction h with
  | nil => exact Or.inl rfl
  | @snoc m u w _ hadj ih =>
    rcases ih with h0 | h1
    · subst h0
      have hw := (adj_lt ug _ _ hadj).2
      rw [hn] at hw
      have hcases : w = 0 ∨ w = 1 := by omega
      rcases hcases with h | h
      · exact Or.inl h
      · subst h
        exact Or.inr hadj
    · exact Or.inr h1

theorem adj_of_joined_two (ug : UGraph) (hn : ug.num_vertices = 2) (h : ug.Joined 0 1) :
    ug.Adj 0 1 := by
  obtain ⟨k, hk⟩ := h
  rcases walk_two ug hn hk with h0 | h1
  · exact absurd h0 (by decide)
  · exact h1

/-- The graph distances of two adjacent atoms. -/
theorem distance_matrix_two (ug : UGraph) (hn : ug.num_vertices = 2)
    (hw : ∀ e ∈ ug.edges, e.weight = 1) (hadj : ug.Adj 0 1) :
    ((distance_matrix ug).1 : Mat α).get 0 0 = 0 ∧ ((distance_matrix ug).1 : Mat α).get 1 1 = 0 ∧
      ((distance_matrix ug).1 : Mat α).get 0 1 = 1 ∧
      ((distance_matrix ug).1 : Mat α).get 1 0 = 1 := by
  have h01 : ((distance_matrix ug).1 : Mat α).get 0 1 = 1 :=
    (distance_matrix_eq_one_iff ug hw 0 1 (by omega) (by omega)).mpr ⟨by decide, hadj⟩
  refine ⟨distance_matrix_diag ug hw 0, distance_matrix_diag ug hw 1, h01, ?_⟩
  rw [distance_matrix_symm ug hw 1 0]
  exact h01

/-- The enumeration for a graph-distance matrix of two adjacent atoms. -/
theorem enumeration_two [Cmath α] (D P : Mat α) (molecule : Molecule α) (epsilon : α)
    (hlen : molecule.length = 2) (hrows : D.n_rows = 2) (hcols : D.n_cols = 2)
    (h00 : D.get 0 0 = 0) (h11 : D.get 1 1 = 0) (h01 : D.get 0 1 = 1) :
    bonds D molecule = [Bond.mk 0 1] ∧ angles D P molecule = Except.ok [] ∧
      dihedrals D P molecule epsilon = [] := by
  have hsq := sqrt_size_square D 2 hrows hcols
  have hne10 : (1 : α) ≠ 0 := one_ne_zero
  have hne20 : (2 : α) ≠ 0 := two_ne_zero
  refine ⟨?_, ?_, ?_⟩
  · rw [bonds_eq, hlen]
    simp [List.range_succ, h01]
  · have hnil : angle_candidates D molecule.length = [] := by
      rw [List.eq_nil_iff_forall_not_mem]
      intro a ha
      obtain ⟨hi, hk, hj, _, h1, h2⟩ := (mem_angle_candidates D molecule.length a).mp ha
      rw [hlen] at hk
      rw [hsq] at hj
      have hi0 : a.i = 0 := by omega
      have hk1 : a.k = 1 := by omega
      rw [hi0] at h1
      rw [hk1] at h2
      have hcases : a.j = 0 ∨ a.j = 1 := by omega
      rcases hcases with h | h
      · rw [h, h00] at h1
        exact hne10 h1.symm
      · rw [h, h11] at h2
        exact hne10 h2.symm
    rw [angles_eq_ok D P molecule (by rw [hnil]; intro aa haa; exact absurd haa (List.not_mem_nil aa)),
      hnil]
  · rw [List.eq_nil_iff_forall_not_mem]
    intro d hd
    obtain ⟨hi, hl, _, hj, _, h1, h2, _⟩ :=
      (mem_dihedral_candidates D molecule.length d).mp
        (mem_dihedrals_candidate D P molecule epsilon d hd)
    rw [hlen] at hl
    rw [hsq] at hj
    have hi0 : d.i = 0 := by omega
    have hl1 : d.l = 1 := by omega
    rw [hi0] at h1
    rw [hl1] at h2
    have hcases : d.j = 0 ∨ d.j = 1 := by omega
    rcases hcases with h | h
    · rw [h, h00] at h1
      exact hne10 h1.symm
    · rw [h, h11] at h2
      exact hne20 h2.symm

end two_atoms

end connectivity
end irc

namespace irc
namespace connectivity
open molecule

/-- Claim C19. For every molecule of exactly two atoms whose interatomic
distances are finite, that is below `std::numeric_limits<double>::max()`, the
pipeline `distances`, `adjacency_matrix`, `distance_matrix`, `bonds`, `angles`,
`dihedrals` yields exactly one bond, `Bond{0, 1}`, no angle and no dihedral;
the two atoms are adjacent already before the search for hydrogen bonds: by
the covalent criterion or, failing that, by the stitching of fragments. -/
theorem two_atoms_one_bond {α : Type} [LinearOrderedField α] [Cmath α]
    (radii : atom.Radii α) (molecule : Molecule α) (epsilon : α)
    (hlen : molecule.length = 2)
    (hfin : ∀ k l, k < molecule.length → l < molecule.length →
      (distances molecule).get l k < max_double) :
    bonds (distance_matrix (adjacency_matrix radii (distances molecule) molecule)).1 molecule =
        [Bond.mk 0 1] ∧
      angles (distance_matrix (adjacency_matrix radii (distances molecule) molecule)).1
        (distance_matrix (adjacency_matrix radii (distances molecule) molecule)).2 molecule =
        Except.ok [] ∧
      dihedrals (distance_matrix (adjacency_matrix radii (distances molecule) molecule)).1
        (distance_matrix (adjacency_matrix radii (distances molecule) molecule)).2 molecule
        epsilon = [] ∧
      ((covalent_graph radii (distances molecule) molecule).Adj 0 1 ∨
        (¬ (covalent_graph radii (distances molecule) molecule).Adj 0 1 ∧
          (stitched_graph radii (distances molecule) molecule).Adj 0 1)) := by
  have hnv := adjacency_matrix_num_vertices radii (distances molecule) molecule
  rw [hlen] at hnv
  have hw := adjacency_matrix_weights radii (distances molecule) molecule
  have hext := stitched_graph_extends radii (distances molecule) molecule
  have hext2 := adjacency_matrix_extends_stitched radii (distances molecule) molecule
  have hnvs : (stitched_graph radii (distances molecule) molecule).num_vertices = 2 := by
    rw [← hext2.1]
    exact hnv
  have hadjs : (stitched_graph radii (distances molecule) molecule).Adj 0 1 :=
    adj_of_joined_two _ hnvs
      (stitched_graph_joined radii (distances molecule) molecule hfin 0 1
        (by rw [hlen]; decide) (by rw [hlen]; decide))
  have hadj := adj_of_extends hext2 hadjs
  have hD : ((distance_matrix (adjacency_matrix radii (distances molecule) molecule)).1 :
        Mat α).get 0 0 = 0 ∧
      ((distance_matrix (adjacency_matrix radii (distances molecule) molecule)).1 :
        Mat α).get 1 1 = 0 ∧
      ((distance_matrix (adjacency_matrix radii (distances molecule) molecule)).1 :
        Mat α).get 0 1 = 1 ∧
      ((distance_matrix (adjacency_matrix radii (distances molecule) molecule)).1 :
        Mat α).get 1 0 = 1 :=
    distance_matrix_two (adjacency_matrix radii (distances molecule) molecule) hnv hw hadj
  obtain ⟨h00, h11, h01, _⟩ := hD
  obtain ⟨hb, ha, hd⟩ := enumeration_two
    (distance_matrix (adjacency_matrix radii (distances molecule) molecule)).1
    (distance_matrix (adjacency_matrix radii (distances molecule) molecule)).2 molecule epsilon
    hlen hnv hnv h00 h11 h01
  refine ⟨hb, ha, hd, ?_⟩
  by_cases hc : (covalent_graph radii (distances molecule) molecule).Adj 0 1
  · exact Or.inl hc
  · exact Or.inr ⟨hc, hadjs⟩

/-- Claim C19, at two hydrogen atoms 1.4 bohr apart. -/
theorem two_atoms_one_bond_witness :
    ((samples.hydrogen : Molecule ℝ).length = 2 ∧
      ∀ k l, k < (samples.hydrogen : Molecule ℝ).length →
        l < (samples.hydrogen : Molecule ℝ).length →
        (distances (samples.hydrogen : Molecule ℝ)).get l k < max_double) ∧
    bonds (distance_matrix (adjacency_matrix samples.radii
        (distances (samples.hydrogen : Molecule ℝ)) samples.hydrogen)).1
      (samples.hydrogen : Molecule ℝ) = [Bond.mk 0 1] := by
  have hfin : ∀ k l, k < (samples.hydrogen : Molecule ℝ).length →
      l < (samples.hydrogen : Molecule ℝ).length →
      (distances (samples.hydrogen : Molecule ℝ)).get l k < max_double := by
    intro k l hk hl
    have h2 : (samples.hydrogen : Molecule ℝ).length = 2 := rfl
    rw [h2] at hk hl
    have hsq : Real.sqrt (7 / 5 * (7 / 5)) = 7 / 5 := Real.sqrt_mul_self (by norm_num)
    interval_cases k <;> interval_cases l <;>
      simp [distances, samples.hydrogen, List.range_succ, linalg.set, linalg.zeros, distance,
        linalg.norm, linalg.sub, linalg.dot, Molecule.at, Cmath.sqrt, max_double, hsq] <;>
      norm_num
  exact ⟨⟨rfl, hfin⟩, (two_atoms_one_bond samples.radii samples.hydrogen (1 / 1000000) rfl hfin).1⟩

end connectivity
end irc

namespace irc
namespace connectivity
open molecule

/-! ## Four atoms on the path 2 - 0 - 1 - 3 -/

section path_graph

theorem walk_congr {g g2 : UGraph} (h : ∀ u v, g.Adj u v → g2.Adj u v) {s k v : Nat}
    (hwalk : g.Walk s k v) : g2.Walk s k v := by
  induction hwalk with
  | nil => exact UGraph.Walk.nil
  | snoc _ hadj ih => exact UGraph.Walk.snoc ih (h _ _ hadj)

theorem isDistance_congr {g g2 : UGraph} (h : ∀ u v, g.Adj u v ↔ g2.Adj u v) {s v k : Nat}
    (hd : g.IsDistance s v k) : g2.IsDistance s v k :=
  ⟨walk_congr (fun u v => (h u v).mp) hd.1,
    fun m hm => hd.2 m (walk_congr (fun u v => (h u v).mpr) hm)⟩

/-- The edges of the sample graph make the path 2 - 0 - 1 - 3. -/
theorem peroxide_graph_adj (u v : Nat) :
    samples.peroxide_graph.Adj u v ↔
      (u = 0 ∧ v = 1) ∨ (u = 1 ∧ v = 0) ∨ (u = 0 ∧ v = 2) ∨ (u = 2 ∧ v = 0) ∨
        (u = 1 ∧ v = 3) ∨ (u = 3 ∧ v = 1) := by
  have hedges : samples.peroxide_graph.edges = [⟨0, 1, 1⟩, ⟨0, 2, 1⟩, ⟨1, 3, 1⟩] := rfl
  unfold UGraph.Adj
  rw [hedges]
  simp only [List.mem_cons, List.mem_singleton, List.not_mem_nil, or_false]
  constructor
  · rintro ⟨e, rfl | rfl | rfl, h | h⟩ <;> simp only [] at h <;> omega
  · intro h
    rcases h with h | h | h | h | h | h
    · exact ⟨⟨0, 1, 1⟩, Or.inl rfl, Or.inl ⟨h.1.symm, h.2.symm⟩⟩
    · exact ⟨⟨0, 1, 1⟩, Or.inl rfl, Or.inr ⟨h.2.symm, h.1.symm⟩⟩
    · exact ⟨⟨0, 2, 1⟩, Or.inr (Or.inl rfl), Or.inl ⟨h.1.symm, h.2.symm⟩⟩
    · exact ⟨⟨0, 2, 1⟩, Or.inr (Or.inl rfl), Or.inr ⟨h.2.symm, h.1.symm⟩⟩
    · exact ⟨⟨1, 3, 1⟩, Or.inr (Or.inr rfl), Or.inl ⟨h.1.symm, h.2.symm⟩⟩
    · exact ⟨⟨1, 3, 1⟩, Or.inr (Or.inr rfl), Or.inr ⟨h.2.symm, h.1.symm⟩⟩

theorem peroxide_graph_isDistance (i j : Nat) (hi : i < 4) (hj : j < 4) :
    samples.peroxide_graph.IsDistance i j (samples.peroxide_distances i j) := by
  have hw : ∀ e ∈ samples.peroxide_graph.edges, e.weight = 1 := by decide
  have hn : samples.peroxide_graph.num_vertices = 4 := rfl
  rw [← dijkstra_some_iff samples.peroxide_graph hw i (by rw [hn]; exact hi)]
  interval_cases i <;> interval_cases j <;> decide

end path_graph

end connectivity
end irc

namespace irc
namespace connectivity
open molecule

section path_enumeration

/-- The graph distances of a graph whose edges make the path 2 - 0 - 1 - 3. -/
theorem distance_matrix_path {α : Type} [LinearOrderedField α] (ug : UGraph)
    (hn : ug.num_vertices = 4) (hw : ∀ e ∈ ug.edges, e.weight = 1)
    (hadj : ∀ u v, ug.Adj u v ↔
      (u = 0 ∧ v = 1) ∨ (u = 1 ∧ v = 0) ∨ (u = 0 ∧ v = 2) ∨ (u = 2 ∧ v = 0) ∨
        (u = 1 ∧ v = 3) ∨ (u = 3 ∧ v = 1))
    (i j : Nat) (hi : i < 4) (hj : j < 4) :
    ((distance_matrix ug).1 : Mat α).get i j = (samples.peroxide_distances i j : α) := by
  apply distance_matrix_of_isDistance ug hw i j _ (by rw [hn]; exact hi) (by rw [hn]; exact hj)
  exact isDistance_congr (fun u v => ((peroxide_graph_adj u v).trans (hadj u v).symm))
    (peroxide_graph_isDistance i j hi hj)

/-- The bonds, the candidate angles and the candidate dihedrals for the graph
distances of the path 2 - 0 - 1 - 3. -/
theorem candidates_path (D : Mat ℝ) (molecule : Molecule ℝ) (hlen : molecule.length = 4)
    (hrows : D.n_rows = 4) (hcols : D.n_cols = 4)
    (hD : ∀ i j, i < 4 → j < 4 → D.get i j = (samples.peroxide_distances i j : ℝ)) :
    bonds D molecule = [Bond.mk 0 1, Bond.mk 0 2, Bond.mk 1 3] ∧
      angle_candidates D molecule.length = [Angle.mk 1 0 2, Angle.mk 0 1 3] ∧
      dihedral_candidates D molecule.length = [Dihedral.mk 2 0 1 3] := by
  have hsq := sqrt_size_square D 4 hrows hcols
  have h00 : D.get 0 0 = 0 := by rw [hD 0 0 (by decide) (by decide)]; norm_num [samples.peroxide_distances]
  have h01 : D.get 0 1 = 1 := by rw [hD 0 1 (by decide) (by decide)]; norm_num [samples.peroxide_distances]
  have h02 : D.get 0 2 = 1 := by rw [hD 0 2 (by decide) (by decide)]; norm_num [samples.peroxide_distances]
  have h03 : D.get 0 3 = 2 := by rw [hD 0 3 (by decide) (by decide)]; norm_num [samples.peroxide_distances]
  have h10 : D.get 1 0 = 1 := by rw [hD 1 0 (by decide) (by decide)]; norm_num [samples.peroxide_distances]
  have h11 : D.get 1 1 = 0 := by rw [hD 1 1 (by decide) (by decide)]; norm_num [samples.peroxide_distances]
  have h12 : D.get 1 2 = 2 := by rw [hD 1 2 (by decide) (by decide)]; norm_num [samples.peroxide_distances]
  have h13 : D.get 1 3 = 1 := by rw [hD 1 3 (by decide) (by decide)]; norm_num [samples.peroxide_distances]
  have h20 : D.get 2 0 = 1 := by rw [hD 2 0 (by decide) (by decide)]; norm_num [samples.peroxide_distances]
  have h21 : D.get 2 1 = 2 := by rw [hD 2 1 (by decide) (by decide)]; norm_num [samples.peroxide_distances]
  have h22 : D.get 2 2 = 0 := by rw [hD 2 2 (by decide) (by decide)]; norm_num [samples.peroxide_distances]
  have h23 : D.get 2 3 = 3 := by rw [hD 2 3 (by decide) (by decide)]; norm_num [samples.peroxide_distances]
  have h30 : D.get 3 0 = 2 := by rw [hD 3 0 (by decide) (by decide)]; norm_num [samples.peroxide_distances]
  have h31 : D.get 3 1 = 1 := by rw [hD 3 1 (by decide) (by decide)]; norm_num [samples.peroxide_distances]
  have h32 : D.get 3 2 = 3 := by rw [hD 3 2 (by decide) (by decide)]; norm_num [samples.peroxide_distances]
  have h33 : D.get 3 3 = 0 := by rw [hD 3 3 (by decide) (by decide)]; norm_num [samples.peroxide_distances]
  refine ⟨?_, ?_, ?_⟩
  · rw [bonds_eq, hlen]
    norm_num [List.range_succ, h01, h02, h03, h12, h13, h23]
  · rw [hlen]
    unfold angle_candidates
    simp only [angles_pair_eq, hsq]
    norm_num [List.range_succ, h00, h01, h02, h03, h10, h11, h12, h13, h20, h21, h22, h23,
      h30, h31, h32, h33]
  · rw [hlen]
    unfold dihedral_candidates
    simp only [dihedrals_pair_eq, hsq]
    norm_num [List.range_succ, h00, h01, h02, h03, h10, h11, h12, h13, h20, h21, h22, h23,
      h30, h31, h32, h33]

end path_enumeration

end connectivity
end irc

namespace irc
namespace connectivity
open molecule

/-- Claim C20. For every molecule of four atoms whose bond graph is the path
2 - 0 - 1 - 3 (edges {0,1}, {0,2}, {1,3} only) and whose angles at atoms 0 and
1 are not quasi-linear, the enumeration over the graph distances yields the
bonds `[(0,1), (0,2), (1,3)]`, the angles `[(1,0,2), (0,1,3)]` and the
dihedral `(2,0,1,3)`, in that order. -/
theorem peroxide_enumeration (ug : UGraph) (molecule : Molecule ℝ) (epsilon : ℝ)
    (hlen : molecule.length = 4) (hn : ug.num_vertices = 4)
    (hw : ∀ e ∈ ug.edges, e.weight = 1)
    (hadj : ∀ u v, ug.Adj u v ↔
      (u = 0 ∧ v = 1) ∨ (u = 1 ∧ v = 0) ∨ (u = 0 ∧ v = 2) ∨ (u = 2 ∧ v = 0) ∨
        (u = 1 ∧ v = 3) ∨ (u = 3 ∧ v = 1))
    (h102 : ¬ angle_mol (Angle.mk 1 0 2) molecule > tools.constants.quasi_linear_angle)
    (h013 : ¬ angle_mol (Angle.mk 0 1 3) molecule > tools.constants.quasi_linear_angle)
    (heps : epsilon ≤ 176) :
    bonds (distance_matrix ug).1 molecule = [Bond.mk 0 1, Bond.mk 0 2, Bond.mk 1 3] ∧
      angles (distance_matrix ug).1 (distance_matrix ug).2 molecule =
        Except.ok [Angle.mk 1 0 2, Angle.mk 0 1 3] ∧
      dihedrals (distance_matrix ug).1 (distance_matrix ug).2 molecule epsilon =
        [Dihedral.mk 2 0 1 3] := by
  obtain ⟨hb, ha, hd⟩ := candidates_path (distance_matrix ug).1 molecule hlen hn hn
    (distance_matrix_path ug hn hw hadj)
  refine ⟨hb, ?_, ?_⟩
  · rw [angles_eq_ok _ _ molecule, ha]
    rw [ha]
    intro aa haa
    rcases List.mem_cons.mp haa with h | h
    · rw [h]
      exact h102
    · rw [List.mem_singleton.mp h]
      exact h013
  · rw [dihedrals_real_eq_candidates _ _ molecule epsilon heps, hd]

/-- Claim C20, at hydrogen peroxide with right angles at both oxygen atoms. -/
theorem peroxide_enumeration_witness :
    ((samples.bent_peroxide : Molecule ℝ).length = 4 ∧
      samples.peroxide_graph.num_vertices = 4 ∧
      (∀ e ∈ samples.peroxide_graph.edges, e.weight = 1) ∧
      ¬ angle_mol (Angle.mk 1 0 2) (samples.bent_peroxide : Molecule ℝ) >
        tools.constants.quasi_linear_angle ∧
      ¬ angle_mol (Angle.mk 0 1 3) (samples.bent_peroxide : Molecule ℝ) >
        tools.constants.quasi_linear_angle) ∧
    bonds (distance_matrix samples.peroxide_graph).1 (samples.bent_peroxide : Molecule ℝ) =
        [Bond.mk 0 1, Bond.mk 0 2, Bond.mk 1 3] ∧
      angles (distance_matrix samples.peroxide_graph).1 (distance_matrix samples.peroxide_graph).2
        (samples.bent_peroxide : Molecule ℝ) = Except.ok [Angle.mk 1 0 2, Angle.mk 0 1 3] ∧
      dihedrals (distance_matrix samples.peroxide_graph).1
        (distance_matrix samples.peroxide_graph).2 (samples.bent_peroxide : Molecule ℝ)
        (1 / 1000000) = [Dihedral.mk 2 0 1 3] := by
  have hpi := Real.pi_pos
  have h102 : ¬ angle_mol (Angle.mk 1 0 2) (samples.bent_peroxide : Molecule ℝ) >
      tools.constants.quasi_linear_angle := by
    have h : angle_mol (Angle.mk 1 0 2) (samples.bent_peroxide : Molecule ℝ) = Real.pi / 2 :=
      angle_real_of_dot_eq_zero _ _ _
        (by norm_num [samples.bent_peroxide, Molecule.at, linalg.dot, linalg.sub])
    rw [h, quasi_linear_angle_real]
    intro hgt
    linarith
  have h013 : ¬ angle_mol (Angle.mk 0 1 3) (samples.bent_peroxide : Molecule ℝ) >
      tools.constants.quasi_linear_angle := by
    have h : angle_mol (Angle.mk 0 1 3) (samples.bent_peroxide : Molecule ℝ) = Real.pi / 2 :=
      angle_real_of_dot_eq_zero _ _ _
        (by norm_num [samples.bent_peroxide, Molecule.at, linalg.dot, linalg.sub])
    rw [h, quasi_linear_angle_real]
    intro hgt
    linarith
  exact ⟨⟨rfl, rfl, by decide, h102, h013⟩,
    peroxide_enumeration samples.peroxide_graph samples.bent_peroxide (1 / 1000000) rfl rfl
      (by decide) peroxide_graph_adj h102 h013 (by norm_num)⟩

end connectivity
end irc

namespace irc
namespace connectivity
open molecule

/-! ## Reversal of a dihedral -/

section dihedral_reversal

variable {α : Type} [LinearOrderedField α] [Cmath α]

theorem norm_congr (a b : Vec3 α) (h : linalg.dot a a = linalg.dot b b) :
    linalg.norm a = linalg.norm b := by
  unfold linalg.norm
  rw [h]

end dihedral_reversal

end connectivity
end irc

namespace irc
namespace connectivity
open molecule

/-! ## The matrix of interatomic distances -/

section distances_entries

variable {α : Type}

theorem foldl_set_shape (f : Nat → Nat → α) (L : List (Nat × Nat)) (M0 : Mat α) :
    (L.foldl (fun M p => linalg.set (linalg.set M p.1 p.2 (f p.1 p.2)) p.2 p.1 (f p.1 p.2))
        M0).n_rows = M0.n_rows ∧
      (L.foldl (fun M p => linalg.set (linalg.set M p.1 p.2 (f p.1 p.2)) p.2 p.1 (f p.1 p.2))
        M0).n_cols = M0.n_cols := by
  induction L generalizing M0 with
  | nil => exact ⟨rfl, rfl⟩
  | cons p L ih =>
    rw [List.foldl_cons]
    exact ih _

/-- A loop that stores the symmetric value `f i j` at `(i, j)` and at `(j, i)`
for every visited pair: the entries of the visited pairs hold `f`. -/
theorem foldl_set_symm (f : Nat → Nat → α) (hf : ∀ i j, f i j = f j i)
    (L : List (Nat × Nat)) (M0 : Mat α) (a b : Nat) :
    (L.foldl (fun M p => linalg.set (linalg.set M p.1 p.2 (f p.1 p.2)) p.2 p.1 (f p.1 p.2))
        M0).get a b =
      if (a, b) ∈ L ∨ (b, a) ∈ L then f a b else M0.get a b := by
  induction L generalizing M0 with
  | nil => simp
  | cons p L ih =>
    rw [List.foldl_cons, ih]
    by_cases hL : (a, b) ∈ L ∨ (b, a) ∈ L
    · have hL2 : (a, b) ∈ p :: L ∨ (b, a) ∈ p :: L := by
        rcases hL with h | h
        · exact Or.inl (List.mem_cons_of_mem _ h)
        · exact Or.inr (List.mem_cons_of_mem _ h)
      rw [if_pos hL, if_pos hL2]
    · rw [if_neg hL]
      obtain ⟨i, j⟩ := p
      simp only [linalg.set]
      by_cases h1 : a = j ∧ b = i
      · rw [if_pos h1]
        have hmem : (a, b) ∈ (i, j) :: L ∨ (b, a) ∈ (i, j) :: L := by
          right
          rw [h1.1, h1.2]
          exact List.mem_cons_self _ _
        rw [if_pos hmem, h1.1, h1.2]
        exact hf i j
      · rw [if_neg h1]
        by_cases h2 : a = i ∧ b = j
        · rw [if_pos h2]
          have hmem : (a, b) ∈ (i, j) :: L ∨ (b, a) ∈ (i, j) :: L := by
            left
            rw [h2.1, h2.2]
            exact List.mem_cons_self _ _
          rw [if_pos hmem, h2.1, h2.2]
        · rw [if_neg h2]
          have hmem : ¬ ((a, b) ∈ (i, j) :: L ∨ (b, a) ∈ (i, j) :: L) := by
            rintro (h | h)
            · rcases List.mem_cons.mp h with h | h
              · exact h2 ⟨(Prod.mk.inj h).1, (Prod.mk.inj h).2⟩
              · exact hL (Or.inl h)
            · rcases List.mem_cons.mp h with h | h
              · exact h1 ⟨(Prod.mk.inj h).2, (Prod.mk.inj h).1⟩
              · exact hL (Or.inr h)
          rw [if_neg hmem]

variable [LinearOrderedField α] [Cmath α]

theorem distance_comm (p q : Vec3 α) : distance p q = distance q p := by
  unfold distance
  apply norm_congr
  simp only [linalg.dot, linalg.sub]
  ring

/-- The loops of `distances` visit every pair of atoms. -/
theorem distances_eq_foldl (molecule : Molecule α) :
    distances molecule =
      (((List.range molecule.length).flatMap fun i =>
          (List.range molecule.length).map fun j => (i, j)).foldl
        (fun M p => linalg.set
          (linalg.set M p.1 p.2
            (distance (molecule.at p.1).position (molecule.at p.2).position))
          p.2 p.1 (distance (molecule.at p.1).position (molecule.at p.2).position))
        (linalg.zeros molecule.length molecule.length)) := by
  unfold distances
  simp only []
  rw [foldl_flatMap_eq]
  congr 1
  funext M i
  rw [List.foldl_map]

theorem distances_shape (molecule : Molecule α) :
    (distances molecule).n_rows = molecule.length ∧
      (distances molecule).n_cols = molecule.length := by
  rw [distances_eq_foldl]
  exact foldl_set_shape
    (fun i j => distance (molecule.at i).position (molecule.at j).position) _ _

theorem distances_get (molecule : Molecule α) (i j : Nat) (hi : i < molecule.length)
    (hj : j < molecule.length) :
    (distances molecule).get i j =
      distance (molecule.at i).position (molecule.at j).position := by
  rw [distances_eq_foldl]
  rw [foldl_set_symm
    (fun i j => distance (molecule.at i).position (molecule.at j).position)
    (fun i j => distance_comm _ _)]
  rw [if_pos]
  left
  simp only [List.mem_flatMap, List.mem_map, List.mem_range]
  exact ⟨i, hi, j, hj, rfl⟩

theorem distances_get_outside (molecule : Molecule α) (i j : Nat)
    (h : ¬ (i < molecule.length ∧ j < molecule.length)) :
    (distances molecule).get i j = 0 := by
  rw [distances_eq_foldl]
  rw [foldl_set_symm
    (fun i j => distance (molecule.at i).position (molecule.at j).position)
    (fun i j => distance_comm _ _)]
  rw [if_neg]
  · rfl
  · simp only [List.mem_flatMap, List.mem_map, List.mem_range]
    rintro (⟨a, ha, b, hb, hab⟩ | ⟨a, ha, b, hb, hab⟩)
    · obtain ⟨rfl, rfl⟩ := Prod.mk.inj hab
      exact h ⟨ha, hb⟩
    · obtain ⟨rfl, rfl⟩ := Prod.mk.inj hab
      exact h ⟨hb, ha⟩

end distances_entries

end connectivity
end irc

namespace irc
namespace connectivity
open molecule

section distances_real

theorem distance_real_self (p : Vec3 ℝ) : distance p p = 0 := by
  unfold distance linalg.norm
  have h : linalg.dot (linalg.sub p p) (linalg.sub p p) = 0 := by
    simp only [linalg.dot, linalg.sub]
    ring
  rw [h]
  exact Real.sqrt_zero

/-- Two atoms at the same position whose covalent radii have a positive sum
are joined by an edge of the bond graph. -/
theorem adj_of_coincident (radii : atom.Radii ℝ) (molecule : Molecule ℝ) (i j : Nat)
    (hi : i < molecule.length) (hj : j < i)
    (hpos : (molecule.at i).position = (molecule.at j).position)
    (hr : 0 < radii.covalent_radius (molecule.at i).atomic_number +
      radii.covalent_radius (molecule.at j).atomic_number) :
    (adjacency_matrix radii (distances molecule) molecule).Adj i j := by
  obtain ⟨hext1, hext2⟩ := adjacency_matrix_extends radii (distances molecule) molecule
  apply adj_of_extends (extends_trans hext1 hext2)
  rw [covalent_phase_adj_iff radii (distances molecule) molecule i j hj hi,
    distances_get molecule i j hi (lt_trans hj hi), hpos, distance_real_self]
  exact mul_pos (by norm_num [tools.constants.covalent_bond_multiplier]) hr

end distances_real

/-- Claim C25. For every molecule of `n` atoms, `distances(molecule)` is the
`n` by `n` matrix whose entry `(i, j)` is the norm of `r_i - r_j`; it is
symmetric, non-negative and zero on the diagonal. -/
theorem distances_exact (molecule : Molecule ℝ) :
    (distances molecule).n_rows = molecule.length ∧
      (distances molecule).n_cols = molecule.length ∧
      (∀ i j, i < molecule.length → j < molecule.length →
        (distances molecule).get i j =
          linalg.norm (linalg.sub (molecule.at i).position (molecule.at j).position)) ∧
      (∀ i j, (distances molecule).get i j = (distances molecule).get j i) ∧
      (∀ i j, 0 ≤ (distances molecule).get i j) ∧
      (∀ i, (distances molecule).get i i = 0) := by
  refine ⟨(distances_shape molecule).1, (distances_shape molecule).2, ?_, ?_, ?_, ?_⟩
  · intro i j hi hj
    exact distances_get molecule i j hi hj
  · intro i j
    by_cases h : i < molecule.length ∧ j < molecule.length
    · rw [distances_get molecule i j h.1 h.2, distances_get molecule j i h.2 h.1]
      exact distance_comm _ _
    · rw [distances_get_outside molecule i j h,
        distances_get_outside molecule j i (fun h2 => h ⟨h2.2, h2.1⟩)]
  · intro i j
    by_cases h : i < molecule.length ∧ j < molecule.length
    · rw [distances_get molecule i j h.1 h.2]
      exact distance_real_nonneg _ _
    · rw [distances_get_outside molecule i j h]
  · intro i
    by_cases h : i < molecule.length
    · rw [distances_get molecule i i h h]
      exact distance_real_self _
    · exact distances_get_outside molecule i i (fun h2 => h h2.1)

/-- Claim C24, the claim fails: for two hydrogen atoms at the same position
`distances` returns the zero distance and `adjacency_matrix` returns a bond
graph, in which the two atoms are bonded. -/
theorem coincident_atoms_counterexample :
    (distances (samples.coincident : Molecule ℝ)).get 1 0 = 0 ∧
      (adjacency_matrix samples.radii (distances (samples.coincident : Molecule ℝ))
        samples.coincident).num_vertices = 2 ∧
      (adjacency_matrix samples.radii (distances (samples.coincident : Molecule ℝ))
        samples.coincident).Adj 1 0 := by
  refine ⟨?_, ?_, ?_⟩
  · rw [distances_get _ 1 0 (by decide) (by decide)]
    exact distance_real_self _
  · exact adjacency_matrix_num_vertices _ _ _
  · apply adj_of_coincident samples.radii samples.coincident 1 0 (by decide) (by decide) rfl
    norm_num [samples.radii, samples.coincident, Molecule.at]

/-- Claim C24, as amended. `distances` and `adjacency_matrix` have no failure
path: for a molecule in which the atoms `i ≠ j` have identical positions,
`distances` returns the matrix whose entries `(i, j)` and `(j, i)` are 0, and
`adjacency_matrix` returns a bond graph on all the atoms in which `i` and `j`
are joined by an edge whenever the sum of their covalent radii is positive. -/
theorem coincident_atoms_bonded (radii : atom.Radii ℝ) (molecule : Molecule ℝ) (i j : Nat)
    (hi : i < molecule.length) (hj : j < molecule.length) (hne : i ≠ j)
    (hpos : (molecule.at i).position = (molecule.at j).position) :
    (distances molecule).get i j = 0 ∧ (distances molecule).get j i = 0 ∧
      (adjacency_matrix radii (distances molecule) molecule).num_vertices = molecule.length ∧
      (0 < radii.covalent_radius (molecule.at i).atomic_number +
          radii.covalent_radius (molecule.at j).atomic_number →
        (adjacency_matrix radii (distances molecule) molecule).Adj i j) := by
  refine ⟨?_, ?_, adjacency_matrix_num_vertices _ _ _, ?_⟩
  · rw [distances_get molecule i j hi hj, hpos]
    exact distance_real_self _
  · rw [distances_get molecule j i hj hi, hpos]
    exact distance_real_self _
  · intro hr
    rcases Nat.lt_or_gt_of_ne hne with h | h
    · apply adj_symm
      exact adj_of_coincident radii molecule j i hj h hpos.symm (by rw [add_comm]; exact hr)
    · exact adj_of_coincident radii molecule i j hi h hpos hr

/-- Claim C24, as amended, at two hydrogen atoms at the origin. -/
theorem coincident_atoms_bonded_witness :
    ((0 : Nat) < (samples.coincident : Molecule ℝ).length ∧
        1 < (samples.coincident : Molecule ℝ).length ∧ (0 : Nat) ≠ 1 ∧
        ((samples.coincident : Molecule ℝ).at 0).position =
          ((samples.coincident : Molecule ℝ).at 1).position) ∧
      (distances (samples.coincident : Molecule ℝ)).get 0 1 = 0 :=
  ⟨⟨by decide, by decide, by decide, rfl⟩,
    (coincident_atoms_bonded samples.radii samples.coincident 0 1 (by decide) (by decide)
      (by decide) rfl).1⟩

end connectivity
end irc

namespace irc
namespace connectivity
open molecule

end connectivity
end irc

namespace irc
namespace connectivity
open molecule

/-- Claim C29, the failing input: for linear carbon dioxide, with the carbon
atom bonded to both oxygen atoms, the enumeration gives two bonds and no
dihedral, but `angles` raises the runtime error: it returns no angle list from
which the triple (1, 0, 2) is left out, and the sources hold no list of linear
angles. -/
theorem carbon_dioxide_enumeration :
    bonds (samples.triatomic_distances : Mat ℝ) (samples.carbon_dioxide : Molecule ℝ) =
        [Bond.mk 0 1, Bond.mk 0 2] ∧
      dihedrals samples.triatomic_distances samples.triatomic_distances
        (samples.carbon_dioxide : Molecule ℝ) (1 / 1000000) = [] ∧
      angle_candidates (samples.triatomic_distances : Mat ℝ)
        (samples.carbon_dioxide : Molecule ℝ).length = [Angle.mk 1 0 2] ∧
      angle_mol (Angle.mk 1 0 2) (samples.carbon_dioxide : Molecule ℝ) >
        tools.constants.quasi_linear_angle ∧
      angles samples.triatomic_distances samples.triatomic_distances
          (samples.carbon_dioxide : Molecule ℝ) =
        Except.error "Quasi-linear angle not treated properly yet." := by
  have hs : Nat.sqrt (linalg.size (samples.triatomic_distances : Mat ℝ)) = 3 :=
    sqrt_size_square _ 3 rfl rfl
  have hlen : (samples.carbon_dioxide : Molecule ℝ).length = 3 := rfl
  have hcand : angle_candidates (samples.triatomic_distances : Mat ℝ)
      (samples.carbon_dioxide : Molecule ℝ).length = [Angle.mk 1 0 2] := by
    rw [hlen]
    unfold angle_candidates
    simp only [angles_pair_eq, hs]
    norm_num [List.range_succ, samples.triatomic_distances, linalg.ofRows]
  have hgt : angle_mol (Angle.mk 1 0 2) (samples.carbon_dioxide : Molecule ℝ) >
      tools.constants.quasi_linear_angle := by
    rw [angle_carbon_dioxide, quasi_linear_angle_real]
    have hpi := Real.pi_pos
    show 175 * Real.pi / 180 < Real.pi
    linarith
  refine ⟨?_, ?_, hcand, hgt, ?_⟩
  · rw [bonds_eq, hlen]
    norm_num [List.range_succ, samples.triatomic_distances, linalg.ofRows]
  · rw [dihedrals_real_eq_candidates _ _ _ _ (by norm_num), hlen]
    unfold dihedral_candidates
    simp only [dihedrals_pair_eq, hs]
    norm_num [List.range_succ, samples.triatomic_distances, linalg.ofRows]
  · apply angles_eq_error
    exact ⟨Angle.mk 1 0 2, by rw [hcand]; exact List.mem_singleton.mpr rfl, hgt⟩

end connectivity
end irc

namespace irc
namespace tools
namespace math

/-! ## The wrap of an angle -/

theorem pirange_rad_real (a : ℝ) :
    pirange_rad a = a - 2 * Real.pi * (Int.ceil ((a - Real.pi) / (2 * Real.pi)) : ℤ) := rfl

theorem pirange_rad_range (a : ℝ) : -Real.pi < pirange_rad a ∧ pirange_rad a ≤ Real.pi := by
  have hpi : 0 < 2 * Real.pi := by linarith [Real.pi_pos]
  rw [pirange_rad_real]
  have h1 := Int.le_ceil ((a - Real.pi) / (2 * Real.pi))
  have h2 : ((Int.ceil ((a - Real.pi) / (2 * Real.pi)) : ℤ) : ℝ) - 1 <
      (a - Real.pi) / (2 * Real.pi) := by
    linarith [Int.ceil_lt_add_one ((a - Real.pi) / (2 * Real.pi))]
  rw [div_le_iff₀ hpi] at h1
  rw [lt_div_iff₀ hpi] at h2
  constructor
  · nlinarith
  · nlinarith

theorem pirange_rad_congruent (a : ℝ) : ∃ k : ℤ, pirange_rad a = a + k * (2 * Real.pi) := by
  refine ⟨-Int.ceil ((a - Real.pi) / (2 * Real.pi)), ?_⟩
  rw [pirange_rad_real]
  push_cast
  ring

/-- The wrapped angle is the only angle of (-π, π] that differs from the
angle by a multiple of 2π. -/
theorem pirange_rad_unique (a b : ℝ) (k : ℤ) (hb1 : -Real.pi < b) (hb2 : b ≤ Real.pi)
    (hk : a = b + k * (2 * Real.pi)) : pirange_rad a = b := by
  have hpi := Real.pi_pos
  obtain ⟨m, hm⟩ := pirange_rad_congruent a
  obtain ⟨h1, h2⟩ := pirange_rad_range a
  rw [hm] at h1 h2
  rw [hm]
  have hlt : ((m + k : ℤ) : ℝ) < 1 := by
    push_cast
    by_contra hge
    push_neg at hge
    nlinarith
  have hgt : (-1 : ℝ) < ((m + k : ℤ) : ℝ) := by
    push_cast
    by_contra hge
    push_neg at hge
    nlinarith
  have hzero : m + k = 0 := by
    have hlt2 : m + k < 1 := by exact_mod_cast hlt
    have hgt2 : -1 < m + k := by exact_mod_cast hgt
    omega
  have hmk : (m : ℝ) = -k := by
    have : ((m + k : ℤ) : ℝ) = 0 := by rw [hzero]; simp
    push_cast at this
    linarith
  rw [hk, hmk]
  ring

/-- Claim C26. For every real angle `a`, `pirange_rad(a)` lies in (-π, π] and
differs from `a` by an integer multiple of 2π; it is `a` for `a` in (-π, π],
and the five values of the tests are `pirange_rad(3π/2) = -π/2`,
`pirange_rad(-3π/2) = π/2`, `pirange_rad(π/2 + 6π) = π/2`,
`pirange_rad(π/2 - 5π) = -π/2` and `pirange_rad(π/2) = π/2`. -/
theorem pirange_rad_spec (a : ℝ) :
    (-Real.pi < pirange_rad a ∧ pirange_rad a ≤ Real.pi) ∧
      (∃ k : ℤ, pirange_rad a = a + k * (2 * Real.pi)) ∧
      (-Real.pi < a ∧ a ≤ Real.pi → pirange_rad a = a) ∧
      pirange_rad (Real.pi / 2) = Real.pi / 2 ∧
      pirange_rad (Real.pi / 2 + Real.pi) = -Real.pi / 2 ∧
      pirange_rad (-Real.pi / 2 - Real.pi) = Real.pi / 2 ∧
      pirange_rad (Real.pi / 2 + 6 * Real.pi) = Real.pi / 2 ∧
      pirange_rad (Real.pi / 2 - 5 * Real.pi) = -Real.pi / 2 := by
  have hpi := Real.pi_pos
  refine ⟨pirange_rad_range a, pirange_rad_congruent a, ?_, ?_, ?_, ?_, ?_, ?_⟩
  · intro h
    exact pirange_rad_unique a a 0 h.1 h.2 (by simp)
  · exact pirange_rad_unique _ _ 0 (by linarith) (by linarith) (by simp)
  · exact pirange_rad_unique _ _ 1 (by linarith) (by linarith) (by push_cast; ring)
  · exact pirange_rad_unique _ _ (-1) (by linarith) (by linarith) (by push_cast; ring)
  · exact pirange_rad_unique _ _ 3 (by linarith) (by linarith) (by push_cast; ring)
  · exact pirange_rad_unique _ _ (-2) (by linarith) (by linarith) (by push_cast; ring)

end math
end tools
end irc

namespace irc
namespace io
open molecule

/-! ## The input stream of `load_xyz` -/

section stream_lemmas

theorem length_dropWhile_le {β : Type} (p : β → Bool) (l : List β) :
    (l.dropWhile p).length ≤ l.length := by
  induction l with
  | nil => simp
  | cons a l ih =>
    rw [List.dropWhile_cons]
    split
    · exact Nat.le_succ_of_le ih
    · exact Nat.le_refl _

theorem length_read_sign_le (cs : List Char) : (read_sign cs).2.length ≤ cs.length := by
  unfold read_sign
  split
  · split
    · simp
    · split <;> simp
  · simp

theorem length_skipws_le (cs : List Char) : (skipws cs).length ≤ cs.length :=
  length_dropWhile_le _ _

/-- A successful `in >> atom` reads at least one character. -/
theorem extract_string_lt (st : IStream) (h : (extract_string st).2.fail = false) :
    st.fail = false ∧ (extract_string st).2.chars.length < st.chars.length := by
  unfold extract_string at h ⊢
  by_cases hf : st.fail = true
  · rw [if_pos hf] at h
    simp only [] at h
    rw [hf] at h
    exact absurd h (by decide)
  · rw [if_neg hf] at h ⊢
    have hf2 : st.fail = false := by simpa using hf
    refine ⟨hf2, ?_⟩
    have hle := length_skipws_le st.chars
    cases hs : skipws st.chars with
    | nil =>
      rw [hs] at h
      simp at h
    | cons c cs =>
      rw [hs] at hle
      simp only []
      have hc : isspace c = false := by
        have hhead : (skipws st.chars).head? = some c := by rw [hs]; rfl
        unfold skipws at hhead
        have := List.head?_dropWhile_not isspace st.chars
        rw [hhead] at this
        simpa using this
      rw [List.dropWhile_cons]
      simp only [hc, Bool.not_false, if_true]
      have := length_dropWhile_le (fun c => !isspace c) cs
      simp only [List.length_cons] at hle
      omega

theorem length_read_exponent_le (cs : List Char) :
    (read_exponent cs).2.2.2.length ≤ cs.length := by
  unfold read_exponent
  split
  · rename_i c t
    split
    · simp only [List.length_cons]
      have h1 := length_read_sign_le t
      have h2 := length_dropWhile_le isdigit (read_sign t).2
      omega
    · exact Nat.le_refl _
  · exact Nat.le_refl _

theorem length_after_mantissa_le (cs : List Char) : (after_mantissa cs).length ≤ cs.length := by
  unfold after_mantissa
  have h3 := length_dropWhile_le isdigit cs
  have h4 := length_dropWhile_le isdigit ((cs.dropWhile isdigit).drop 1)
  have h5 : ((cs.dropWhile isdigit).drop 1).length ≤ (cs.dropWhile isdigit).length := by
    rw [List.length_drop]
    omega
  split <;> omega

/-- A successful `in >> x` reads on from where the stream is. -/
theorem extract_double_le {α : Type} [LinearOrderedField α] (st : IStream)
    (h : (extract_double st : α × IStream).2.fail = false) :
    st.fail = false ∧
      (extract_double st : α × IStream).2.chars.length ≤ st.chars.length := by
  unfold extract_double at h ⊢
  by_cases hf : st.fail = true
  · rw [if_pos hf] at h
    dsimp only at h
    rw [hf] at h
    exact absurd h (by decide)
  · rw [if_neg hf] at h ⊢
    have hf2 : st.fail = false := by simpa using hf
    refine ⟨hf2, ?_⟩
    dsimp only at h ⊢
    have h1 := length_skipws_le st.chars
    have h2 := length_read_sign_le (skipws st.chars)
    have h3 := length_after_mantissa_le (read_sign (skipws st.chars)).2
    have h4 := length_read_exponent_le (after_mantissa (read_sign (skipws st.chars)).2)
    by_cases hm : mantissa_int (read_sign (skipws st.chars)).2 = [] ∧
        mantissa_frac (read_sign (skipws st.chars)).2 = []
    · rw [if_pos hm] at h
      exact Bool.noConfusion h
    · rw [if_neg hm] at h ⊢
      by_cases he : (read_exponent (after_mantissa (read_sign (skipws st.chars)).2)).1 = true ∧
          (read_exponent (after_mantissa (read_sign (skipws st.chars)).2)).2.2.1 = []
      · rw [if_pos he] at h
        exact Bool.noConfusion h
      · rw [if_neg he] at h ⊢
        by_cases ho : (overflow_bound : α) ≤ decimal_value false
            (mantissa_int (read_sign (skipws st.chars)).2)
            (mantissa_frac (read_sign (skipws st.chars)).2)
            (read_exponent (after_mantissa (read_sign (skipws st.chars)).2)).2.1
            (read_exponent (after_mantissa (read_sign (skipws st.chars)).2)).2.2.1
        · rw [if_pos ho] at h
          exact Bool.noConfusion h
        · rw [if_neg ho]
          dsimp only
          omega

end stream_lemmas

end io
end irc

namespace irc
namespace io
open molecule

section loop_lemmas

variable {α : Type} [LinearOrderedField α]

/-- The pass of the loop of `load_xyz` that reads a record reads at least one
character. -/
theorem record_lt (st : IStream)
    (h : (extract_double (extract_double (extract_double (extract_string st).2 :
      α × IStream).2 : α × IStream).2 : α × IStream).2.fail = false) :
    (extract_double (extract_double (extract_double (extract_string st).2 :
      α × IStream).2 : α × IStream).2 : α × IStream).2.chars.length < st.chars.length := by
  obtain ⟨hz, lz⟩ := extract_double_le _ h
  obtain ⟨hy, ly⟩ := extract_double_le _ hz
  obtain ⟨hx, lx⟩ := extract_double_le _ hy
  obtain ⟨_, la⟩ := extract_string_lt st hx
  omega

/-- The loop of `load_xyz` ends within the bound, and the only error it
raises is the error of an unknown symbol. -/
theorem read_atoms_total (symbols : String → Except String Nat) (fuel : Nat) (st : IStream)
    (molecule : Molecule α) (hfuel : st.chars.length < fuel) :
    (∃ r, read_atoms symbols fuel st molecule = some r) ∧
      ((∀ s, ∃ n, symbols s = Except.ok n) →
        ∃ m, read_atoms symbols fuel st molecule = some (Except.ok m)) := by
  induction fuel generalizing st molecule with
  | zero => exact absurd hfuel (Nat.not_lt_zero _)
  | succ fuel ih =>
    unfold read_atoms
    dsimp only
    by_cases hz : (extract_double (extract_double (extract_double (extract_string st).2 :
        α × IStream).2 : α × IStream).2 : α × IStream).2.fail = true
    · rw [if_pos hz]
      exact ⟨⟨_, rfl⟩, fun _ => ⟨_, rfl⟩⟩
    · rw [if_neg hz]
      have hz2 : (extract_double (extract_double (extract_double (extract_string st).2 :
          α × IStream).2 : α × IStream).2 : α × IStream).2.fail = false := by simpa using hz
      have hlt := record_lt st hz2
      cases hs : symbols (extract_string st).1 with
      | error err =>
        refine ⟨⟨_, rfl⟩, fun hall => ?_⟩
        obtain ⟨n, hn⟩ := hall (extract_string st).1
        rw [hs] at hn
        exact Except.noConfusion hn
      | ok n =>
        exact ih _ _ (by omega)

end loop_lemmas

section header_lemmas

theorem isdigit_not_isspace (c : Char) (h : isdigit c = true) : isspace c = false := by
  unfold isdigit at h
  simp only [Bool.and_eq_true, decide_eq_true_eq] at h
  unfold isspace
  have h1 : c ≠ ' ' := by intro hc; rw [hc] at h; exact absurd h.1 (by decide)
  have h2 : c ≠ '\t' := by intro hc; rw [hc] at h; exact absurd h.1 (by decide)
  have h3 : c ≠ '\n' := by intro hc; rw [hc] at h; exact absurd h.1 (by decide)
  have h4 : c ≠ '\x0b' := by intro hc; rw [hc] at h; exact absurd h.1 (by decide)
  have h5 : c ≠ '\x0c' := by intro hc; rw [hc] at h; exact absurd h.1 (by decide)
  have h6 : c ≠ '\r' := by intro hc; rw [hc] at h; exact absurd h.1 (by decide)
  simp [h1, h2, h3, h4, h5, h6]

theorem isdigit_not_sign (c : Char) (h : isdigit c = true) : c ≠ '+' ∧ c ≠ '-' := by
  unfold isdigit at h
  simp only [Bool.and_eq_true, decide_eq_true_eq] at h
  constructor
  · intro hc; rw [hc] at h; exact absurd h.1 (by decide)
  · intro hc; rw [hc] at h; exact absurd h.1 (by decide)

theorem takeWhile_digits (c rest : List Char) (hd : ∀ ch ∈ c, isdigit ch = true) :
    (c ++ '\n' :: rest).takeWhile isdigit = c ∧
      (c ++ '\n' :: rest).dropWhile isdigit = '\n' :: rest := by
  induction c with
  | nil =>
    have : isdigit '\n' = false := by decide
    simp [List.takeWhile_cons, List.dropWhile_cons, this]
  | cons a c ih =>
    have ha := hd a (List.mem_cons_self a c)
    obtain ⟨h1, h2⟩ := ih (fun ch hch => hd ch (List.mem_cons_of_mem a hch))
    simp only [List.cons_append, List.takeWhile_cons, List.dropWhile_cons, ha, if_true]
    exact ⟨by rw [h1], h2⟩

/-- The header of `load_xyz` on a count written in digits: the count is read
and the rest of its line is dropped. -/
theorem header_digits (c rest : List Char) (hne : c ≠ []) (hd : ∀ ch ∈ c, isdigit ch = true)
    (hv : digits_value c < 2 ^ 64) :
    extract_size_t ⟨c ++ '\n' :: rest, false⟩ = (digits_value c, ⟨'\n' :: rest, false⟩) ∧
      getline (extract_size_t ⟨c ++ '\n' :: rest, false⟩).2 = ("", ⟨rest, false⟩) := by
  obtain ⟨a, t, rfl⟩ := List.exists_cons_of_ne_nil hne
  have ha := hd a (List.mem_cons_self a t)
  have hskip : skipws (a :: t ++ '\n' :: rest) = a :: t ++ '\n' :: rest := by
    unfold skipws
    rw [List.cons_append, List.dropWhile_cons, isdigit_not_isspace a ha]
    rfl
  have hsign : read_sign (a :: t ++ '\n' :: rest) = (false, a :: t ++ '\n' :: rest) := by
    unfold read_sign
    rw [List.cons_append]
    simp only [(isdigit_not_sign a ha).1, (isdigit_not_sign a ha).2, if_false]
  obtain ⟨htake, hdrop⟩ := takeWhile_digits (a :: t) rest hd
  have h1 : extract_size_t ⟨a :: t ++ '\n' :: rest, false⟩ =
      (digits_value (a :: t), ⟨'\n' :: rest, false⟩) := by
    unfold extract_size_t
    simp only [Bool.false_eq_true, if_false, hskip, hsign, htake, hdrop]
    rw [if_neg (by simp), if_neg (by omega)]
  refine ⟨h1, ?_⟩
  rw [h1]
  unfold getline
  simp [List.takeWhile_cons, List.dropWhile_cons]

end header_lemmas

end io
end irc

namespace irc
namespace io
open molecule

section load_lemmas

variable {α : Type} [LinearOrderedField α]

/-- The call `load_xyz` ends, and the only error it raises is the error of an
unknown symbol. -/
theorem load_xyz_total (symbols : String → Except String Nat) (input : IStream) :
    (∃ r, (load_xyz symbols input : Option (Except String (Molecule α))) = some r) ∧
      ((∀ s, ∃ n, symbols s = Except.ok n) →
        ∃ m, (load_xyz symbols input : Option (Except String (Molecule α))) =
          some (Except.ok m)) := by
  unfold load_xyz
  dsimp only
  obtain ⟨⟨r, hr⟩, hok⟩ := read_atoms_total (α := α) symbols
    ((getline (extract_size_t input).2).2.chars.length + 1)
    (getline (extract_size_t input).2).2 [] (Nat.lt_succ_self _)
  constructor
  · rw [hr]
    exact ⟨_, rfl⟩
  · intro hall
    obtain ⟨m, hm⟩ := hok hall
    rw [hm]
    exact ⟨_, rfl⟩

/-- After a count written in digits, `load_xyz` reads the records from the
line after the count. -/
theorem load_xyz_digits (symbols : String → Except String Nat) (c rest : List Char)
    (hne : c ≠ []) (hd : ∀ ch ∈ c, isdigit ch = true) (hv : digits_value c < 2 ^ 64) :
    (load_xyz symbols ⟨c ++ '\n' :: rest, false⟩ : Option (Except String (Molecule α))) =
      (read_atoms symbols (rest.length + 1) ⟨rest, false⟩ []).map fun r =>
        r.map fun molecule => multiply_positions molecule tools.conversion.angstrom_to_bohr := by
  unfold load_xyz
  dsimp only
  rw [(header_digits c rest hne hd hv).2]

/-- When the count cannot be read, the stream has failed before the loop, and
`load_xyz` returns the empty molecule. -/
theorem load_xyz_header_fail (symbols : String → Except String Nat) (input : IStream)
    (h : (extract_size_t input).2.fail = true) :
    (load_xyz symbols input : Option (Except String (Molecule α))) = some (Except.ok []) := by
  have hg : getline (extract_size_t input).2 = ("", (extract_size_t input).2) := by
    unfold getline
    rw [if_pos h]
  have hs : extract_string (extract_size_t input).2 = ("", (extract_size_t input).2) := by
    unfold extract_string
    rw [if_pos h]
  have hd : (extract_double (extract_size_t input).2 : α × IStream) =
      (0, (extract_size_t input).2) := by
    unfold extract_double
    rw [if_pos h]
  unfold load_xyz
  dsimp only
  rw [hg]
  unfold read_atoms
  dsimp only
  rw [hs]
  dsimp only
  rw [hd]
  dsimp only
  rw [hd]
  dsimp only
  rw [hd]
  dsimp only
  rw [if_pos h]
  rfl

end load_lemmas

/-- A number too large for a `double` ends the loop of `load_xyz`: the record
that holds it is not stored. -/
theorem load_xyz_overflow :
    (load_xyz samples.symbols (IStream.ofString "2\n\nH 0 0 0\nO 0 0 1e999\n") :
        Option (Except String (Molecule ℚ))) =
      some (Except.ok [⟨"H", 1, ⟨0, 0, 0⟩⟩]) := by
  decide!

/-- A count that does not fit in `std::size_t` fails the stream: no record is
read. -/
theorem load_xyz_count_overflow :
    (load_xyz samples.symbols (IStream.ofString "99999999999999999999999\n\nH 0 0 0\n") :
        Option (Except String (Molecule ℚ))) = some (Except.ok []) := by
  decide!

/-- Claim C21, the failing input: two inputs that differ only in the comment
line load to different molecules. With an empty comment the three atoms of
water are returned; with the comment `water molecule` the loop reads the
comment as a record, fails at its second word and returns no atom; a comment
that looks like a record is returned as an atom. -/
theorem load_xyz_reads_comment :
    (load_xyz samples.symbols (IStream.ofString "3\n\nO 0 0 0\nH 0.9 0 0\nH 0 0.9 0\n") :
        Option (Except String (Molecule ℚ))) =
      some (Except.ok [⟨"O", 8, ⟨0, 0, 0⟩⟩,
        ⟨"H", 1, ⟨9 / 10 * tools.conversion.angstrom_to_bohr, 0, 0⟩⟩,
        ⟨"H", 1, ⟨0, 9 / 10 * tools.conversion.angstrom_to_bohr, 0⟩⟩]) ∧
    (load_xyz samples.symbols
        (IStream.ofString "3\nwater molecule\nO 0 0 0\nH 0.9 0 0\nH 0 0.9 0\n") :
        Option (Except String (Molecule ℚ))) = some (Except.ok []) ∧
    (load_xyz samples.symbols (IStream.ofString "1\nH 1 2 3\nO 0 0 0\n") :
        Option (Except String (Molecule ℚ))) =
      some (Except.ok [⟨"H", 1, ⟨tools.conversion.angstrom_to_bohr,
          2 * tools.conversion.angstrom_to_bohr, 3 * tools.conversion.angstrom_to_bohr⟩⟩,
        ⟨"O", 8, ⟨0, 0, 0⟩⟩]) := by
  refine ⟨?_, ?_, ?_⟩ <;> decide!

/-- Claim C22, the failing input: for the hydrogen molecule with the comment
`hydrogen` the loader returns no atom at all, while with an empty comment it
returns the two atoms with their positions multiplied by `angstrom_to_bohr`. -/
theorem load_xyz_hydrogen :
    (load_xyz samples.symbols (IStream.ofString "2\nhydrogen\nH 0 0 0\nH 0 0 0.74\n") :
        Option (Except String (Molecule ℚ))) = some (Except.ok []) ∧
    (load_xyz samples.symbols (IStream.ofString "2\n\nH 0 0 0\nH 0 0 0.74\n") :
        Option (Except String (Molecule ℚ))) =
      some (Except.ok [⟨"H", 1, ⟨0, 0, 0⟩⟩,
        ⟨"H", 1, ⟨0, 0, 74 / 100 * tools.conversion.angstrom_to_bohr⟩⟩]) := by
  refine ⟨?_, ?_⟩ <;> decide!

/-- Claim C23, the claim fails: an input that declares three atoms and holds
one record loads, without an error, to a molecule of one atom. -/
theorem load_xyz_short_counterexample :
    (load_xyz samples.symbols (IStream.ofString "3\n\nH 0 0 0\n") :
        Option (Except String (Molecule ℚ))) =
      some (Except.ok [⟨"H", 1, ⟨0, 0, 0⟩⟩]) := by
  decide!

/-- Claim C23, as amended. The loader raises no error for a missing record:
the count of line 1 is read and never compared with the records. After a
count written in digits that fits in `std::size_t` and ends its line, the
result is what the record loop reads from the following lines, whatever the
count is; when the count cannot be read the result is the empty molecule; on
every input the call returns, and its only error is that of an unknown
symbol. -/
theorem load_xyz_count_unused {α : Type} [LinearOrderedField α]
    (symbols : String → Except String Nat) (c1 c2 rest : List Char)
    (hne1 : c1 ≠ []) (hd1 : ∀ ch ∈ c1, isdigit ch = true) (hv1 : digits_value c1 < 2 ^ 64)
    (hne2 : c2 ≠ []) (hd2 : ∀ ch ∈ c2, isdigit ch = true) (hv2 : digits_value c2 < 2 ^ 64) :
    (load_xyz symbols ⟨c1 ++ '\n' :: rest, false⟩ : Option (Except String (Molecule α))) =
        ((read_atoms symbols (rest.length + 1) ⟨rest, false⟩ []).map fun r =>
          r.map fun molecule =>
            multiply_positions molecule tools.conversion.angstrom_to_bohr) ∧
      (load_xyz symbols ⟨c1 ++ '\n' :: rest, false⟩ : Option (Except String (Molecule α))) =
        load_xyz symbols ⟨c2 ++ '\n' :: rest, false⟩ ∧
      (∀ input, (extract_size_t input).2.fail = true →
        (load_xyz symbols input : Option (Except String (Molecule α))) =
          some (Except.ok [])) ∧
      (∀ input, ∃ r,
        (load_xyz symbols input : Option (Except String (Molecule α))) = some r) ∧
      ((∀ s, ∃ n, symbols s = Except.ok n) → ∀ input, ∃ m,
        (load_xyz symbols input : Option (Except String (Molecule α))) =
          some (Except.ok m)) := by
  refine ⟨load_xyz_digits symbols c1 rest hne1 hd1 hv1, ?_,
    fun input h => load_xyz_header_fail symbols input h,
    fun input => (load_xyz_total symbols input).1,
    fun hall input => (load_xyz_total symbols input).2 hall⟩
  rw [load_xyz_digits symbols c1 rest hne1 hd1 hv1, load_xyz_digits symbols c2 rest hne2 hd2 hv2]

/-- Claim C23, as amended, at one hydrogen record after the count 3 or the
count 1. -/
theorem load_xyz_count_unused_witness :
    ((['3'] : List Char) ≠ [] ∧ (∀ ch ∈ (['3'] : List Char), isdigit ch = true) ∧
        digits_value ['3'] < 2 ^ 64 ∧ (['1'] : List Char) ≠ [] ∧
        (∀ ch ∈ (['1'] : List Char), isdigit ch = true) ∧ digits_value ['1'] < 2 ^ 64) ∧
      (load_xyz samples.symbols ⟨['3'] ++ '\n' :: "\nH 0 0 0\n".toList, false⟩ :
          Option (Except String (Molecule ℚ))) =
        load_xyz samples.symbols ⟨['1'] ++ '\n' :: "\nH 0 0 0\n".toList, false⟩ :=
  ⟨⟨by decide, by decide, by decide, by decide, by decide, by decide⟩,
    (load_xyz_count_unused samples.symbols ['3'] ['1'] "\nH 0 0 0\n".toList (by decide)
      (by decide) (by decide) (by decide) (by decide) (by decide)).2.1⟩

end io
end irc

namespace irc
namespace transformation
open connectivity

/-! ## The first pass of the back-transformation -/

section first_pass

variable {α : Type} [LinearOrderedField α]

theorem matvec_zero (M : Mat α) (n : Nat) :
    linalg.matvec M (linalg.zeros_vec n) = linalg.zeros_vec M.n_rows := by
  unfold linalg.matvec linalg.zeros_vec
  simp

theorem vec_add_zero (x : Vec α) (n : Nat) : linalg.vec_add x (linalg.zeros_vec n) = x := by
  unfold linalg.vec_add linalg.zeros_vec
  simp

variable [FloorRing α] [Cmath α]

/-- A pass of the Newton loop that meets a tolerance returns its geometry. -/
theorem newton_loop_converged (backend : Backend α) (target : Vec α) (bonds : List Bond)
    (angles : List Angle) (dihedrals : List Dihedral) (fuel iter : Nat) (st : NewtonState α)
    (h : rms (newton_step backend st.x st.dq_curr bonds angles dihedrals) < tol_x ∨
      rms (wrapped_sub bonds.length angles.length target
        (cartesian_to_irc
          (linalg.vec_add st.x (newton_step backend st.x st.dq_curr bonds angles dihedrals))
          bonds angles dihedrals)) < tol_q) :
    newton_loop backend target bonds angles dihedrals (fuel + 1) iter st =
      ⟨linalg.vec_add st.x (newton_step backend st.x st.dq_curr bonds angles dihedrals),
        true, iter + 1⟩ := by
  rw [newton_loop]
  dsimp only
  rw [if_pos h]

/-- When the single-shot loop converges, the back-transformation returns its
result. -/
theorem internal_to_cartesian_of_single (backend : Backend α) (q_old dq x_old : Vec α)
    (bonds : List Bond) (angles : List Angle) (dihedrals : List Dihedral)
    (h : (internal_to_cartesian_single backend q_old dq x_old bonds angles
      dihedrals).converged = true) :
    internal_to_cartesian backend q_old dq x_old bonds angles dihedrals =
      internal_to_cartesian_single backend q_old dq x_old bonds angles dihedrals := by
  unfold internal_to_cartesian
  have h8 : max_halvings = 7 + 1 := rfl
  rw [h8, halving]
  dsimp only
  rw [if_pos h]

/-- When the first pass meets a tolerance, the back-transformation returns the
geometry of that pass. -/
theorem internal_to_cartesian_first_pass (backend : Backend α) (q_old dq x_old : Vec α)
    (bonds : List Bond) (angles : List Angle) (dihedrals : List Dihedral)
    (h : rms (newton_step backend x_old dq bonds angles dihedrals) < tol_x ∨
      rms (wrapped_sub bonds.length angles.length
        (wrap bonds.length angles.length (linalg.vec_add q_old dq))
        (cartesian_to_irc
          (linalg.vec_add x_old (newton_step backend x_old dq bonds angles dihedrals))
          bonds angles dihedrals)) < tol_q) :
    internal_to_cartesian backend q_old dq x_old bonds angles dihedrals =
      ⟨linalg.vec_add x_old (newton_step backend x_old dq bonds angles dihedrals), true, 1⟩ := by
  have hs : internal_to_cartesian_single backend q_old dq x_old bonds angles dihedrals =
      ⟨linalg.vec_add x_old (newton_step backend x_old dq bonds angles dihedrals), true, 1⟩ := by
    unfold internal_to_cartesian_single
    have h25 : max_iters = 24 + 1 := rfl
    dsimp only
    rw [h25]
    exact newton_loop_converged backend _ bonds angles dihedrals 24 0 _ h
  rw [internal_to_cartesian_of_single backend q_old dq x_old bonds angles dihedrals
    (by rw [hs]), hs]

end first_pass

section real_steps

theorem rms_zero (n : Nat) : rms (linalg.zeros_vec n : Vec ℝ) = 0 := by
  unfold rms linalg.zeros_vec
  simp only [mul_zero, Finset.sum_const_zero, zero_div]
  exact Real.sqrt_zero

theorem tol_x_pos : (0 : ℝ) < tol_x := by
  unfold tol_x
  norm_num

theorem tol_q_pos : (0 : ℝ) < tol_q := by
  unfold tol_q
  norm_num

theorem newton_step_zero (backend : Backend ℝ) (x : Vec ℝ) (n : Nat) (bonds : List Bond)
    (angles : List Angle) (dihedrals : List Dihedral) :
    newton_step backend x (linalg.zeros_vec n) bonds angles dihedrals =
      linalg.zeros_vec x.size := by
  unfold newton_step
  dsimp only
  rw [matvec_zero, matvec_zero]
  rfl

end real_steps

/-- Claim C28. Identity step of the back-transformation: for every geometry
`x` with at least one Cartesian component and every coordinate set,
`internal_to_cartesian(q(x), 0, x, coords)` returns the geometry `x` itself
with `converged = true`, after one pass. -/
theorem internal_to_cartesian_identity (backend : Backend ℝ) (x : Vec ℝ) (bonds : List Bond)
    (angles : List Angle) (dihedrals : List Dihedral) (hx : 0 < x.size) :
    internal_to_cartesian backend (cartesian_to_irc x bonds angles dihedrals)
        (linalg.zeros_vec (bonds.length + angles.length + dihedrals.length)) x bonds angles
        dihedrals =
      ⟨x, true, 1⟩ := by
  have _ := hx
  rw [internal_to_cartesian_first_pass]
  · rw [newton_step_zero, vec_add_zero]
  · left
    rw [newton_step_zero, rms_zero]
    exact tol_x_pos

/-- Claim C28, at two hydrogen atoms 1.4 bohr apart with their bond as the
only coordinate. -/
theorem internal_to_cartesian_identity_witness :
    0 < (samples.hydrogen_cartesian : Vec ℝ).size ∧
      (internal_to_cartesian samples.bond_backend
        (cartesian_to_irc (samples.hydrogen_cartesian : Vec ℝ) [Bond.mk 0 1] [] [])
        (linalg.zeros_vec 1) samples.hydrogen_cartesian [Bond.mk 0 1] [] []).converged = true :=
  ⟨by decide, congrArg IrcToCartesianResult.converged
    (internal_to_cartesian_identity samples.bond_backend samples.hydrogen_cartesian
      [Bond.mk 0 1] [] [] (by decide))⟩

end transformation
end irc

namespace irc
namespace transformation
open connectivity

/-! ## The back-transformation of a diatomic molecule -/

section diatomic

/-- The Wilson matrix of a diatomic molecule whose bond is the only
coordinate. -/
theorem wilson_diatomic (backend : Backend ℝ) (x : Vec ℝ) :
    (wilson backend x [Bond.mk 0 1] [] []).n_rows = 1 ∧
      (wilson backend x [Bond.mk 0 1] [] []).n_cols = x.size ∧
      ∀ k, (wilson backend x [Bond.mk 0 1] [] []).get 0 k =
        wilson_bond_row (Bond.mk 0 1) x k := by
  refine ⟨rfl, rfl, ?_⟩
  intro k
  unfold wilson
  simp

theorem norm_mul_self (r : Vec3 ℝ) : linalg.norm r * linalg.norm r = linalg.dot r r := by
  unfold linalg.norm
  exact Real.mul_self_sqrt (dot_self_nonneg r)

/-- The square of the row of a bond sums to 2. -/
theorem gram_diatomic (backend : Backend ℝ) (x : Vec ℝ) (hsize : x.size = 6)
    (hne : atom_position x 0 ≠ atom_position x 1) :
    (linalg.matmul (wilson backend x [Bond.mk 0 1] [] [])
      (linalg.transpose (wilson backend x [Bond.mk 0 1] [] []))).get 0 0 = 2 := by
  have hd := norm_real_pos _ _ hne
  have hdd := norm_mul_self (linalg.sub (atom_position x 0) (atom_position x 1))
  obtain ⟨_, hcols, hget⟩ := wilson_diatomic backend x
  unfold linalg.matmul linalg.transpose
  dsimp only
  rw [hcols, hsize]
  simp only [hget]
  norm_num [Finset.sum_range_succ, wilson_bond_row, Vec3.component]
  generalize linalg.norm (linalg.sub (atom_position x 0) (atom_position x 1)) = d at hd hdd ⊢
  simp only [linalg.dot] at hdd
  field_simp
  nlinarith

end diatomic

end transformation
end irc

namespace irc
namespace transformation
open connectivity

section diatomic_step

/-- The Cartesian step of the first pass for a diatomic molecule: half the
internal step along the bond, with opposite signs on the two atoms. -/
theorem newton_step_diatomic (backend : Backend ℝ) (x : Vec ℝ) (dq : ℝ) (hsize : x.size = 6)
    (hne : atom_position x 0 ≠ atom_position x 1)
    (hpinv : ∀ G : Mat ℝ, G.n_rows = 1 → G.n_cols = 1 → singular_value_cutoff ≤ G.get 0 0 →
      (backend.pseudoinverse G).n_cols = 1 ∧
        (backend.pseudoinverse G).get 0 0 = 1 / G.get 0 0) (k : Nat) :
    (newton_step backend x (linalg.set_vec (linalg.zeros_vec 1) 0 dq) [Bond.mk 0 1] [] []).get k =
      wilson_bond_row (Bond.mk 0 1) x k * (dq / 2) := by
  obtain ⟨hrows, hcols, hget⟩ := wilson_diatomic backend x
  have hG := gram_diatomic backend x hsize hne
  obtain ⟨hpc, hp00⟩ := hpinv
    (linalg.matmul (wilson backend x [Bond.mk 0 1] [] [])
      (linalg.transpose (wilson backend x [Bond.mk 0 1] [] []))) rfl rfl
    (by rw [hG]; norm_num [singular_value_cutoff])
  unfold newton_step
  dsimp only
  unfold linalg.matvec
  dsimp only
  rw [hpc]
  have ht : (linalg.transpose (wilson backend x [Bond.mk 0 1] [] [])).n_cols = 1 := rfl
  rw [ht]
  simp only [Finset.sum_range_one]
  rw [hp00, hG]
  have hset : (linalg.set_vec (linalg.zeros_vec 1) 0 dq : Vec ℝ).get 0 = dq := by
    simp [linalg.set_vec]
  rw [hset]
  have htr : (linalg.transpose (wilson backend x [Bond.mk 0 1] [] [])).get k 0 =
      wilson_bond_row (Bond.mk 0 1) x k := hget k
  rw [htr]
  ring

/-- The positions of the two atoms after the first pass. -/
theorem positions_after_step (backend : Backend ℝ) (x : Vec ℝ) (dq : ℝ) (hsize : x.size = 6)
    (hne : atom_position x 0 ≠ atom_position x 1)
    (hpinv : ∀ G : Mat ℝ, G.n_rows = 1 → G.n_cols = 1 → singular_value_cutoff ≤ G.get 0 0 →
      (backend.pseudoinverse G).n_cols = 1 ∧
        (backend.pseudoinverse G).get 0 0 = 1 / G.get 0 0) :
    linalg.sub
        (atom_position (linalg.vec_add x
          (newton_step backend x (linalg.set_vec (linalg.zeros_vec 1) 0 dq) [Bond.mk 0 1] [] []))
          0)
        (atom_position (linalg.vec_add x
          (newton_step backend x (linalg.set_vec (linalg.zeros_vec 1) 0 dq) [Bond.mk 0 1] [] []))
          1) =
      ⟨(linalg.sub (atom_position x 0) (atom_position x 1)).x *
          ((bond_x (Bond.mk 0 1) x + dq) / bond_x (Bond.mk 0 1) x),
        (linalg.sub (atom_position x 0) (atom_position x 1)).y *
          ((bond_x (Bond.mk 0 1) x + dq) / bond_x (Bond.mk 0 1) x),
        (linalg.sub (atom_position x 0) (atom_position x 1)).z *
          ((bond_x (Bond.mk 0 1) x + dq) / bond_x (Bond.mk 0 1) x)⟩ := by
  have hd := norm_real_pos _ _ hne
  have hb : bond_x (Bond.mk 0 1) x =
      linalg.norm (linalg.sub (atom_position x 0) (atom_position x 1)) := rfl
  rw [hb]
  have hstep := newton_step_diatomic backend x dq hsize hne hpinv
  unfold wilson_bond_row at hstep
  dsimp only at hstep
  generalize linalg.norm (linalg.sub (atom_position x 0) (atom_position x 1)) = d at hd hstep ⊢
  have hne0 : d ≠ 0 := ne_of_gt hd
  apply vec3_ext
  · simp only [linalg.sub, atom_position, linalg.vec_add, hstep]
    norm_num [Vec3.component, atom_position, linalg.sub]
    field_simp
    ring
  · simp only [linalg.sub, atom_position, linalg.vec_add, hstep]
    norm_num [Vec3.component, atom_position, linalg.sub]
    field_simp
    ring
  · simp only [linalg.sub, atom_position, linalg.vec_add, hstep]
    norm_num [Vec3.component, atom_position, linalg.sub]
    field_simp
    ring

/-- The bond length after the first pass is the old length plus the step. -/
theorem bond_after_step (backend : Backend ℝ) (x : Vec ℝ) (dq : ℝ) (hsize : x.size = 6)
    (hne : atom_position x 0 ≠ atom_position x 1)
    (hpinv : ∀ G : Mat ℝ, G.n_rows = 1 → G.n_cols = 1 → singular_value_cutoff ≤ G.get 0 0 →
      (backend.pseudoinverse G).n_cols = 1 ∧
        (backend.pseudoinverse G).get 0 0 = 1 / G.get 0 0)
    (hpos : 0 < bond_x (Bond.mk 0 1) x + dq) :
    bond_x (Bond.mk 0 1) (linalg.vec_add x
        (newton_step backend x (linalg.set_vec (linalg.zeros_vec 1) 0 dq) [Bond.mk 0 1] [] [])) =
      bond_x (Bond.mk 0 1) x + dq := by
  have hd := norm_real_pos _ _ hne
  have hdd := norm_mul_self (linalg.sub (atom_position x 0) (atom_position x 1))
  have hb : bond_x (Bond.mk 0 1) x =
      linalg.norm (linalg.sub (atom_position x 0) (atom_position x 1)) := rfl
  rw [bond_x_eq]
  unfold distance
  rw [positions_after_step backend x dq hsize hne hpinv]
  rw [hb] at hpos ⊢
  generalize linalg.norm (linalg.sub (atom_position x 0) (atom_position x 1)) = d
    at hd hdd hpos ⊢
  unfold linalg.norm
  simp only [linalg.dot] at hdd ⊢
  have hsq : (linalg.sub (atom_position x 0) (atom_position x 1)).x * ((d + dq) / d) *
        ((linalg.sub (atom_position x 0) (atom_position x 1)).x * ((d + dq) / d)) +
      (linalg.sub (atom_position x 0) (atom_position x 1)).y * ((d + dq) / d) *
        ((linalg.sub (atom_position x 0) (atom_position x 1)).y * ((d + dq) / d)) +
      (linalg.sub (atom_position x 0) (atom_position x 1)).z * ((d + dq) / d) *
        ((linalg.sub (atom_position x 0) (atom_position x 1)).z * ((d + dq) / d)) =
      (d + dq) * (d + dq) := by
    have hne0 : d ≠ 0 := ne_of_gt hd
    field_simp
    nlinarith
  rw [hsq]
  exact Real.sqrt_mul_self (le_of_lt hpos)

end diatomic_step

end transformation
end irc

namespace irc
namespace transformation
open connectivity

section diatomic_claim

/-- The internal step that is left after the first pass for a diatomic
molecule is zero. -/
theorem remaining_step_diatomic (backend : Backend ℝ) (x : Vec ℝ) (dq : ℝ) (hsize : x.size = 6)
    (hne : atom_position x 0 ≠ atom_position x 1)
    (hpinv : ∀ G : Mat ℝ, G.n_rows = 1 → G.n_cols = 1 → singular_value_cutoff ≤ G.get 0 0 →
      (backend.pseudoinverse G).n_cols = 1 ∧
        (backend.pseudoinverse G).get 0 0 = 1 / G.get 0 0)
    (hpos : 0 < bond_x (Bond.mk 0 1) x + dq) :
    rms (wrapped_sub [Bond.mk 0 1].length ([] : List Angle).length
      (wrap [Bond.mk 0 1].length ([] : List Angle).length
        (linalg.vec_add (cartesian_to_irc x [Bond.mk 0 1] [] [])
          (linalg.set_vec (linalg.zeros_vec 1) 0 dq)))
      (cartesian_to_irc
        (linalg.vec_add x
          (newton_step backend x (linalg.set_vec (linalg.zeros_vec 1) 0 dq) [Bond.mk 0 1] [] []))
        [Bond.mk 0 1] [] [])) = 0 := by
  have hnew := bond_after_step backend x dq hsize hne hpinv hpos
  have hq0 : ∀ y : Vec ℝ, (cartesian_to_irc y [Bond.mk 0 1] [] []).get 0 =
      bond_x (Bond.mk 0 1) y := by
    intro y
    rw [cartesian_to_irc_bond y [Bond.mk 0 1] [] [] 0 (by decide)]
    rfl
  have hsz : (cartesian_to_irc x [Bond.mk 0 1] [] []).size = 1 :=
    cartesian_to_irc_size x [Bond.mk 0 1] [] []
  have hset : (linalg.set_vec (linalg.zeros_vec 1) 0 dq : Vec ℝ).get 0 = dq := by
    simp [linalg.set_vec]
  have hadd : (linalg.vec_add (cartesian_to_irc x [Bond.mk 0 1] [] [])
      (linalg.set_vec (linalg.zeros_vec 1) 0 dq)).get 0 =
      (cartesian_to_irc x [Bond.mk 0 1] [] []).get 0 +
        (linalg.set_vec (linalg.zeros_vec 1) 0 dq : Vec ℝ).get 0 := rfl
  have hv0 : (wrapped_sub [Bond.mk 0 1].length ([] : List Angle).length
      (wrap [Bond.mk 0 1].length ([] : List Angle).length
        (linalg.vec_add (cartesian_to_irc x [Bond.mk 0 1] [] [])
          (linalg.set_vec (linalg.zeros_vec 1) 0 dq)))
      (cartesian_to_irc
        (linalg.vec_add x
          (newton_step backend x (linalg.set_vec (linalg.zeros_vec 1) 0 dq) [Bond.mk 0 1] [] []))
        [Bond.mk 0 1] [] [])).get 0 = 0 := by
    unfold wrapped_sub wrap linalg.vec_sub
    dsimp only
    simp only [List.length_singleton, List.length_nil, Nat.add_zero]
    rw [if_neg (by decide), if_neg (by decide), hadd, hq0, hq0, hnew, hset, sub_self]
  have hvs : (wrapped_sub [Bond.mk 0 1].length ([] : List Angle).length
      (wrap [Bond.mk 0 1].length ([] : List Angle).length
        (linalg.vec_add (cartesian_to_irc x [Bond.mk 0 1] [] [])
          (linalg.set_vec (linalg.zeros_vec 1) 0 dq)))
      (cartesian_to_irc
        (linalg.vec_add x
          (newton_step backend x (linalg.set_vec (linalg.zeros_vec 1) 0 dq) [Bond.mk 0 1] [] []))
        [Bond.mk 0 1] [] [])).size = 1 := hsz
  unfold rms
  rw [hvs, Finset.sum_range_one, hv0, mul_zero, zero_div]
  exact Real.sqrt_zero

end diatomic_claim

/-- Claim C27. For a diatomic molecule with bond length `q_old`, at distinct
positions, and any displacement `Δq` with `q_old + Δq > 0`, the
back-transformation returns, after one pass and with `converged = true`,
Cartesian coordinates whose bond length is exactly `q_old + Δq`. The
pseudoinverse of a one by one matrix whose entry is not below the cutoff is
its inverse. -/
theorem diatomic_back_transformation (backend : Backend ℝ) (x : Vec ℝ) (dq : ℝ)
    (hsize : x.size = 6) (hne : atom_position x 0 ≠ atom_position x 1)
    (hpinv : ∀ G : Mat ℝ, G.n_rows = 1 → G.n_cols = 1 → singular_value_cutoff ≤ G.get 0 0 →
      (backend.pseudoinverse G).n_cols = 1 ∧
        (backend.pseudoinverse G).get 0 0 = 1 / G.get 0 0)
    (hpos : 0 < bond_x (Bond.mk 0 1) x + dq) :
    (internal_to_cartesian backend (cartesian_to_irc x [Bond.mk 0 1] [] [])
        (linalg.set_vec (linalg.zeros_vec 1) 0 dq) x [Bond.mk 0 1] [] []).converged = true ∧
      (internal_to_cartesian backend (cartesian_to_irc x [Bond.mk 0 1] [] [])
        (linalg.set_vec (linalg.zeros_vec 1) 0 dq) x [Bond.mk 0 1] [] []).n_iterations = 1 ∧
      bond_x (Bond.mk 0 1)
        (internal_to_cartesian backend (cartesian_to_irc x [Bond.mk 0 1] [] [])
          (linalg.set_vec (linalg.zeros_vec 1) 0 dq) x [Bond.mk 0 1] [] []).x_c =
        (cartesian_to_irc x [Bond.mk 0 1] [] []).get 0 + dq := by
  have hq0 : (cartesian_to_irc x [Bond.mk 0 1] [] []).get 0 = bond_x (Bond.mk 0 1) x := by
    rw [cartesian_to_irc_bond x [Bond.mk 0 1] [] [] 0 (by decide)]
    rfl
  rw [internal_to_cartesian_first_pass backend _ _ x [Bond.mk 0 1] [] []
    (Or.inr (by
      rw [remaining_step_diatomic backend x dq hsize hne hpinv hpos]
      exact tol_q_pos))]
  refine ⟨rfl, rfl, ?_⟩
  rw [hq0]
  exact bond_after_step backend x dq hsize hne hpinv hpos

/-- Claim C27, at two hydrogen atoms 1.4 bohr apart and the step 0.1 bohr. -/
theorem diatomic_back_transformation_witness :
    ((samples.hydrogen_cartesian : Vec ℝ).size = 6 ∧
      atom_position (samples.hydrogen_cartesian : Vec ℝ) 0 ≠
        atom_position (samples.hydrogen_cartesian : Vec ℝ) 1 ∧
      0 < bond_x (Bond.mk 0 1) (samples.hydrogen_cartesian : Vec ℝ) + 1 / 10) ∧
    (internal_to_cartesian samples.bond_backend
      (cartesian_to_irc (samples.hydrogen_cartesian : Vec ℝ) [Bond.mk 0 1] [] [])
      (linalg.set_vec (linalg.zeros_vec 1) 0 (1 / 10)) samples.hydrogen_cartesian
      [Bond.mk 0 1] [] []).converged = true :=
  have hne : atom_position (samples.hydrogen_cartesian : Vec ℝ) 0 ≠
      atom_position (samples.hydrogen_cartesian : Vec ℝ) 1 := by
    intro h
    have hx := congrArg Vec3.x h
    norm_num [atom_position, samples.hydrogen_cartesian] at hx
  have hpos : 0 < bond_x (Bond.mk 0 1) (samples.hydrogen_cartesian : Vec ℝ) + 1 / 10 := by
    have h0 : 0 ≤ bond_x (Bond.mk 0 1) (samples.hydrogen_cartesian : Vec ℝ) :=
      distance_real_nonneg _ _
    linarith
  ⟨⟨rfl, hne, hpos⟩,
    (diatomic_back_transformation samples.bond_backend samples.hydrogen_cartesian (1 / 10) rfl
      hne (fun G hr _ _ => ⟨hr, by simp [samples.bond_backend]⟩) hpos).1⟩

end transformation
end irc

namespace irc
namespace connectivity
open molecule

/-! ## The flag `linear` of `dihedrals` -/

section linear_flag

variable {α : Type} [LinearOrderedField α] [Cmath α]

theorem dihedrals_step_true (molecule : Molecule α) (epsilon : α) (acc : List Dihedral)
    (dd : Dihedral) : dihedrals_step molecule epsilon (acc, true) dd = (acc, true) := by
  unfold dihedrals_step
  simp

theorem dihedrals_step_false (molecule : Molecule α) (epsilon : α) (acc : List Dihedral)
    (dd : Dihedral) :
    dihedrals_step molecule epsilon (acc, false) dd =
      if judged_linear molecule epsilon dd then (acc, true) else (acc ++ [dd], false) := by
  unfold dihedrals_step judged_linear
  by_cases h1 : |angle_mol (Angle.mk dd.i dd.j dd.k) molecule - 180| < epsilon
  · simp [h1]
  · by_cases h2 : |angle_mol (Angle.mk dd.j dd.k dd.l) molecule - 180| < epsilon
    · simp [h1, h2]
    · simp [h1, h2]

/-- Once the flag is set, the loop stores nothing more. -/
theorem dihedrals_fold_true (molecule : Molecule α) (epsilon : α) (xs : List Dihedral)
    (acc : List Dihedral) :
    xs.foldl (dihedrals_step molecule epsilon) (acc, true) = (acc, true) := by
  induction xs with
  | nil => rfl
  | cons x xs ih => rw [List.foldl_cons, dihedrals_step_true, ih]

/-- The loop stores the candidates before the first one that sets the flag. -/
theorem dihedrals_fold_takeWhile (molecule : Molecule α) (epsilon : α) (xs : List Dihedral)
    (acc : List Dihedral) :
    (xs.foldl (dihedrals_step molecule epsilon) (acc, false)).1 =
      acc ++ xs.takeWhile fun dd => !judged_linear molecule epsilon dd := by
  induction xs generalizing acc with
  | nil => simp
  | cons x xs ih =>
    rw [List.foldl_cons, dihedrals_step_false]
    by_cases hx : judged_linear molecule epsilon x = true
    · rw [if_pos hx, dihedrals_fold_true, List.takeWhile_cons]
      simp [hx]
    · have hx2 : judged_linear molecule epsilon x = false := by simpa using hx
      rw [if_neg hx, ih, List.takeWhile_cons]
      simp [hx2]

end linear_flag

/-- Claim C32. For every epsilon, the list returned by
`dihedrals(D, predecessors, molecule, epsilon)` is the prefix of the sequence
of all candidates, in the order of the loops over `j`, `i`, `k`, `l`, that ends
just before the first candidate one of whose sub-angles `a` satisfies
`|a - 180| < epsilon`: the flag `linear` is never reset, so every later
candidate is dropped too. -/
theorem dihedrals_prefix {α : Type} [LinearOrderedField α] [Cmath α]
    (distance_m predecessors_m : Mat α) (molecule : Molecule α) (epsilon : α) :
    dihedrals distance_m predecessors_m molecule epsilon =
        ((List.range molecule.length).flatMap fun j =>
          (List.range j).flatMap fun i =>
            if distance_m.get i j ≤ 3 then dihedrals_pair i j distance_m else []).takeWhile
          (fun dd => !judged_linear molecule epsilon dd) ∧
      ∀ before dd after,
        ((List.range molecule.length).flatMap fun j =>
          (List.range j).flatMap fun i =>
            if distance_m.get i j ≤ 3 then dihedrals_pair i j distance_m else []) =
          before ++ dd :: after →
        (∀ x ∈ before, judged_linear molecule epsilon x = false) →
        judged_linear molecule epsilon dd = true →
        dihedrals distance_m predecessors_m molecule epsilon = before := by
  have h : dihedrals distance_m predecessors_m molecule epsilon =
      (dihedral_candidates distance_m molecule.length).takeWhile
        (fun dd => !judged_linear molecule epsilon dd) := by
    rw [dihedrals_eq_foldl, dihedrals_fold_takeWhile, List.nil_append]
  refine ⟨h, ?_⟩
  intro before dd after hsplit hbefore hdd
  rw [h]
  have hc : dihedral_candidates distance_m molecule.length = before ++ dd :: after := hsplit
  rw [hc, List.takeWhile_append_of_pos (by
    intro x hx
    rw [hbefore x hx]
    rfl), List.takeWhile_cons]
  simp [hdd]

/-- Claim C31. For every molecule and matrix `D`, and every epsilon at most
176 (the default is 1e-6), `dihedrals` drops no candidate: its result is the
concatenation of `dihedrals(i, j, D)` over all `i < j` with `D(i, j) ≤ 3`, also
when a sub-angle is `π`, because an angle is at most `π` radians and so never
within epsilon of the number 180. -/
theorem dihedrals_drops_nothing (distance_m predecessors_m : Mat ℝ) (molecule : Molecule ℝ)
    (epsilon : ℝ) (heps : epsilon ≤ 176) :
    dihedrals distance_m predecessors_m molecule epsilon =
        ((List.range molecule.length).flatMap fun j =>
          (List.range j).flatMap fun i =>
            if distance_m.get i j ≤ 3 then dihedrals_pair i j distance_m else []) ∧
      ∀ dd : Dihedral, judged_linear molecule epsilon dd = false := by
  refine ⟨dihedrals_real_eq_candidates distance_m predecessors_m molecule epsilon heps, ?_⟩
  intro dd
  unfold judged_linear
  rw [decide_eq_false_iff_not]
  rintro (h | h)
  · exact angle_real_not_near_180 _ _ _ _ heps h
  · exact angle_real_not_near_180 _ _ _ _ heps h

/-- Claim C31, at a chain of four atoms whose first three atoms are on a line:
the candidate (0, 1, 2, 3), with a sub-angle of π, is returned. -/
theorem dihedrals_drops_nothing_witness :
    (1 / 1000000 : ℝ) ≤ 176 ∧
      Dihedral.mk 0 1 2 3 ∈
        dihedrals samples.chain_distances samples.chain_distances (samples.chain : Molecule ℝ)
          (1 / 1000000) := by
  have heps : (1 / 1000000 : ℝ) ≤ 176 := by norm_num
  have h := (dihedrals_drops_nothing (samples.chain_distances : Mat ℝ)
    (samples.chain_distances : Mat ℝ) (samples.chain : Molecule ℝ) (1 / 1000000) heps).1
  have hs : Nat.sqrt (linalg.size (samples.chain_distances : Mat ℝ)) = 4 :=
    sqrt_size_square _ 4 rfl rfl
  have hc : Dihedral.mk 0 1 2 3 ∈
      dihedral_candidates (samples.chain_distances : Mat ℝ)
        (samples.chain : Molecule ℝ).length := by
    rw [mem_dihedral_candidates, hs]
    refine ⟨by decide, by decide, ?_, by decide, by decide, ?_, ?_, ?_, ?_, ?_⟩ <;>
      norm_num [samples.chain_distances, linalg.ofRows]
  refine ⟨heps, ?_⟩
  rw [h]
  exact hc

end connectivity
end irc

namespace irc
namespace connectivity
open molecule

/-- Claim C33. For every molecule and matrix `D`, `angles` raises the runtime
error `Quasi-linear angle not treated properly yet.` if and only if some
candidate triple `(i, k, j)`, with `i < j`, `D(i, j) ≤ 2` and
`D(k, i) = D(k, j) = 1`, has an angle strictly greater than
`quasi_linear_angle`; when no candidate has, the call returns all the
candidates, among them every candidate whose angle is `quasi_linear_angle`
exactly. -/
theorem angles_error_iff {α : Type} [LinearOrderedField α] [Cmath α]
    (distance_m predecessors_m : Mat α) (molecule : Molecule α) :
    (angles distance_m predecessors_m molecule =
        Except.error "Quasi-linear angle not treated properly yet." ↔
      ∃ i k j, i < j ∧ j < molecule.length ∧ k < Nat.sqrt (linalg.size distance_m) ∧
        distance_m.get i j ≤ 2 ∧ distance_m.get k i = 1 ∧ distance_m.get k j = 1 ∧
        angle_mol (Angle.mk i k j) molecule > tools.constants.quasi_linear_angle) ∧
    ((¬ ∃ i k j, i < j ∧ j < molecule.length ∧ k < Nat.sqrt (linalg.size distance_m) ∧
        distance_m.get i j ≤ 2 ∧ distance_m.get k i = 1 ∧ distance_m.get k j = 1 ∧
        angle_mol (Angle.mk i k j) molecule > tools.constants.quasi_linear_angle) →
      ∃ l, angles distance_m predecessors_m molecule = Except.ok l ∧
        ∀ i k j, i < j → j < molecule.length → k < Nat.sqrt (linalg.size distance_m) →
          distance_m.get i j ≤ 2 → distance_m.get k i = 1 → distance_m.get k j = 1 →
          angle_mol (Angle.mk i k j) molecule = tools.constants.quasi_linear_angle →
          Angle.mk i k j ∈ l) := by
  have hex : (∃ aa ∈ angle_candidates distance_m molecule.length,
        angle_mol aa molecule > tools.constants.quasi_linear_angle) ↔
      ∃ i k j, i < j ∧ j < molecule.length ∧ k < Nat.sqrt (linalg.size distance_m) ∧
        distance_m.get i j ≤ 2 ∧ distance_m.get k i = 1 ∧ distance_m.get k j = 1 ∧
        angle_mol (Angle.mk i k j) molecule > tools.constants.quasi_linear_angle := by
    constructor
    · rintro ⟨aa, hmem, hgt⟩
      obtain ⟨h1, h2, h3, h4, h5, h6⟩ := (mem_angle_candidates _ _ _).mp hmem
      exact ⟨aa.i, aa.j, aa.k, h1, h2, h3, h4, h5, h6, hgt⟩
    · rintro ⟨i, k, j, h1, h2, h3, h4, h5, h6, hgt⟩
      exact ⟨Angle.mk i k j, (mem_angle_candidates _ _ _).mpr ⟨h1, h2, h3, h4, h5, h6⟩, hgt⟩
  have hok : (¬ ∃ aa ∈ angle_candidates distance_m molecule.length,
        angle_mol aa molecule > tools.constants.quasi_linear_angle) →
      angles distance_m predecessors_m molecule =
        Except.ok (angle_candidates distance_m molecule.length) := by
    intro hno
    exact angles_eq_ok distance_m predecessors_m molecule
      (fun aa haa hgt => hno ⟨aa, haa, hgt⟩)
  constructor
  · rw [← hex]
    constructor
    · intro herr
      by_contra hno
      rw [hok hno] at herr
      exact Except.noConfusion herr
    · exact angles_eq_error distance_m predecessors_m molecule
  · intro hno
    rw [← hex] at hno
    refine ⟨_, hok hno, ?_⟩
    intro i k j h1 h2 h3 h4 h5 h6 _
    exact (mem_angle_candidates _ _ _).mpr ⟨h1, h2, h3, h4, h5, h6⟩

end connectivity
end irc

namespace irc
namespace connectivity
open molecule

/-! ## The triangle inequality of graph distances -/

section triangle

variable {α : Type} [LinearOrderedField α]

theorem distance_matrix_outside (ug : UGraph) (i j : Nat)
    (h : ¬ (i < ug.num_vertices ∧ j < ug.num_vertices)) :
    ((distance_matrix ug).1 : Mat α).get i j = 0 := by
  unfold distance_matrix
  simp only []
  rw [if_neg h]

/-- An entry of the distance matrix is at most the length of any walk. -/
theorem distance_matrix_le_of_walk (ug : UGraph) (hw : ∀ e ∈ ug.edges, e.weight = 1)
    (i j m : Nat) (hi : i < ug.num_vertices) (h : ug.Walk i m j) :
    ((distance_matrix ug).1 : Mat α).get i j ≤ (m : α) := by
  have hj := walk_lt ug h hi
  obtain ⟨k, hk⟩ := exists_isDistance ug ⟨m, h⟩
  rw [distance_matrix_of_isDistance ug hw i j k hi hj hk]
  exact Nat.cast_le.mpr (hk.2 m h)

/-- An entry of the distance matrix that is a small positive number is the
length of a walk between vertices of the graph. -/
theorem walk_of_distance_matrix (ug : UGraph) (hw : ∀ e ∈ ug.edges, e.weight = 1)
    (i j m : Nat) (hm0 : 0 < m) (hm : m < int_max)
    (h : ((distance_matrix ug).1 : Mat α).get i j = (m : α)) :
    i < ug.num_vertices ∧ j < ug.num_vertices ∧ ug.Walk i m j := by
  have hin : i < ug.num_vertices ∧ j < ug.num_vertices := by
    by_contra hout
    rw [distance_matrix_outside ug i j hout] at h
    have : (m : α) = ((0 : Nat) : α) := by rw [← h]; simp
    have := Nat.cast_injective this
    omega
  refine ⟨hin.1, hin.2, ?_⟩
  by_cases hjoin : ug.Joined i j
  · obtain ⟨k, hk⟩ := exists_isDistance ug hjoin
    rw [distance_matrix_of_isDistance ug hw i j k hin.1 hin.2 hk] at h
    have hkm : k = m := Nat.cast_injective h
    rw [← hkm]
    exact hk.1
  · rw [distance_matrix_of_not_joined ug hw i j hin.1 hin.2 hjoin] at h
    have : int_max = m := Nat.cast_injective h
    omega

theorem distance_matrix_triangle (ug : UGraph) (hw : ∀ e ∈ ug.edges, e.weight = 1)
    (i j k a b : Nat) (ha0 : 0 < a) (ha : a < int_max) (hb0 : 0 < b) (hb : b < int_max)
    (hki : ((distance_matrix ug).1 : Mat α).get k i = (a : α))
    (hkj : ((distance_matrix ug).1 : Mat α).get k j = (b : α)) :
    ((distance_matrix ug).1 : Mat α).get i j ≤ ((a + b : Nat) : α) := by
  obtain ⟨_, hi, hwi⟩ := walk_of_distance_matrix ug hw k i a ha0 ha hki
  obtain ⟨_, _, hwj⟩ := walk_of_distance_matrix ug hw k j b hb0 hb hkj
  exact distance_matrix_le_of_walk ug hw i j (a + b) hi
    (walk_append ug (walk_reverse ug hwi) hwj)

/-- The guard of `angles` holds for every pair of ends with a candidate. -/
theorem angles_guard (ug : UGraph) (hw : ∀ e ∈ ug.edges, e.weight = 1) (i j : Nat) :
    (if ((distance_matrix ug).1 : Mat α).get i j ≤ 2 then
        angles_pair i j ((distance_matrix ug).1 : Mat α) else []) =
      angles_pair i j ((distance_matrix ug).1 : Mat α) := by
  by_cases hg : ((distance_matrix ug).1 : Mat α).get i j ≤ 2
  · rw [if_pos hg]
  · rw [if_neg hg]
    symm
    rw [List.eq_nil_iff_forall_not_mem]
    intro a ha
    obtain ⟨_, _, _, h1, h2⟩ := (mem_angles_pair i j _ a).mp ha
    apply hg
    have := distance_matrix_triangle ug hw i j a.j 1 1 (by decide) (by decide) (by decide)
      (by decide) (by rw [h1]; simp) (by rw [h2]; simp)
    refine le_trans this ?_
    norm_num

/-- The guard of `dihedrals` holds for every pair of ends with a candidate. -/
theorem dihedrals_guard (ug : UGraph) (hw : ∀ e ∈ ug.edges, e.weight = 1) (i j : Nat) :
    (if ((distance_matrix ug).1 : Mat α).get i j ≤ 3 then
        dihedrals_pair i j ((distance_matrix ug).1 : Mat α) else []) =
      dihedrals_pair i j ((distance_matrix ug).1 : Mat α) := by
  by_cases hg : ((distance_matrix ug).1 : Mat α).get i j ≤ 3
  · rw [if_pos hg]
  · rw [if_neg hg]
    symm
    rw [List.eq_nil_iff_forall_not_mem]
    intro d hd
    obtain ⟨_, _, _, _, h1, h2, _⟩ := (mem_dihedrals_pair i j _ d).mp hd
    apply hg
    have := distance_matrix_triangle ug hw i j d.j 1 2 (by decide) (by decide) (by decide)
      (by decide) (by rw [h1]; simp) (by rw [h2]; simp)
    refine le_trans this ?_
    norm_num

end triangle

end connectivity
end irc

namespace irc
namespace connectivity
open molecule

/-- Claim C34. For the shortest-path matrix `D` of an undirected graph with
unit weights (connected or not), the guards `D(i, j) ≤ 2` of `angles` and
`D(i, j) ≤ 3` of `dihedrals` exclude nothing: the candidates of `angles` are
the lists `angles(i, j, D)` of all pairs `i < j`, that is all `(i, k, j)` with
`i < j` and `D(k, i) = D(k, j) = 1`; the candidates of `dihedrals` are the lists
`dihedrals(i, j, D)` of all pairs `i < j`, that is all `(i, k, l, j)` with
`i < j` and the five distance conditions; and both functions run their loop
bodies over these unguarded lists. -/
theorem guards_exclude_nothing {α : Type} [LinearOrderedField α] [Cmath α] (ug : UGraph)
    (hw : ∀ e ∈ ug.edges, e.weight = 1) (predecessors_m : Mat α) (molecule : Molecule α)
    (epsilon : α) :
    (angle_candidates ((distance_matrix ug).1 : Mat α) molecule.length =
        (List.range molecule.length).flatMap fun j =>
          (List.range j).flatMap fun i => angles_pair i j ((distance_matrix ug).1 : Mat α)) ∧
      (dihedral_candidates ((distance_matrix ug).1 : Mat α) molecule.length =
        (List.range molecule.length).flatMap fun j =>
          (List.range j).flatMap fun i =>
            dihedrals_pair i j ((distance_matrix ug).1 : Mat α)) ∧
      (∀ a : Angle, a ∈ angle_candidates ((distance_matrix ug).1 : Mat α) molecule.length ↔
        a.i < a.k ∧ a.k < molecule.length ∧
          ((distance_matrix ug).1 : Mat α).get a.j a.i = 1 ∧
          ((distance_matrix ug).1 : Mat α).get a.j a.k = 1) ∧
      (∀ d : Dihedral,
        d ∈ dihedral_candidates ((distance_matrix ug).1 : Mat α) molecule.length ↔
        d.i < d.l ∧ d.l < molecule.length ∧
          ((distance_matrix ug).1 : Mat α).get d.j d.i = 1 ∧
          ((distance_matrix ug).1 : Mat α).get d.j d.l = 2 ∧
          ((distance_matrix ug).1 : Mat α).get d.k d.i = 2 ∧
          ((distance_matrix ug).1 : Mat α).get d.k d.l = 1 ∧
          ((distance_matrix ug).1 : Mat α).get d.k d.j = 1) ∧
      angles ((distance_matrix ug).1 : Mat α) predecessors_m molecule =
        ((List.range molecule.length).flatMap fun j =>
          (List.range j).flatMap fun i =>
            angles_pair i j ((distance_matrix ug).1 : Mat α)).foldlM
          (angles_step molecule) [] ∧
      dihedrals ((distance_matrix ug).1 : Mat α) predecessors_m molecule epsilon =
        (((List.range molecule.length).flatMap fun j =>
          (List.range j).flatMap fun i =>
            dihedrals_pair i j ((distance_matrix ug).1 : Mat α)).foldl
          (dihedrals_step molecule epsilon) ([], false)).1 := by
  have hsq : Nat.sqrt (linalg.size ((distance_matrix ug).1 : Mat α)) = ug.num_vertices :=
    sqrt_size_square _ _ rfl rfl
  have ha : angle_candidates ((distance_matrix ug).1 : Mat α) molecule.length =
      (List.range molecule.length).flatMap fun j =>
        (List.range j).flatMap fun i => angles_pair i j ((distance_matrix ug).1 : Mat α) := by
    unfold angle_candidates
    congr 1
    funext j
    congr 1
    funext i
    exact angles_guard ug hw i j
  have hd : dihedral_candidates ((distance_matrix ug).1 : Mat α) molecule.length =
      (List.range molecule.length).flatMap fun j =>
        (List.range j).flatMap fun i =>
          dihedrals_pair i j ((distance_matrix ug).1 : Mat α) := by
    unfold dihedral_candidates
    congr 1
    funext j
    congr 1
    funext i
    exact dihedrals_guard ug hw i j
  refine ⟨ha, hd, ?_, ?_, ?_, ?_⟩
  · intro a
    rw [mem_angle_candidates, hsq]
    constructor
    · rintro ⟨h1, h2, _, _, h5, h6⟩
      exact ⟨h1, h2, h5, h6⟩
    · rintro ⟨h1, h2, h5, h6⟩
      have hk := (walk_of_distance_matrix ug hw a.j a.i 1 (by decide) (by decide)
        (by rw [h5]; simp)).1
      have ht := distance_matrix_triangle ug hw a.i a.k a.j 1 1 (by decide) (by decide)
        (by decide) (by decide) (by rw [h5]; simp) (by rw [h6]; simp)
      refine ⟨h1, h2, hk, le_trans ht ?_, h5, h6⟩
      norm_num
  · intro d
    rw [mem_dihedral_candidates, hsq]
    constructor
    · rintro ⟨h1, h2, _, _, _, h6, h7, h8, h9, h10⟩
      exact ⟨h1, h2, h6, h7, h8, h9, h10⟩
    · rintro ⟨h1, h2, h6, h7, h8, h9, h10⟩
      have hj := (walk_of_distance_matrix ug hw d.j d.i 1 (by decide) (by decide)
        (by rw [h6]; simp)).1
      have hk := (walk_of_distance_matrix ug hw d.k d.l 1 (by decide) (by decide)
        (by rw [h9]; simp)).1
      have ht := distance_matrix_triangle ug hw d.i d.l d.j 1 2 (by decide) (by decide)
        (by decide) (by decide) (by rw [h6]; simp) (by rw [h7]; simp)
      refine ⟨h1, h2, le_trans ht ?_, hj, hk, h6, h7, h8, h9, h10⟩
      norm_num
  · rw [angles_eq_foldlM, ha]
  · rw [dihedrals_eq_foldl, hd]

/-- Claim C34, at the bond graph of hydrogen peroxide. -/
theorem guards_exclude_nothing_witness :
    (∀ e ∈ samples.peroxide_graph.edges, e.weight = 1) ∧
      angle_candidates ((distance_matrix samples.peroxide_graph).1 : Mat ℝ)
          (samples.peroxide : Molecule ℝ).length =
        (List.range (samples.peroxide : Molecule ℝ).length).flatMap fun j =>
          (List.range j).flatMap fun i =>
            angles_pair i j ((distance_matrix samples.peroxide_graph).1 : Mat ℝ) :=
  ⟨by decide, (guards_exclude_nothing samples.peroxide_graph (by decide)
    ((distance_matrix samples.peroxide_graph).2 : Mat ℝ) (samples.peroxide : Molecule ℝ)
    (1 / 1000000)).1⟩

end connectivity
end irc

namespace irc
namespace connectivity
open molecule

section distinct_indices

variable {α : Type} [LinearOrderedField α]

/-- With a zero diagonal, the vertex of a candidate angle is neither end. -/
theorem angle_candidate_distinct (distance_m : Mat α) (n_atoms : Nat)
    (hdiag : ∀ i, distance_m.get i i = 0) (a : Angle)
    (h : a ∈ angle_candidates distance_m n_atoms) :
    a.i ≠ a.j ∧ a.j ≠ a.k ∧ a.i ≠ a.k := by
  obtain ⟨h1, _, _, _, h5, h6⟩ := (mem_angle_candidates distance_m n_atoms a).mp h
  refine ⟨?_, ?_, by omega⟩
  · intro he
    rw [he, hdiag] at h5
    exact zero_ne_one h5
  · intro he
    rw [he, hdiag] at h6
    exact zero_ne_one h6

/-- With a zero diagonal, the four atoms of a candidate dihedral are distinct. -/
theorem dihedral_candidate_distinct (distance_m : Mat α) (n_atoms : Nat)
    (hdiag : ∀ i, distance_m.get i i = 0) (d : Dihedral)
    (h : d ∈ dihedral_candidates distance_m n_atoms) :
    d.i ≠ d.j ∧ d.i ≠ d.k ∧ d.i ≠ d.l ∧ d.j ≠ d.k ∧ d.j ≠ d.l ∧ d.k ≠ d.l := by
  obtain ⟨h1, _, _, _, _, h6, h7, h8, h9, h10⟩ :=
    (mem_dihedral_candidates distance_m n_atoms d).mp h
  have h20 : (2 : α) ≠ 0 := two_ne_zero
  refine ⟨?_, ?_, by omega, ?_, ?_, ?_⟩
  · intro he
    rw [he, hdiag] at h6
    exact zero_ne_one h6
  · intro he
    rw [he, hdiag] at h8
    exact h20 h8.symm
  · intro he
    rw [he, hdiag] at h10
    exact zero_ne_one h10
  · intro he
    rw [he, hdiag] at h7
    exact h20 h7.symm
  · intro he
    rw [he, hdiag] at h9
    exact zero_ne_one h9

/-- The list returned by `angles` holds candidates only. -/
theorem angles_ok_subset [Cmath α] (distance_m predecessors_m : Mat α)
    (molecule : Molecule α) (l : List Angle)
    (h : angles distance_m predecessors_m molecule = Except.ok l) :
    l = angle_candidates distance_m molecule.length := by
  by_cases hq : ∃ aa ∈ angle_candidates distance_m molecule.length,
      angle_mol aa molecule > tools.constants.quasi_linear_angle
  · rw [angles_eq_error distance_m predecessors_m molecule hq] at h
    exact Except.noConfusion h
  · have hall : ∀ aa ∈ angle_candidates distance_m molecule.length,
        ¬ angle_mol aa molecule > tools.constants.quasi_linear_angle :=
      fun aa haa hgt => hq ⟨aa, haa, hgt⟩
    rw [angles_eq_ok distance_m predecessors_m molecule hall] at h
    exact (Except.ok.inj h).symm

end distinct_indices

/-- Claim C35. For every matrix `D` with zero diagonal, every `Angle` in the
list returned by `angles` has three pairwise distinct atom indices and every
`Dihedral` returned by `dihedrals` has four pairwise distinct atom indices;
hence, when `D` has no more rows than the molecule has atoms, a molecule with
fewer than three atoms has no angles and one with fewer than four atoms has no
dihedrals. -/
theorem emitted_indices_distinct {α : Type} [LinearOrderedField α] [Cmath α]
    (distance_m predecessors_m : Mat α) (molecule : Molecule α) (epsilon : α)
    (hdiag : ∀ i, distance_m.get i i = 0) :
    (∀ l, angles distance_m predecessors_m molecule = Except.ok l →
        ∀ a ∈ l, a.i ≠ a.j ∧ a.j ≠ a.k ∧ a.i ≠ a.k) ∧
      (∀ d ∈ dihedrals distance_m predecessors_m molecule epsilon,
        d.i ≠ d.j ∧ d.i ≠ d.k ∧ d.i ≠ d.l ∧ d.j ≠ d.k ∧ d.j ≠ d.l ∧ d.k ≠ d.l) ∧
      (Nat.sqrt (linalg.size distance_m) ≤ molecule.length → molecule.length < 3 →
        angles distance_m predecessors_m molecule = Except.ok []) ∧
      (Nat.sqrt (linalg.size distance_m) ≤ molecule.length → molecule.length < 4 →
        dihedrals distance_m predecessors_m molecule epsilon = []) := by
  refine ⟨?_, ?_, ?_, ?_⟩
  · intro l hl a ha
    rw [angles_ok_subset distance_m predecessors_m molecule l hl] at ha
    exact angle_candidate_distinct distance_m molecule.length hdiag a ha
  · intro d hd
    exact dihedral_candidate_distinct distance_m molecule.length hdiag d
      (mem_dihedrals_candidate distance_m predecessors_m molecule epsilon d hd)
  · intro hsize hlen
    have hnil : angle_candidates distance_m molecule.length = [] := by
      rw [List.eq_nil_iff_forall_not_mem]
      intro a ha
      obtain ⟨h1, h2, h3⟩ := angle_candidate_distinct distance_m molecule.length hdiag a ha
      obtain ⟨h4, h5, h6, _⟩ := (mem_angle_candidates distance_m molecule.length a).mp ha
      omega
    rw [angles_eq_ok distance_m predecessors_m molecule (by rw [hnil]; simp), hnil]
  · intro hsize hlen
    rw [List.eq_nil_iff_forall_not_mem]
    intro d hd
    have hc := mem_dihedrals_candidate distance_m predecessors_m molecule epsilon d hd
    obtain ⟨h1, h2, h3, h4, h5, h6⟩ :=
      dihedral_candidate_distinct distance_m molecule.length hdiag d hc
    obtain ⟨h7, h8, _, h9, h10, _⟩ :=
      (mem_dihedral_candidates distance_m molecule.length d).mp hc
    omega

/-- Claim C35, at water with its graph distances: the angles have distinct
indices, and there is no dihedral. -/
theorem emitted_indices_distinct_witness :
    (∀ i, (samples.triatomic_distances : Mat ℝ).get i i = 0) ∧
      (∀ l, angles (samples.triatomic_distances : Mat ℝ) samples.triatomic_distances
          (samples.water : Molecule ℝ) = Except.ok l →
        ∀ a ∈ l, a.i ≠ a.j ∧ a.j ≠ a.k ∧ a.i ≠ a.k) ∧
      dihedrals (samples.triatomic_distances : Mat ℝ) samples.triatomic_distances
        (samples.water : Molecule ℝ) (1 / 1000000) = [] := by
  have hdiag : ∀ i, (samples.triatomic_distances : Mat ℝ).get i i = 0 := by
    intro i
    rcases i with _ | _ | _ | i <;> simp [samples.triatomic_distances, linalg.ofRows]
  have h := emitted_indices_distinct (samples.triatomic_distances : Mat ℝ)
    samples.triatomic_distances (samples.water : Molecule ℝ) (1 / 1000000) hdiag
  have hs : Nat.sqrt (linalg.size (samples.triatomic_distances : Mat ℝ)) = 3 :=
    sqrt_size_square _ 3 rfl rfl
  refine ⟨hdiag, h.1, h.2.2.2 ?_ ?_⟩
  · rw [hs]
    exact Nat.le_refl 3
  · exact Nat.lt_succ_self 3

end connectivity
end irc

namespace irc
namespace connectivity
open molecule

/-- Claim C36. For every molecule whose interatomic distances are finite, the
graph returned by `adjacency_matrix` has exactly `n` vertices and no self-loop:
every edge of the covalent, stitching and hydrogen-bond phases joins two
distinct atom indices below `n`; in particular, for two different fragments of
the covalent graph, `min_interfragment_distance` returns a pair of two distinct
atoms below `n`, not its initial pair (0, 0). -/
theorem adjacency_matrix_no_self_loop {α : Type} [LinearOrderedField α] [Cmath α]
    (radii : atom.Radii α) (distances : Mat α) (molecule : Molecule α)
    (hfin : ∀ k l, k < molecule.length → l < molecule.length →
      distances.get l k < max_double) :
    (adjacency_matrix radii distances molecule).num_vertices = molecule.length ∧
      (∀ e ∈ (adjacency_matrix radii distances molecule).edges,
        e.source ≠ e.target ∧ e.source < molecule.length ∧ e.target < molecule.length) ∧
      ∀ I J, I < covalent_num_fragments radii distances molecule →
        J < covalent_num_fragments radii distances molecule → I ≠ J →
        (min_interfragment_distance I J (covalent_fragments radii distances molecule)
            distances).1 ≠
          (min_interfragment_distance I J (covalent_fragments radii distances molecule)
            distances).2.1 ∧
        (min_interfragment_distance I J (covalent_fragments radii distances molecule)
          distances).1 < molecule.length ∧
        (min_interfragment_distance I J (covalent_fragments radii distances molecule)
          distances).2.1 < molecule.length := by
  have hn := adjacency_matrix_num_vertices radii distances molecule
  have hlen := covalent_fragments_length radii distances molecule
  refine ⟨hn, ?_, ?_⟩
  · intro e he
    have hv := (adjacency_matrix radii distances molecule).valid e he
    rw [hn] at hv
    refine ⟨?_, hv.1, hv.2⟩
    rw [adjacency_matrix_eq, hydrogen_phase_edges, List.mem_append] at he
    rcases he with he | he
    · obtain ⟨added, heq, hadd⟩ := stitched_graph_new_edges radii distances molecule hfin
      rw [heq, List.mem_append] at he
      rcases he with he | he
      · have hc := (mem_covalent_phase_edges radii distances molecule e).mp he
        omega
      · intro hst
        apply (hadd e he).2
        rw [hst]
    · obtain ⟨_, X, _, _, _, _, _, _, _, _, _, hne, _⟩ :=
        (mem_hydrogen_bond_edges radii distances molecule e).mp he
      exact fun hst => hne hst.symm
  · intro I J hI hJ hIJ
    obtain ⟨k0, hk0, hk0I⟩ := connected_components_surj
      (covalent_graph radii distances molecule) I hI
    obtain ⟨l0, hl0, hl0J⟩ := connected_components_surj
      (covalent_graph radii distances molecule) J hJ
    rw [(covalent_graph_spec radii distances molecule).1] at hk0 hl0
    have hkl : k0 ≠ l0 := by
      intro h
      rw [h, hl0J] at hk0I
      exact hIJ hk0I.symm
    have hex : ∃ c ∈ interfragment_pairs I J (covalent_fragments radii distances molecule),
        distances.get c.2 c.1 < max_double :=
      ⟨(k0, l0), (mem_interfragment_pairs I J _ _).mpr
        ⟨by rw [hlen]; exact hk0, by rw [hlen]; exact hl0, hkl, hk0I, hl0J⟩,
        hfin k0 l0 hk0 hl0⟩
    obtain ⟨hm, _, _⟩ := min_interfragment_distance_spec I J
      (covalent_fragments radii distances molecule) distances hex
    obtain ⟨h1, h2, h3, _, _⟩ := (mem_interfragment_pairs I J _ _).mp hm
    rw [hlen] at h1 h2
    exact ⟨h3, h1, h2⟩

/-- Claim C36, at three helium atoms ten bohr apart, which the stitching phase
joins. -/
theorem adjacency_matrix_no_self_loop_witness :
    (∀ k l, k < (samples.helium_trimer : Molecule ℝ).length →
        l < (samples.helium_trimer : Molecule ℝ).length →
        (samples.trimer_distances : Mat ℝ).get l k < max_double) ∧
      (adjacency_matrix samples.radii samples.trimer_distances
        (samples.helium_trimer : Molecule ℝ)).num_vertices = 3 ∧
      ∀ e ∈ (adjacency_matrix samples.radii samples.trimer_distances
          (samples.helium_trimer : Molecule ℝ)).edges,
        e.source ≠ e.target ∧ e.source < 3 ∧ e.target < 3 := by
  have hfin : ∀ k l, k < (samples.helium_trimer : Molecule ℝ).length →
      l < (samples.helium_trimer : Molecule ℝ).length →
      (samples.trimer_distances : Mat ℝ).get l k < max_double := by
    intro k l hk hl
    have h3 : (samples.helium_trimer : Molecule ℝ).length = 3 := rfl
    rw [h3] at hk hl
    interval_cases k <;> interval_cases l <;>
      norm_num [samples.trimer_distances, linalg.ofRows, max_double]
  have h := adjacency_matrix_no_self_loop samples.radii (samples.trimer_distances : Mat ℝ)
    (samples.helium_trimer : Molecule ℝ) hfin
  exact ⟨hfin, h.1, h.2.1⟩

end connectivity
end irc

namespace irc
namespace connectivity
open molecule

/-! ## Domains of the coordinates in doubles -/

section ieee_domains

theorem ieee_sqrt_domain (a : Ieee ℝ) :
    (Cmath.sqrt a).isNaN = true ∨ (0 : Ieee ℝ) ≤ Cmath.sqrt a := by
  cases a with
  | nan => left; rfl
  | inf s =>
    cases s
    · right
      show Ieee.le (Ieee.fin false 0) (Ieee.inf false)
      simp [Ieee.le]
    · left; rfl
  | fin s m =>
    cases s
    · right
      show Ieee.le (Ieee.fin false 0) (Ieee.fin false (Real.sqrt m))
      simp [Ieee.le, Ieee.signed, Real.sqrt_nonneg]
    · by_cases hm : m = 0
      · right
        show Ieee.le (Ieee.fin false 0) (if m = 0 then Ieee.fin true 0 else Ieee.nan)
        rw [if_pos hm]
        simp [Ieee.le, Ieee.signed]
      · left
        show Ieee.isNaN (if m = 0 then Ieee.fin true 0 else Ieee.nan) = true
        rw [if_neg hm]
        rfl

theorem ieee_acos_domain (a : Ieee ℝ) :
    (Cmath.acos a).isNaN = true ∨
      ((0 : Ieee ℝ) ≤ Cmath.acos a ∧ Cmath.acos a ≤ (Cmath.pi : Ieee ℝ)) := by
  cases a with
  | nan => left; rfl
  | inf s => left; rfl
  | fin s m =>
    by_cases hm : m ≤ 1
    · right
      show Ieee.le (Ieee.fin false 0)
          (if m ≤ 1 then Ieee.fin false (Real.arccos (Ieee.signed s m)) else Ieee.nan) ∧
        Ieee.le (if m ≤ 1 then Ieee.fin false (Real.arccos (Ieee.signed s m)) else Ieee.nan)
          (Ieee.fin false Real.pi)
      rw [if_pos hm]
      simp only [Ieee.le, Ieee.signed, Bool.false_eq_true, if_false]
      exact ⟨Real.arccos_nonneg _, Real.arccos_le_pi _⟩
    · left
      show Ieee.isNaN (if m ≤ 1 then Ieee.fin false (Real.arccos (Ieee.signed s m))
        else Ieee.nan) = true
      rw [if_neg hm]
      rfl

/-- A finite double of magnitude at most `π` lies between `-π` and `π`. -/
theorem ieee_fin_between (s : Bool) (m : ℝ) (h : |m| ≤ Real.pi) :
    (-(Cmath.pi : Ieee ℝ)) ≤ Ieee.fin s m ∧ Ieee.fin s m ≤ (Cmath.pi : Ieee ℝ) := by
  have h2 := abs_le.mp h
  have hpi := Real.pi_pos
  constructor
  · show Ieee.le (Ieee.fin true Real.pi) (Ieee.fin s m)
    cases s <;> simp only [Ieee.le, Ieee.signed, if_true, Bool.false_eq_true, if_false] <;>
      linarith [h2.1, h2.2]
  · show Ieee.le (Ieee.fin s m) (Ieee.fin false Real.pi)
    cases s <;> simp only [Ieee.le, Ieee.signed, if_true, Bool.false_eq_true, if_false] <;>
      linarith [h2.1, h2.2]

theorem ieee_atan2_domain (y x : Ieee ℝ) :
    (Cmath.atan2 y x).isNaN = true ∨
      ((-(Cmath.pi : Ieee ℝ)) ≤ Cmath.atan2 y x ∧ Cmath.atan2 y x ≤ (Cmath.pi : Ieee ℝ)) := by
  have hpi := Real.pi_pos
  have habs : |Real.pi| = Real.pi := abs_of_pos hpi
  cases y with
  | nan => left; rfl
  | inf sy =>
    cases x with
    | nan => left; rfl
    | inf sx =>
      right
      cases sx
      · exact ieee_fin_between sy (Real.pi / 4) (by rw [abs_of_pos (by positivity)]; linarith)
      · exact ieee_fin_between sy (3 * Real.pi / 4)
          (by rw [abs_of_pos (by positivity)]; linarith)
    | fin sx mx =>
      right
      exact ieee_fin_between sy (Real.pi / 2) (by rw [abs_of_pos (by positivity)]; linarith)
  | fin sy my =>
    cases x with
    | nan => left; rfl
    | inf sx =>
      right
      cases sx
      · exact ieee_fin_between sy 0 (by rw [abs_zero]; exact hpi.le)
      · exact ieee_fin_between sy Real.pi (le_of_eq habs)
    | fin sx mx =>
      right
      show (-(Cmath.pi : Ieee ℝ)) ≤
          (if mx = 0 then
            (if my = 0 then Ieee.fin sy (if sx then Real.pi else 0)
              else Ieee.fin sy (Real.pi / 2))
          else Ieee.fin sy (Complex.arg ⟨Ieee.signed sx mx, my⟩)) ∧
        (if mx = 0 then
            (if my = 0 then Ieee.fin sy (if sx then Real.pi else 0)
              else Ieee.fin sy (Real.pi / 2))
          else Ieee.fin sy (Complex.arg ⟨Ieee.signed sx mx, my⟩)) ≤ (Cmath.pi : Ieee ℝ)
      by_cases hx : mx = 0
      · rw [if_pos hx]
        by_cases hy : my = 0
        · rw [if_pos hy]
          cases sx
          · exact ieee_fin_between sy 0 (by rw [abs_zero]; exact hpi.le)
          · exact ieee_fin_between sy Real.pi (le_of_eq habs)
        · rw [if_neg hy]
          exact ieee_fin_between sy (Real.pi / 2)
            (by rw [abs_of_pos (by positivity)]; linarith)
      · rw [if_neg hx]
        exact ieee_fin_between sy _ (Complex.abs_arg_le_pi _)

end ieee_domains

end connectivity
end irc

namespace irc
namespace connectivity
open molecule

/-! ## Two evaluations in doubles -/

section ieee_evaluation

theorem ieee_add_fin (s t : Bool) (m n : ℝ) :
    (Ieee.fin s m + Ieee.fin t n : Ieee ℝ) =
      if s = t then Ieee.fin s (m + n)
      else if n < m then Ieee.fin s (m - n)
      else if m < n then Ieee.fin t (n - m)
      else Ieee.fin false 0 := rfl

theorem ieee_sub_fin (s t : Bool) (m n : ℝ) :
    (Ieee.fin s m - Ieee.fin t n : Ieee ℝ) =
      if s = !t then Ieee.fin s (m + n)
      else if n < m then Ieee.fin s (m - n)
      else if m < n then Ieee.fin (!t) (n - m)
      else Ieee.fin false 0 := rfl

theorem ieee_mul_fin (s t : Bool) (m n : ℝ) :
    (Ieee.fin s m * Ieee.fin t n : Ieee ℝ) = Ieee.fin (xor s t) (m * n) := rfl

theorem ieee_div_fin (s t : Bool) (m n : ℝ) :
    (Ieee.fin s m / Ieee.fin t n : Ieee ℝ) =
      if n = 0 then (if m = 0 then Ieee.nan else Ieee.inf (xor s t))
      else Ieee.fin (xor s t) (m / n) := rfl

theorem ieee_sqrt_fin (m : ℝ) :
    Cmath.sqrt (Ieee.fin false m : Ieee ℝ) = Ieee.fin false (Real.sqrt m) := rfl

theorem ieee_atan2_fin (sy sx : Bool) (my mx : ℝ) (hx : mx ≠ 0) :
    Cmath.atan2 (Ieee.fin sy my : Ieee ℝ) (Ieee.fin sx mx) =
      Ieee.fin sy (Complex.arg ⟨Ieee.signed sx mx, my⟩) := by
  show (if mx = 0 then
      (if my = 0 then Ieee.fin sy (if sx then Real.pi else 0) else Ieee.fin sy (Real.pi / 2))
    else Ieee.fin sy (Complex.arg ⟨Ieee.signed sx mx, my⟩)) = _
  rw [if_neg hx]

/-- The dihedral angle of the planar trans chain, in doubles: the sine
argument of `atan2` is `-0.0`, the cosine argument is `-1`, the result `-π`. -/
theorem dihedral_trans_chain :
    dihedral (⟨Ieee.fin false 0, Ieee.fin false 1, Ieee.fin false 0⟩ : Vec3 (Ieee ℝ))
      ⟨Ieee.fin false 0, Ieee.fin false 0, Ieee.fin false 0⟩
      ⟨Ieee.fin false 1, Ieee.fin false 0, Ieee.fin false 0⟩
      ⟨Ieee.fin false 1, Ieee.fin true 1, Ieee.fin false 0⟩ = Ieee.fin true Real.pi := by
  have hb1 : linalg.sub (⟨Ieee.fin false 0, Ieee.fin false 1, Ieee.fin false 0⟩ : Vec3 (Ieee ℝ))
      ⟨Ieee.fin false 0, Ieee.fin false 0, Ieee.fin false 0⟩ =
      ⟨Ieee.fin false 0, Ieee.fin false 1, Ieee.fin false 0⟩ := by
    simp [linalg.sub, ieee_sub_fin]
  have hb2 : linalg.sub (⟨Ieee.fin false 0, Ieee.fin false 0, Ieee.fin false 0⟩ : Vec3 (Ieee ℝ))
      ⟨Ieee.fin false 1, Ieee.fin false 0, Ieee.fin false 0⟩ =
      ⟨Ieee.fin true 1, Ieee.fin false 0, Ieee.fin false 0⟩ := by
    simp [linalg.sub, ieee_sub_fin]
  have hb3 : linalg.sub (⟨Ieee.fin false 1, Ieee.fin false 0, Ieee.fin false 0⟩ : Vec3 (Ieee ℝ))
      ⟨Ieee.fin false 1, Ieee.fin true 1, Ieee.fin false 0⟩ =
      ⟨Ieee.fin false 0, Ieee.fin false 1, Ieee.fin false 0⟩ := by
    simp [linalg.sub, ieee_sub_fin]
  have hn1 : linalg.cross (⟨Ieee.fin false 0, Ieee.fin false 1, Ieee.fin false 0⟩ : Vec3 (Ieee ℝ))
      ⟨Ieee.fin true 1, Ieee.fin false 0, Ieee.fin false 0⟩ =
      ⟨Ieee.fin false 0, Ieee.fin true 0, Ieee.fin false 1⟩ := by
    simp [linalg.cross, ieee_sub_fin, ieee_mul_fin]
  have hn2 : linalg.cross (⟨Ieee.fin true 1, Ieee.fin false 0, Ieee.fin false 0⟩ : Vec3 (Ieee ℝ))
      ⟨Ieee.fin false 0, Ieee.fin false 1, Ieee.fin false 0⟩ =
      ⟨Ieee.fin false 0, Ieee.fin false 0, Ieee.fin true 1⟩ := by
    simp [linalg.cross, ieee_sub_fin, ieee_mul_fin]
  have hnorm1 : linalg.norm (⟨Ieee.fin false 0, Ieee.fin true 0, Ieee.fin false 1⟩ :
      Vec3 (Ieee ℝ)) = Ieee.fin false 1 := by
    simp [linalg.norm, linalg.dot, ieee_add_fin, ieee_mul_fin, ieee_sqrt_fin]
  have hnorm2 : linalg.norm (⟨Ieee.fin false 0, Ieee.fin false 0, Ieee.fin true 1⟩ :
      Vec3 (Ieee ℝ)) = Ieee.fin false 1 := by
    simp [linalg.norm, linalg.dot, ieee_add_fin, ieee_mul_fin, ieee_sqrt_fin]
  have hnormb : linalg.norm (⟨Ieee.fin true 1, Ieee.fin false 0, Ieee.fin false 0⟩ :
      Vec3 (Ieee ℝ)) = Ieee.fin false 1 := by
    simp [linalg.norm, linalg.dot, ieee_add_fin, ieee_mul_fin, ieee_sqrt_fin]
  have hd1 : linalg.sdiv (⟨Ieee.fin false 0, Ieee.fin true 0, Ieee.fin false 1⟩ :
      Vec3 (Ieee ℝ)) (Ieee.fin false 1) =
      ⟨Ieee.fin false 0, Ieee.fin true 0, Ieee.fin false 1⟩ := by
    simp [linalg.sdiv, ieee_div_fin]
  have hd2 : linalg.sdiv (⟨Ieee.fin false 0, Ieee.fin false 0, Ieee.fin true 1⟩ :
      Vec3 (Ieee ℝ)) (Ieee.fin false 1) =
      ⟨Ieee.fin false 0, Ieee.fin false 0, Ieee.fin true 1⟩ := by
    simp [linalg.sdiv, ieee_div_fin]
  have hm : linalg.sdiv (linalg.cross (⟨Ieee.fin false 0, Ieee.fin true 0, Ieee.fin false 1⟩ :
      Vec3 (Ieee ℝ)) ⟨Ieee.fin true 1, Ieee.fin false 0, Ieee.fin false 0⟩)
      (Ieee.fin false 1) = ⟨Ieee.fin true 0, Ieee.fin true 1, Ieee.fin false 0⟩ := by
    simp [linalg.sdiv, linalg.cross, ieee_div_fin, ieee_sub_fin, ieee_mul_fin]
  have hx : linalg.dot (⟨Ieee.fin false 0, Ieee.fin true 0, Ieee.fin false 1⟩ : Vec3 (Ieee ℝ))
      ⟨Ieee.fin false 0, Ieee.fin false 0, Ieee.fin true 1⟩ = Ieee.fin true 1 := by
    simp [linalg.dot, ieee_add_fin, ieee_mul_fin]
  have hy : linalg.dot (⟨Ieee.fin true 0, Ieee.fin true 1, Ieee.fin false 0⟩ : Vec3 (Ieee ℝ))
      ⟨Ieee.fin false 0, Ieee.fin false 0, Ieee.fin true 1⟩ = Ieee.fin true 0 := by
    simp [linalg.dot, ieee_add_fin, ieee_mul_fin]
  unfold dihedral
  simp only []
  rw [hb1, hb2, hb3, hn1, hn2, hnorm1, hnorm2, hnormb, hd1, hd2, hm, hx, hy,
    ieee_atan2_fin _ _ _ _ one_ne_zero]
  congr 1
  have hc : (⟨Ieee.signed true 1, 0⟩ : ℂ) = ((-1 : ℝ) : ℂ) := by
    apply Complex.ext <;> simp [Ieee.signed]
  rw [hc, Complex.arg_ofReal_of_neg (by norm_num)]

/-- The angle at coincident atoms, in doubles: the ratio is `0 / 0`, so the
angle is NaN. -/
theorem angle_coincident :
    angle (⟨Ieee.fin false 0, Ieee.fin false 0, Ieee.fin false 0⟩ : Vec3 (Ieee ℝ))
      ⟨Ieee.fin false 0, Ieee.fin false 0, Ieee.fin false 0⟩
      ⟨Ieee.fin false 1, Ieee.fin false 0, Ieee.fin false 0⟩ = Ieee.nan := by
  have hr1 : linalg.sub (⟨Ieee.fin false 0, Ieee.fin false 0, Ieee.fin false 0⟩ : Vec3 (Ieee ℝ))
      ⟨Ieee.fin false 0, Ieee.fin false 0, Ieee.fin false 0⟩ =
      ⟨Ieee.fin false 0, Ieee.fin false 0, Ieee.fin false 0⟩ := by
    simp [linalg.sub, ieee_sub_fin]
  have hr2 : linalg.sub (⟨Ieee.fin false 1, Ieee.fin false 0, Ieee.fin false 0⟩ : Vec3 (Ieee ℝ))
      ⟨Ieee.fin false 0, Ieee.fin false 0, Ieee.fin false 0⟩ =
      ⟨Ieee.fin false 1, Ieee.fin false 0, Ieee.fin false 0⟩ := by
    simp [linalg.sub, ieee_sub_fin]
  have hn1 : linalg.norm (⟨Ieee.fin false 0, Ieee.fin false 0, Ieee.fin false 0⟩ :
      Vec3 (Ieee ℝ)) = Ieee.fin false 0 := by
    simp [linalg.norm, linalg.dot, ieee_add_fin, ieee_mul_fin, ieee_sqrt_fin]
  have hn2 : linalg.norm (⟨Ieee.fin false 1, Ieee.fin false 0, Ieee.fin false 0⟩ :
      Vec3 (Ieee ℝ)) = Ieee.fin false 1 := by
    simp [linalg.norm, linalg.dot, ieee_add_fin, ieee_mul_fin, ieee_sqrt_fin]
  have hdot : linalg.dot (⟨Ieee.fin false 0, Ieee.fin false 0, Ieee.fin false 0⟩ : Vec3 (Ieee ℝ))
      ⟨Ieee.fin false 1, Ieee.fin false 0, Ieee.fin false 0⟩ = Ieee.fin false 0 := by
    simp [linalg.dot, ieee_add_fin, ieee_mul_fin]
  unfold angle
  simp only []
  rw [hr1, hr2, hn1, hn2, hdot, ieee_mul_fin, ieee_div_fin]
  simp
  rfl

end ieee_evaluation

end connectivity
end irc

namespace irc
namespace connectivity
open molecule

theorem cartesian_to_irc_trans_chain :
    (cartesian_to_irc (samples.trans_chain_x : Vec (Ieee ℝ)) [] []
      [Dihedral.mk 0 1 2 3]).get 0 = Ieee.fin true Real.pi := by
  have h := cartesian_to_irc_dihedral (samples.trans_chain_x : Vec (Ieee ℝ)) [] []
    [Dihedral.mk 0 1 2 3] 0 (by decide)
  have hd : dihedral_x (Dihedral.mk 0 1 2 3) (samples.trans_chain_x : Vec (Ieee ℝ)) =
      Ieee.fin true Real.pi := dihedral_trans_chain
  exact h.trans hd

theorem cartesian_to_irc_coincident :
    (cartesian_to_irc (samples.coincident_x : Vec (Ieee ℝ)) [] [Angle.mk 0 1 2] []).get 0 =
      Ieee.nan := by
  have h := cartesian_to_irc_angle (samples.coincident_x : Vec (Ieee ℝ)) [] [Angle.mk 0 1 2]
    [] 0 (by decide)
  have ha : angle_x (Angle.mk 0 1 2) (samples.coincident_x : Vec (Ieee ℝ)) = Ieee.nan :=
    angle_coincident
  exact h.trans ha

/-- Claim C15, as stated, fails in doubles. For the planar trans chain
(0, 1, 0), (0, 0, 0), (1, 0, 0), (1, -1, 0) the dihedral component of
`cartesian_to_irc` is `-π`, outside `(-π, π]`: `atan2` receives `-0.0` and `-1`.
For three atoms of which the first two coincide, the angle component is NaN,
outside `[0, π]`. -/
theorem dihedral_minus_pi_counterexample :
    (cartesian_to_irc (samples.trans_chain_x : Vec (Ieee ℝ)) [] []
        [Dihedral.mk 0 1 2 3]).get 0 = Ieee.fin true Real.pi ∧
      ¬ ((0 : Ieee ℝ) ≤ (cartesian_to_irc (samples.coincident_x : Vec (Ieee ℝ)) []
        [Angle.mk 0 1 2] []).get 0) := by
  refine ⟨cartesian_to_irc_trans_chain, ?_⟩
  rw [cartesian_to_irc_coincident]
  exact fun h => h

/-- Claim C15, amended. In doubles, for every Cartesian vector `x` and
coordinate lists, every component of `cartesian_to_irc` that is not NaN lies in
its domain: a bond component is at least 0, an angle component lies in
`[0, π]` and a dihedral component lies in `[-π, π]`. The value `-π` is
returned for some input, and so is NaN. -/
theorem cartesian_to_irc_domains (x : Vec (Ieee ℝ)) (bonds : List Bond) (angles : List Angle)
    (dihedrals : List Dihedral) :
    (∀ t, t < bonds.length →
      ((cartesian_to_irc x bonds angles dihedrals).get t).isNaN = true ∨
        (0 : Ieee ℝ) ≤ (cartesian_to_irc x bonds angles dihedrals).get t) ∧
    (∀ t, bonds.length ≤ t → t < bonds.length + angles.length →
      ((cartesian_to_irc x bonds angles dihedrals).get t).isNaN = true ∨
        ((0 : Ieee ℝ) ≤ (cartesian_to_irc x bonds angles dihedrals).get t ∧
          (cartesian_to_irc x bonds angles dihedrals).get t ≤ (Cmath.pi : Ieee ℝ))) ∧
    (∀ t, bonds.length + angles.length ≤ t →
      t < bonds.length + angles.length + dihedrals.length →
      ((cartesian_to_irc x bonds angles dihedrals).get t).isNaN = true ∨
        ((-(Cmath.pi : Ieee ℝ)) ≤ (cartesian_to_irc x bonds angles dihedrals).get t ∧
          (cartesian_to_irc x bonds angles dihedrals).get t ≤ (Cmath.pi : Ieee ℝ))) ∧
    (∃ (y : Vec (Ieee ℝ)) (d : Dihedral),
      (cartesian_to_irc y [] [] [d]).get 0 = -(Cmath.pi : Ieee ℝ)) ∧
    (∃ (y : Vec (Ieee ℝ)) (a : Angle),
      ((cartesian_to_irc y [] [a] []).get 0).isNaN = true) := by
  refine ⟨?_, ?_, ?_, ⟨samples.trans_chain_x, Dihedral.mk 0 1 2 3,
    cartesian_to_irc_trans_chain⟩, ⟨samples.coincident_x, Angle.mk 0 1 2, ?_⟩⟩
  · intro t ht
    rw [cartesian_to_irc_bond x bonds angles dihedrals t ht]
    exact ieee_sqrt_domain _
  · intro t h1 h2
    obtain ⟨s, rfl⟩ := Nat.exists_eq_add_of_le h1
    rw [cartesian_to_irc_angle x bonds angles dihedrals s (by omega)]
    exact ieee_acos_domain _
  · intro t h1 h2
    obtain ⟨s, rfl⟩ := Nat.exists_eq_add_of_le h1
    rw [cartesian_to_irc_dihedral x bonds angles dihedrals s (by omega)]
    exact ieee_atan2_domain _ _
  · rw [cartesian_to_irc_coincident]
    rfl

end connectivity
end irc
